import Mathlib

/-!
# LiteCore query compiler: a shallow embedding of `QueryParser.cc` and `SQLiteQuery.cc`

The JSON query compiler of LiteCore walks an expression tree (a Fleece value) and
writes SQL into a string stream. The embedding below follows the C++ one function
at a time:

* the Fleece value tree is the inductive type `Value`; a slice (byte string) is a
  Lean `String`, one `Char` standing for one byte, and `nullslice` is `none`;
* the parser object is the record `QueryParser`; a member function that mutates the
  object takes the record and returns the new one;
* `fail(...)` (a thrown `InvalidQuery` error) is `Except.error (Error.InvalidQuery msg)`;
* the walker `parseNode` is recursive through its handlers. Every function of the
  recursion takes the recursive call as its first argument `walk`, and `parseNode`
  ties the knot by recursion on a step budget; `runParseNode`, `runParse` and
  `runParseJustExpression` supply a budget that exceeds the nesting depth of the
  input, which is all the walker can use (`parseNode_fuel_irrelevant`).
-/

namespace litecore

/-! ## The Fleece value tree -/

/-- The Fleece value tree the compiler receives. A double is represented by the two
observations the compiler makes of it: its truncation to an integer (`asInt`) and its
canonical text (`toString`). -/
inductive Value where
  | null
  | bool (b : Bool)
  | int (i : Int)
  | float (trunc : Int) (text : String)
  | string (s : String)
  | data (bytes : String)
  | array (items : List Value)
  | dict (entries : List (String × Value))
  deriving Inhabited

/-- The result of `Value::type()`. -/
inductive ValueType where
  | kNull | kBoolean | kNumber | kString | kData | kArray | kDict
  deriving DecidableEq

namespace Value

/-- Fleece `Value::type()`. -/
def type : Value → ValueType
  | .null => .kNull
  | .bool _ => .kBoolean
  | .int _ => .kNumber
  | .float _ _ => .kNumber
  | .string _ => .kString
  | .data _ => .kData
  | .array _ => .kArray
  | .dict _ => .kDict

/-- Fleece `Value::asString()`: the bytes of a string value, `nullslice` otherwise. -/
def asString : Value → Option String
  | .string s => some s
  | _ => none

/-- Fleece `Value::asArray()`: the items of an array, a null pointer otherwise. -/
def asArray : Value → Option (List Value)
  | .array items => some items
  | _ => none

/-- Fleece `Value::asDict()`. -/
def asDict : Value → Option (List (String × Value))
  | .dict entries => some entries
  | _ => none

/-- Fleece `Value::asInt()`: the integer of a number, 1 for true, 0 for every other value. -/
def asInt : Value → Int
  | .int i => i
  | .float t _ => t
  | .bool true => 1
  | _ => 0

/-- Fleece `Value::toString()`: the canonical text of a number, the bytes of a string,
and the JSON keyword of null and the booleans. -/
def toString : Value → String
  | .null => "null"
  | .bool true => "true"
  | .bool false => "false"
  | .int i => ToString.toString i
  | .float _ text => text
  | .string s => s
  | .data bytes => bytes
  | .array _ => ""
  | .dict _ => ""

/-- The items an `Array::iterator` built from `v->asArray()` ranges over: none when the
pointer is null. -/
def arrayItems (v : Value) : List Value :=
  match v.asArray with
  | some items => items
  | none => []

end Value

/-- Fleece `Dict::get(key)`: the value stored under `key`, if any. -/
def Dict.get (entries : List (String × Value)) (key : String) : Option Value :=
  entries.lookup key

mutual
/-- The nesting depth of a value: 0 for a scalar, one more than its deepest item for an
array or a dict. -/
def Value.depth : Value → Nat
  | .array items => Value.depthList items + 1
  | .dict entries => Value.depthEntries entries + 1
  | _ => 0
/-- The largest depth among the items of an array. -/
def Value.depthList : List Value → Nat
  | [] => 0
  | v :: vs => max v.depth (Value.depthList vs)
/-- The largest depth among the values of a dict. -/
def Value.depthEntries : List (String × Value) → Nat
  | [] => 0
  | (_, v) :: es => max v.depth (Value.depthEntries es)
end

/-! ## Errors, operations and the parser object -/

/-- The errors of a compile. `InvalidQuery` is the error `fail` throws; `OutOfFuel`
is not in the source: it marks a walk that used up its step budget. -/
inductive Error where
  | InvalidQuery (message : String)
  | OutOfFuel
  deriving DecidableEq

deriving instance DecidableEq for Except

/-- The source's `fail(message)`. -/
def fail {α : Type} (message : String) : Except Error α :=
  .error (.InvalidQuery message)

/-- The handler member functions an `Operation` can point to; `none` is the null
handler of `kOuterOperation`. -/
inductive OpHandler where
  | propertyOp | parameterOp | infixOp | prefixOp | postfixOp | inOp | matchOp
  | betweenOp | existsOp | selectOp | fallbackOp | none
  deriving DecidableEq

/-- The source's `struct QueryParser::Operation`. -/
structure Operation where
  op : Option String
  minArgs : Nat
  maxArgs : Nat
  precedence : Int
  handler : OpHandler
  deriving DecidableEq

/-- The source's `QueryParser::kOperationList`, the fallback entry last. -/
def kOperationList : List Operation :=
  [ ⟨some ".", 1, 9, 9, .propertyOp⟩,
    ⟨some "$", 1, 1, 9, .parameterOp⟩,
    ⟨some "||", 2, 9, 8, .infixOp⟩,
    ⟨some "*", 2, 9, 7, .infixOp⟩,
    ⟨some "/", 2, 2, 7, .infixOp⟩,
    ⟨some "%", 2, 2, 7, .infixOp⟩,
    ⟨some "+", 2, 9, 6, .infixOp⟩,
    ⟨some "-", 2, 2, 6, .infixOp⟩,
    ⟨some "-", 1, 1, 9, .prefixOp⟩,
    ⟨some "<", 2, 2, 4, .infixOp⟩,
    ⟨some "<=", 2, 2, 4, .infixOp⟩,
    ⟨some ">", 2, 2, 4, .infixOp⟩,
    ⟨some ">=", 2, 2, 4, .infixOp⟩,
    ⟨some "=", 2, 2, 3, .infixOp⟩,
    ⟨some "!=", 2, 2, 3, .infixOp⟩,
    ⟨some "IS", 2, 2, 3, .infixOp⟩,
    ⟨some "IS NOT", 2, 2, 3, .infixOp⟩,
    ⟨some "IN", 2, 9, 3, .inOp⟩,
    ⟨some "NOT IN", 2, 9, 3, .inOp⟩,
    ⟨some "LIKE", 2, 2, 3, .infixOp⟩,
    ⟨some "MATCH", 2, 2, 3, .matchOp⟩,
    ⟨some "BETWEEN", 3, 3, 3, .betweenOp⟩,
    ⟨some "EXISTS", 1, 1, 8, .existsOp⟩,
    ⟨some "NOT", 1, 1, 9, .prefixOp⟩,
    ⟨some "AND", 2, 9, 2, .infixOp⟩,
    ⟨some "OR", 2, 9, 2, .infixOp⟩,
    ⟨some "SELECT", 1, 1, 1, .selectOp⟩,
    ⟨some "DESC", 1, 1, 2, .postfixOp⟩,
    ⟨none, 0, 0, 10, .fallbackOp⟩ ]

/-- The source's `kArgListOperation`. -/
def kArgListOperation : Operation := ⟨some ",", 0, 9, -2, .infixOp⟩

/-- The source's `kOrderByOperation`. -/
def kOrderByOperation : Operation := ⟨some "ORDER BY", 1, 9, -3, .infixOp⟩

/-- The source's `kOuterOperation`. -/
def kOuterOperation : Operation := ⟨none, 1, 1, -1, .none⟩

/-- The parser object: its configuration (`tableName` ... `baseResultColumns`) and the
state a compile writes (`sql`, `context`, `ftsProperties`, `parameters`). The context
is a vector whose back is the last element of the list; the parameter set is a list
without duplicates. -/
structure QueryParser where
  tableName : String
  bodyColumnName : String
  propertyPath : String
  defaultLimit : String
  defaultOffset : String
  baseResultColumns : List String
  sql : String
  context : List Operation
  ftsProperties : List String
  parameters : List String
  deriving DecidableEq

namespace QueryParser

/-- The constructor `QueryParser(tableName, bodyColumnName)`: everything else empty. -/
def new (tableName bodyColumnName : String) : QueryParser :=
  ⟨tableName, bodyColumnName, "", "", "", [], "", [], [], []⟩

/-- The statement `_sql << text`. -/
def emit (qp : QueryParser) (text : String) : QueryParser :=
  { qp with sql := qp.sql ++ text }

/-- The accessor `SQL()`. -/
def SQL (qp : QueryParser) : String := qp.sql

/-- The expression `_context.back()`; the stack is never empty after `reset`, and the
outer operation stands in for the back of an empty one. -/
def contextBack (qp : QueryParser) : Operation :=
  qp.context.getLastD kOuterOperation

/-- The statement `_context.push_back(op)`. -/
def pushContext (qp : QueryParser) (op : Operation) : QueryParser :=
  { qp with context := qp.context ++ [op] }

/-- The statement `_context.pop_back()`. -/
def popContext (qp : QueryParser) : QueryParser :=
  { qp with context := qp.context.dropLast }

/-- The assignment `_context.back() = &operation`. -/
def setContextBack (qp : QueryParser) (operation : Operation) : QueryParser :=
  { qp with context := qp.context.dropLast ++ [operation] }

/-- The source's `QueryParser::reset`. -/
def reset (qp : QueryParser) : QueryParser :=
  { qp with context := [kOuterOperation] }

/-- The statement `_parameters.insert(name)` on the set of parameter names. -/
def insertParameter (qp : QueryParser) (name : String) : QueryParser :=
  { qp with parameters := if name ∈ qp.parameters then qp.parameters
                          else qp.parameters ++ [name] }

end QueryParser

/-! ## Utility functions -/

/-- The apostrophe byte. -/
def apostrophe : Char := Char.ofNat 39

/-- The source's `appendPaths(parent, child)`. -/
def appendPaths (parent child : String) : String :=
  let child : String :=
    match child.data with
    | '$' :: '.' :: rest => String.mk rest
    | '$' :: rest => String.mk rest
    | _ => child
  if parent.isEmpty then child
  else if child.data.head? = some '[' then parent ++ child
  else parent ++ "." ++ child

/-- The second loop of `writeSQLString`: each apostrophe is written twice, every other
byte once. -/
def writeDoubled (out : String) : List Char → String
  | [] => out
  | c :: cs =>
    if c = apostrophe then writeDoubled (out ++ "''") cs
    else writeDoubled (out.push c) cs

/-- The source's `QueryParser::writeSQLString(out, str)`; the result is the new content
of the stream `out`. -/
def writeSQLString (out : String) (str : String) : String :=
  let out := out ++ "'"
  let simple := !(str.data.any (fun c => c == apostrophe))
  let out := if simple then out ++ str else writeDoubled out str.data
  out ++ "'"

/-- The operand `operands[i]` of an iterator. The arity check of `parseOpNode` makes
every access of a handler fall inside the operands; null stands in for an access
outside them. -/
def operandAt (operands : List Value) (i : Nat) : Value :=
  operands.getD i Value.null

/-- The test `isalpha(op[op.size-1])` of the prefix and EXISTS handlers. -/
def lastIsAlpha (op : String) : Bool :=
  match op.data.getLast? with
  | some c => c.isAlpha
  | none => false

/-! ## Properties -/

/-- The loop of `propertyFromNode(Array::iterator&)`: `n` counts the operands already
consumed and `property` is the stream built so far. -/
def propertyFromOperandsLoop : List Value → Nat → String → Except Error String
  | [], _, property => .ok property
  | item :: rest, n, property =>
    match item.asArray with
    | some arr =>
      if n = 0 then fail "Property path can't start with an array index"
      else if arr.length ≠ 1 then fail "Property array index must have exactly one item"
      else
        propertyFromOperandsLoop rest (n + 1)
          (property ++ "[" ++ ToString.toString (operandAt arr 0).asInt ++ "]")
    | none =>
      match item.asString with
      | none => fail "Invalid JSON value in property path"
      | some name =>
        propertyFromOperandsLoop rest (n + 1)
          ((if n > 0 then property ++ "." else property) ++ name)

/-- The source's `propertyFromNode(Array::iterator &operands)`. -/
def propertyFromOperands (operands : List Value) : Except Error String :=
  propertyFromOperandsLoop operands 0 ""

/-- The source's `propertyFromNode(const Value *node)`: the empty string when the node
is not a property node. -/
def propertyFromNode (node : Value) : Except Error String :=
  match node.arrayItems with
  | first :: second :: rest =>
    if first.asString ≠ some "." then .ok ""
    else propertyFromOperands (second :: rest)
  | _ => .ok ""

/-- The source's `QueryParser::FTSPropertyIndex`. -/
def FTSPropertyIndex (qp : QueryParser) (propertyPath : String) : Nat :=
  let i := qp.ftsProperties.indexOf propertyPath
  if i = qp.ftsProperties.length then 0 else i + 1

/-- The source's `QueryParser::AddFTSPropertyIndex`: the index and the new object. -/
def AddFTSPropertyIndex (qp : QueryParser) (property : String) : Nat × QueryParser :=
  let propertyPath := appendPaths qp.propertyPath property
  let index := FTSPropertyIndex qp propertyPath
  if index = 0 then
    let qp := { qp with ftsProperties := qp.ftsProperties ++ [propertyPath] }
    (qp.ftsProperties.length, qp)
  else (index, qp)

/-- The source's `QueryParser::writePropertyGetter`. -/
def writePropertyGetter (qp : QueryParser) (fn property : String) :
    Except Error QueryParser :=
  if property = "_id" then
    if fn ≠ "fl_value" then fail "can't use '_id' in this context"
    else .ok (qp.emit "key")
  else if property = "_sequence" then
    if fn ≠ "fl_value" then fail "can't use '_sequence' in this context"
    else .ok (qp.emit "sequence")
  else if fn = "rank" then
    if FTSPropertyIndex qp property = 0 then
      fail "rank() can only be used with FTS properties"
    else
      .ok (qp.emit ("rank(matchinfo(\"" ++ qp.tableName ++ "::" ++ property ++ "\"))"))
  else
    let qp := qp.emit (fn ++ "(" ++ qp.bodyColumnName ++ ", ")
    let path := appendPaths qp.propertyPath property
    let qp := { qp with sql := writeSQLString qp.sql path }
    .ok (qp.emit ")")

/-- The source's `QueryParser::writePropertyOp`. -/
def writePropertyOp (qp : QueryParser) (fnName : String) (operands : List Value) :
    Except Error QueryParser :=
  match propertyFromOperands operands with
  | .error e => .error e
  | .ok property => writePropertyGetter qp fnName property

/-- The source's `QueryParser::writeNestedPropertyOpIfAny`: the returned flag and the
new object. -/
def writeNestedPropertyOpIfAny (qp : QueryParser) (fnName : String)
    (operands : List Value) : Except Error (Bool × QueryParser) :=
  match operands with
  | [] => .ok (false, qp)
  | first :: _ =>
    match first.asArray with
    | none => .ok (false, qp)
    | some [] => .ok (false, qp)
    | some (head :: nestedOperands) =>
      if head.asString ≠ some "." then .ok (false, qp)
      else
        match writePropertyOp qp fnName nestedOperands with
        | .error e => .error e
        | .ok qp => .ok (true, qp)

/-! ## Full-text search: the scanner -/

mutual
/-- The source's `QueryParser::findFTSProperties`. -/
def findFTSProperties (qp : QueryParser) : Value → Except Error QueryParser
  | .array (first :: operands) =>
    if first.asString = some "MATCH" then
      match operands with
      | [] => .ok qp
      | propertyNode :: rest =>
        match propertyNode.asArray with
        | some _ =>
          match propertyFromNode propertyNode with
          | .error e => .error e
          | .ok property => findFTSPropertiesIn (AddFTSPropertyIndex qp property).2 rest
        | none => findFTSPropertiesIn qp rest
    else findFTSPropertiesIn qp operands
  | _ => .ok qp
/-- The loop `for (; i; ++i) findFTSProperties(i.value())` over the remaining operands. -/
def findFTSPropertiesIn (qp : QueryParser) : List Value → Except Error QueryParser
  | [] => .ok qp
  | v :: vs =>
    match findFTSProperties qp v with
    | .error e => .error e
    | .ok qp => findFTSPropertiesIn qp vs
end

/-! ## The walker -/

/-- The type of the recursive call `parseNode(node)`. -/
abbrev Walk := QueryParser → Value → Except Error QueryParser

/-- The type of a handler member function `(slice op, Array::iterator& operands)`. -/
abbrev Handler := String → List Value → QueryParser → Except Error QueryParser

/-- The body of `QueryParser::handleOperation` once `op->handler` has been read:
pushes the operation, writes the parentheses the precedences ask for, runs the
handler and pops. -/
def invokeHandler (handler : Handler) (op : Operation) (actualOperator : String)
    (operands : List Value) (qp : QueryParser) : Except Error QueryParser :=
  let parenthesize : Bool := decide (op.precedence ≤ qp.contextBack.precedence)
  let qp := qp.pushContext op
  let qp := if parenthesize then qp.emit "(" else qp
  match handler actualOperator operands qp with
  | .error e => .error e
  | .ok qp =>
    let qp := if parenthesize then qp.emit ")" else qp
    .ok qp.popContext

/-- The source's `QueryParser::prefixOp`. -/
def prefixOp (walk : Walk) : Handler := fun op operands qp =>
  let qp := qp.emit op
  let qp := if lastIsAlpha op then qp.emit " " else qp
  walk qp (operandAt operands 0)

/-- The source's `QueryParser::postfixOp`. -/
def postfixOp (walk : Walk) : Handler := fun op operands qp =>
  match walk qp (operandAt operands 0) with
  | .error e => .error e
  | .ok qp => .ok ((qp.emit " ").emit op)

/-- The loop of `QueryParser::infixOp`; `n` counts the operands already written. -/
def infixOpLoop (walk : Walk) (op : String) :
    List Value → Nat → QueryParser → Except Error QueryParser
  | [], _, qp => .ok qp
  | operand :: rest, n, qp =>
    let qp :=
      if n > 0 then
        let qp := if op ≠ "," then qp.emit " " else qp
        (qp.emit op).emit " "
      else qp
    match walk qp operand with
    | .error e => .error e
    | .ok qp => infixOpLoop walk op rest (n + 1) qp

/-- The source's `QueryParser::infixOp`. -/
def infixOp (walk : Walk) : Handler := fun op operands qp =>
  infixOpLoop walk op operands 0 qp

/-- The source's `QueryParser::writeArgList`: `handleOperation` on the argument-list
operation, whose handler is `infixOp`. -/
def writeArgList (walk : Walk) (operands : List Value) (qp : QueryParser) :
    Except Error QueryParser :=
  invokeHandler (infixOp walk) kArgListOperation "," operands qp

/-- The source's `QueryParser::existsOp`. -/
def existsOp (walk : Walk) : Handler := fun op operands qp =>
  match writeNestedPropertyOpIfAny qp "fl_exists" operands with
  | .error e => .error e
  | .ok (true, qp) => .ok qp
  | .ok (false, qp) =>
    let qp := qp.emit op
    let qp := if lastIsAlpha op then qp.emit " " else qp
    walk qp (operandAt operands 0)

/-- The source's `QueryParser::betweenOp`. -/
def betweenOp (walk : Walk) : Handler := fun op operands qp =>
  match walk qp (operandAt operands 0) with
  | .error e => .error e
  | .ok qp =>
    let qp := ((qp.emit " ").emit op).emit " "
    match walk qp (operandAt operands 1) with
    | .error e => .error e
    | .ok qp =>
      let qp := qp.emit " AND "
      walk qp (operandAt operands 2)

/-- The source's `QueryParser::inOp`. -/
def inOp (walk : Walk) : Handler := fun op operands qp =>
  match walk qp (operandAt operands 0) with
  | .error e => .error e
  | .ok qp =>
    let qp := ((qp.emit " ").emit op).emit " "
    writeArgList walk operands.tail qp

/-- The source's `QueryParser::matchOp`. -/
def matchOp (walk : Walk) : Handler := fun _op operands qp =>
  match propertyFromNode (operandAt operands 0) with
  | .error e => .error e
  | .ok property =>
    if property.isEmpty then fail "Source of MATCH must be a property"
    else
      let (ftsTableNo, qp) := AddFTSPropertyIndex qp property
      let qp := ((qp.emit "(FTS").emit (ToString.toString ftsTableNo)).emit ".text MATCH "
      match walk qp (operandAt operands 1) with
      | .error e => .error e
      | .ok qp =>
        .ok (((((qp.emit " AND FTS").emit (ToString.toString ftsTableNo)).emit
          ".rowid = ").emit qp.tableName).emit ".sequence)")

/-- The source's `QueryParser::propertyOp`. -/
def propertyOp : Handler := fun _op operands qp =>
  writePropertyOp qp "fl_value" operands

/-- The source's `QueryParser::parameterOp`. -/
def parameterOp : Handler := fun _op operands qp =>
  let operand := operandAt operands 0
  match operand.type with
  | .kNumber | .kString =>
    let parameter := operand.toString
    let qp := qp.insertParameter parameter
    .ok ((qp.emit "$_").emit parameter)
  | _ => fail "Query parameter name must be number or string"

/-- The first loop of the 'What' clause of `writeSelect`: the base result columns, each
after `" "` or `", "`; `nCol` counts the columns written. -/
def writeBaseColumns : List String → QueryParser → Nat → QueryParser × Nat
  | [], qp, nCol => (qp, nCol)
  | col :: rest, qp, nCol =>
    writeBaseColumns rest ((qp.emit (if nCol ≠ 0 then ", " else " ")).emit col) (nCol + 1)

/-- The second loop of the 'What' clause of `writeSelect`: one `offsets(...)` column per
FTS property. -/
def writeOffsetsColumns : List String → QueryParser → Nat → QueryParser × Nat
  | [], qp, nCol => (qp, nCol)
  | propertyPath :: rest, qp, nCol =>
    writeOffsetsColumns rest
      ((qp.emit (if nCol ≠ 0 then ", " else " ")).emit
        ("offsets(\"" ++ qp.tableName ++ "::" ++ propertyPath ++ "\")")) (nCol + 1)

/-- The loop of the FROM clause of `writeSelect`: one join per FTS property;
`ftsTableNo` is the number of the last join written. -/
def writeFTSJoins : List String → QueryParser → Nat → QueryParser
  | [], qp, _ => qp
  | propertyPath :: rest, qp, ftsTableNo =>
    writeFTSJoins rest
      (qp.emit (", \"" ++ qp.tableName ++ "::" ++ propertyPath ++ "\" AS FTS"
        ++ ToString.toString (ftsTableNo + 1))) (ftsTableNo + 1)

/-- The 'What' and FROM clauses of `writeSelect`. -/
def writeWhatAndFrom (operands : Option (List (String × Value))) (qp : QueryParser) :
    Except Error QueryParser :=
  -- 'What' clause:
  let qp := qp.emit "SELECT"
  let cols := writeBaseColumns qp.baseResultColumns qp 0
  let cols := writeOffsetsColumns cols.1.ftsProperties cols.1 cols.2
  let qp := cols.1
  let nCol := cols.2
  let what := operands.bind (fun d => Dict.get d "WHAT")
  if what.isSome then fail "WHAT parameter to SELECT isn't supported yet, sorry"
  else
    let qp := if nCol = 0 then qp.emit " *" else qp
    -- FROM clause:
    let qp := qp.emit " FROM "
    let fromExpr := operands.bind (fun d => Dict.get d " FROM")
    if fromExpr.isSome then fail "FROM parameter to SELECT isn't supported yet, sorry"
    else
      let qp := qp.emit qp.tableName
      .ok (writeFTSJoins qp.ftsProperties qp 0)

/-- The WHERE clause of `writeSelect`. -/
def writeWhere (walk : Walk) (whereExpr : Option Value) (qp : QueryParser) :
    Except Error QueryParser :=
  match whereExpr with
  | some w => walk (qp.emit " WHERE ") w
  | none => .ok qp

/-- The ORDER BY clause of `writeSelect`. -/
def writeOrderBy (walk : Walk) (operands : Option (List (String × Value)))
    (qp : QueryParser) : Except Error QueryParser :=
  match operands.bind (fun d => Dict.get d "ORDER BY") with
  | some order =>
    let qp := qp.emit " ORDER BY "
    let qp := qp.pushContext kOrderByOperation  -- suppress parens around arg list
    match order.asArray with
    | none => fail "Expected a JSON array"
    | some orderBys =>
      match writeArgList walk orderBys qp with
      | .error e => .error e
      | .ok qp => .ok qp.popContext
  | none => .ok qp

/-- The LIMIT and OFFSET clauses of `writeSelect`. -/
def writeLimitOffset (qp : QueryParser) : QueryParser :=
  let qp := if ¬ qp.defaultLimit.isEmpty then (qp.emit " LIMIT ").emit qp.defaultLimit
    else qp
  if ¬ qp.defaultOffset.isEmpty then (qp.emit " OFFSET ").emit qp.defaultOffset else qp

/-- The FTS scan that opens `writeSelect`. -/
def scanWhere (whereExpr : Option Value) (qp : QueryParser) : Except Error QueryParser :=
  match whereExpr with
  | some w => findFTSProperties qp w
  | none => .ok qp

/-- The clauses `writeSelect` writes once the FTS scan is done: 'What' and FROM, WHERE,
ORDER BY, LIMIT and OFFSET, in the order of the source. -/
def writeClauses (walk : Walk) (whereExpr : Option Value)
    (operands : Option (List (String × Value))) (qp : QueryParser) :
    Except Error QueryParser :=
  match writeWhatAndFrom operands qp with
  | .error e => .error e
  | .ok qp =>
    match writeWhere walk whereExpr qp with
    | .error e => .error e
    | .ok qp =>
      match writeOrderBy walk operands qp with
      | .error e => .error e
      | .ok qp => .ok (writeLimitOffset qp)

/-- The source's `QueryParser::writeSelect(const Value *where, const Dict *operands)`:
the FTS scan, then the clauses. -/
def writeSelect (walk : Walk) (whereExpr : Option Value)
    (operands : Option (List (String × Value))) (qp : QueryParser) :
    Except Error QueryParser :=
  -- Have to find all properties involved in MATCH before emitting the FROM clause:
  match scanWhere whereExpr qp with
  | .error e => .error e
  | .ok qp => writeClauses walk whereExpr operands qp

/-- The source's `QueryParser::writeSelect(const Dict *operands)`. -/
def writeSelectDict (walk : Walk) (operands : List (String × Value)) (qp : QueryParser) :
    Except Error QueryParser :=
  writeSelect walk (Dict.get operands "WHERE") (some operands) qp

/-- The source's `QueryParser::parse`. -/
def parse (walk : Walk) (qp : QueryParser) (expression : Value) :
    Except Error QueryParser :=
  let qp := qp.reset
  match expression.asDict with
  | some d =>
    -- Given a dict; assume it's the operands of a SELECT:
    writeSelectDict walk d qp
  | none =>
    match expression.asArray with
    | some (first :: _) =>
      if first.asString = some "SELECT" then
        -- Given an entire SELECT statement:
        walk qp expression
      else
        -- Given some other expression; treat it as a WHERE clause of an implicit SELECT:
        writeSelect walk (some expression) none qp
    | _ => writeSelect walk (some expression) none qp

/-- The source's `QueryParser::parseJustExpression`. -/
def parseJustExpression (walk : Walk) (qp : QueryParser) (expression : Value) :
    Except Error QueryParser :=
  walk qp.reset expression

/-- The source's `QueryParser::selectOp`. -/
def selectOp (walk : Walk) : Handler := fun _op operands qp =>
  -- SELECT is unusual in that its operands are encoded as an object
  match (operandAt operands 0).asDict with
  | none => fail "Argument to SELECT must be an object"
  | some dict =>
    if qp.context.length ≤ 2 then
      -- Outer SELECT
      writeSelectDict walk dict qp
    else
      -- Nested SELECT; use a fresh parser
      let nested := QueryParser.new qp.tableName qp.bodyColumnName
      match parse walk nested (Value.dict dict) with
      | .error e => .error e
      | .ok nested => .ok (qp.emit nested.SQL)

/-- The special cases of `fallbackOp`: `count(property)` and `rank(property)` are
written as property functions; the flag tells whether one of them applied. -/
def fallbackSpecialCase (op : String) (operands : List Value) (qp : QueryParser) :
    Except Error (Bool × QueryParser) :=
  if op = "count" then writeNestedPropertyOpIfAny qp "fl_count" operands
  else if op = "rank" then writeNestedPropertyOpIfAny qp "rank" operands
  else .ok (false, qp)

/-- The source's `QueryParser::fallbackOp`. -/
def fallbackOp (walk : Walk) : Handler := fun op operands qp =>
  if ¬ (op.length > 2 ∧ op.data.reverse.get? 1 = some '(' ∧ op.data.reverse.get? 0 = some ')')
  then fail ("Unknown operator: " ++ op)
  else
    let operation := { qp.contextBack with op := some op }
    let qp := qp.setContextBack operation
    let op := String.mk (op.data.dropLast.dropLast)
    -- TODO: Validate that this is a known function
    match fallbackSpecialCase op operands qp with
    | .error e => .error e
    | .ok (true, qp) => .ok qp
    | .ok (false, qp) => writeArgList walk operands (qp.emit op)

/-- The handler member function an operation's `handler` field points to. -/
def handlerOf (walk : Walk) : OpHandler → Handler
  | .propertyOp => propertyOp
  | .parameterOp => parameterOp
  | .infixOp => infixOp walk
  | .prefixOp => prefixOp walk
  | .postfixOp => postfixOp walk
  | .inOp => inOp walk
  | .matchOp => matchOp walk
  | .betweenOp => betweenOp walk
  | .existsOp => existsOp walk
  | .selectOp => selectOp walk
  | .fallbackOp => fallbackOp walk
  | .none => fun _ _ qp => .ok qp

/-- The source's `QueryParser::handleOperation`. -/
def handleOperation (walk : Walk) (op : Operation) (actualOperator : String)
    (operands : List Value) (qp : QueryParser) : Except Error QueryParser :=
  invokeHandler (handlerOf walk op.handler) op actualOperator operands qp

/-- The lookup loop of `parseOpNode` over the operator table: the entry `def` the loop
stops at and the flag `nameMatched`. The loop ends at the first entry with a null
symbol, which is the fallback entry that closes the table. -/
def lookupOperation (op : String) (nargs : Nat) :
    List Operation → Bool → Operation × Bool
  | [], nameMatched => (⟨none, 0, 0, 10, .fallbackOp⟩, nameMatched)
  | d :: rest, nameMatched =>
    match d.op with
    | none => (d, nameMatched)
    | some symbol =>
      if op = symbol then
        if nargs ≥ d.minArgs ∧ nargs ≤ d.maxArgs then (d, true)
        else lookupOperation op nargs rest true
      else lookupOperation op nargs rest nameMatched

/-- The source's `QueryParser::parseOpNode`. -/
def parseOpNode (walk : Walk) (qp : QueryParser) (node : List Value) :
    Except Error QueryParser :=
  match node with
  | [] => fail "Empty JSON array"
  | first :: operands =>
    match first.asString with
    | none => fail "Operation must be a string"
    | some op =>
      -- Look up the handler:
      let nargs := min operands.length 9
      let found := lookupOperation op nargs kOperationList false
      if found.2 ∧ found.1.op.isNone then fail ("Wrong number of arguments to " ++ op)
      else handleOperation walk found.1 op operands qp

/-- The body of `QueryParser::parseNode`, the recursive calls going through `walk`.
The `kNull` case has no `break` and falls through into the `kNumber` case. -/
def parseNodeBody (walk : Walk) (qp : QueryParser) (node : Value) :
    Except Error QueryParser :=
  match node with
  | .null => .ok ((qp.emit "null").emit node.toString)
  | .int _ => .ok (qp.emit node.toString)
  | .float _ _ => .ok (qp.emit node.toString)
  | .bool b => .ok (qp.emit (if b then "1" else "0"))
  | .string s => .ok { qp with sql := writeSQLString qp.sql s }
  | .data _ => fail "Binary data not supported in query"
  | .array items => parseOpNode walk qp items
  | .dict _ => fail "Dictionaries not supported in query"

/-- The source's `QueryParser::parseNode`, with a budget of nested calls. -/
def parseNode : Nat → Walk
  | 0 => fun _ _ => .error .OutOfFuel
  | fuel + 1 => parseNodeBody (parseNode fuel)

/-- The walker `parseNode` with a budget above the depth of the node. -/
def runParseNode (qp : QueryParser) (node : Value) : Except Error QueryParser :=
  parseNode (node.depth + 1) qp node

/-- The entry point `parse(expression)` with a budget above the depth of the input. -/
def runParse (qp : QueryParser) (expression : Value) : Except Error QueryParser :=
  parse (parseNode (expression.depth + 1)) qp expression

/-- The entry point `parseJustExpression(expression)` with a budget above the depth of
the input. -/
def runParseJustExpression (qp : QueryParser) (expression : Value) :
    Except Error QueryParser :=
  parseJustExpression (parseNode (expression.depth + 1)) qp expression

/-- The handler of the table entry `d` on `operands`, with a budget above their depth. -/
def runHandler (d : Operation) (actualOperator : String) (operands : List Value)
    (qp : QueryParser) : Except Error QueryParser :=
  handlerOf (parseNode (Value.depthList operands + 1)) d.handler actualOperator operands qp

/-- The SQL text of a compile, if it succeeded. -/
def sqlOf (r : Except Error QueryParser) : Option String :=
  match r with
  | .ok qp => some qp.SQL
  | .error _ => none

/-! ## The query object of `SQLiteQuery.cc` -/

/-- The errors of the constructor of `SQLiteQuery`: an error of the parser, or
`NoSuchIndex` for an FTS property without full-text index. -/
inductive QueryError where
  | parser (e : Error)
  | NoSuchIndex
  deriving DecidableEq

/-- What the constructor of `SQLiteQuery` reads back from the parser after `parseJSON`:
the results of `ftsProperties()`, `fromClause()`, `whereClause()` and
`orderByClause()`. -/
structure ParsedQuery where
  ftsProperties : List String
  fromClause : String
  whereClause : String
  orderByClause : String
  deriving DecidableEq

/-- The loop of the constructor over the FTS properties: each needs a full-text index
and adds one `offsets(...)` column. -/
def SQLiteQuery.offsetsColumns (tableName : String) (hasIndex : String → Bool) :
    List String → String → Except QueryError String
  | [], sql => .ok sql
  | property :: rest, sql =>
    if ¬ hasIndex property then .error .NoSuchIndex
    else SQLiteQuery.offsetsColumns tableName hasIndex rest
      (sql ++ ", offsets(\"" ++ tableName ++ "::" ++ property ++ "\")")

/-- The statement text the constructor `SQLiteQuery::SQLiteQuery` hands to
`keyStore.compile`, from the table name of the key store, its index test and what the
parser returned. -/
def SQLiteQuery.statement (tableName : String) (hasIndex : String → Bool)
    (qp : ParsedQuery) : Except QueryError String :=
  let sql := "SELECT sequence, key, meta, length(body)"
  match SQLiteQuery.offsetsColumns tableName hasIndex qp.ftsProperties sql with
  | .error e => .error e
  | .ok sql =>
    let sql := sql ++ " FROM " ++ qp.fromClause
    let sql := if ¬ qp.whereClause.isEmpty then sql ++ " WHERE (" ++ qp.whereClause ++ ")"
      else sql
    let sql := if ¬ qp.orderByClause.isEmpty then sql ++ " ORDER BY " ++ qp.orderByClause
      else sql
    .ok (sql ++ " LIMIT $limit OFFSET $offset")

/-- Modelled from the spec: the accessors `ftsProperties()`, `fromClause()`,
`whereClause()` and `orderByClause()` that `SQLiteQuery.cc` calls belong to a revision of
the parser that is not under src/. Following sections 4.1 and 4.7 of the specification,
the WHERE clause is what the walker emits for the selector expression, the FROM clause is
the table name followed by one join `, "<t>::<p>" AS FTS<i>` per FTS property (what
`writeSelect` writes after `FROM`), and there is no ORDER BY clause without a sort
expression. The parser is constructed with the table name alone, the body column being
`body`. -/
def parsedQuery (tableName : String) (selector : Value) : Except Error ParsedQuery :=
  match runParseJustExpression (QueryParser.new tableName "body") selector with
  | .error e => .error e
  | .ok qp =>
    .ok { ftsProperties := qp.ftsProperties
          fromClause := (writeFTSJoins qp.ftsProperties
            ({ qp with sql := tableName } : QueryParser) 0).sql
          whereClause := qp.sql
          orderByClause := "" }

/-- The constructor of `SQLiteQuery` on a selector expression: the parse, then the
statement text. -/
def SQLiteQuery.compile (tableName : String) (hasIndex : String → Bool)
    (selector : Value) : Except QueryError String :=
  match parsedQuery tableName selector with
  | .error e => .error (.parser e)
  | .ok qp => SQLiteQuery.statement tableName hasIndex qp

/-! ## Notions used to state the properties -/

/-- The parser `r` has the configuration of `qp`, and its FTS list and parameter set
extend those of `qp`, the FTS list staying free of duplicates: what a walk may change
besides the stream and the context. -/
structure QueryParser.Extends (qp r : QueryParser) : Prop where
  tableName : r.tableName = qp.tableName
  bodyColumnName : r.bodyColumnName = qp.bodyColumnName
  propertyPath : r.propertyPath = qp.propertyPath
  defaultLimit : r.defaultLimit = qp.defaultLimit
  defaultOffset : r.defaultOffset = qp.defaultOffset
  baseResultColumns : r.baseResultColumns = qp.baseResultColumns
  ftsProperties : qp.ftsProperties <+: r.ftsProperties
  parameters : qp.parameters <+: r.parameters
  ftsNodup : qp.ftsProperties.Nodup → r.ftsProperties.Nodup

/-- The relation between the context stack before and after a step: equal (`exact`),
or equal below the top element. -/
def contextKept (exact : Bool) (before after : List Operation) : Prop :=
  if exact then after = before else after.dropLast = before.dropLast

/-- The outcome of a step started in `qp`: a success extends `qp` and keeps the context
stack, a failure is an `InvalidQuery` error (the budget was not used up). -/
def Outcome (exact : Bool) (qp : QueryParser) (res : Except Error QueryParser) : Prop :=
  match res with
  | .ok r => qp.Extends r ∧ contextKept exact qp.context r.context
  | .error e => e ≠ Error.OutOfFuel

/-- The outcome of a step that also returns a flag. -/
def FlagOutcome (qp : QueryParser) (res : Except Error (Bool × QueryParser)) : Prop :=
  match res with
  | .ok r => qp.Extends r.2 ∧ r.2.context = qp.context
  | .error e => e ≠ Error.OutOfFuel

/-- Below depth `d` the walk never uses up its budget, and it returns a parser that
extends the one it was given, with the same context stack. -/
def WalkOutcome (d : Nat) (walk : Walk) : Prop :=
  ∀ (qp : QueryParser) (v : Value), v.depth < d → Outcome true qp (walk qp v)

/-- The bytes of a string with every apostrophe written twice and every other byte
unchanged. -/
def doubleApostrophes : List Char → List Char
  | [] => []
  | c :: cs =>
    if c = apostrophe then apostrophe :: apostrophe :: doubleApostrophes cs
    else c :: doubleApostrophes cs

/-- The SQL string literal of `s` as the specification words it: one apostrophe, `s`
with every apostrophe doubled, one apostrophe. -/
def sqlQuote (s : String) : String :=
  "'" ++ String.mk (doubleApostrophes s.data) ++ "'"

/-- The parser with an empty stream and the context stack of `reset`: what is left is
its configuration, FTS list and parameter set. -/
def QueryParser.config (qp : QueryParser) : QueryParser :=
  ({ qp with sql := "" } : QueryParser).reset

/-- The value is a scalar (null, a boolean, a number or a string) or a property node
(an array whose first element is the string `.`). -/
def isScalarOrProperty : Value → Bool
  | .null => true
  | .bool _ => true
  | .int _ => true
  | .float _ _ => true
  | .string _ => true
  | .array (first :: _) => first.asString == some "."
  | _ => false

/-- The infix operators of the table that accept two operands. -/
def infixOperators : List String :=
  ["||", "*", "/", "%", "+", "-", "<", "<=", ">", ">=", "=", "!=", "IS", "IS NOT",
   "LIKE", "AND", "OR"]

/-- The table entry `parseOpNode` selects for the symbol `op` with `nargs` operands. -/
def operationFor (op : String) (nargs : Nat) : Operation :=
  (lookupOperation op nargs kOperationList false).1

/-- The text a value emits when it is compiled on its own by `parseJustExpression`, on
a parser with the configuration of `qp` and an empty stream. -/
def emissionOf (qp : QueryParser) (v : Value) : Option String :=
  sqlOf (runParseJustExpression { qp with sql := "" } v)

/-- The node `m` is reachable from `w` through operation operands: it is `w`, or it is
reachable from an element after the first of the array `w`. -/
inductive Reachable : Value → Value → Prop where
  | self (w : Value) : Reachable w w
  | operand (first : Value) (operands : List Value) (o m : Value) :
      o ∈ operands → Reachable o m → Reachable (.array (first :: operands)) m

/-- The node `m` is reachable from `w` through operation operands other than the
property operand (the first operand) of a MATCH node. -/
inductive ScanReachable : Value → Value → Prop where
  | self (w : Value) : ScanReachable w w
  | operand (first : Value) (operands : List Value) (o m : Value) :
      first.asString ≠ some "MATCH" → o ∈ operands → ScanReachable o m →
      ScanReachable (.array (first :: operands)) m
  | matchOperand (first property : Value) (rest : List Value) (o m : Value) :
      first.asString = some "MATCH" → o ∈ rest → ScanReachable o m →
      ScanReachable (.array (first :: property :: rest)) m

/-- The property of the scanner that C8 is about: the paths of the MATCH nodes it
reaches are in the list it returns. -/
def ScanFinds (w : Value) : Prop :=
  ∀ (qp r : QueryParser), findFTSProperties qp w = .ok r →
    ∀ (property : Value) (rest : List Value),
      ScanReachable w (.array (.string "MATCH" :: property :: rest)) →
      property.asArray.isSome = true →
      ∃ p, propertyFromNode property = .ok p
        ∧ appendPaths qp.propertyPath p ∈ r.ftsProperties

/-- The parser `r` extends `q` and its stream starts with that of `q`: what a step of
the compile can turn `q` into, the context stack apart. -/
structure QueryParser.Grows (q r : QueryParser) : Prop where
  ext : q.Extends r
  sql : ∃ t, r.sql = q.sql ++ t

/-- The first operand is an array whose first element is the string `.`: the test of
`writeNestedPropertyOpIfAny`. -/
def firstIsProperty (operands : List Value) : Bool :=
  match operands with
  | first :: _ =>
    match first.asArray with
    | some (head :: _) => head.asString == some "."
    | _ => false
  | [] => false

/-- The operands that a handler hands to `parseNode` on the parser it runs on. The
property and parameter handlers walk none; EXISTS, `count()` and `rank()` over a
property write the property and walk nothing; the operand of SELECT is a dict, compiled
by `writeSelect`. -/
def walkedOperands (h : OpHandler) (actualOperator : String) (operands : List Value) :
    List Value :=
  match h with
  | .infixOp => operands
  | .prefixOp => [operandAt operands 0]
  | .postfixOp => [operandAt operands 0]
  | .inOp => operandAt operands 0 :: operands.tail
  | .betweenOp => [operandAt operands 0, operandAt operands 1, operandAt operands 2]
  | .matchOp => [operandAt operands 1]
  | .existsOp => if firstIsProperty operands then [] else [operandAt operands 0]
  | .fallbackOp =>
    if (String.mk actualOperator.data.dropLast.dropLast = "count"
        ∨ String.mk actualOperator.data.dropLast.dropLast = "rank")
      ∧ firstIsProperty operands = true then []
    else operands
  | _ => []

/-- The operands of the operation node `op :: operands` that the walker hands to
`parseNode`: those its handler walks, and none when `parseOpNode` rejects the number of
operands. -/
def walkedOperandsOf (op : String) (operands : List Value) : List Value :=
  let found := lookupOperation op (min operands.length 9) kOperationList false
  if found.2 ∧ found.1.op.isNone then []
  else walkedOperands found.1.handler op operands

/-- The node `m` is walked when `e` is: it is `e`, or it is walked below an operand that
the handler of the operation node `e` hands to `parseNode`. -/
inductive Walked : Value → Value → Prop where
  | self (e : Value) : Walked e e
  | operand (op : String) (operands : List Value) (o m : Value) :
      o ∈ walkedOperandsOf op operands →
      Walked o m → Walked (.array (.string op :: operands)) m

/-- The text `t` occurs in the text `s`. -/
def occursIn (t s : String) : Prop := t.data <:+: s.data

/-- The first element of the array is the string `MATCH`. -/
def headIsMatch (items : List Value) : Bool :=
  match items with
  | first :: _ => first.asString == some "MATCH"
  | [] => false

mutual
/-- The value contains a MATCH node: an array, anywhere in the tree (among the items of
an array or the values of a dict), whose first element is the string `MATCH`. -/
def Value.containsMatch : Value → Bool
  | .array items => headIsMatch items || Value.containsMatchList items
  | .dict entries => Value.containsMatchEntries entries
  | _ => false
/-- Some item of the list contains a MATCH node. -/
def Value.containsMatchList : List Value → Bool
  | [] => false
  | v :: vs => v.containsMatch || Value.containsMatchList vs
/-- Some value of the dict contains a MATCH node. -/
def Value.containsMatchEntries : List (String × Value) → Bool
  | [] => false
  | (_, v) :: es => v.containsMatch || Value.containsMatchEntries es
end

/-- The value is an array whose first element is the string `SELECT`: the input
`parse` hands to the walker as a whole SELECT statement. -/
def isSelectArray (e : Value) : Bool :=
  match e.asArray with
  | some (first :: _) => first.asString == some "SELECT"
  | _ => false

/-- The parser object with the text `s` put in front of its SQL stream. -/
def QueryParser.prepend (s : String) (qp : QueryParser) : QueryParser :=
  { qp with sql := s ++ qp.sql }

/-- Two walks produce the same result on every node of depth below `d`, and do so
whatever text already stands in the SQL stream. -/
def WalkAgree (d : Nat) (w1 w2 : Walk) : Prop :=
  ∀ (s : String) (qp : QueryParser) (v : Value), v.depth < d →
    w1 (qp.prepend s) v = (w2 qp v).map (QueryParser.prepend s)


/-- The operands dict of the outer SELECT of an input of `parse`: the input itself when
it is a dict, the operand of a `SELECT` array; an implicit WHERE has none. -/
def selectDictOf (e : Value) : Option (List (String × Value)) :=
  match e with
  | .dict d => some d
  | .array (first :: operands) =>
    if first.asString = some "SELECT" then (operandAt operands 0).asDict else none
  | _ => none

/-- The WHERE expression of the outer SELECT of an input of `parse`: the `WHERE` entry
of its operands dict, or the input itself when it is an implicit WHERE. -/
def whereOf (e : Value) : Option Value :=
  match e with
  | .dict d => Dict.get d "WHERE"
  | .array (first :: operands) =>
    if first.asString = some "SELECT" then
      (operandAt operands 0).asDict.bind (fun d => Dict.get d "WHERE")
    else some e
  | _ => some e

/-- The items of the `ORDER BY` entry of the outer SELECT of an input of `parse`. -/
def orderBysOf (e : Value) : List Value :=
  match (selectDictOf e).bind (fun d => Dict.get d "ORDER BY") with
  | some order => order.arrayItems
  | none => []

/-- The text of a column list: each column after a blank (the first) or a comma and a
blank (the others); `nCol` columns were written before. -/
def columnsText : List String → Nat → String
  | [], _ => ""
  | col :: rest, nCol => (if nCol ≠ 0 then ", " else " ") ++ col ++ columnsText rest (nCol + 1)

/-- The `offsets(...)` column of the FTS property `p` on table `t`. -/
def offsetsColumn (t p : String) : String :=
  "offsets(\"" ++ t ++ "::" ++ p ++ "\")"

/-- The text of the 'What' clause of a SELECT on table `t` with the base result columns
`cols` and the FTS list `l`. -/
def whatClause (t : String) (cols l : List String) : String :=
  "SELECT" ++ columnsText (cols ++ l.map (offsetsColumn t)) 0
    ++ (if cols.length + l.length = 0 then " *" else "")

/-- The join of the FROM clause for the FTS property `p` on table `t` under the alias
number `k`. -/
def ftsJoin (t p : String) (k : Nat) : String :=
  ", \"" ++ t ++ "::" ++ p ++ "\" AS FTS" ++ ToString.toString k

/-- The joins of the FROM clause for the FTS list `l`, numbered from `k + 1`. -/
def ftsJoinsText (t : String) : List String → Nat → String
  | [], _ => ""
  | p :: rest, k => ftsJoin t p (k + 1) ++ ftsJoinsText t rest (k + 1)

/-- The text of the FROM clause of a SELECT on table `t` with the FTS list `l`, after
the keyword: the table name and one join per list entry. -/
def fromClause (t : String) (l : List String) : String :=
  t ++ ftsJoinsText t l 0

/-- The text the handler `matchOp` writes for the alias number `k`, the pattern text
`pat` and the table `t`. -/
def matchText (k : Nat) (pat t : String) : String :=
  "(FTS" ++ ToString.toString k ++ ".text MATCH " ++ pat
    ++ " AND FTS" ++ ToString.toString k ++ ".rowid = " ++ t ++ ".sequence)"

/-- The list with `p` added at the end unless it is already a member. -/
def addIfAbsent (l : List String) (p : String) : List String :=
  if p ∈ l then l else l ++ [p]

mutual
/-- The paths (with the prefix `pre`) of the MATCH nodes of a WHERE expression in
pre-order of the tree of operation operands, the property operand of a MATCH node not
being entered; a property operand that is no property node has the empty path. -/
def matchPaths (pre : String) : Value → List String
  | .array (first :: operands) =>
    if first.asString = some "MATCH" then
      match operands with
      | [] => []
      | propertyNode :: rest =>
        (match propertyNode.asArray with
          | some _ => [appendPaths pre ((propertyFromNode propertyNode).toOption.getD "")]
          | none => []) ++ matchPathsIn pre rest
    else matchPathsIn pre operands
  | _ => []
/-- The paths of the MATCH nodes of a list of operands, in pre-order. -/
def matchPathsIn (pre : String) : List Value → List String
  | [] => []
  | v :: vs => matchPaths pre v ++ matchPathsIn pre vs
end

/-- The parser once the 'What' and FROM clauses are written for its table, base result
columns and FTS list. -/
def QueryParser.withSelectHead (qs : QueryParser) : QueryParser :=
  { qs with sql := qs.sql
      ++ whatClause qs.tableName qs.baseResultColumns qs.ftsProperties
      ++ " FROM " ++ fromClause qs.tableName qs.ftsProperties }

/-- The FTS list after the scan of the WHERE expression `w` by the parser `qp`: the
paths of the MATCH nodes of `w` in pre-order, each added at the end of the list of `qp`
unless it is already there. -/
def scannedList (qp : QueryParser) (w : Value) : List String :=
  (matchPaths qp.propertyPath w).foldl addIfAbsent qp.ftsProperties

/-- A segment that may follow the first one in a property node: a string name, or a
one-element array holding an integer index. -/
def isPathSegment : Value → Bool
  | .string _ => true
  | .array [.int _] => true
  | _ => false

/-- The text a later segment adds to a property path: `.name` for a name and `[i]` for
an index. -/
def segmentText : Value → String
  | .string name => "." ++ name
  | .array [.int i] => "[" ++ ToString.toString i ++ "]"
  | _ => ""

/-- The path of the property node `[".", s0, seg1, ..., segn]`: `s0` followed by the
text of each later segment, in order. -/
def pathText (s0 : String) (segments : List Value) : String :=
  segments.foldl (fun path seg => path ++ segmentText seg) s0

/-- The table entry accepts `nargs` operands: the arity test of `parseOpNode`. -/
def Operation.accepts (d : Operation) (nargs : Nat) : Bool :=
  decide (nargs ≥ d.minArgs ∧ nargs ≤ d.maxArgs)

/-- The texts of a list separated by a comma and a blank. -/
def joinTexts : List String → String
  | [] => ""
  | [t] => t
  | t :: ts => t ++ ", " ++ joinTexts ts

/-- The text of the LIMIT and OFFSET clauses `writeSelect` writes for the default limit
and offset fragments of the parser. -/
def limitOffsetText (qp : QueryParser) : String :=
  (if ¬ qp.defaultLimit.isEmpty then " LIMIT " ++ qp.defaultLimit else "")
    ++ (if ¬ qp.defaultOffset.isEmpty then " OFFSET " ++ qp.defaultOffset else "")

/-- The text `t` is an emission of the item `e` of an argument list: what a walk of `e`
by `parseNode`, started under the argument-list operation, appends to the stream. -/
def EmittedInArgList (e : Value) (t : String) : Prop :=
  ∃ (k : Nat) (q r : QueryParser), e.depth < k ∧ q.contextBack = kArgListOperation
    ∧ parseNode k q e = .ok r ∧ r.sql = q.sql ++ t

/-- The states of the FTS list that a compile reaches: a parser whose list is empty, and
the parser that `AddFTSPropertyIndex`, a returning `findFTSProperties`, a returning
`matchOp`, a returning walk or a returning `parse` makes of a reachable one. -/
inductive FTSReachable : QueryParser → Prop where
  | empty (qp : QueryParser) : qp.ftsProperties = [] → FTSReachable qp
  | add (qp : QueryParser) (property : String) :
      FTSReachable qp → FTSReachable (AddFTSPropertyIndex qp property).2
  | scan (qp r : QueryParser) (w : Value) :
      FTSReachable qp → findFTSProperties qp w = .ok r → FTSReachable r
  | matchOp (qp r : QueryParser) (op : String) (operands : List Value) :
      FTSReachable qp →
      matchOp (parseNode (Value.depthList operands + 1)) op operands qp = .ok r →
      FTSReachable r
  | walk (qp r : QueryParser) (e : Value) :
      FTSReachable qp → runParseNode qp e = .ok r → FTSReachable r
  | compile (qp r : QueryParser) (e : Value) :
      FTSReachable qp → runParse qp e = .ok r → FTSReachable r

/-- The child path of `appendPaths` as the specification words it: `child` without a
leading `$.`, or else without a leading `$`. -/
def strippedChild (child : String) : String :=
  if ['$', '.'] <+: child.data then String.mk (child.data.drop 2)
  else if ['$'] <+: child.data then String.mk (child.data.drop 1)
  else child

/-- The result of `appendPaths` as the specification words it: the stripped child `c`
when `parent` is empty, `parent ++ c` when `c` begins with `[`, and else `parent`, a dot
and `c`. -/
def appendPathsSpec (parent child : String) : String :=
  if parent = "" then strippedChild child
  else if ['['] <+: (strippedChild child).data then parent ++ strippedChild child
  else parent ++ "." ++ strippedChild child

/-- The first entry of the operator table, in table order, whose symbol is `op` and
whose arity range contains `nargs`. -/
def firstAccepting (op : String) (nargs : Nat) : Option Operation :=
  kOperationList.find? (fun d => decide (d.op = some op) && d.accepts nargs)

/-- The text the walker writes for a scalar or property node whose own emission is `t`
while the top of the context stack has precedence `top`: a property node, whose entry
has precedence 9, is in parentheses when `top` is 9 or more. -/
def leafUnder (v : Value) (top : Int) (t : String) : String :=
  if v.asArray.isSome ∧ 9 ≤ top then "(" ++ t ++ ")" else t

/-- The texts joined with the separator `sep` between neighbours. -/
def joinWith (sep : String) : List String → String
  | [] => ""
  | [t] => t
  | t :: ts => t ++ sep ++ joinWith sep ts

/-- The text `t` is what a walk of `e` appends to the stream while the operation `d` is
on top of the context stack. -/
def EmittedUnder (d : Operation) (e : Value) (t : String) : Prop :=
  ∃ (k : Nat) (q r : QueryParser), e.depth < k ∧ q.contextBack = d
    ∧ parseNode k q e = .ok r ∧ r.sql = q.sql ++ t

/-- The operands after the first of the infix handler as the specification words it:
each is walked after ` op ` has been written. -/
def infixSpecRest (walk : Walk) (op : String) :
    List Value → QueryParser → Except Error QueryParser
  | [], qp => .ok qp
  | x :: rest, qp =>
    (walk (qp.emit (" " ++ op ++ " ")) x).bind fun q1 => infixSpecRest walk op rest q1

/-- The infix handler as the specification words it: the first operand is walked, then
each further operand after ` op `, in operand order. -/
def infixSpec (walk : Walk) (op : String) :
    List Value → QueryParser → Except Error QueryParser
  | [], qp => .ok qp
  | x :: rest, qp => (walk qp x).bind fun q1 => infixSpecRest walk op rest q1

/-- The symbols of the table entries handled by `infixOp` whose largest arity is 9. -/
def variadicInfixOperators : List String :=
  (kOperationList.filter fun d => decide (d.handler = .infixOp ∧ d.maxArgs = 9)).filterMap
    (fun d => d.op)

/-- The parser with the configuration of `qp` and the emission state of a new instance:
an empty stream, an empty context stack, an empty FTS list and an empty parameter set. -/
def QueryParser.cleared (qp : QueryParser) : QueryParser :=
  { qp with sql := "", context := [], ftsProperties := [], parameters := [] }

/-! ## Full-text terms of a result row (SQLiteQuery.cc) -/

/-- The source's `QueryEnumerator::FullTextTerm`: term number, byte offset and byte
length, three `uint32_t`. -/
structure FullTextTerm where
  termIndex : Nat
  byteOffset : Nat
  byteLength : Nat
  deriving DecidableEq, Repr

/-- The C library's `isspace` in the C locale: blank, tab, line feed, vertical tab, form
feed, carriage return. -/
def isspace (c : Char) : Bool :=
  decide (c.toNat = 32 ∨ (9 ≤ c.toNat ∧ c.toNat ≤ 13))

/-- The C library's `isdigit`. -/
def isdigit (c : Char) : Bool :=
  decide (48 ≤ c.toNat ∧ c.toNat ≤ 57)

/-- The white space `strtol` skips in front of a number. -/
def skipSpace : List Char → List Char
  | [] => []
  | c :: cs => if isspace c then skipSpace cs else c :: cs

/-- The digits `strtol` reads in base 10: the value read so far is `acc`; the result is
the value and the text behind the last digit. -/
def readDigits : List Char → Nat → Nat × List Char
  | [], acc => (acc, [])
  | c :: cs, acc =>
    if isdigit c then readDigits cs (10 * acc + (c.toNat - 48)) else (acc, c :: cs)

/-- The C library's `strtol(str, &next, 10)` on the characters of `str`, `LONG_MAX`
being `longMax`: white space is skipped, an optional sign and the decimal digits are
read, and a value out of the range of `long` is clamped; the result is the value and
`next`. When no digit can be read the value is 0 and `next` is `str`. -/
def strtol (longMax : Nat) (str : List Char) : Int × List Char :=
  let s := skipSpace str
  let negative : Bool := decide (s.head?.map Char.toNat = some 45)
  let s1 : List Char :=
    if s.head?.map Char.toNat = some 45 ∨ s.head?.map Char.toNat = some 43 then s.tail
    else s
  match s1 with
  | [] => (0, str)
  | c :: _ =>
    if isdigit c then
      let r := readDigits s1 0
      (if negative then max (-((longMax : Int) + 1)) (-(r.1 : Int))
        else min (longMax : Int) (r.1 : Int), r.2)
    else (0, str)

/-- The conversion `(uint32_t)` of a `long`. -/
def toUInt32 (v : Int) : Nat := (v % (2 ^ 32 : Int)).toNat

/-- The `for` loop of `getFullTextTerms`: `count` calls of `strtol`, each starting where
the one before stopped; the numbers read and the text that is left. -/
def readNumbers (longMax : Nat) : Nat → List Char → List Nat × List Char
  | 0, str => ([], str)
  | count + 1, str =>
    let r := strtol longMax str
    let rs := readNumbers longMax count r.2
    (toUInt32 r.1 :: rs.1, rs.2)

/-- The `while (*str)` loop of `getFullTextTerms`, with a budget of iterations: each
iteration reads four numbers and appends the term made of the last three. The loop ends
at the end of the text (the NUL of the C string); `none` marks a used-up budget. -/
def getFullTextTermsLoop (longMax : Nat) :
    Nat → List Char → List FullTextTerm → Option (List FullTextTerm)
  | 0, _, _ => none
  | fuel + 1, str, terms =>
    match str with
    | [] => some terms
    | c :: cs =>
      if c.toNat = 0 then some terms
      else
        let r := readNumbers longMax 4 (c :: cs)
        getFullTextTermsLoop longMax fuel r.2
          (terms ++ [⟨r.1.getD 1 0, r.1.getD 2 0, r.1.getD 3 0⟩])

/-- The source's `SQLiteQueryEnumImpl::getFullTextTerms(terms)`: `column4` is the text of
column 4 of the current row, `terms` the vector passed in; the result is the vector on
return. -/
def getFullTextTerms (longMax fuel : Nat) (column4 : String)
    (terms : List FullTextTerm) : Option (List FullTextTerm) :=
  let terms : List FullTextTerm := terms.drop terms.length  -- terms.clear()
  getFullTextTermsLoop longMax fuel column4.data terms

/-- A decimal numeral: a non-empty run of decimal digits. -/
def isNumeral (ds : List Char) : Bool :=
  !ds.isEmpty && ds.all isdigit

/-- The value of a decimal numeral. -/
def numeralValue (ds : List Char) : Nat :=
  ds.foldl (fun acc c => 10 * acc + (c.toNat - 48)) 0

/-- The numerals written one after the other with a single blank between neighbours. -/
def spaced : List (List Char) → List Char
  | [] => []
  | [t] => t
  | t :: u :: ts => t ++ ' ' :: spaced (u :: ts)

/-- The terms of a list of numerals taken in groups of four: the second, third and
fourth value of each group. -/
def termsOf : List (List Char) → List FullTextTerm
  | _ :: b :: c :: d :: rest =>
    ⟨numeralValue b, numeralValue c, numeralValue d⟩ :: termsOf rest
  | _ => []

/-- The text with each pair of adjacent apostrophes, read from the left, replaced by one
apostrophe. -/
def undoubleApostrophes : List Char → List Char
  | [] => []
  | [c] => [c]
  | a :: b :: rest =>
    if a = apostrophe ∧ b = apostrophe then apostrophe :: undoubleApostrophes rest
    else a :: undoubleApostrophes (b :: rest)

/-- The way back from a SQL string literal as the specification words it: the first and
the last byte are removed and each pair of adjacent apostrophes becomes one. -/
def unquoteSQLString (t : String) : String :=
  String.mk (undoubleApostrophes t.data.tail.dropLast)

/-- Every maximal run of apostrophes of the text has even length; `run` is the length of
the run of apostrophes that ends right before the text. -/
def evenApostropheRuns : List Char → Nat → Bool
  | [], run => run % 2 == 0
  | c :: cs, run =>
    if c = apostrophe then evenApostropheRuns cs (run + 1)
    else run % 2 == 0 && evenApostropheRuns cs 0

/-- Every MATCH node with two operands that is walked below `v` and whose property
operand has a path has that path, joined behind the prefix `pre`, in the list `l`. -/
def MatchesListed (pre : String) (l : List String) (v : Value) : Prop :=
  ∀ (property pattern : Value),
    Walked v (.array [.string "MATCH", property, pattern]) →
    ∀ p : String, propertyFromNode property = .ok p → p ≠ "" → appendPaths pre p ∈ l

/-- The parser has the FTS list `l` and the property-path prefix `pre`, and its context
stack holds at least two entries (so that a SELECT node met below is a nested one). -/
structure ListKept (pre : String) (l : List String) (q : QueryParser) : Prop where
  fts : q.ftsProperties = l
  path : q.propertyPath = pre
  depth : 2 ≤ q.context.length

/-- The walker with budget `n` leaves the FTS list `l` as it is on every node whose
walked MATCH nodes are listed in `l`. -/
def WalkKeeps (n : Nat) (pre : String) (l : List String) : Prop :=
  ∀ (q r : QueryParser) (o : Value), o.depth < n → parseNode n q o = .ok r →
    ListKept pre l q → MatchesListed pre l o → r.ftsProperties = l

/-- The walker `parseNode` with a check at its entry: a state that passes the check `G`
is handled by the body of `parseNode`, whose recursive calls go through the checked
walker again, so that the check is made at every call, at every depth of nesting; a
state that does not pass is handed to the walk `alt` instead. -/
def parseNodeGuarded (G : QueryParser → Bool) (alt : Walk) : Nat → Walk
  | 0 => fun qp node => if G qp then .error .OutOfFuel else alt qp node
  | fuel + 1 => fun qp node =>
    if G qp then parseNodeBody (parseNodeGuarded G alt fuel) qp node else alt qp node

/-- A handler with a check at its entry: a state that passes the check `G` is handled
by `handler`, any other state by `alt`. -/
def handlerGuarded (G : QueryParser → Bool) (alt handler : Handler) : Handler :=
  fun op operands qp => if G qp then handler op operands qp else alt op operands qp

/-- The flag `parenthesize` that `handleOperation` computes in the state `qp` for the
fallback entry, the entry with a null symbol that closes the operator table. -/
def fallbackParenthesize (qp : QueryParser) : Bool :=
  decide ((⟨none, 0, 0, 10, .fallbackOp⟩ : Operation).precedence ≤ qp.contextBack.precedence)

/-- The context stack of the state is not empty and its bottom element is Outer. -/
def bottomIsOuter (qp : QueryParser) : Bool :=
  decide (qp.context.head? = some kOuterOperation)

/-- The context stack `c` is not empty, its bottom element is Outer and its top element
has a precedence below 10, the precedence of the fallback entry. -/
def ContextOK (c : List Operation) : Prop :=
  c.head? = some kOuterOperation ∧ (c.getLastD kOuterOperation).precedence < 10

/-- The walks `w1` and `w2` give the same result on every node of depth below `d` in
every state whose context stack satisfies `ContextOK`. -/
def WalkGuarded (d : Nat) (w1 w2 : Walk) : Prop :=
  ∀ (q : QueryParser) (v : Value), v.depth < d → ContextOK q.context → w1 q v = w2 q v
/-! ## The walker only appends to the stream, and its budget is irrelevant -/

open QueryParser

@[simp] theorem prepend_sql (s : String) (qp : QueryParser) :
    (qp.prepend s).sql = s ++ qp.sql := rfl
@[simp] theorem prepend_tableName (s : String) (qp : QueryParser) :
    (qp.prepend s).tableName = qp.tableName := rfl
@[simp] theorem prepend_bodyColumnName (s : String) (qp : QueryParser) :
    (qp.prepend s).bodyColumnName = qp.bodyColumnName := rfl
@[simp] theorem prepend_propertyPath (s : String) (qp : QueryParser) :
    (qp.prepend s).propertyPath = qp.propertyPath := rfl
@[simp] theorem prepend_defaultLimit (s : String) (qp : QueryParser) :
    (qp.prepend s).defaultLimit = qp.defaultLimit := rfl
@[simp] theorem prepend_defaultOffset (s : String) (qp : QueryParser) :
    (qp.prepend s).defaultOffset = qp.defaultOffset := rfl
@[simp] theorem prepend_baseResultColumns (s : String) (qp : QueryParser) :
    (qp.prepend s).baseResultColumns = qp.baseResultColumns := rfl
@[simp] theorem prepend_context (s : String) (qp : QueryParser) :
    (qp.prepend s).context = qp.context := rfl
@[simp] theorem prepend_ftsProperties (s : String) (qp : QueryParser) :
    (qp.prepend s).ftsProperties = qp.ftsProperties := rfl
@[simp] theorem prepend_parameters (s : String) (qp : QueryParser) :
    (qp.prepend s).parameters = qp.parameters := rfl
@[simp] theorem prepend_contextBack (s : String) (qp : QueryParser) :
    (qp.prepend s).contextBack = qp.contextBack := rfl

@[simp] theorem prepend_empty (qp : QueryParser) : qp.prepend "" = qp := by
  cases qp; simp [QueryParser.prepend]

@[simp] theorem emit_prepend (s t : String) (qp : QueryParser) :
    (qp.prepend s).emit t = (qp.emit t).prepend s := by
  simp [QueryParser.emit, QueryParser.prepend, String.append_assoc]

@[simp] theorem pushContext_prepend (s : String) (op : Operation) (qp : QueryParser) :
    (qp.prepend s).pushContext op = (qp.pushContext op).prepend s := rfl

@[simp] theorem popContext_prepend (s : String) (qp : QueryParser) :
    (qp.prepend s).popContext = qp.popContext.prepend s := rfl

@[simp] theorem insertParameter_prepend (s name : String) (qp : QueryParser) :
    (qp.prepend s).insertParameter name = (qp.insertParameter name).prepend s := rfl

@[simp] theorem setContextBack_prepend (s : String) (op : Operation) (qp : QueryParser) :
    (qp.prepend s).setContextBack op = (qp.setContextBack op).prepend s := rfl

@[simp] theorem reset_prepend (s : String) (qp : QueryParser) :
    (qp.prepend s).reset = qp.reset.prepend s := rfl

theorem map_prepend_empty (r : Except Error QueryParser) :
    r.map (QueryParser.prepend "") = r := by
  cases r <;> simp [Except.map]

theorem writeDoubled_append (s : String) (cs : List Char) (t : String) :
    writeDoubled (s ++ t) cs = s ++ writeDoubled t cs := by
  induction cs generalizing t with
  | nil => rfl
  | cons c cs ih =>
    have hpush : (s ++ t).push c = s ++ t.push c := by
      apply String.ext; simp
    by_cases hc : c = apostrophe
    · simp only [writeDoubled, hc, if_true, String.append_assoc, ih]
    · simp only [writeDoubled, hc, if_false, hpush, ih]

theorem writeSQLString_append (s t str : String) :
    writeSQLString (s ++ t) str = s ++ writeSQLString t str := by
  unfold writeSQLString
  by_cases h : (str.data.any fun c => c == apostrophe) = true
  · simp [h, String.append_assoc, writeDoubled_append]
  · simp [h, String.append_assoc]

theorem AddFTSPropertyIndex_prepend (s : String) (qp : QueryParser) (property : String) :
    AddFTSPropertyIndex (qp.prepend s) property
      = ((AddFTSPropertyIndex qp property).1,
         (AddFTSPropertyIndex qp property).2.prepend s) := by
  unfold AddFTSPropertyIndex FTSPropertyIndex
  simp only [prepend_ftsProperties, prepend_propertyPath]
  split <;> rfl

theorem writePropertyGetter_prepend (s : String) (qp : QueryParser) (fn property : String) :
    writePropertyGetter (qp.prepend s) fn property
      = (writePropertyGetter qp fn property).map (QueryParser.prepend s) := by
  unfold writePropertyGetter FTSPropertyIndex
  simp only [prepend_ftsProperties, prepend_propertyPath, prepend_tableName,
    prepend_bodyColumnName, emit_prepend, prepend_sql, writeSQLString_append]
  repeat' split
  all_goals first | rfl | simp [Except.map, fail, QueryParser.prepend, QueryParser.emit,
    String.append_assoc]

theorem writePropertyOp_prepend (s : String) (qp : QueryParser) (fnName : String)
    (operands : List Value) :
    writePropertyOp (qp.prepend s) fnName operands
      = (writePropertyOp qp fnName operands).map (QueryParser.prepend s) := by
  unfold writePropertyOp
  cases propertyFromOperands operands with
  | error e => rfl
  | ok property => exact writePropertyGetter_prepend s qp fnName property

theorem writeNestedPropertyOpIfAny_prepend (s : String) (qp : QueryParser)
    (fnName : String) (operands : List Value) :
    writeNestedPropertyOpIfAny (qp.prepend s) fnName operands
      = (writeNestedPropertyOpIfAny qp fnName operands).map
          (fun r => (r.1, r.2.prepend s)) := by
  unfold writeNestedPropertyOpIfAny
  split
  · rfl
  · split
    · rfl
    · rfl
    · split
      · rfl
      · rw [writePropertyOp_prepend]
        cases writePropertyOp qp fnName _ <;> rfl

theorem findFTSProperties_array (qp : QueryParser) (first : Value) (operands : List Value) :
    findFTSProperties qp (.array (first :: operands)) =
      if first.asString = some "MATCH" then
        match operands with
        | [] => .ok qp
        | propertyNode :: rest =>
          match propertyNode.asArray with
          | some _ =>
            match propertyFromNode propertyNode with
            | .error e => .error e
            | .ok property => findFTSPropertiesIn (AddFTSPropertyIndex qp property).2 rest
          | none => findFTSPropertiesIn qp rest
      else findFTSPropertiesIn qp operands := by
  cases operands with
  | nil => rw [findFTSProperties.eq_1, findFTSPropertiesIn]
  | cons v vs => rw [findFTSProperties.eq_2]

theorem findFTSProperties_not_array (qp : QueryParser) (v : Value)
    (h : ∀ first operands, v ≠ .array (first :: operands)) :
    findFTSProperties qp v = .ok qp := by
  exact findFTSProperties.eq_3 qp v h

theorem findFTSPropertiesIn_cons (qp : QueryParser) (v : Value) (vs : List Value) :
    findFTSPropertiesIn qp (v :: vs) =
      match findFTSProperties qp v with
      | .error e => .error e
      | .ok qp => findFTSPropertiesIn qp vs :=
  findFTSPropertiesIn.eq_2 qp v vs

theorem findFTSPropertiesIn_prepend_of (s : String) (n : Nat)
    (hv : ∀ (v : Value) (qp : QueryParser), v.depth ≤ n →
      findFTSProperties (qp.prepend s) v
        = (findFTSProperties qp v).map (QueryParser.prepend s)) :
    ∀ (vs : List Value) (qp : QueryParser), Value.depthList vs ≤ n →
      findFTSPropertiesIn (qp.prepend s) vs
        = (findFTSPropertiesIn qp vs).map (QueryParser.prepend s) := by
  intro vs
  induction vs with
  | nil => intro qp _; rw [findFTSPropertiesIn, findFTSPropertiesIn]; rfl
  | cons v vs ih =>
    intro qp hd
    simp only [Value.depthList, Nat.max_le] at hd
    rw [findFTSPropertiesIn_cons, findFTSPropertiesIn_cons, hv v qp hd.1]
    cases findFTSProperties qp v with
    | error e => rfl
    | ok qp1 => exact ih qp1 hd.2

theorem findFTSProperties_prepend_aux (s : String) (n : Nat) :
    (∀ (v : Value) (qp : QueryParser), v.depth ≤ n →
      findFTSProperties (qp.prepend s) v
        = (findFTSProperties qp v).map (QueryParser.prepend s)) ∧
    (∀ (vs : List Value) (qp : QueryParser), Value.depthList vs ≤ n →
      findFTSPropertiesIn (qp.prepend s) vs
        = (findFTSPropertiesIn qp vs).map (QueryParser.prepend s)) := by
  induction n with
  | zero =>
    have hv : ∀ (v : Value) (qp : QueryParser), v.depth ≤ 0 →
        findFTSProperties (qp.prepend s) v
          = (findFTSProperties qp v).map (QueryParser.prepend s) := by
      intro v qp hd
      cases v with
      | array items => simp [Value.depth] at hd
      | _ => rw [findFTSProperties_not_array _ _ (by simp),
               findFTSProperties_not_array _ _ (by simp)]; rfl
    exact ⟨hv, findFTSPropertiesIn_prepend_of s _ hv⟩
  | succ n ih =>
    have hv : ∀ (v : Value) (qp : QueryParser), v.depth ≤ n + 1 →
        findFTSProperties (qp.prepend s) v
          = (findFTSProperties qp v).map (QueryParser.prepend s) := by
      intro v qp hd
      cases v with
      | array items =>
        simp only [Value.depth, Nat.add_le_add_iff_right] at hd
        cases items with
        | nil => rw [findFTSProperties_not_array _ _ (by simp),
               findFTSProperties_not_array _ _ (by simp)]; rfl
        | cons first operands =>
          simp only [Value.depthList, Nat.max_le] at hd
          rw [findFTSProperties_array, findFTSProperties_array]
          by_cases hm : first.asString = some "MATCH"
          · simp only [hm, if_true]
            cases operands with
            | nil => rfl
            | cons propertyNode rest =>
              simp only [Value.depthList, Nat.max_le] at hd
              simp only
              split
              · split
                · rfl
                · simp only [AddFTSPropertyIndex_prepend]
                  exact ih.2 rest _ hd.2.2
              · exact ih.2 rest qp hd.2.2
          · simp only [hm, if_false]
            exact ih.2 operands qp hd.2
      | _ => rw [findFTSProperties_not_array _ _ (by simp),
               findFTSProperties_not_array _ _ (by simp)]; rfl
    exact ⟨hv, findFTSPropertiesIn_prepend_of s _ hv⟩

theorem findFTSProperties_prepend (s : String) (qp : QueryParser) (v : Value) :
    findFTSProperties (qp.prepend s) v
      = (findFTSProperties qp v).map (QueryParser.prepend s) :=
  (findFTSProperties_prepend_aux s v.depth).1 v qp (Nat.le_refl _)

/-! ## Depth of operands -/

theorem depth_le_depthList {v : Value} {vs : List Value} (h : v ∈ vs) :
    v.depth ≤ Value.depthList vs := by
  induction vs with
  | nil => cases h
  | cons w ws ih =>
    simp only [Value.depthList]
    rcases List.mem_cons.mp h with h | h
    · subst h; exact Nat.le_max_left _ _
    · exact Nat.le_trans (ih h) (Nat.le_max_right _ _)

theorem depth_operandAt_le (operands : List Value) (i : Nat) :
    (operandAt operands i).depth ≤ Value.depthList operands := by
  unfold operandAt
  by_cases hi : i < operands.length
  · rw [List.getD_eq_getElem _ _ hi]
    exact depth_le_depthList (List.getElem_mem _)
  · rw [List.getD_eq_default _ _ (Nat.le_of_not_lt hi)]
    simp [Value.depth]

theorem depthList_tail_le (operands : List Value) :
    Value.depthList operands.tail ≤ Value.depthList operands := by
  cases operands with
  | nil => simp [Value.depthList]
  | cons v vs => simp only [List.tail_cons, Value.depthList]; exact Nat.le_max_right _ _

theorem depth_le_depthEntries {entries : List (String × Value)} {key : String} {v : Value}
    (h : Dict.get entries key = some v) : v.depth ≤ Value.depthEntries entries := by
  unfold Dict.get at h
  induction entries with
  | nil => simp [List.lookup] at h
  | cons e es ih =>
    obtain ⟨k, w⟩ := e
    simp only [Value.depthEntries]
    simp only [List.lookup] at h
    split at h
    · cases h; exact Nat.le_max_left _ _
    · exact Nat.le_trans (ih h) (Nat.le_max_right _ _)

theorem depth_asArray {v : Value} {items : List Value} (h : v.asArray = some items) :
    v.depth = Value.depthList items + 1 := by
  cases v <;> simp [Value.asArray] at h
  subst h; simp [Value.depth]

theorem depth_asDict {v : Value} {entries : List (String × Value)}
    (h : v.asDict = some entries) : v.depth = Value.depthEntries entries + 1 := by
  cases v <;> simp [Value.asDict] at h
  subst h; simp [Value.depth]

/-! ## Handlers of agreeing walks agree -/

theorem invokeHandler_agree (h1 h2 : Handler) (op : Operation) (actualOperator : String)
    (operands : List Value)
    (hh : ∀ (s : String) (qp : QueryParser),
      h1 actualOperator operands (qp.prepend s)
        = (h2 actualOperator operands qp).map (QueryParser.prepend s))
    (s : String) (qp : QueryParser) :
    invokeHandler h1 op actualOperator operands (qp.prepend s)
      = (invokeHandler h2 op actualOperator operands qp).map (QueryParser.prepend s) := by
  unfold invokeHandler
  simp only [prepend_contextBack, pushContext_prepend]
  by_cases hp : op.precedence ≤ qp.contextBack.precedence
  · simp only [hp, decide_True, if_true, emit_prepend, hh]
    cases h2 actualOperator operands ((qp.pushContext op).emit "(") <;> simp [Except.map]
  · simp only [hp, decide_False, if_false, hh, Bool.false_eq_true]
    cases h2 actualOperator operands (qp.pushContext op) <;> simp [Except.map]

theorem prefixOp_agree {d : Nat} {w1 w2 : Walk} (hw : WalkAgree d w1 w2)
    (op : String) (operands : List Value) (hd : Value.depthList operands < d)
    (s : String) (qp : QueryParser) :
    prefixOp w1 op operands (qp.prepend s)
      = (prefixOp w2 op operands qp).map (QueryParser.prepend s) := by
  have h0 := Nat.lt_of_le_of_lt (depth_operandAt_le operands 0) hd
  unfold prefixOp
  simp only [emit_prepend]
  split <;> simp only [emit_prepend, hw _ _ _ h0]

theorem postfixOp_agree {d : Nat} {w1 w2 : Walk} (hw : WalkAgree d w1 w2)
    (op : String) (operands : List Value) (hd : Value.depthList operands < d)
    (s : String) (qp : QueryParser) :
    postfixOp w1 op operands (qp.prepend s)
      = (postfixOp w2 op operands qp).map (QueryParser.prepend s) := by
  have h0 := Nat.lt_of_le_of_lt (depth_operandAt_le operands 0) hd
  unfold postfixOp
  rw [hw _ _ _ h0]
  cases w2 qp (operandAt operands 0) <;> simp [Except.map]

theorem infixOpLoop_agree {d : Nat} {w1 w2 : Walk} (hw : WalkAgree d w1 w2)
    (op : String) (operands : List Value) (hd : Value.depthList operands < d)
    (n : Nat) (s : String) (qp : QueryParser) :
    infixOpLoop w1 op operands n (qp.prepend s)
      = (infixOpLoop w2 op operands n qp).map (QueryParser.prepend s) := by
  induction operands generalizing n qp with
  | nil => rfl
  | cons v vs ih =>
    simp only [Value.depthList, Nat.max_lt] at hd
    simp only [infixOpLoop]
    have key : ∀ q : QueryParser,
        (match w1 (q.prepend s) v with
          | Except.error e => Except.error e
          | Except.ok q1 => infixOpLoop w1 op vs (n + 1) q1)
        = Except.map (QueryParser.prepend s) (match w2 q v with
          | Except.error e => Except.error e
          | Except.ok q1 => infixOpLoop w2 op vs (n + 1) q1) := by
      intro q
      rw [hw _ _ _ hd.1]
      cases w2 q v with
      | error e => rfl
      | ok q1 => exact ih hd.2 (n + 1) q1
    have hX : (if n > 0 then
          ((if op ≠ "," then (qp.prepend s).emit " " else qp.prepend s).emit op).emit " "
        else qp.prepend s)
        = QueryParser.prepend s (if n > 0 then
          ((if op ≠ "," then qp.emit " " else qp).emit op).emit " " else qp) := by
      split
      · split <;> simp only [emit_prepend]
      · rfl
    rw [hX]
    exact key _

theorem infixOp_agree {d : Nat} {w1 w2 : Walk} (hw : WalkAgree d w1 w2)
    (op : String) (operands : List Value) (hd : Value.depthList operands < d)
    (s : String) (qp : QueryParser) :
    infixOp w1 op operands (qp.prepend s)
      = (infixOp w2 op operands qp).map (QueryParser.prepend s) :=
  infixOpLoop_agree hw op operands hd 0 s qp

theorem writeArgList_agree {d : Nat} {w1 w2 : Walk} (hw : WalkAgree d w1 w2)
    (operands : List Value) (hd : Value.depthList operands < d)
    (s : String) (qp : QueryParser) :
    writeArgList w1 operands (qp.prepend s)
      = (writeArgList w2 operands qp).map (QueryParser.prepend s) :=
  invokeHandler_agree _ _ _ _ _ (fun s qp => infixOp_agree hw "," operands hd s qp) s qp

theorem existsOp_agree {d : Nat} {w1 w2 : Walk} (hw : WalkAgree d w1 w2)
    (op : String) (operands : List Value) (hd : Value.depthList operands < d)
    (s : String) (qp : QueryParser) :
    existsOp w1 op operands (qp.prepend s)
      = (existsOp w2 op operands qp).map (QueryParser.prepend s) := by
  have h0 := Nat.lt_of_le_of_lt (depth_operandAt_le operands 0) hd
  unfold existsOp
  rw [writeNestedPropertyOpIfAny_prepend]
  cases writeNestedPropertyOpIfAny qp "fl_exists" operands with
  | error e => rfl
  | ok r =>
    obtain ⟨b, q⟩ := r
    cases b
    · simp only [Except.map, emit_prepend]
      split <;> simp only [emit_prepend, hw _ _ _ h0] <;> rfl
    · rfl

theorem betweenOp_agree {d : Nat} {w1 w2 : Walk} (hw : WalkAgree d w1 w2)
    (op : String) (operands : List Value) (hd : Value.depthList operands < d)
    (s : String) (qp : QueryParser) :
    betweenOp w1 op operands (qp.prepend s)
      = (betweenOp w2 op operands qp).map (QueryParser.prepend s) := by
  have h0 := Nat.lt_of_le_of_lt (depth_operandAt_le operands 0) hd
  have h1 := Nat.lt_of_le_of_lt (depth_operandAt_le operands 1) hd
  have h2 := Nat.lt_of_le_of_lt (depth_operandAt_le operands 2) hd
  unfold betweenOp
  rw [hw _ _ _ h0]
  cases w2 qp (operandAt operands 0) with
  | error e => rfl
  | ok q0 =>
    simp only [Except.map, emit_prepend]
    rw [hw _ _ _ h1]
    cases w2 (((q0.emit " ").emit op).emit " ") (operandAt operands 1) with
    | error e => rfl
    | ok q1 =>
      simp only [Except.map, emit_prepend]
      rw [hw _ _ _ h2]
      rfl

theorem inOp_agree {d : Nat} {w1 w2 : Walk} (hw : WalkAgree d w1 w2)
    (op : String) (operands : List Value) (hd : Value.depthList operands < d)
    (s : String) (qp : QueryParser) :
    inOp w1 op operands (qp.prepend s)
      = (inOp w2 op operands qp).map (QueryParser.prepend s) := by
  have h0 := Nat.lt_of_le_of_lt (depth_operandAt_le operands 0) hd
  have ht := Nat.lt_of_le_of_lt (depthList_tail_le operands) hd
  unfold inOp
  rw [hw _ _ _ h0]
  cases w2 qp (operandAt operands 0) with
  | error e => rfl
  | ok q0 =>
    simp only [Except.map, emit_prepend]
    exact writeArgList_agree hw _ ht s _

theorem matchOp_agree {d : Nat} {w1 w2 : Walk} (hw : WalkAgree d w1 w2)
    (op : String) (operands : List Value) (hd : Value.depthList operands < d)
    (s : String) (qp : QueryParser) :
    matchOp w1 op operands (qp.prepend s)
      = (matchOp w2 op operands qp).map (QueryParser.prepend s) := by
  have h1 := Nat.lt_of_le_of_lt (depth_operandAt_le operands 1) hd
  unfold matchOp
  cases propertyFromNode (operandAt operands 0) with
  | error e => rfl
  | ok property =>
    simp only
    split
    · rfl
    · simp only [AddFTSPropertyIndex_prepend, emit_prepend]
      rw [hw _ _ _ h1]
      cases w2 _ (operandAt operands 1) with
      | error e => rfl
      | ok q1 => simp [Except.map]
theorem ite_prepend (c : Prop) [Decidable c] (s : String) (a b : QueryParser) :
    (if c then QueryParser.prepend s a else QueryParser.prepend s b)
      = QueryParser.prepend s (if c then a else b) := by
  split <;> rfl

theorem writeBaseColumns_prepend (s : String) (cols : List String) (qp : QueryParser)
    (n : Nat) :
    writeBaseColumns cols (qp.prepend s) n
      = ((writeBaseColumns cols qp n).1.prepend s, (writeBaseColumns cols qp n).2) := by
  induction cols generalizing qp n with
  | nil => rfl
  | cons c cs ih => simp only [writeBaseColumns, emit_prepend, ih]

theorem writeOffsetsColumns_prepend (s : String) (cols : List String) (qp : QueryParser)
    (n : Nat) :
    writeOffsetsColumns cols (qp.prepend s) n
      = ((writeOffsetsColumns cols qp n).1.prepend s, (writeOffsetsColumns cols qp n).2) := by
  induction cols generalizing qp n with
  | nil => rfl
  | cons c cs ih => simp only [writeOffsetsColumns, emit_prepend, prepend_tableName, ih]

theorem writeFTSJoins_prepend (s : String) (cols : List String) (qp : QueryParser)
    (n : Nat) :
    writeFTSJoins cols (qp.prepend s) n = (writeFTSJoins cols qp n).prepend s := by
  induction cols generalizing qp n with
  | nil => rfl
  | cons c cs ih => simp only [writeFTSJoins, emit_prepend, prepend_tableName, ih]

theorem writeWhatAndFrom_prepend (s : String)
    (operands : Option (List (String × Value))) (qp : QueryParser) :
    writeWhatAndFrom operands (qp.prepend s)
      = (writeWhatAndFrom operands qp).map (QueryParser.prepend s) := by
  unfold writeWhatAndFrom
  simp only [emit_prepend, prepend_baseResultColumns, writeBaseColumns_prepend,
    prepend_ftsProperties, writeOffsetsColumns_prepend]
  by_cases hwhat : (operands.bind fun d => Dict.get d "WHAT").isSome = true
  · simp only [hwhat, if_true]; rfl
  · simp only [hwhat, if_false, Bool.false_eq_true]
    by_cases hfrom : (operands.bind fun d => Dict.get d " FROM").isSome = true
    · simp only [hfrom, if_true]; rfl
    · simp only [hfrom, if_false, Bool.false_eq_true, ite_prepend, emit_prepend,
        prepend_tableName, prepend_ftsProperties, writeFTSJoins_prepend]
      rfl

theorem writeLimitOffset_prepend (s : String) (qp : QueryParser) :
    writeLimitOffset (qp.prepend s) = (writeLimitOffset qp).prepend s := by
  unfold writeLimitOffset
  by_cases h1 : qp.defaultLimit.isEmpty = true <;>
    by_cases h2 : qp.defaultOffset.isEmpty = true <;>
    simp [h1, h2, QueryParser.emit, QueryParser.prepend, String.append_assoc]

theorem scanWhere_prepend (s : String) (whereExpr : Option Value) (qp : QueryParser) :
    scanWhere whereExpr (qp.prepend s)
      = (scanWhere whereExpr qp).map (QueryParser.prepend s) := by
  cases whereExpr with
  | none => rfl
  | some w => exact findFTSProperties_prepend s qp w

theorem writeWhere_agree {d : Nat} {w1 w2 : Walk} (hw : WalkAgree d w1 w2)
    (whereExpr : Option Value) (hwhere : ∀ w, whereExpr = some w → w.depth < d)
    (s : String) (qp : QueryParser) :
    writeWhere w1 whereExpr (qp.prepend s)
      = (writeWhere w2 whereExpr qp).map (QueryParser.prepend s) := by
  cases whereExpr with
  | none => rfl
  | some w =>
    simp only [writeWhere, emit_prepend]
    exact hw _ _ _ (hwhere w rfl)

theorem writeOrderBy_agree {d : Nat} {w1 w2 : Walk} (hw : WalkAgree d w1 w2)
    (operands : Option (List (String × Value)))
    (hops : ∀ es, operands = some es → Value.depthEntries es < d)
    (s : String) (qp : QueryParser) :
    writeOrderBy w1 operands (qp.prepend s)
      = (writeOrderBy w2 operands qp).map (QueryParser.prepend s) := by
  unfold writeOrderBy
  cases hord : operands.bind (fun d => Dict.get d "ORDER BY") with
  | none => rfl
  | some order =>
    simp only [emit_prepend, pushContext_prepend]
    cases harr : order.asArray with
    | none => rfl
    | some orderBys =>
      have hdepth : Value.depthList orderBys < d := by
        cases operands with
        | none => simp at hord
        | some es =>
          simp only [Option.bind] at hord
          have h1 := depth_le_depthEntries hord
          have h2 := depth_asArray harr
          have h3 := hops es rfl
          omega
      simp only
      rw [writeArgList_agree hw orderBys hdepth]
      cases writeArgList w2 orderBys _ <;> rfl

theorem writeSelect_agree {d : Nat} {w1 w2 : Walk} (hw : WalkAgree d w1 w2)
    (whereExpr : Option Value) (operands : Option (List (String × Value)))
    (hwhere : ∀ w, whereExpr = some w → w.depth < d)
    (hops : ∀ es, operands = some es → Value.depthEntries es < d)
    (s : String) (qp : QueryParser) :
    writeSelect w1 whereExpr operands (qp.prepend s)
      = (writeSelect w2 whereExpr operands qp).map (QueryParser.prepend s) := by
  unfold writeSelect writeClauses
  rw [scanWhere_prepend]
  cases scanWhere whereExpr qp with
  | error e => rfl
  | ok q0 =>
    simp only [Except.map]
    rw [writeWhatAndFrom_prepend]
    cases writeWhatAndFrom operands q0 with
    | error e => rfl
    | ok q1 =>
      simp only [Except.map]
      rw [writeWhere_agree hw whereExpr hwhere]
      cases writeWhere w2 whereExpr q1 with
      | error e => rfl
      | ok q2 =>
        simp only [Except.map]
        rw [writeOrderBy_agree hw operands hops]
        cases writeOrderBy w2 operands q2 with
        | error e => rfl
        | ok q3 =>
          simp only [Except.map, writeLimitOffset_prepend]

theorem writeSelectDict_agree {d : Nat} {w1 w2 : Walk} (hw : WalkAgree d w1 w2)
    (operands : List (String × Value)) (hops : Value.depthEntries operands < d)
    (s : String) (qp : QueryParser) :
    writeSelectDict w1 operands (qp.prepend s)
      = (writeSelectDict w2 operands qp).map (QueryParser.prepend s) := by
  unfold writeSelectDict
  apply writeSelect_agree hw
  · intro w hwh
    exact Nat.lt_of_le_of_lt (depth_le_depthEntries hwh) hops
  · intro es hes
    cases hes; exact hops

theorem parse_agree {d : Nat} {w1 w2 : Walk} (hw : WalkAgree d w1 w2)
    (expression : Value) (hd : expression.depth < d)
    (s : String) (qp : QueryParser) :
    parse w1 (qp.prepend s) expression
      = (parse w2 qp expression).map (QueryParser.prepend s) := by
  unfold parse
  simp only [reset_prepend]
  cases hdict : expression.asDict with
  | some es =>
    simp only
    apply writeSelectDict_agree hw
    have := depth_asDict hdict
    omega
  | none =>
    have himp : writeSelect w1 (some expression) none (qp.reset.prepend s)
        = (writeSelect w2 (some expression) none qp.reset).map (QueryParser.prepend s) := by
      apply writeSelect_agree hw
      · intro w hwh; cases hwh; exact hd
      · intro es hes; cases hes
    simp only
    split
    · split
      · exact hw _ _ _ hd
      · exact himp
    · exact himp

theorem selectOp_agree {d : Nat} {w1 w2 : Walk} (hw : WalkAgree d w1 w2)
    (op : String) (operands : List Value) (hd : Value.depthList operands < d)
    (s : String) (qp : QueryParser) :
    selectOp w1 op operands (qp.prepend s)
      = (selectOp w2 op operands qp).map (QueryParser.prepend s) := by
  have h0 := Nat.lt_of_le_of_lt (depth_operandAt_le operands 0) hd
  unfold selectOp
  cases hdict : (operandAt operands 0).asDict with
  | none => rfl
  | some es =>
    have hes := depth_asDict hdict
    simp only [prepend_context, prepend_tableName, prepend_bodyColumnName]
    split
    · apply writeSelectDict_agree hw
      omega
    · have hp := parse_agree hw (Value.dict es) (by simp only [Value.depth]; omega) ""
        (QueryParser.new qp.tableName qp.bodyColumnName)
      rw [prepend_empty, map_prepend_empty] at hp
      rw [hp]
      cases parse w2 (QueryParser.new qp.tableName qp.bodyColumnName) (Value.dict es) with
      | error e => rfl
      | ok nested => simp [Except.map]

theorem fallbackSpecialCase_prepend (op : String) (operands : List Value)
    (s : String) (qp : QueryParser) :
    fallbackSpecialCase op operands (qp.prepend s)
      = (fallbackSpecialCase op operands qp).map (fun r => (r.1, r.2.prepend s)) := by
  unfold fallbackSpecialCase
  split
  · exact writeNestedPropertyOpIfAny_prepend s qp _ operands
  · split
    · exact writeNestedPropertyOpIfAny_prepend s qp _ operands
    · rfl

theorem fallbackOp_agree {d : Nat} {w1 w2 : Walk} (hw : WalkAgree d w1 w2)
    (op : String) (operands : List Value) (hd : Value.depthList operands < d)
    (s : String) (qp : QueryParser) :
    fallbackOp w1 op operands (qp.prepend s)
      = (fallbackOp w2 op operands qp).map (QueryParser.prepend s) := by
  unfold fallbackOp
  split
  · rfl
  · simp only [prepend_contextBack, setContextBack_prepend, fallbackSpecialCase_prepend]
    cases fallbackSpecialCase _ operands _ with
    | error e => rfl
    | ok r =>
      obtain ⟨b, q⟩ := r
      cases b
      · simp only [Except.map, emit_prepend]
        exact writeArgList_agree hw operands hd s _
      · rfl

theorem parameterOp_prepend (op : String) (operands : List Value)
    (s : String) (qp : QueryParser) :
    parameterOp op operands (qp.prepend s)
      = (parameterOp op operands qp).map (QueryParser.prepend s) := by
  unfold parameterOp
  simp only
  split <;> simp [Except.map, fail]

theorem handlerOf_agree {d : Nat} {w1 w2 : Walk} (hw : WalkAgree d w1 w2)
    (h : OpHandler) (op : String) (operands : List Value)
    (hd : Value.depthList operands < d) (s : String) (qp : QueryParser) :
    handlerOf w1 h op operands (qp.prepend s)
      = (handlerOf w2 h op operands qp).map (QueryParser.prepend s) := by
  cases h with
  | propertyOp => exact writePropertyOp_prepend s qp "fl_value" operands
  | parameterOp => exact parameterOp_prepend op operands s qp
  | infixOp => exact infixOp_agree hw op operands hd s qp
  | prefixOp => exact prefixOp_agree hw op operands hd s qp
  | postfixOp => exact postfixOp_agree hw op operands hd s qp
  | inOp => exact inOp_agree hw op operands hd s qp
  | matchOp => exact matchOp_agree hw op operands hd s qp
  | betweenOp => exact betweenOp_agree hw op operands hd s qp
  | existsOp => exact existsOp_agree hw op operands hd s qp
  | selectOp => exact selectOp_agree hw op operands hd s qp
  | fallbackOp => exact fallbackOp_agree hw op operands hd s qp
  | none => rfl

theorem handleOperation_agree {d : Nat} {w1 w2 : Walk} (hw : WalkAgree d w1 w2)
    (op : Operation) (actualOperator : String) (operands : List Value)
    (hd : Value.depthList operands < d) (s : String) (qp : QueryParser) :
    handleOperation w1 op actualOperator operands (qp.prepend s)
      = (handleOperation w2 op actualOperator operands qp).map (QueryParser.prepend s) :=
  invokeHandler_agree _ _ _ _ _
    (fun s qp => handlerOf_agree hw op.handler actualOperator operands hd s qp) s qp

theorem parseOpNode_agree {d : Nat} {w1 w2 : Walk} (hw : WalkAgree d w1 w2)
    (node : List Value) (hd : Value.depthList node < d) (s : String) (qp : QueryParser) :
    parseOpNode w1 (qp.prepend s) node
      = (parseOpNode w2 qp node).map (QueryParser.prepend s) := by
  unfold parseOpNode
  cases node with
  | nil => rfl
  | cons first operands =>
    simp only [Value.depthList, Nat.max_lt] at hd
    simp only
    split
    · rfl
    · split
      · rfl
      · exact handleOperation_agree hw _ _ operands hd.2 s qp

theorem parseNodeBody_agree (w1 w2 : Walk) (node : Value)
    (hw : WalkAgree node.depth w1 w2) (s : String) (qp : QueryParser) :
    parseNodeBody w1 (qp.prepend s) node
      = (parseNodeBody w2 qp node).map (QueryParser.prepend s) := by
  cases node with
  | array items =>
    simp only [parseNodeBody]
    exact parseOpNode_agree hw items (by simp [Value.depth]) s qp
  | string str =>
    simp only [parseNodeBody, prepend_sql, writeSQLString_append]
    rfl
  | _ => simp [parseNodeBody, Except.map, fail]

/-- The walker's result does not depend on its budget once the budget exceeds the depth
of the node, nor on the text already in the stream, which it only extends. -/
theorem parseNode_agree (n m : Nat) : WalkAgree (min n m) (parseNode n) (parseNode m) := by
  induction n generalizing m with
  | zero => intro s qp v hv; simp at hv
  | succ n ih =>
    intro s qp v hv
    cases m with
    | zero => simp at hv
    | succ m =>
      simp only [parseNode]
      apply parseNodeBody_agree
      intro s' qp' v' hv'
      apply ih m
      omega

theorem parseNode_fuel_irrelevant (n m : Nat) (qp : QueryParser) (v : Value)
    (hn : v.depth < n) (hm : v.depth < m) : parseNode n qp v = parseNode m qp v := by
  have h := parseNode_agree n m "" qp v (by omega)
  rwa [prepend_empty, map_prepend_empty] at h

theorem parseNode_prepend (n : Nat) (s : String) (qp : QueryParser) (v : Value)
    (hn : v.depth < n) :
    parseNode n (qp.prepend s) v = (parseNode n qp v).map (QueryParser.prepend s) :=
  parseNode_agree n n s qp v (by omega)
/-! ## What a walk preserves -/

namespace QueryParser.Extends

theorem refl (qp : QueryParser) : qp.Extends qp :=
  ⟨rfl, rfl, rfl, rfl, rfl, rfl, List.prefix_refl _, List.prefix_refl _, id⟩

theorem trans {a b c : QueryParser} (h1 : a.Extends b) (h2 : b.Extends c) : a.Extends c :=
  ⟨h2.tableName.trans h1.tableName, h2.bodyColumnName.trans h1.bodyColumnName,
   h2.propertyPath.trans h1.propertyPath, h2.defaultLimit.trans h1.defaultLimit,
   h2.defaultOffset.trans h1.defaultOffset,
   h2.baseResultColumns.trans h1.baseResultColumns,
   h1.ftsProperties.trans h2.ftsProperties, h1.parameters.trans h2.parameters,
   fun h => h2.ftsNodup (h1.ftsNodup h)⟩

/-- Two parsers that differ only in stream and context extend the same parsers. -/
theorem of_same {a b c : QueryParser} (h : a.Extends b)
    (h1 : c.tableName = b.tableName) (h2 : c.bodyColumnName = b.bodyColumnName)
    (h3 : c.propertyPath = b.propertyPath) (h4 : c.defaultLimit = b.defaultLimit)
    (h5 : c.defaultOffset = b.defaultOffset)
    (h6 : c.baseResultColumns = b.baseResultColumns)
    (h7 : c.ftsProperties = b.ftsProperties) (h8 : c.parameters = b.parameters) :
    a.Extends c :=
  ⟨h1.trans h.tableName, h2.trans h.bodyColumnName, h3.trans h.propertyPath,
   h4.trans h.defaultLimit, h5.trans h.defaultOffset, h6.trans h.baseResultColumns,
   h7 ▸ h.ftsProperties, h8 ▸ h.parameters, h7 ▸ h.ftsNodup⟩

theorem emit_right {a b : QueryParser} (h : a.Extends b) (t : String) :
    a.Extends (b.emit t) :=
  of_same h rfl rfl rfl rfl rfl rfl rfl rfl

theorem emit_left {a b : QueryParser} {t : String} (h : (a.emit t).Extends b) :
    a.Extends b :=
  ⟨h.tableName, h.bodyColumnName, h.propertyPath, h.defaultLimit, h.defaultOffset,
   h.baseResultColumns, h.ftsProperties, h.parameters, h.ftsNodup⟩

theorem pushContext_left {a b : QueryParser} {op : Operation}
    (h : (a.pushContext op).Extends b) : a.Extends b :=
  ⟨h.tableName, h.bodyColumnName, h.propertyPath, h.defaultLimit, h.defaultOffset,
   h.baseResultColumns, h.ftsProperties, h.parameters, h.ftsNodup⟩

theorem setContextBack_left {a b : QueryParser} {op : Operation}
    (h : (a.setContextBack op).Extends b) : a.Extends b :=
  ⟨h.tableName, h.bodyColumnName, h.propertyPath, h.defaultLimit, h.defaultOffset,
   h.baseResultColumns, h.ftsProperties, h.parameters, h.ftsNodup⟩

theorem popContext_right {a b : QueryParser} (h : a.Extends b) :
    a.Extends b.popContext :=
  of_same h rfl rfl rfl rfl rfl rfl rfl rfl

theorem withSql_right {a b : QueryParser} (h : a.Extends b) (t : String) :
    a.Extends { b with sql := t } :=
  of_same h rfl rfl rfl rfl rfl rfl rfl rfl

theorem insertParameter (qp : QueryParser) (name : String) :
    qp.Extends (qp.insertParameter name) := by
  refine ⟨rfl, rfl, rfl, rfl, rfl, rfl, List.prefix_refl _, ?_, id⟩
  simp only [QueryParser.insertParameter]
  split
  · exact List.prefix_refl _
  · exact List.prefix_append _ _

@[simp] theorem emit_right_iff {a b : QueryParser} {t : String} :
    a.Extends (b.emit t) ↔ a.Extends b :=
  ⟨fun h => ⟨h.tableName, h.bodyColumnName, h.propertyPath, h.defaultLimit,
    h.defaultOffset, h.baseResultColumns, h.ftsProperties, h.parameters, h.ftsNodup⟩,
   fun h => h.emit_right t⟩

@[simp] theorem pushContext_right_iff {a b : QueryParser} {op : Operation} :
    a.Extends (b.pushContext op) ↔ a.Extends b :=
  ⟨fun h => ⟨h.tableName, h.bodyColumnName, h.propertyPath, h.defaultLimit,
    h.defaultOffset, h.baseResultColumns, h.ftsProperties, h.parameters, h.ftsNodup⟩,
   fun h => of_same h rfl rfl rfl rfl rfl rfl rfl rfl⟩

@[simp] theorem popContext_right_iff {a b : QueryParser} :
    a.Extends b.popContext ↔ a.Extends b :=
  ⟨fun h => ⟨h.tableName, h.bodyColumnName, h.propertyPath, h.defaultLimit,
    h.defaultOffset, h.baseResultColumns, h.ftsProperties, h.parameters, h.ftsNodup⟩,
   fun h => of_same h rfl rfl rfl rfl rfl rfl rfl rfl⟩

@[simp] theorem setContextBack_right_iff {a b : QueryParser} {op : Operation} :
    a.Extends (b.setContextBack op) ↔ a.Extends b :=
  ⟨fun h => ⟨h.tableName, h.bodyColumnName, h.propertyPath, h.defaultLimit,
    h.defaultOffset, h.baseResultColumns, h.ftsProperties, h.parameters, h.ftsNodup⟩,
   fun h => of_same h rfl rfl rfl rfl rfl rfl rfl rfl⟩

@[simp] theorem emit_left_iff {a b : QueryParser} {t : String} :
    (a.emit t).Extends b ↔ a.Extends b :=
  ⟨fun h => ⟨h.tableName, h.bodyColumnName, h.propertyPath, h.defaultLimit,
    h.defaultOffset, h.baseResultColumns, h.ftsProperties, h.parameters, h.ftsNodup⟩,
   fun h => ⟨h.tableName, h.bodyColumnName, h.propertyPath, h.defaultLimit,
    h.defaultOffset, h.baseResultColumns, h.ftsProperties, h.parameters, h.ftsNodup⟩⟩

@[simp] theorem pushContext_left_iff {a b : QueryParser} {op : Operation} :
    (a.pushContext op).Extends b ↔ a.Extends b :=
  ⟨fun h => ⟨h.tableName, h.bodyColumnName, h.propertyPath, h.defaultLimit,
    h.defaultOffset, h.baseResultColumns, h.ftsProperties, h.parameters, h.ftsNodup⟩,
   fun h => ⟨h.tableName, h.bodyColumnName, h.propertyPath, h.defaultLimit,
    h.defaultOffset, h.baseResultColumns, h.ftsProperties, h.parameters, h.ftsNodup⟩⟩

@[simp] theorem setContextBack_left_iff {a b : QueryParser} {op : Operation} :
    (a.setContextBack op).Extends b ↔ a.Extends b :=
  ⟨fun h => ⟨h.tableName, h.bodyColumnName, h.propertyPath, h.defaultLimit,
    h.defaultOffset, h.baseResultColumns, h.ftsProperties, h.parameters, h.ftsNodup⟩,
   fun h => ⟨h.tableName, h.bodyColumnName, h.propertyPath, h.defaultLimit,
    h.defaultOffset, h.baseResultColumns, h.ftsProperties, h.parameters, h.ftsNodup⟩⟩

@[simp] theorem self (qp : QueryParser) : qp.Extends qp := refl qp

end QueryParser.Extends

@[simp] theorem emit_context (qp : QueryParser) (t : String) :
    (qp.emit t).context = qp.context := rfl

theorem extends_AddFTSPropertyIndex (qp : QueryParser) (property : String) :
    qp.Extends (AddFTSPropertyIndex qp property).2 := by
  unfold AddFTSPropertyIndex
  simp only
  split
  · rename_i hzero
    refine ⟨rfl, rfl, rfl, rfl, rfl, rfl, List.prefix_append _ _, List.prefix_refl _, ?_⟩
    intro hnodup
    have hnot : appendPaths qp.propertyPath property ∉ qp.ftsProperties := by
      intro hmem
      have hlt := List.indexOf_lt_length.mpr hmem
      simp only [FTSPropertyIndex] at hzero
      split at hzero
      · omega
      · omega
    refine List.Nodup.append hnodup (List.nodup_singleton _) ?_
    intro a ha hb
    simp only [List.mem_singleton] at hb
    subst hb
    exact hnot ha
  · exact QueryParser.Extends.refl qp

theorem context_AddFTSPropertyIndex (qp : QueryParser) (property : String) :
    (AddFTSPropertyIndex qp property).2.context = qp.context := by
  unfold AddFTSPropertyIndex
  simp only
  split <;> rfl

theorem Outcome.weaken {qp : QueryParser} {res : Except Error QueryParser}
    (h : Outcome true qp res) : Outcome false qp res := by
  cases res with
  | error e => exact h
  | ok r =>
    refine ⟨h.1, ?_⟩
    have := h.2
    simp only [contextKept, if_true] at this
    simp only [contextKept, Bool.false_eq_true, if_false, this]

/-- An outcome seen from an earlier parser `a` that the start `b` of the step extends
and whose context is related to that of `b`. -/
theorem Outcome.from {exact : Bool} {a b : QueryParser} {res : Except Error QueryParser}
    (h : Outcome exact b res) (hab : a.Extends b)
    (hctx : contextKept exact a.context b.context) : Outcome exact a res := by
  cases res with
  | error e => exact h
  | ok r =>
    refine ⟨hab.trans h.1, ?_⟩
    have h2 := h.2
    cases exact
    · simp only [contextKept, Bool.false_eq_true, if_false] at hctx h2 ⊢
      exact h2.trans hctx
    · simp only [contextKept, if_true] at hctx h2 ⊢
      exact h2.trans hctx

theorem outcome_fail (exact : Bool) (qp : QueryParser) (msg : String) :
    Outcome exact qp (fail msg) := by
  simp [Outcome, fail]

theorem outcome_ok_self (exact : Bool) (qp : QueryParser) : Outcome exact qp (.ok qp) := by
  refine ⟨QueryParser.Extends.refl qp, ?_⟩
  cases exact <;> simp [contextKept]

/-- A step that only writes to the stream. -/
theorem outcome_ok_emit (exact : Bool) (qp : QueryParser) (t : String) :
    Outcome exact qp (.ok (qp.emit t)) :=
  ⟨(QueryParser.Extends.refl qp).emit_right t, by cases exact <;> simp [contextKept, QueryParser.emit]⟩

/-- The outcome of two steps in sequence: `final` is what the second step makes of the
result `res` of the first. -/
theorem Outcome.step {exact : Bool} {qp : QueryParser} {res final : Except Error QueryParser}
    (h : Outcome true qp res)
    (herr : ∀ e, res = .error e → final = .error e)
    (hok : ∀ r, res = .ok r → Outcome exact r final) :
    Outcome exact qp final := by
  cases res with
  | error e => rw [herr e rfl]; exact h
  | ok r =>
    have h2 := h.2
    simp only [contextKept, if_true] at h2
    refine (hok r rfl).from h.1 ?_
    cases exact <;> simp [contextKept, h2]

/-- An outcome seen from a parser `qp` that differs from the start `q` of the step in
what was written to the stream. -/
theorem Outcome.of_state {exact : Bool} {qp q : QueryParser}
    {res : Except Error QueryParser} (h : Outcome exact q res)
    (hq : qp.Extends q) (hc : q.context = qp.context) : Outcome exact qp res :=
  h.from hq (by cases exact <;> simp [contextKept, hc])

theorem outcome_ok {exact : Bool} {qp r : QueryParser} (hr : qp.Extends r)
    (hc : r.context = qp.context) : Outcome exact qp (.ok r) :=
  ⟨hr, by cases exact <;> simp [contextKept, hc]⟩
theorem Outcome.of_emit {exact : Bool} {qp : QueryParser} {t : String}
    {res : Except Error QueryParser} (h : Outcome exact (qp.emit t) res) :
    Outcome exact qp res :=
  h.from ((QueryParser.Extends.refl qp).emit_right t)
    (by cases exact <;> simp [contextKept, QueryParser.emit])

theorem propertyFromOperandsLoop_ne_fuel (operands : List Value) (n : Nat) (acc : String) :
    propertyFromOperandsLoop operands n acc ≠ .error .OutOfFuel := by
  induction operands generalizing n acc with
  | nil => simp [propertyFromOperandsLoop]
  | cons item rest ih =>
    simp only [propertyFromOperandsLoop]
    split
    · split
      · simp [fail]
      · split
        · simp [fail]
        · exact ih _ _
    · split
      · simp [fail]
      · exact ih _ _

theorem propertyFromNode_ne_fuel (node : Value) :
    propertyFromNode node ≠ .error .OutOfFuel := by
  unfold propertyFromNode
  split
  · split
    · simp
    · exact propertyFromOperandsLoop_ne_fuel _ _ _
  · simp

theorem outcome_writePropertyGetter (qp : QueryParser) (fn property : String) :
    Outcome true qp (writePropertyGetter qp fn property) := by
  unfold writePropertyGetter
  split
  · split
    · exact outcome_fail _ _ _
    · exact outcome_ok_emit _ _ _
  · split
    · split
      · exact outcome_fail _ _ _
      · exact outcome_ok_emit _ _ _
    · split
      · split
        · exact outcome_fail _ _ _
        · exact outcome_ok_emit _ _ _
      · exact ⟨QueryParser.Extends.of_same (QueryParser.Extends.refl qp)
          rfl rfl rfl rfl rfl rfl rfl rfl, by simp [contextKept, QueryParser.emit]⟩

theorem outcome_writePropertyOp (qp : QueryParser) (fnName : String)
    (operands : List Value) : Outcome true qp (writePropertyOp qp fnName operands) := by
  unfold writePropertyOp
  have := propertyFromOperandsLoop_ne_fuel operands 0 ""
  unfold propertyFromOperands
  cases h : propertyFromOperandsLoop operands 0 "" with
  | error e =>
    simp only [Outcome]
    intro he; subst he; exact this h
  | ok property => exact outcome_writePropertyGetter qp fnName property

theorem outcome_writeNestedPropertyOpIfAny (qp : QueryParser) (fnName : String)
    (operands : List Value) :
    FlagOutcome qp (writeNestedPropertyOpIfAny qp fnName operands) := by
  have hok : FlagOutcome qp (.ok (false, qp)) := ⟨QueryParser.Extends.refl qp, rfl⟩
  unfold writeNestedPropertyOpIfAny
  split
  · exact hok
  · split
    · exact hok
    · exact hok
    · split
      · exact hok
      · have h := outcome_writePropertyOp qp fnName ‹List Value›
        revert h
        cases writePropertyOp qp fnName _ with
        | error e => exact id
        | ok r =>
          intro h
          exact ⟨h.1, by simpa [contextKept] using h.2⟩

theorem outcome_findFTSProperties_aux (n : Nat) :
    (∀ (v : Value) (qp : QueryParser), v.depth ≤ n →
      Outcome true qp (findFTSProperties qp v)) ∧
    (∀ (vs : List Value) (qp : QueryParser), Value.depthList vs ≤ n →
      Outcome true qp (findFTSPropertiesIn qp vs)) := by
  have hlist : ∀ (m : Nat), (∀ (v : Value) (qp : QueryParser), v.depth ≤ m →
      Outcome true qp (findFTSProperties qp v)) →
      (∀ (vs : List Value) (qp : QueryParser), Value.depthList vs ≤ m →
      Outcome true qp (findFTSPropertiesIn qp vs)) := by
    intro m hv vs
    induction vs with
    | nil => intro qp _; rw [findFTSPropertiesIn]; exact outcome_ok_self _ _
    | cons v vs ih =>
      intro qp hd
      simp only [Value.depthList, Nat.max_le] at hd
      rw [findFTSPropertiesIn_cons]
      exact (hv v qp hd.1).step (fun e he => by simp only [he])
        (fun r hr => by simp only [hr]; exact ih r hd.2)
  have hscalar : ∀ (v : Value) (qp : QueryParser),
      (∀ first operands, v ≠ .array (first :: operands)) →
      Outcome true qp (findFTSProperties qp v) := by
    intro v qp h
    rw [findFTSProperties_not_array _ _ h]
    exact outcome_ok_self _ _
  induction n with
  | zero =>
    refine ⟨?_, hlist 0 ?_⟩ <;>
    · intro v qp hd
      cases v with
      | array items => simp [Value.depth] at hd
      | _ => exact hscalar _ _ (by simp)
  | succ n ih =>
    have hv : ∀ (v : Value) (qp : QueryParser), v.depth ≤ n + 1 →
        Outcome true qp (findFTSProperties qp v) := by
      intro v qp hd
      cases v with
      | array items =>
        simp only [Value.depth, Nat.add_le_add_iff_right] at hd
        cases items with
        | nil => exact hscalar _ _ (by simp)
        | cons first operands =>
          simp only [Value.depthList, Nat.max_le] at hd
          rw [findFTSProperties_array]
          split
          · cases operands with
            | nil => exact outcome_ok_self _ _
            | cons propertyNode rest =>
              simp only [Value.depthList, Nat.max_le] at hd
              simp only
              split
              · have hne := propertyFromNode_ne_fuel propertyNode
                split
                · rename_i e he
                  simp only [Outcome]
                  intro h; subst h; exact hne he
                · exact (ih.2 rest _ hd.2.2).from (extends_AddFTSPropertyIndex _ _)
                    (by simp [contextKept, context_AddFTSPropertyIndex])
              · exact ih.2 rest qp hd.2.2
          · exact ih.2 operands qp hd.2
      | _ => exact hscalar _ _ (by simp)
    exact ⟨hv, hlist (n + 1) hv⟩

theorem outcome_findFTSProperties (qp : QueryParser) (v : Value) :
    Outcome true qp (findFTSProperties qp v) :=
  (outcome_findFTSProperties_aux v.depth).1 v qp (Nat.le_refl _)

/-! ### Handlers -/

theorem dropLast_append_singleton (l : List Operation) (a : Operation) :
    (l ++ [a]).dropLast = l := by
  simp

theorem outcome_invokeHandler (handler : Handler) (op : Operation) (actualOperator : String)
    (operands : List Value)
    (hh : ∀ q : QueryParser, Outcome false q (handler actualOperator operands q))
    (qp : QueryParser) :
    Outcome true qp (invokeHandler handler op actualOperator operands qp) := by
  unfold invokeHandler
  have key : ∀ (q : QueryParser) (f : QueryParser → QueryParser)
      (final : Except Error QueryParser),
      qp.Extends q → q.context = qp.context ++ [op] →
      (∀ r, r.Extends (f r) ∧ (f r).context = r.context) →
      (∀ e, handler actualOperator operands q = .error e → final = .error e) →
      (∀ r, handler actualOperator operands q = .ok r → final = .ok (f r).popContext) →
      Outcome true qp final := by
    intro q f final hq hctx hf herr hok
    have h := hh q
    cases hres : handler actualOperator operands q with
    | error e => rw [herr e hres]; rw [hres] at h; exact h
    | ok r =>
      rw [hok r hres]; rw [hres] at h
      refine ⟨(hq.trans h.1).trans ((hf r).1.popContext_right), ?_⟩
      have h2 := h.2
      simp only [contextKept, Bool.false_eq_true, if_false, hctx,
        dropLast_append_singleton] at h2
      simp only [contextKept, if_true, QueryParser.popContext, (hf r).2, h2]
  have hpush : qp.Extends (qp.pushContext op) :=
    QueryParser.Extends.of_same (QueryParser.Extends.refl qp) rfl rfl rfl rfl rfl rfl rfl rfl
  by_cases hp : op.precedence ≤ qp.contextBack.precedence
  · simp only [hp, decide_True, if_true]
    exact key ((qp.pushContext op).emit "(") (fun r => r.emit ")") _
      (hpush.emit_right _) rfl (fun r => ⟨(QueryParser.Extends.refl r).emit_right _, rfl⟩)
      (fun e he => by simp only [he]) (fun r hr => by simp only [hr])
  · simp only [hp, decide_False, if_false, Bool.false_eq_true]
    exact key (qp.pushContext op) (fun r => r) _
      hpush rfl (fun r => ⟨QueryParser.Extends.refl r, rfl⟩)
      (fun e he => by simp only [he]) (fun r hr => by simp only [hr])

theorem outcome_prefixOp {d : Nat} {walk : Walk} (hw : WalkOutcome d walk)
    (op : String) (operands : List Value) (hd : Value.depthList operands < d)
    (qp : QueryParser) : Outcome false qp (prefixOp walk op operands qp) := by
  have h0 := Nat.lt_of_le_of_lt (depth_operandAt_le operands 0) hd
  unfold prefixOp
  simp only
  split
  · exact (hw _ _ h0).weaken.of_state (by simp) rfl
  · exact (hw _ _ h0).weaken.of_state (by simp) rfl

theorem outcome_postfixOp {d : Nat} {walk : Walk} (hw : WalkOutcome d walk)
    (op : String) (operands : List Value) (hd : Value.depthList operands < d)
    (qp : QueryParser) : Outcome false qp (postfixOp walk op operands qp) := by
  have h0 := Nat.lt_of_le_of_lt (depth_operandAt_le operands 0) hd
  unfold postfixOp
  exact (hw _ _ h0).step (fun e he => by simp only [he])
    (fun r hr => by simp only [hr]; exact outcome_ok (by simp) rfl)

theorem outcome_infixOpLoop {d : Nat} {walk : Walk} (hw : WalkOutcome d walk)
    (op : String) (operands : List Value) (hd : Value.depthList operands < d)
    (n : Nat) (qp : QueryParser) :
    Outcome true qp (infixOpLoop walk op operands n qp) := by
  induction operands generalizing n qp with
  | nil => exact outcome_ok_self _ _
  | cons v vs ih =>
    simp only [Value.depthList, Nat.max_lt] at hd
    simp only [infixOpLoop]
    have hq : qp.Extends (if n > 0 then
        ((if op ≠ "," then qp.emit " " else qp).emit op).emit " " else qp) := by
      split
      · split <;> simp
      · simp
    have hc : (if n > 0 then
        ((if op ≠ "," then qp.emit " " else qp).emit op).emit " " else qp).context
        = qp.context := by
      split
      · split <;> rfl
      · rfl
    refine Outcome.of_state ?_ hq hc
    exact (hw _ v hd.1).step (fun e he => by simp only [he])
      (fun r hr => by simp only [hr]; exact ih hd.2 _ _)

theorem outcome_infixOp {d : Nat} {walk : Walk} (hw : WalkOutcome d walk)
    (op : String) (operands : List Value) (hd : Value.depthList operands < d)
    (qp : QueryParser) : Outcome false qp (infixOp walk op operands qp) :=
  (outcome_infixOpLoop hw op operands hd 0 qp).weaken

theorem outcome_writeArgList {d : Nat} {walk : Walk} (hw : WalkOutcome d walk)
    (operands : List Value) (hd : Value.depthList operands < d) (qp : QueryParser) :
    Outcome true qp (writeArgList walk operands qp) :=
  outcome_invokeHandler _ _ _ _ (fun q => outcome_infixOp hw "," operands hd q) qp

theorem outcome_existsOp {d : Nat} {walk : Walk} (hw : WalkOutcome d walk)
    (op : String) (operands : List Value) (hd : Value.depthList operands < d)
    (qp : QueryParser) : Outcome false qp (existsOp walk op operands qp) := by
  have h0 := Nat.lt_of_le_of_lt (depth_operandAt_le operands 0) hd
  unfold existsOp
  have h := outcome_writeNestedPropertyOpIfAny qp "fl_exists" operands
  cases hres : writeNestedPropertyOpIfAny qp "fl_exists" operands with
  | error e => rw [hres] at h; exact h
  | ok r =>
    rw [hres] at h
    obtain ⟨b, q⟩ := r
    cases b
    · simp only
      split
      · exact (hw _ _ h0).weaken.of_state (by simpa using h.1) h.2
      · exact (hw _ _ h0).weaken.of_state (by simpa using h.1) h.2
    · exact outcome_ok h.1 h.2

theorem outcome_betweenOp {d : Nat} {walk : Walk} (hw : WalkOutcome d walk)
    (op : String) (operands : List Value) (hd : Value.depthList operands < d)
    (qp : QueryParser) : Outcome false qp (betweenOp walk op operands qp) := by
  have h0 := Nat.lt_of_le_of_lt (depth_operandAt_le operands 0) hd
  have h1 := Nat.lt_of_le_of_lt (depth_operandAt_le operands 1) hd
  have h2 := Nat.lt_of_le_of_lt (depth_operandAt_le operands 2) hd
  unfold betweenOp
  refine (hw _ _ h0).step (fun e he => by simp only [he]) (fun r hr => ?_)
  simp only [hr]
  refine Outcome.of_state ?_ (by simp : r.Extends (((r.emit " ").emit op).emit " ")) rfl
  refine (hw _ _ h1).step (fun e he => by simp only [he]) (fun r1 hr1 => ?_)
  simp only [hr1]
  exact (hw _ _ h2).weaken.of_state (by simp) rfl

theorem outcome_inOp {d : Nat} {walk : Walk} (hw : WalkOutcome d walk)
    (op : String) (operands : List Value) (hd : Value.depthList operands < d)
    (qp : QueryParser) : Outcome false qp (inOp walk op operands qp) := by
  have h0 := Nat.lt_of_le_of_lt (depth_operandAt_le operands 0) hd
  have ht := Nat.lt_of_le_of_lt (depthList_tail_le operands) hd
  unfold inOp
  refine (hw _ _ h0).step (fun e he => by simp only [he]) (fun r hr => ?_)
  simp only [hr]
  exact (outcome_writeArgList hw _ ht _).weaken.of_state (by simp) rfl

theorem outcome_matchOp {d : Nat} {walk : Walk} (hw : WalkOutcome d walk)
    (op : String) (operands : List Value) (hd : Value.depthList operands < d)
    (qp : QueryParser) : Outcome false qp (matchOp walk op operands qp) := by
  have h1 := Nat.lt_of_le_of_lt (depth_operandAt_le operands 1) hd
  unfold matchOp
  have hne := propertyFromNode_ne_fuel (operandAt operands 0)
  cases hprop : propertyFromNode (operandAt operands 0) with
  | error e =>
    simp only [Outcome]
    intro he; subst he; exact hne hprop
  | ok property =>
    simp only
    split
    · exact outcome_fail _ _ _
    · refine Outcome.of_state ?_
        (by simpa using extends_AddFTSPropertyIndex qp property :
          qp.Extends ((((AddFTSPropertyIndex qp property).2.emit "(FTS").emit
            (ToString.toString (AddFTSPropertyIndex qp property).1)).emit ".text MATCH "))
        (context_AddFTSPropertyIndex qp property)
      refine (hw _ _ h1).step (fun e he => by simp only [he]) (fun r hr => ?_)
      simp only [hr]
      exact outcome_ok (by simp) rfl

theorem outcome_parameterOp (op : String) (operands : List Value) (qp : QueryParser) :
    Outcome false qp (parameterOp op operands qp) := by
  unfold parameterOp
  simp only
  split
  · exact outcome_ok (by simpa using QueryParser.Extends.insertParameter qp _) rfl
  · exact outcome_ok (by simpa using QueryParser.Extends.insertParameter qp _) rfl
  · exact outcome_fail _ _ _
theorem writeBaseColumns_eq (cols : List String) (qp : QueryParser) (n : Nat) :
    (writeBaseColumns cols qp n).1
      = { qp with sql := (writeBaseColumns cols qp n).1.sql } := by
  induction cols generalizing qp n with
  | nil => rfl
  | cons c cs ih => simp only [writeBaseColumns]; rw [ih]; rfl

theorem writeOffsetsColumns_eq (cols : List String) (qp : QueryParser) (n : Nat) :
    (writeOffsetsColumns cols qp n).1
      = { qp with sql := (writeOffsetsColumns cols qp n).1.sql } := by
  induction cols generalizing qp n with
  | nil => rfl
  | cons c cs ih => simp only [writeOffsetsColumns]; rw [ih]; rfl

theorem writeFTSJoins_eq (cols : List String) (qp : QueryParser) (n : Nat) :
    writeFTSJoins cols qp n = { qp with sql := (writeFTSJoins cols qp n).sql } := by
  induction cols generalizing qp n with
  | nil => rfl
  | cons c cs ih => simp only [writeFTSJoins]; rw [ih]; rfl

theorem extends_withSql (qp : QueryParser) (s : String) :
    qp.Extends { qp with sql := s } :=
  (QueryParser.Extends.refl qp).withSql_right s

/-- The 'What' and FROM clauses change nothing but the stream. -/
theorem writeWhatAndFrom_eq (operands : Option (List (String × Value)))
    (qp r : QueryParser) (h : writeWhatAndFrom operands qp = .ok r) :
    r = { qp with sql := r.sql } := by
  unfold writeWhatAndFrom at h
  simp only at h
  split at h
  · simp [fail] at h
  · split at h
    · simp [fail] at h
    · simp only [Except.ok.injEq] at h
      subst h
      rw [writeFTSJoins_eq]
      simp only [QueryParser.emit]
      split
      · rw [writeOffsetsColumns_eq, writeBaseColumns_eq]
      · rw [writeOffsetsColumns_eq, writeBaseColumns_eq]

theorem outcome_writeWhatAndFrom (operands : Option (List (String × Value)))
    (qp : QueryParser) : Outcome true qp (writeWhatAndFrom operands qp) := by
  cases h : writeWhatAndFrom operands qp with
  | error e =>
    unfold writeWhatAndFrom at h
    simp only at h
    split at h
    · simp only [fail, Except.error.injEq] at h; subst h; simp [Outcome]
    · split at h
      · simp only [fail, Except.error.injEq] at h; subst h; simp [Outcome]
      · simp at h
  | ok r =>
    rw [writeWhatAndFrom_eq operands qp r h]
    exact outcome_ok (extends_withSql qp _) rfl

theorem outcome_writeLimitOffset (qp : QueryParser) :
    qp.Extends (writeLimitOffset qp) ∧ (writeLimitOffset qp).context = qp.context := by
  unfold writeLimitOffset
  simp only
  split <;> split <;> simp

theorem outcome_writeWhere {d : Nat} {walk : Walk} (hw : WalkOutcome d walk)
    (whereExpr : Option Value) (hwhere : ∀ w, whereExpr = some w → w.depth < d)
    (qp : QueryParser) : Outcome true qp (writeWhere walk whereExpr qp) := by
  cases whereExpr with
  | none => exact outcome_ok_self _ _
  | some w => exact (hw _ w (hwhere w rfl)).of_state (by simp) rfl

theorem outcome_writeOrderBy {d : Nat} {walk : Walk} (hw : WalkOutcome d walk)
    (operands : Option (List (String × Value)))
    (hops : ∀ es, operands = some es → Value.depthEntries es < d)
    (qp : QueryParser) : Outcome true qp (writeOrderBy walk operands qp) := by
  unfold writeOrderBy
  cases hord : operands.bind (fun d => Dict.get d "ORDER BY") with
  | none => exact outcome_ok_self _ _
  | some order =>
    simp only
    cases harr : order.asArray with
    | none => exact outcome_fail _ _ _
    | some orderBys =>
      have hdepth : Value.depthList orderBys < d := by
        cases operands with
        | none => simp at hord
        | some es =>
          simp only [Option.bind] at hord
          have h1 := depth_le_depthEntries hord
          have h2 := depth_asArray harr
          have h3 := hops es rfl
          omega
      simp only
      have h := outcome_writeArgList hw orderBys hdepth
        ((qp.emit " ORDER BY ").pushContext kOrderByOperation)
      cases hres : writeArgList walk orderBys
          ((qp.emit " ORDER BY ").pushContext kOrderByOperation) with
      | error e => rw [hres] at h; exact h
      | ok r =>
        rw [hres] at h
        have h2 := h.2
        simp only [contextKept, if_true] at h2
        refine outcome_ok (by simpa using h.1) ?_
        simp [QueryParser.popContext, h2, QueryParser.pushContext]

theorem outcome_scanWhere (whereExpr : Option Value) (qp : QueryParser) :
    Outcome true qp (scanWhere whereExpr qp) := by
  cases whereExpr with
  | none => exact outcome_ok_self _ _
  | some w => exact outcome_findFTSProperties qp w

theorem outcome_writeSelect {d : Nat} {walk : Walk} (hw : WalkOutcome d walk)
    (whereExpr : Option Value) (operands : Option (List (String × Value)))
    (hwhere : ∀ w, whereExpr = some w → w.depth < d)
    (hops : ∀ es, operands = some es → Value.depthEntries es < d)
    (qp : QueryParser) : Outcome true qp (writeSelect walk whereExpr operands qp) := by
  unfold writeSelect writeClauses
  refine (outcome_scanWhere whereExpr qp).step (fun e he => by simp only [he])
    (fun r0 hr0 => ?_)
  simp only [hr0]
  refine (outcome_writeWhatAndFrom operands r0).step (fun e he => by simp only [he])
    (fun r1 hr1 => ?_)
  simp only [hr1]
  refine (outcome_writeWhere hw whereExpr hwhere r1).step (fun e he => by simp only [he])
    (fun r2 hr2 => ?_)
  simp only [hr2]
  refine (outcome_writeOrderBy hw operands hops r2).step (fun e he => by simp only [he])
    (fun r3 hr3 => ?_)
  simp only [hr3]
  exact outcome_ok (outcome_writeLimitOffset r3).1 (outcome_writeLimitOffset r3).2

theorem outcome_writeSelectDict {d : Nat} {walk : Walk} (hw : WalkOutcome d walk)
    (operands : List (String × Value)) (hops : Value.depthEntries operands < d)
    (qp : QueryParser) : Outcome true qp (writeSelectDict walk operands qp) := by
  unfold writeSelectDict
  apply outcome_writeSelect hw
  · intro w hwh
    exact Nat.lt_of_le_of_lt (depth_le_depthEntries hwh) hops
  · intro es hes
    cases hes; exact hops

/-- The outcome of `parse`, seen from the parser after `reset`. -/
theorem outcome_parse {d : Nat} {walk : Walk} (hw : WalkOutcome d walk)
    (expression : Value) (hd : expression.depth < d) (qp : QueryParser) :
    Outcome true qp.reset (parse walk qp expression) := by
  unfold parse
  cases hdict : expression.asDict with
  | some es =>
    simp only
    apply outcome_writeSelectDict hw
    have := depth_asDict hdict
    omega
  | none =>
    have himp : Outcome true qp.reset (writeSelect walk (some expression) none qp.reset) := by
      apply outcome_writeSelect hw
      · intro w hwh; cases hwh; exact hd
      · intro es hes; cases hes
    simp only
    split
    · split
      · exact hw _ _ hd
      · exact himp
    · exact himp

theorem outcome_selectOp {d : Nat} {walk : Walk} (hw : WalkOutcome d walk)
    (op : String) (operands : List Value) (hd : Value.depthList operands < d)
    (qp : QueryParser) : Outcome false qp (selectOp walk op operands qp) := by
  have h0 := Nat.lt_of_le_of_lt (depth_operandAt_le operands 0) hd
  unfold selectOp
  cases hdict : (operandAt operands 0).asDict with
  | none => exact outcome_fail _ _ _
  | some es =>
    have hes := depth_asDict hdict
    simp only
    split
    · exact (outcome_writeSelectDict hw es (by omega) qp).weaken
    · have hp := outcome_parse hw (Value.dict es) (by simp only [Value.depth]; omega)
        (QueryParser.new qp.tableName qp.bodyColumnName)
      cases hres : parse walk (QueryParser.new qp.tableName qp.bodyColumnName)
          (Value.dict es) with
      | error e => rw [hres] at hp; exact hp
      | ok nested => exact outcome_ok (by simp) rfl

theorem outcome_fallbackSpecialCase (op : String) (operands : List Value)
    (qp : QueryParser) : FlagOutcome qp (fallbackSpecialCase op operands qp) := by
  unfold fallbackSpecialCase
  split
  · exact outcome_writeNestedPropertyOpIfAny qp _ operands
  · split
    · exact outcome_writeNestedPropertyOpIfAny qp _ operands
    · exact ⟨QueryParser.Extends.refl qp, rfl⟩

theorem dropLast_setContextBack (qp : QueryParser) (op : Operation) :
    (qp.setContextBack op).context.dropLast = qp.context.dropLast := by
  simp [QueryParser.setContextBack]

theorem outcome_fallbackOp {d : Nat} {walk : Walk} (hw : WalkOutcome d walk)
    (op : String) (operands : List Value) (hd : Value.depthList operands < d)
    (qp : QueryParser) : Outcome false qp (fallbackOp walk op operands qp) := by
  unfold fallbackOp
  split
  · exact outcome_fail _ _ _
  · simp only
    have h := outcome_fallbackSpecialCase (String.mk op.data.dropLast.dropLast) operands
      (qp.setContextBack { qp.contextBack with op := some op })
    have hback : contextKept false qp.context
        (qp.setContextBack { qp.contextBack with op := some op }).context := by
      simp only [contextKept, Bool.false_eq_true, if_false]
      exact dropLast_setContextBack qp _
    refine Outcome.from ?_ (by simp : qp.Extends
      (qp.setContextBack { qp.contextBack with op := some op })) hback
    cases hres : fallbackSpecialCase (String.mk op.data.dropLast.dropLast) operands
        (qp.setContextBack { qp.contextBack with op := some op }) with
    | error e => rw [hres] at h; exact h
    | ok r =>
      rw [hres] at h
      obtain ⟨b, q⟩ := r
      cases b
      · simp only
        exact (outcome_writeArgList hw operands hd _).weaken.of_state (by simpa using h.1) h.2
      · exact outcome_ok h.1 h.2

theorem outcome_handlerOf {d : Nat} {walk : Walk} (hw : WalkOutcome d walk)
    (h : OpHandler) (op : String) (operands : List Value)
    (hd : Value.depthList operands < d) (qp : QueryParser) :
    Outcome false qp (handlerOf walk h op operands qp) := by
  cases h with
  | propertyOp => exact (outcome_writePropertyOp qp "fl_value" operands).weaken
  | parameterOp => exact outcome_parameterOp op operands qp
  | infixOp => exact outcome_infixOp hw op operands hd qp
  | prefixOp => exact outcome_prefixOp hw op operands hd qp
  | postfixOp => exact outcome_postfixOp hw op operands hd qp
  | inOp => exact outcome_inOp hw op operands hd qp
  | matchOp => exact outcome_matchOp hw op operands hd qp
  | betweenOp => exact outcome_betweenOp hw op operands hd qp
  | existsOp => exact outcome_existsOp hw op operands hd qp
  | selectOp => exact outcome_selectOp hw op operands hd qp
  | fallbackOp => exact outcome_fallbackOp hw op operands hd qp
  | none => exact outcome_ok_self _ _

theorem outcome_handleOperation {d : Nat} {walk : Walk} (hw : WalkOutcome d walk)
    (op : Operation) (actualOperator : String) (operands : List Value)
    (hd : Value.depthList operands < d) (qp : QueryParser) :
    Outcome true qp (handleOperation walk op actualOperator operands qp) :=
  outcome_invokeHandler _ _ _ _
    (fun q => outcome_handlerOf hw op.handler actualOperator operands hd q) qp

theorem outcome_parseOpNode {d : Nat} {walk : Walk} (hw : WalkOutcome d walk)
    (node : List Value) (hd : Value.depthList node < d) (qp : QueryParser) :
    Outcome true qp (parseOpNode walk qp node) := by
  unfold parseOpNode
  cases node with
  | nil => exact outcome_fail _ _ _
  | cons first operands =>
    simp only [Value.depthList, Nat.max_lt] at hd
    simp only
    split
    · exact outcome_fail _ _ _
    · split
      · exact outcome_fail _ _ _
      · exact outcome_handleOperation hw _ _ operands hd.2 qp

theorem outcome_parseNodeBody (walk : Walk) (node : Value)
    (hw : WalkOutcome node.depth walk) (qp : QueryParser) :
    Outcome true qp (parseNodeBody walk qp node) := by
  cases node with
  | array items =>
    simp only [parseNodeBody]
    exact outcome_parseOpNode hw items (by simp [Value.depth]) qp
  | string str =>
    simp only [parseNodeBody]
    exact outcome_ok (extends_withSql qp _) rfl
  | data b => exact outcome_fail _ _ _
  | dict es => exact outcome_fail _ _ _
  | _ => exact outcome_ok (by simp) rfl

/-- With a budget above the depth of the node the walker never runs out of budget; it
keeps the configuration and the context stack, and only extends the FTS list and the
parameter set. -/
theorem outcome_parseNode (n : Nat) : WalkOutcome n (parseNode n) := by
  induction n with
  | zero => intro qp v hv; simp at hv
  | succ n ih =>
    intro qp v hv
    simp only [parseNode]
    apply outcome_parseNodeBody
    intro qp' v' hv'
    exact ih qp' v' (by omega)
/-! ## Implicit WHERE -/

theorem findFTSProperties_noMatch_aux (n : Nat) :
    (∀ (v : Value) (qp : QueryParser), v.depth ≤ n → v.containsMatch = false →
      findFTSProperties qp v = .ok qp) ∧
    (∀ (vs : List Value) (qp : QueryParser), Value.depthList vs ≤ n →
      Value.containsMatchList vs = false → findFTSPropertiesIn qp vs = .ok qp) := by
  have hlist : ∀ (m : Nat), (∀ (v : Value) (qp : QueryParser), v.depth ≤ m →
      v.containsMatch = false → findFTSProperties qp v = .ok qp) →
      (∀ (vs : List Value) (qp : QueryParser), Value.depthList vs ≤ m →
      Value.containsMatchList vs = false → findFTSPropertiesIn qp vs = .ok qp) := by
    intro m hv vs
    induction vs with
    | nil => intro qp _ _; rw [findFTSPropertiesIn]
    | cons v vs ih =>
      intro qp hd hm
      simp only [Value.depthList, Nat.max_le] at hd
      simp only [Value.containsMatchList, Bool.or_eq_false_iff] at hm
      rw [findFTSPropertiesIn_cons, hv v qp hd.1 hm.1]
      exact ih qp hd.2 hm.2
  induction n with
  | zero =>
    refine ⟨?_, hlist 0 ?_⟩ <;>
    · intro v qp hd _
      cases v with
      | array items => simp [Value.depth] at hd
      | _ => exact findFTSProperties_not_array _ _ (by simp)
  | succ n ih =>
    have hv : ∀ (v : Value) (qp : QueryParser), v.depth ≤ n + 1 →
        v.containsMatch = false → findFTSProperties qp v = .ok qp := by
      intro v qp hd hm
      cases v with
      | array items =>
        simp only [Value.depth, Nat.add_le_add_iff_right] at hd
        cases items with
        | nil => exact findFTSProperties_not_array _ _ (by simp)
        | cons first operands =>
          simp only [Value.containsMatch, headIsMatch, Value.containsMatchList,
            Bool.or_eq_false_iff, beq_eq_false_iff_ne, ne_eq] at hm
          simp only [Value.depthList, Nat.max_le] at hd
          rw [findFTSProperties_array]
          simp only [hm.1, if_false]
          exact ih.2 operands qp hd.2 hm.2.2
      | _ => exact findFTSProperties_not_array _ _ (by simp)
    exact ⟨hv, hlist (n + 1) hv⟩

/-- The scanner leaves the parser unchanged on an expression without MATCH node. -/
theorem findFTSProperties_noMatch (qp : QueryParser) (v : Value)
    (h : v.containsMatch = false) : findFTSProperties qp v = .ok qp :=
  (findFTSProperties_noMatch_aux v.depth).1 v qp (Nat.le_refl _) h

theorem sqlOf_map_prepend (s : String) (r : Except Error QueryParser) :
    sqlOf (r.map (QueryParser.prepend s)) = (sqlOf r).map (fun sql => s ++ sql) := by
  cases r <;> rfl

/-- On a value that is neither a dict nor a SELECT array, `parse` is `writeSelect` with
the value as WHERE clause and no operands. -/
theorem parse_of_not_select (walk : Walk) (qp : QueryParser) (e : Value)
    (hdict : e.asDict = none) (hselect : isSelectArray e = false) :
    parse walk qp e = writeSelect walk (some e) none qp.reset := by
  unfold parse
  simp only [hdict]
  unfold isSelectArray at hselect
  cases harr : e.asArray with
  | none => rfl
  | some items =>
    cases items with
    | nil => rfl
    | cons first rest =>
      simp only [harr, beq_eq_false_iff_ne, ne_eq] at hselect
      simp only [hselect, if_false]

/-- The text `writeSelect` puts in front of the WHERE clause of a fresh parser. -/
theorem writeWhatAndFrom_fresh (tableName bodyColumnName : String) :
    writeWhatAndFrom none (QueryParser.new tableName bodyColumnName).reset
      = .ok ((QueryParser.new tableName bodyColumnName).reset.prepend
          ("SELECT * FROM " ++ tableName)) := by
  have : ("" ++ "SELECT" ++ " *" ++ " FROM " ++ tableName : String)
      = "SELECT * FROM " ++ tableName ++ "" := by
    simp only [String.append_assoc, String.append_empty, String.empty_append]
    rfl
  simp only [writeWhatAndFrom, QueryParser.new, QueryParser.reset, QueryParser.emit,
    writeBaseColumns, writeOffsetsColumns, writeFTSJoins, Option.bind, Option.isSome,
    Bool.false_eq_true, if_false, if_true, QueryParser.prepend, this]

theorem writeLimitOffset_of_empty (qp : QueryParser) (hl : qp.defaultLimit = "")
    (ho : qp.defaultOffset = "") : writeLimitOffset qp = qp := by
  have he : ("" : String).isEmpty = true := by decide
  unfold writeLimitOffset
  simp only [hl, ho, he, not_true_eq_false, if_false]

theorem runParse_implicit (tableName bodyColumnName : String) (e : Value)
    (hdict : e.asDict = none) (hselect : isSelectArray e = false)
    (hmatch : e.containsMatch = false) :
    runParse (QueryParser.new tableName bodyColumnName) e
      = (runParseJustExpression (QueryParser.new tableName bodyColumnName) e).map
          (QueryParser.prepend ("SELECT * FROM " ++ tableName ++ " WHERE ")) := by
  unfold runParse runParseJustExpression parseJustExpression
  rw [parse_of_not_select _ _ _ hdict hselect]
  unfold writeSelect writeClauses
  simp only [scanWhere, findFTSProperties_noMatch _ _ hmatch, writeWhatAndFrom_fresh,
    writeWhere, emit_prepend]
  have hpre : ((QueryParser.new tableName bodyColumnName).reset.emit " WHERE ").prepend
        ("SELECT * FROM " ++ tableName)
      = (QueryParser.new tableName bodyColumnName).reset.prepend
        ("SELECT * FROM " ++ tableName ++ " WHERE ") := by
    simp only [QueryParser.prepend, QueryParser.emit, QueryParser.new, QueryParser.reset,
      String.append_assoc, String.empty_append, String.append_empty]
  rw [hpre, parseNode_prepend _ _ _ _ (Nat.lt_succ_self _)]
  have hout := outcome_parseNode (e.depth + 1)
    (QueryParser.new tableName bodyColumnName).reset e (Nat.lt_succ_self _)
  cases hres : parseNode (e.depth + 1) (QueryParser.new tableName bodyColumnName).reset e with
  | error err => rfl
  | ok r =>
    rw [hres] at hout
    have hl : r.defaultLimit = "" := hout.1.defaultLimit
    have ho : r.defaultOffset = "" := hout.1.defaultOffset
    simp only [Except.map, writeOrderBy, Option.bind]
    rw [writeLimitOffset_of_empty _ (by simpa using hl) (by simpa using ho)]

/-- C1. For every expression `e` that is neither a dict nor an array whose first element
is the string `SELECT`, and that contains no MATCH node, `parse(e)` on a fresh compiler
has the result of `parseJustExpression(e)` with `SELECT * FROM <tableName> WHERE ` put
in front of the SQL: it succeeds exactly when `parseJustExpression(e)` does (and fails
with the same error otherwise), and its SQL is then that text followed by the SQL of
`parseJustExpression(e)`. So `["=", [".", "type"], "note"]` on table `kv_default` with
body column `body` compiles to exactly
`SELECT * FROM kv_default WHERE fl_value(body, 'type') = 'note'`. -/
theorem parse_implicit_where (tableName bodyColumnName : String) (e : Value)
    (hdict : e.asDict = none) (hselect : isSelectArray e = false)
    (hmatch : e.containsMatch = false) :
    (runParse (QueryParser.new tableName bodyColumnName) e
      = (runParseJustExpression (QueryParser.new tableName bodyColumnName) e).map
          (QueryParser.prepend ("SELECT * FROM " ++ tableName ++ " WHERE ")))
    ∧ (sqlOf (runParse (QueryParser.new tableName bodyColumnName) e)
      = (sqlOf (runParseJustExpression (QueryParser.new tableName bodyColumnName) e)).map
          (fun sql => "SELECT * FROM " ++ tableName ++ " WHERE " ++ sql))
    ∧ sqlOf (runParse (QueryParser.new "kv_default" "body")
        (.array [.string "=", .array [.string ".", .string "type"], .string "note"]))
      = some "SELECT * FROM kv_default WHERE fl_value(body, 'type') = 'note'" := by
  have h := runParse_implicit tableName bodyColumnName e hdict hselect hmatch
  refine ⟨h, ?_, by rfl⟩
  rw [h, sqlOf_map_prepend]

/-- C1 at `["=", [".", "type"], "note"]`: the expression is neither a dict nor a SELECT
array and has no MATCH node, `parseJustExpression` gives
`fl_value(body, 'type') = 'note'`, and `parse` gives that text after
`SELECT * FROM kv_default WHERE `. -/
theorem parse_implicit_where_witness :
    sqlOf (runParseJustExpression (QueryParser.new "kv_default" "body")
        (.array [.string "=", .array [.string ".", .string "type"], .string "note"]))
      = some "fl_value(body, 'type') = 'note'"
    ∧ sqlOf (runParse (QueryParser.new "kv_default" "body")
        (.array [.string "=", .array [.string ".", .string "type"], .string "note"]))
      = (sqlOf (runParseJustExpression (QueryParser.new "kv_default" "body")
          (.array [.string "=", .array [.string ".", .string "type"],
            .string "note"]))).map
          (fun sql => "SELECT * FROM " ++ "kv_default" ++ " WHERE " ++ sql) :=
  ⟨by rfl, (parse_implicit_where "kv_default" "body"
    (.array [.string "=", .array [.string ".", .string "type"], .string "note"])
    (by rfl) (by rfl) (by rfl)).2.1⟩
/-! ## SQL string quoting -/

theorem writeDoubled_eq (out : String) (cs : List Char) :
    writeDoubled out cs = out ++ String.mk (doubleApostrophes cs) := by
  induction cs generalizing out with
  | nil => simp [writeDoubled, doubleApostrophes]
  | cons c cs ih =>
    by_cases hc : c = apostrophe
    · simp only [writeDoubled, doubleApostrophes, hc, if_true, ih]
      apply String.ext
      simp [apostrophe]
    · simp only [writeDoubled, doubleApostrophes, hc, if_false, ih]
      apply String.ext
      simp

theorem doubleApostrophes_of_simple (cs : List Char)
    (h : (cs.any fun c => c == apostrophe) = false) : doubleApostrophes cs = cs := by
  induction cs with
  | nil => rfl
  | cons c cs ih =>
    simp only [List.any_cons, Bool.or_eq_false_iff, beq_eq_false_iff_ne, ne_eq] at h
    simp only [doubleApostrophes, h.1, if_false, ih h.2]

/-- C4. For every byte string `s` and whatever the stream `out` holds,
`writeSQLString` appends one apostrophe, then `s` with every apostrophe replaced by two
apostrophes and every other byte unchanged, then one apostrophe: the fast path for a
string without apostrophe and the doubling path both give `sqlQuote s`. The string
value `it's` is emitted as `'it''s'`, by `writeSQLString` and by the walker. -/
theorem writeSQLString_eq_sqlQuote :
    (∀ (out s : String), writeSQLString out s = out ++ sqlQuote s)
    ∧ (∀ s : String, sqlQuote s
        = "'" ++ String.mk (doubleApostrophes s.data) ++ "'")
    ∧ (∀ s : String, (s.data.any fun c => c == apostrophe) = false →
        writeSQLString "" s = "'" ++ s ++ "'")
    ∧ writeSQLString "" "it's" = "'it''s'"
    ∧ sqlOf (runParseJustExpression (QueryParser.new "kv_default" "body")
        (.string "it's")) = some "'it''s'" := by
  have hgen : ∀ (out s : String), writeSQLString out s = out ++ sqlQuote s := by
    intro out s
    unfold writeSQLString sqlQuote
    by_cases h : (s.data.any fun c => c == apostrophe) = true
    · simp only [h, Bool.not_true, Bool.false_eq_true, if_false, writeDoubled_eq,
        String.append_assoc]
    · simp only [Bool.not_eq_true] at h
      simp only [h, Bool.not_false, if_true, doubleApostrophes_of_simple _ h,
        String.append_assoc]
  refine ⟨hgen, fun _ => rfl, ?_, by rfl, by rfl⟩
  intro s h
  rw [hgen, sqlQuote, doubleApostrophes_of_simple _ h]
  simp
/-! ## Operation nodes -/

@[simp] theorem contextBack_pushContext (qp : QueryParser) (op : Operation) :
    (qp.pushContext op).contextBack = op := by
  simp [QueryParser.contextBack, QueryParser.pushContext, List.getLastD_eq_getLast?]

@[simp] theorem contextBack_emit (qp : QueryParser) (t : String) :
    (qp.emit t).contextBack = qp.contextBack := rfl

@[simp] theorem contextBack_reset (qp : QueryParser) :
    qp.reset.contextBack = kOuterOperation := rfl

theorem emit_emit (qp : QueryParser) (a b : String) :
    (qp.emit a).emit b = qp.emit (a ++ b) := by
  simp [QueryParser.emit, String.append_assoc]

theorem pushContext_emit (qp : QueryParser) (d : Operation) (t : String) :
    (qp.pushContext d).emit t = (qp.emit t).pushContext d := rfl

theorem popContext_pushContext (qp : QueryParser) (d : Operation) :
    (qp.pushContext d).popContext = qp := by
  cases qp; simp [QueryParser.pushContext, QueryParser.popContext]

@[simp] theorem config_emit (qp : QueryParser) (t : String) :
    (qp.emit t).config = qp.config := rfl

@[simp] theorem config_pushContext (qp : QueryParser) (d : Operation) :
    (qp.pushContext d).config = qp.config := rfl

@[simp] theorem config_popContext (qp : QueryParser) :
    qp.popContext.config = qp.config := rfl

@[simp] theorem config_reset (qp : QueryParser) : qp.reset.config = qp.config := rfl

@[simp] theorem config_config (qp : QueryParser) : qp.config.config = qp.config := rfl

theorem config_withSql (qp : QueryParser) (s : String) :
    ({ qp with sql := s } : QueryParser).config = qp.config := rfl

theorem contextBack_eq_of_context {a b : QueryParser} (h : a.context = b.context) :
    a.contextBack = b.contextBack := by
  simp [QueryParser.contextBack, h]

/-- The walker on an operation node whose symbol and operand count select the table
entry `d`: `handleOperation` runs the handler of `d`. -/
theorem parseNode_op (n : Nat) (qp : QueryParser) (op : String) (operands : List Value)
    (d : Operation)
    (hd : lookupOperation op (min operands.length 9) kOperationList false = (d, true))
    (hop : d.op.isSome = true) :
    parseNode (n + 1) qp (.array (.string op :: operands))
      = invokeHandler (handlerOf (parseNode n) d.handler) d op operands qp := by
  simp only [parseNode, parseNodeBody, parseOpNode, Value.asString, hd, handleOperation]
  have : d.op.isNone = false := by
    cases hd' : d.op with
    | none => simp [hd'] at hop
    | some _ => rfl
  simp [this]

theorem lookup_infix (A : String) (hA : A ∈ infixOperators) :
    ∃ d, lookupOperation A 2 kOperationList false = (d, true) ∧ d.op = some A
      ∧ d.handler = .infixOp ∧ 2 ≤ d.precedence ∧ d.precedence ≤ 8 ∧ A ≠ "," := by
  simp only [infixOperators, List.mem_cons, List.mem_singleton, List.not_mem_nil,
    or_false] at hA
  rcases hA with h | h | h | h | h | h | h | h | h | h | h | h | h | h | h | h | h <;>
    subst h <;> exact ⟨_, rfl, rfl, rfl, by decide, by decide, by decide⟩

/-- The handler `infixOp` on two operands: the first operand, the operator between two
spaces, the second operand. -/
theorem infixOp_two (walk : Walk) (A : String) (hA : A ≠ ",") (u v : Value)
    (q : QueryParser) :
    infixOp walk A [u, v] q
      = match walk q u with
        | .error e => .error e
        | .ok q1 => walk (((q1.emit " ").emit A).emit " ") v := by
  simp only [infixOp, infixOpLoop, Nat.lt_irrefl, gt_iff_lt, if_false, Nat.zero_add,
    Nat.lt_one_iff, Nat.zero_lt_one, if_true, ne_eq, hA, not_false_eq_true]
  cases walk q u with
  | error e => rfl
  | ok q1 =>
    simp only
    cases walk (((q1.emit " ").emit A).emit " ") v <;> rfl

/-- What the walker does with a scalar or a property node does not depend on the text in
the stream nor on the context stack, as long as the top of the stack has a precedence
below that of the property operator: it appends to the stream the text the node emits
when compiled on its own. -/
theorem leaf_walk (w w' : Walk) (v : Value) (hv : isScalarOrProperty v = true)
    (q : QueryParser) (hq : q.contextBack.precedence < 9) :
    parseNodeBody w q v
      = (parseNodeBody w' ({ q with sql := "" } : QueryParser).reset v).map
          (fun r => q.emit r.sql) := by
  cases v with
  | null => simp [parseNodeBody, Except.map, QueryParser.emit, QueryParser.reset,
      String.append_assoc]
  | bool b => simp [parseNodeBody, Except.map, QueryParser.emit, QueryParser.reset]
  | int i => simp [parseNodeBody, Except.map, QueryParser.emit, QueryParser.reset]
  | float t s => simp [parseNodeBody, Except.map, QueryParser.emit, QueryParser.reset]
  | string s =>
    have := writeSQLString_append q.sql "" s
    simp only [String.append_empty] at this
    simp [parseNodeBody, Except.map, QueryParser.emit, QueryParser.reset, this]
  | data b => simp [isScalarOrProperty] at hv
  | dict es => simp [isScalarOrProperty] at hv
  | array items =>
    cases items with
    | nil => simp [isScalarOrProperty] at hv
    | cons first rest =>
      simp only [isScalarOrProperty, beq_iff_eq] at hv
      cases rest with
      | nil =>
        simp [parseNodeBody, parseOpNode, hv, lookupOperation, kOperationList, fail,
          Except.map]
      | cons a rest =>
        have hlook : lookupOperation "." (min (a :: rest).length 9) kOperationList false
            = (⟨some ".", 1, 9, 9, .propertyOp⟩, true) := by
          simp only [lookupOperation, kOperationList, List.length_cons]
          have h1 : 1 ≤ min (rest.length + 1) 9 := by omega
          have h2 : min (rest.length + 1) 9 ≤ 9 := by omega
          simp [h1, h2]
        have hnot : ¬ ((9 : Int) ≤ q.contextBack.precedence) := by omega
        simp only [parseNodeBody, parseOpNode, hv, hlook, handleOperation, invokeHandler,
          handlerOf, propertyOp, writePropertyOp, hnot, decide_False, Bool.false_eq_true,
          if_false, contextBack_reset, kOuterOperation, Option.isNone, and_false]
        cases propertyFromOperands (a :: rest) with
        | error e => rfl
        | ok property =>
          simp only [writePropertyGetter]
          by_cases h1 : property = "_id"
          · simp [h1, Except.map, QueryParser.emit, QueryParser.popContext,
              QueryParser.pushContext, QueryParser.reset]
          · by_cases h2 : property = "_sequence"
            · simp [h1, h2, Except.map, QueryParser.emit, QueryParser.popContext,
                QueryParser.pushContext, QueryParser.reset]
            · simp [h1, h2, Except.map, QueryParser.emit, QueryParser.popContext,
                QueryParser.pushContext, QueryParser.reset, String.append_assoc,
                writeSQLString_append]
/-! ## Nested infix operators -/

/-- The walker on a scalar or a property node, in a parser that has the configuration
of `qp`: it appends the text the node emits on its own. -/
theorem leaf_parseNode (n : Nat) (v : Value) (hv : isScalarOrProperty v = true)
    (qp q : QueryParser) (hq : q.contextBack.precedence < 9)
    (hcfg : q.config = qp.config) :
    parseNode (n + 1) q v
      = (runParseJustExpression { qp with sql := "" } v).map (fun r => q.emit r.sql) := by
  unfold runParseJustExpression parseJustExpression
  rw [show ({ qp with sql := "" } : QueryParser).reset = q.config from hcfg.symm]
  exact leaf_walk _ _ v hv q hq

theorem depth_nested (A B : String) (x y z : Value) :
    ∃ m, (Value.array [.string A, x, .array [.string B, y, z]]).depth = m + 2 := by
  refine ⟨max (x.depth - 1) (max y.depth z.depth), ?_⟩
  simp [Value.depth, Value.depthList]
  omega

/-- The walker on `[B, y, z]` for an infix table entry `dB` and scalar or property
operands, in any parser `q` with the configuration of `qp`: it appends `Y B Z`, in
parentheses exactly when the precedence of `dB` is at most that of the top of the
context stack. -/
theorem infix_leaves (n : Nat) (qp q : QueryParser) (B : String) (y z : Value)
    (dB : Operation)
    (hB : lookupOperation B 2 kOperationList false = (dB, true)) (hBop : dB.op = some B)
    (hBh : dB.handler = .infixOp) (hB8 : dB.precedence ≤ 8) (hBc : B ≠ ",")
    (hy : isScalarOrProperty y = true) (hz : isScalarOrProperty z = true)
    (hcfg : q.config = qp.config) :
    parseNode (n + 2) q (.array [.string B, y, z])
      = (runParseJustExpression { qp with sql := "" } y).bind fun ry =>
        (runParseJustExpression { qp with sql := "" } z).bind fun rz =>
          .ok (q.emit (if dB.precedence ≤ q.contextBack.precedence
            then "(" ++ ry.sql ++ " " ++ B ++ " " ++ rz.sql ++ ")"
            else ry.sql ++ " " ++ B ++ " " ++ rz.sql)) := by
  have hBsome : dB.op.isSome = true := by simp [hBop]
  have hdB : dB.precedence < 9 := by omega
  rw [parseNode_op (n + 1) q B [y, z] dB hB hBsome]
  simp only [invokeHandler, hBh, handlerOf, infixOp_two _ B hBc]
  by_cases hp : dB.precedence ≤ q.contextBack.precedence
  · simp only [hp, decide_True, if_true]
    rw [leaf_parseNode n y hy qp ((q.pushContext dB).emit "(")
      (by rw [contextBack_emit, contextBack_pushContext]; exact hdB)
      (by simp only [config_emit, config_pushContext]; exact hcfg)]
    cases runParseJustExpression { qp with sql := "" } y with
    | error e => rfl
    | ok ry =>
      simp only [Except.map, Except.bind]
      rw [leaf_parseNode n z hz qp
        ((((((q.pushContext dB).emit "(").emit ry.sql).emit " ").emit B).emit " ")
        (by simp only [contextBack_emit, contextBack_pushContext]; exact hdB)
        (by simp only [config_emit, config_pushContext]; exact hcfg)]
      cases runParseJustExpression { qp with sql := "" } z with
      | error e => rfl
      | ok rz =>
        simp only [Except.map, pushContext_emit, popContext_pushContext, emit_emit,
          String.append_assoc]
  · simp only [hp, decide_False, if_false, Bool.false_eq_true]
    rw [leaf_parseNode n y hy qp (q.pushContext dB)
      (by rw [contextBack_pushContext]; exact hdB)
      (by simp only [config_emit, config_pushContext]; exact hcfg)]
    cases runParseJustExpression { qp with sql := "" } y with
    | error e => rfl
    | ok ry =>
      simp only [Except.map, Except.bind]
      rw [leaf_parseNode n z hz qp
        (((((q.pushContext dB).emit ry.sql).emit " ").emit B).emit " ")
        (by simp only [contextBack_emit, contextBack_pushContext]; exact hdB)
        (by simp only [config_emit, config_pushContext]; exact hcfg)]
      cases runParseJustExpression { qp with sql := "" } z with
      | error e => rfl
      | ok rz =>
        simp only [Except.map, pushContext_emit, popContext_pushContext, emit_emit,
          String.append_assoc]

/-- The compile of `[A, x, [B, y, z]]` for infix table entries `dA` and `dB` and
scalar or property operands. -/
theorem infix_nesting_aux (qp : QueryParser) (A B : String) (x y z : Value)
    (dA dB : Operation)
    (hA : lookupOperation A 2 kOperationList false = (dA, true)) (hAop : dA.op = some A)
    (hAh : dA.handler = .infixOp) (hA2 : 2 ≤ dA.precedence) (hA8 : dA.precedence ≤ 8)
    (hAc : A ≠ ",")
    (hB : lookupOperation B 2 kOperationList false = (dB, true)) (hBop : dB.op = some B)
    (hBh : dB.handler = .infixOp) (hB8 : dB.precedence ≤ 8) (hBc : B ≠ ",")
    (hx : isScalarOrProperty x = true) (hy : isScalarOrProperty y = true)
    (hz : isScalarOrProperty z = true) :
    emissionOf qp (.array [.string A, x, .array [.string B, y, z]])
      = (emissionOf qp x).bind fun X => (emissionOf qp y).bind fun Y =>
          (emissionOf qp z).bind fun Z =>
            some (if dB.precedence ≤ dA.precedence
              then X ++ " " ++ A ++ " " ++ "(" ++ Y ++ " " ++ B ++ " " ++ Z ++ ")"
              else X ++ " " ++ A ++ " " ++ Y ++ " " ++ B ++ " " ++ Z) := by
  obtain ⟨m, hm⟩ := depth_nested A B x y z
  have hAsome : dA.op.isSome = true := by simp [hAop]
  have hnot : ¬ (dA.precedence ≤ (-1 : Int)) := by omega
  have hdA : dA.precedence < 9 := by omega
  simp only [emissionOf]
  rw [show runParseJustExpression { qp with sql := "" }
        (.array [.string A, x, .array [.string B, y, z]])
      = parseNode (m + 3) ({ qp with sql := "" } : QueryParser).reset
        (.array [.string A, x, .array [.string B, y, z]]) from by
    unfold runParseJustExpression parseJustExpression; rw [hm]]
  rw [parseNode_op _ _ A [x, .array [.string B, y, z]] dA hA hAsome]
  simp only [invokeHandler, contextBack_reset, kOuterOperation, hnot, decide_False,
    Bool.false_eq_true, if_false, hAh, handlerOf, infixOp_two _ A hAc]
  rw [leaf_parseNode (m + 1) x hx qp
    (({ qp with sql := "" } : QueryParser).reset.pushContext dA)
    (by rw [contextBack_pushContext]; exact hdA) rfl]
  cases runParseJustExpression { qp with sql := "" } x with
  | error e => rfl
  | ok rx =>
    simp only [Except.map]
    rw [infix_leaves m qp
      ((((((({ qp with sql := "" } : QueryParser).reset.pushContext dA).emit rx.sql).emit
        " ").emit A).emit " ")) B y z dB hB hBop hBh hB8 hBc hy hz
      (by simp only [config_emit, config_pushContext]; rfl)]
    cases runParseJustExpression { qp with sql := "" } y with
    | error e => rfl
    | ok ry =>
      cases runParseJustExpression { qp with sql := "" } z with
      | error e => rfl
      | ok rz =>
        simp only [Except.bind, sqlOf, QueryParser.SQL, Option.bind, contextBack_emit,
          contextBack_pushContext]
        simp only [pushContext_emit, popContext_pushContext, emit_emit]
        have e : ∀ s : String, " " ++ ("(" ++ s) = " (" ++ s :=
          fun s => by rw [← String.append_assoc]; rfl
        by_cases hp : dB.precedence ≤ dA.precedence
        · simp [hp, QueryParser.emit, QueryParser.reset, String.append_assoc, e]
        · simp [hp, QueryParser.emit, QueryParser.reset, String.append_assoc]

/-- C3. For every pair of infix table operators `A` and `B` that accept two operands
(`||`, `*`, `/`, `%`, `+`, `-`, `<`, `<=`, `>`, `>=`, `=`, `!=`, `IS`, `IS NOT`, `LIKE`,
`AND`, `OR`: exactly the symbols of the table entries handled by `infixOp` whose arity
range contains 2) and all scalar or property operands `x`, `y`, `z`, the node
`[A, x, [B, y, z]]` emits `X A (Y B Z)` when precedence(B) <= precedence(A) and
`X A Y B Z` otherwise, where `X`, `Y`, `Z` are the operands' own emissions (and it fails
exactly when one of the operands does). So
`["AND", ["=", [".", "a"], 1], ["OR", ["=", [".", "b"], 2], ["=", [".", "c"], 3]]]`
compiles to `SELECT * FROM kv_default WHERE fl_value(body, 'a') = 1 AND
(fl_value(body, 'b') = 2 OR fl_value(body, 'c') = 3)`. -/
theorem infix_nesting (qp : QueryParser) (A B : String) (x y z : Value)
    (hA : A ∈ infixOperators) (hB : B ∈ infixOperators)
    (hx : isScalarOrProperty x = true) (hy : isScalarOrProperty y = true)
    (hz : isScalarOrProperty z = true) :
    (emissionOf qp (.array [.string A, x, .array [.string B, y, z]])
      = (emissionOf qp x).bind fun X => (emissionOf qp y).bind fun Y =>
          (emissionOf qp z).bind fun Z =>
            some (if (operationFor B 2).precedence ≤ (operationFor A 2).precedence
              then X ++ " " ++ A ++ " " ++ "(" ++ Y ++ " " ++ B ++ " " ++ Z ++ ")"
              else X ++ " " ++ A ++ " " ++ Y ++ " " ++ B ++ " " ++ Z))
    ∧ infixOperators
      = (kOperationList.filter fun d =>
          decide (d.handler = .infixOp ∧ d.minArgs ≤ 2 ∧ 2 ≤ d.maxArgs)).filterMap
          (fun d => d.op)
    ∧ sqlOf (runParse (QueryParser.new "kv_default" "body")
        (.array [.string "AND",
          .array [.string "=", .array [.string ".", .string "a"], .int 1],
          .array [.string "OR",
            .array [.string "=", .array [.string ".", .string "b"], .int 2],
            .array [.string "=", .array [.string ".", .string "c"], .int 3]]]))
      = some ("SELECT * FROM kv_default WHERE fl_value(body, 'a') = 1 AND "
          ++ "(fl_value(body, 'b') = 2 OR fl_value(body, 'c') = 3)") := by
  obtain ⟨dA, hdA, hAop, hAh, hA2, hA8, hAc⟩ := lookup_infix A hA
  obtain ⟨dB, hdB, hBop, hBh, _, hB8, hBc⟩ := lookup_infix B hB
  refine ⟨?_, by decide!, by decide!⟩
  have hopA : operationFor A 2 = dA := by simp [operationFor, hdA]
  have hopB : operationFor B 2 = dB := by simp [operationFor, hdB]
  rw [hopA, hopB]
  exact infix_nesting_aux qp A B x y z dA dB hdA hAop hAh hA2 hA8 hAc hdB hBop hBh hB8 hBc
    hx hy hz

/-- C3 at `["AND", 1, ["OR", [".", "b"], 3]]` (OR has precedence 2, as AND has, so it is
wrapped) and at `["OR", 1, ["=", [".", "b"], 3]]` (`=` has precedence 3, so it is not
wrapped). -/
theorem infix_nesting_witness :
    ("AND" ∈ infixOperators ∧ "OR" ∈ infixOperators ∧ "=" ∈ infixOperators)
    ∧ emissionOf (QueryParser.new "kv_default" "body")
        (.array [.string "AND", .int 1,
          .array [.string "OR", .array [.string ".", .string "b"], .int 3]])
      = some "1 AND (fl_value(body, 'b') OR 3)"
    ∧ emissionOf (QueryParser.new "kv_default" "body")
        (.array [.string "OR", .int 1,
          .array [.string "=", .array [.string ".", .string "b"], .int 3]])
      = some "1 OR fl_value(body, 'b') = 3" :=
  ⟨⟨by decide, by decide, by decide⟩,
   (infix_nesting (QueryParser.new "kv_default" "body") "AND" "OR" (.int 1)
      (.array [.string ".", .string "b"]) (.int 3) (by decide) (by decide)
      rfl rfl rfl).1.trans (by decide!),
   (infix_nesting (QueryParser.new "kv_default" "body") "OR" "=" (.int 1)
      (.array [.string ".", .string "b"]) (.int 3) (by decide) (by decide)
      rfl rfl rfl).1.trans (by decide!)⟩
/-! ## Parentheses around a nested operation -/

theorem withSql_prepend (q : QueryParser) :
    q = QueryParser.prepend q.sql ({ q with sql := "" } : QueryParser) := by
  cases q; simp [QueryParser.prepend]

/-- The handler of a table entry appends to the stream the text it writes when it is run
on the same parser with an empty stream. -/
theorem handlerOf_from_empty (n : Nat) (h : OpHandler) (op : String) (operands : List Value)
    (hd : Value.depthList operands < n) (q : QueryParser) :
    handlerOf (parseNode n) h op operands q
      = (handlerOf (parseNode n) h op operands ({ q with sql := "" } : QueryParser)).map
          (QueryParser.prepend q.sql) := by
  have hw : WalkAgree n (parseNode n) (parseNode n) := by
    have := parseNode_agree n n
    rwa [Nat.min_self] at this
  have := handlerOf_agree hw h op operands hd q.sql ({ q with sql := "" } : QueryParser)
  rwa [← withSql_prepend] at this

theorem handlerOf_fuel (n m : Nat) (h : OpHandler) (op : String) (operands : List Value)
    (hn : Value.depthList operands < n) (hm : Value.depthList operands < m)
    (q : QueryParser) :
    handlerOf (parseNode n) h op operands q = handlerOf (parseNode m) h op operands q := by
  have hw : WalkAgree (min n m) (parseNode n) (parseNode m) := parseNode_agree n m
  have := handlerOf_agree hw h op operands (by omega) "" q
  rwa [prepend_empty, map_prepend_empty] at this

/-- The walker on a nested node `[B, y, z]` whose symbol selects the table entry `dB`,
met while the entry `dA` is the top of the context stack: the text `EB` that the handler
of `dB` writes for the operands is appended in parentheses exactly when the precedence
of `dB` is at most that of `dA`. -/
theorem nested_node (n : Nat) (q : QueryParser) (B : String) (y z : Value)
    (dA dB : Operation) (hq : q.contextBack = dA)
    (hB : lookupOperation B 2 kOperationList false = (dB, true))
    (hBop : dB.op.isSome = true) (hd : Value.depthList [y, z] < n) :
    parseNode (n + 1) q (.array [.string B, y, z])
      = (handlerOf (parseNode n) dB.handler B [y, z]
          (({ q with sql := "" } : QueryParser).pushContext dB)).map
          (fun rB => { rB.popContext with
            sql := q.sql ++ (if dB.precedence ≤ dA.precedence
              then "(" ++ rB.sql ++ ")" else rB.sql) }) := by
  rw [parseNode_op n q B [y, z] dB hB hBop]
  unfold invokeHandler
  simp only [hq]
  by_cases hp : dB.precedence ≤ dA.precedence
  · simp only [hp, decide_True, if_true]
    rw [handlerOf_from_empty n _ B [y, z] hd ((q.pushContext dB).emit "(")]
    rw [show ({ (q.pushContext dB).emit "(" with sql := "" } : QueryParser)
        = ({ q with sql := "" } : QueryParser).pushContext dB from rfl]
    cases handlerOf (parseNode n) dB.handler B [y, z]
        (({ q with sql := "" } : QueryParser).pushContext dB) with
    | error e => rfl
    | ok rB =>
      simp [Except.map, QueryParser.prepend, QueryParser.emit, QueryParser.popContext,
        QueryParser.pushContext, String.append_assoc]
  · simp only [hp, decide_False, if_false, Bool.false_eq_true]
    rw [handlerOf_from_empty n _ B [y, z] hd (q.pushContext dB)]
    rw [show ({ q.pushContext dB with sql := "" } : QueryParser)
        = ({ q with sql := "" } : QueryParser).pushContext dB from rfl]
    cases handlerOf (parseNode n) dB.handler B [y, z]
        (({ q with sql := "" } : QueryParser).pushContext dB) with
    | error e => rfl
    | ok rB =>
      simp [Except.map, QueryParser.prepend, QueryParser.popContext,
        QueryParser.pushContext]

theorem depth_nested_parts (A B : String) (x y z : Value) (m : Nat)
    (hm : (Value.array [.string A, x, .array [.string B, y, z]]).depth = m + 2) :
    x.depth < m + 2 ∧ Value.depthList [y, z] < m + 1 := by
  simp [Value.depth, Value.depthList] at hm ⊢
  omega

/-- The compile of `[A, x, [B, y, z]]` for an infix operator `A` and a table entry `dB`
selected by `B` with two operands. -/
theorem nested_parentheses_aux (qp : QueryParser) (A B : String) (x y z : Value)
    (dA dB : Operation)
    (hA : lookupOperation A 2 kOperationList false = (dA, true)) (hAop : dA.op = some A)
    (hAh : dA.handler = .infixOp) (hA2 : 2 ≤ dA.precedence) (hAc : A ≠ ",")
    (hB : lookupOperation B 2 kOperationList false = (dB, true))
    (hBop : dB.op.isSome = true) :
    sqlOf (runParseJustExpression qp (.array [.string A, x, .array [.string B, y, z]]))
      = (runParseNode (qp.reset.pushContext dA) x).toOption.bind fun q1 =>
          (runHandler dB B [y, z]
            (({ q1 with sql := "" } : QueryParser).pushContext dB)).toOption.map fun rB =>
              q1.sql ++ " " ++ A ++ " " ++
                (if dB.precedence ≤ dA.precedence then "(" ++ rB.sql ++ ")" else rB.sql) := by
  obtain ⟨m, hm⟩ := depth_nested A B x y z
  obtain ⟨hxd, hyzd⟩ := depth_nested_parts A B x y z m hm
  have hAsome : dA.op.isSome = true := by simp [hAop]
  have hnot : ¬ (dA.precedence ≤ (-1 : Int)) := by omega
  rw [show runParseJustExpression qp (.array [.string A, x, .array [.string B, y, z]])
      = parseNode (m + 3) qp.reset (.array [.string A, x, .array [.string B, y, z]]) from by
    unfold runParseJustExpression parseJustExpression; rw [hm]]
  rw [parseNode_op _ _ A [x, .array [.string B, y, z]] dA hA hAsome]
  simp only [invokeHandler, contextBack_reset, kOuterOperation, hnot, decide_False,
    Bool.false_eq_true, if_false, hAh, handlerOf, infixOp_two _ A hAc]
  have hx : parseNode (m + 2) (qp.reset.pushContext dA) x
      = runParseNode (qp.reset.pushContext dA) x :=
    parseNode_fuel_irrelevant _ _ _ _ hxd (Nat.lt_succ_self _)
  rw [hx]
  have hout := outcome_parseNode (x.depth + 1) (qp.reset.pushContext dA) x
    (Nat.lt_succ_self _)
  cases hres : runParseNode (qp.reset.pushContext dA) x with
  | error e => rfl
  | ok q1 =>
    have hres' : parseNode (x.depth + 1) (qp.reset.pushContext dA) x = .ok q1 := hres
    rw [hres'] at hout
    have hctx : q1.context = (qp.reset.pushContext dA).context := by
      simpa [contextKept] using hout.2
    have hback : (((q1.emit " ").emit A).emit " ").contextBack = dA := by
      simp only [contextBack_emit]
      rw [contextBack_eq_of_context hctx, contextBack_pushContext]
    simp only [Except.toOption, Option.bind]
    rw [nested_node (m + 1) _ B y z dA dB hback hB hBop hyzd]
    rw [show ({ ((q1.emit " ").emit A).emit " " with sql := "" } : QueryParser)
        = ({ q1 with sql := "" } : QueryParser) from rfl]
    rw [handlerOf_fuel (m + 1) (Value.depthList [y, z] + 1) _ B [y, z] hyzd
      (Nat.lt_succ_self _)]
    unfold runHandler
    cases handlerOf (parseNode (Value.depthList [y, z] + 1)) dB.handler B [y, z]
        (({ q1 with sql := "" } : QueryParser).pushContext dB) with
    | error e => rfl
    | ok rB =>
      simp [Except.map, sqlOf, QueryParser.SQL, QueryParser.popContext, QueryParser.emit,
        String.append_assoc]

/-- C2 (amended). For an infix table operator `A` (`||`, `*`, `/`, `%`, `+`, `-`, `<`,
`<=`, `>`, `>=`, `=`, `!=`, `IS`, `IS NOT`, `LIKE`, `AND`, `OR`) and any table operator
`B` that has an entry for two operands, compiling `[A, x, [B, y, z]]` emits `X A `
followed by the text `EB` that the handler of `B` writes for `y` and `z`: in parentheses
exactly when precedence(B) <= precedence(A), hence without parentheses when
precedence(A) < precedence(B) and always in parentheses when the two precedences are
equal. (`X` is what walking `x` under `A` leaves in the stream.) -/
theorem nested_parentheses (qp : QueryParser) (A B : String) (x y z : Value)
    (hA : A ∈ infixOperators)
    (hB : (lookupOperation B 2 kOperationList false).2 = true)
    (hBop : (operationFor B 2).op.isSome = true) :
    sqlOf (runParseJustExpression qp (.array [.string A, x, .array [.string B, y, z]]))
      = (runParseNode (qp.reset.pushContext (operationFor A 2)) x).toOption.bind fun q1 =>
          (runHandler (operationFor B 2) B [y, z]
            (({ q1 with sql := "" } : QueryParser).pushContext
              (operationFor B 2))).toOption.map fun rB =>
              q1.sql ++ " " ++ A ++ " " ++
                (if (operationFor B 2).precedence ≤ (operationFor A 2).precedence
                  then "(" ++ rB.sql ++ ")" else rB.sql) := by
  obtain ⟨dA, hdA, hAop, hAh, hA2, _, hAc⟩ := lookup_infix A hA
  have hopA : operationFor A 2 = dA := by simp [operationFor, hdA]
  rw [hopA]
  exact nested_parentheses_aux qp A B x y z dA (operationFor B 2) hdA hAop hAh hA2 hAc
    (Prod.ext rfl hB) hBop

/-- C2 (amended) at `["*", 1, ["+", 2, 3]]`, where `+` (precedence 6) is wrapped under
`*` (precedence 7), and at `["+", 1, ["*", 2, 3]]`, where `*` is not wrapped. -/
theorem nested_parentheses_witness :
    ("*" ∈ infixOperators ∧ "+" ∈ infixOperators)
    ∧ sqlOf (runParseJustExpression (QueryParser.new "kv_default" "body")
        (.array [.string "*", .int 1, .array [.string "+", .int 2, .int 3]]))
      = some "1 * (2 + 3)"
    ∧ sqlOf (runParseJustExpression (QueryParser.new "kv_default" "body")
        (.array [.string "+", .int 1, .array [.string "*", .int 2, .int 3]]))
      = some "1 + 2 * 3" :=
  ⟨⟨by decide, by decide⟩,
   (nested_parentheses (QueryParser.new "kv_default" "body") "*" "+" (.int 1) (.int 2)
      (.int 3) (by decide) (by decide!) (by decide!)).trans (by decide!),
   (nested_parentheses (QueryParser.new "kv_default" "body") "+" "*" (.int 1) (.int 2)
      (.int 3) (by decide) (by decide!) (by decide!)).trans (by decide!)⟩

/-- C2 as stated fails at `A = IN`, `B = +`: the precedence of `IN` (3) is below that
of `+` (6), yet `["IN", 1, ["+", 2, 3]]` emits the sub-expression `2 + 3` inside
parentheses, those of the argument list of `IN`. -/
theorem in_operand_parenthesized :
    (operationFor "IN" 2).precedence < (operationFor "+" 2).precedence
    ∧ emissionOf (QueryParser.new "kv_default" "body")
        (.array [.string "+", .int 2, .int 3]) = some "2 + 3"
    ∧ emissionOf (QueryParser.new "kv_default" "body")
        (.array [.string "IN", .int 1, .array [.string "+", .int 2, .int 3]])
      = some "1 IN (2 + 3)"
    ∧ emissionOf (QueryParser.new "kv_default" "body")
        (.array [.string "IN", .int 1, .array [.string "+", .int 2, .int 3]])
      ≠ some "1 IN 2 + 3" := by
  decide!
/-! ## Parameters -/

/-- The handler `parameterOp`: a String or Number name is recorded in the parameter set
and written after `$_`; any other name fails. -/
theorem parameterOp_eq (op : String) (name : Value) (rest : List Value)
    (qp : QueryParser) :
    parameterOp op (name :: rest) qp
      = if name.type = .kNumber ∨ name.type = .kString
        then .ok ((qp.insertParameter name.toString).emit ("$_" ++ name.toString))
        else fail "Query parameter name must be number or string" := by
  unfold parameterOp
  simp only [operandAt, List.getD_cons_zero]
  cases name <;> simp [Value.type, emit_emit]

theorem parameter_lookup :
    lookupOperation "$" (min [(default : Value)].length 9) kOperationList false
      = (⟨some "$", 1, 1, 9, .parameterOp⟩, true) := by
  decide!

/-- C10. A parameter node `["$", name]`, walked in a parser whose context stack has a
top of precedence below 9 (so that the walker adds no parentheses), compiles iff `name`
is a String or a Number: it then appends exactly `$_` followed by the textual form of
`name` to the stream and inserts that text into the parameter set, changing nothing
else; with any other kind of name it fails with InvalidQuery. The handler `parameterOp`
does so in every context. So `["=", [".", "n"], ["$", "n"]]` compiles to
`SELECT * FROM kv_default WHERE fl_value(body, 'n') = $_n` with parameter set exactly
`n`. -/
theorem parameter_node (qp : QueryParser) (name : Value)
    (hctx : qp.contextBack.precedence < 9) :
    (runParseNode qp (.array [.string "$", name])
      = if name.type = .kNumber ∨ name.type = .kString
        then .ok ((qp.insertParameter name.toString).emit ("$_" ++ name.toString))
        else .error (.InvalidQuery "Query parameter name must be number or string"))
    ∧ (∀ (op : String) (rest : List Value), parameterOp op (name :: rest) qp
      = if name.type = .kNumber ∨ name.type = .kString
        then .ok ((qp.insertParameter name.toString).emit ("$_" ++ name.toString))
        else .error (.InvalidQuery "Query parameter name must be number or string"))
    ∧ (∀ r, runParseNode qp (.array [.string "$", name]) = .ok r →
        r.sql = qp.sql ++ "$_" ++ name.toString ∧ name.toString ∈ r.parameters)
    ∧ (runParse (QueryParser.new "kv_default" "body")
        (.array [.string "=", .array [.string ".", .string "n"],
          .array [.string "$", .string "n"]])).toOption.map
          (fun r => (r.sql, r.parameters))
      = some ("SELECT * FROM kv_default WHERE fl_value(body, 'n') = $_n", ["n"]) := by
  have hnode : runParseNode qp (.array [.string "$", name])
      = if name.type = .kNumber ∨ name.type = .kString
        then .ok ((qp.insertParameter name.toString).emit ("$_" ++ name.toString))
        else .error (.InvalidQuery "Query parameter name must be number or string") := by
    have hnot : ¬ ((9 : Int) ≤ qp.contextBack.precedence) := by omega
    unfold runParseNode
    rw [parseNode_op _ qp "$" [name] _ parameter_lookup rfl]
    simp only [invokeHandler, handlerOf, hnot, decide_False, Bool.false_eq_true, if_false,
      parameterOp_eq, fail]
    by_cases ht : name.type = .kNumber ∨ name.type = .kString
    · simp only [ht, if_true, QueryParser.insertParameter, QueryParser.emit,
        QueryParser.pushContext, QueryParser.popContext, List.dropLast_concat]
    · simp only [ht, if_false]
  refine ⟨hnode, fun op rest => parameterOp_eq op name rest qp, ?_, by decide!⟩
  intro r hr
  rw [hnode] at hr
  split at hr
  · simp only [Except.ok.injEq] at hr
    subst hr
    refine ⟨by simp [QueryParser.emit, QueryParser.insertParameter, String.append_assoc], ?_⟩
    simp only [QueryParser.emit, QueryParser.insertParameter]
    split
    · assumption
    · simp
  · simp at hr

/-- C10 at the parser after `reset` and the name `n`: the node `["$", "n"]` appends
`$_n` and records `n`. -/
theorem parameter_node_witness :
    (QueryParser.new "kv_default" "body").reset.contextBack.precedence < 9
    ∧ runParseNode (QueryParser.new "kv_default" "body").reset
        (.array [.string "$", .string "n"])
      = .ok (((QueryParser.new "kv_default" "body").reset.insertParameter "n").emit "$_n") :=
  ⟨by decide,
   (parameter_node (QueryParser.new "kv_default" "body").reset (.string "n")
      (by decide)).1.trans (by rfl)⟩
/-! ## The prepared statement of a full-text query -/

/-- C6 as stated fails: neither the statement the constructor of `SQLiteQuery` builds
for `["MATCH", [".", "text"], "hello"]` on table `kv_default` nor the SQL that
`QueryParser::parse` writes with the result columns `sequence`, `key`, `meta`,
`length(body)` is the text of the claim. The constructor always appends
` LIMIT $limit OFFSET $offset`; the parser writes the predicate in a single pair of
parentheses. -/
theorem fts_statement_differs :
    SQLiteQuery.compile "kv_default" (fun _ => true)
        (.array [.string "MATCH", .array [.string ".", .string "text"], .string "hello"])
      ≠ .ok ("SELECT sequence, key, meta, length(body), offsets(\"kv_default::text\") "
          ++ "FROM kv_default, \"kv_default::text\" AS FTS1 "
          ++ "WHERE ((FTS1.text MATCH 'hello' AND FTS1.rowid = kv_default.sequence))")
    ∧ sqlOf (runParse
        { QueryParser.new "kv_default" "body" with
          baseResultColumns := ["sequence", "key", "meta", "length(body)"] }
        (.array [.string "MATCH", .array [.string ".", .string "text"], .string "hello"]))
      ≠ some ("SELECT sequence, key, meta, length(body), offsets(\"kv_default::text\") "
          ++ "FROM kv_default, \"kv_default::text\" AS FTS1 "
          ++ "WHERE ((FTS1.text MATCH 'hello' AND FTS1.rowid = kv_default.sequence))") := by
  decide!

/-- C6 (amended). For the input `["MATCH", [".", "text"], "hello"]` on table
`kv_default`, whose property has a full-text index, the constructor of `SQLiteQuery`
builds exactly the statement of the claim followed by ` LIMIT $limit OFFSET $offset`;
`QueryParser::parse` with the result columns `sequence`, `key`, `meta`, `length(body)`
writes the same SELECT and FROM clauses and the predicate in one pair of parentheses,
without LIMIT and OFFSET. -/
theorem fts_statement :
    SQLiteQuery.compile "kv_default" (fun _ => true)
        (.array [.string "MATCH", .array [.string ".", .string "text"], .string "hello"])
      = .ok ("SELECT sequence, key, meta, length(body), offsets(\"kv_default::text\") "
          ++ "FROM kv_default, \"kv_default::text\" AS FTS1 "
          ++ "WHERE ((FTS1.text MATCH 'hello' AND FTS1.rowid = kv_default.sequence))"
          ++ " LIMIT $limit OFFSET $offset")
    ∧ sqlOf (runParse
        { QueryParser.new "kv_default" "body" with
          baseResultColumns := ["sequence", "key", "meta", "length(body)"] }
        (.array [.string "MATCH", .array [.string ".", .string "text"], .string "hello"]))
      = some ("SELECT sequence, key, meta, length(body), offsets(\"kv_default::text\") "
          ++ "FROM kv_default, \"kv_default::text\" AS FTS1 "
          ++ "WHERE (FTS1.text MATCH 'hello' AND FTS1.rowid = kv_default.sequence)") := by
  decide!
/-! ## The FTS scanner -/

theorem mem_AddFTSPropertyIndex (qp : QueryParser) (property : String) :
    appendPaths qp.propertyPath property
      ∈ (AddFTSPropertyIndex qp property).2.ftsProperties := by
  unfold AddFTSPropertyIndex FTSPropertyIndex
  simp only
  by_cases h : appendPaths qp.propertyPath property ∈ qp.ftsProperties
  · have hlt := List.indexOf_lt_length.mpr h
    have hne : List.indexOf (appendPaths qp.propertyPath property) qp.ftsProperties
        ≠ qp.ftsProperties.length := Nat.ne_of_lt hlt
    simp [hne, h]
  · have heq := List.indexOf_eq_length.mpr h
    simp [heq]

theorem sql_AddFTSPropertyIndex (qp : QueryParser) (property : String) :
    (AddFTSPropertyIndex qp property).2.sql = qp.sql := by
  unfold AddFTSPropertyIndex
  simp only
  split <;> rfl

/-- The scanner writes nothing to the stream. -/
theorem findFTSProperties_sql_aux (n : Nat) :
    (∀ (v : Value) (qp r : QueryParser), v.depth ≤ n →
      findFTSProperties qp v = .ok r → r.sql = qp.sql) ∧
    (∀ (vs : List Value) (qp r : QueryParser), Value.depthList vs ≤ n →
      findFTSPropertiesIn qp vs = .ok r → r.sql = qp.sql) := by
  have hlist : ∀ (m : Nat), (∀ (v : Value) (qp r : QueryParser), v.depth ≤ m →
      findFTSProperties qp v = .ok r → r.sql = qp.sql) →
      (∀ (vs : List Value) (qp r : QueryParser), Value.depthList vs ≤ m →
      findFTSPropertiesIn qp vs = .ok r → r.sql = qp.sql) := by
    intro m hv vs
    induction vs with
    | nil =>
      intro qp r _ h
      rw [findFTSPropertiesIn] at h
      cases h; rfl
    | cons v vs ih =>
      intro qp r hd h
      simp only [Value.depthList, Nat.max_le] at hd
      rw [findFTSPropertiesIn_cons] at h
      cases h1 : findFTSProperties qp v with
      | error e => simp [h1] at h
      | ok q1 =>
        simp only [h1] at h
        rw [ih q1 r hd.2 h, hv v qp q1 hd.1 h1]
  have hscalar : ∀ (v : Value) (qp r : QueryParser),
      (∀ first operands, v ≠ .array (first :: operands)) →
      findFTSProperties qp v = .ok r → r.sql = qp.sql := by
    intro v qp r hne h
    rw [findFTSProperties_not_array _ _ hne] at h
    cases h; rfl
  induction n with
  | zero =>
    refine ⟨?_, hlist 0 ?_⟩ <;>
    · intro v qp r hd h
      cases v with
      | array items => simp [Value.depth] at hd
      | _ => exact hscalar _ _ _ (by simp) h
  | succ n ih =>
    have hv : ∀ (v : Value) (qp r : QueryParser), v.depth ≤ n + 1 →
        findFTSProperties qp v = .ok r → r.sql = qp.sql := by
      intro v qp r hd h
      cases v with
      | array items =>
        simp only [Value.depth, Nat.add_le_add_iff_right] at hd
        cases items with
        | nil => exact hscalar _ _ _ (by simp) h
        | cons first operands =>
          simp only [Value.depthList, Nat.max_le] at hd
          rw [findFTSProperties_array] at h
          split at h
          · cases operands with
            | nil => cases h; rfl
            | cons propertyNode rest =>
              simp only [Value.depthList, Nat.max_le] at hd
              simp only at h
              split at h
              · split at h
                · simp at h
                · rw [ih.2 rest _ r hd.2.2 h, sql_AddFTSPropertyIndex]
              · exact ih.2 rest qp r hd.2.2 h
          · exact ih.2 operands qp r hd.2 h
      | _ => exact hscalar _ _ _ (by simp) h
    exact ⟨hv, hlist (n + 1) hv⟩

theorem findFTSProperties_sql (qp r : QueryParser) (v : Value)
    (h : findFTSProperties qp v = .ok r) : r.sql = qp.sql :=
  (findFTSProperties_sql_aux v.depth).1 v qp r (Nat.le_refl _) h

theorem extends_of_findFTSProperties (qp r : QueryParser) (v : Value)
    (h : findFTSProperties qp v = .ok r) : qp.Extends r := by
  have := outcome_findFTSProperties qp v
  rw [h] at this
  exact this.1

theorem extends_of_findFTSPropertiesIn (qp r : QueryParser) (vs : List Value)
    (h : findFTSPropertiesIn qp vs = .ok r) : qp.Extends r := by
  have := (outcome_findFTSProperties_aux (Value.depthList vs)).2 vs qp (Nat.le_refl _)
  rw [h] at this
  exact this.1

theorem scanFinds_list (vs : List Value) (hv : ∀ v ∈ vs, ScanFinds v)
    (qp r : QueryParser) (h : findFTSPropertiesIn qp vs = .ok r)
    (o : Value) (ho : o ∈ vs) (property : Value) (rest : List Value)
    (hreach : ScanReachable o (.array (.string "MATCH" :: property :: rest)))
    (hprop : property.asArray.isSome = true) :
    ∃ p, propertyFromNode property = .ok p
      ∧ appendPaths qp.propertyPath p ∈ r.ftsProperties := by
  induction vs generalizing qp with
  | nil => cases ho
  | cons v vs ih =>
    rw [findFTSPropertiesIn_cons] at h
    cases h1 : findFTSProperties qp v with
    | error e => simp [h1] at h
    | ok q1 =>
      simp only [h1] at h
      have hq1 := extends_of_findFTSProperties qp q1 v h1
      have hr := extends_of_findFTSPropertiesIn q1 r vs h
      rcases List.mem_cons.mp ho with heq | hmem
      · subst heq
        obtain ⟨p, hp, hin⟩ := hv o (List.mem_cons_self _ _) qp q1 h1 property rest hreach hprop
        exact ⟨p, hp, hr.ftsProperties.subset hin⟩
      · obtain ⟨p, hp, hin⟩ := ih (fun v hv' => hv v (List.mem_cons_of_mem _ hv')) q1 h hmem
        exact ⟨p, hp, by rw [← hq1.propertyPath]; exact hin⟩

theorem scanFinds_aux (n : Nat) : ∀ (w : Value), w.depth ≤ n → ScanFinds w := by
  induction n with
  | zero =>
    intro w hd qp r h property rest hreach hprop
    cases hreach with
    | self => simp [Value.depth] at hd
    | operand first operands o m hne ho hm => simp [Value.depth] at hd
    | matchOperand first prop rest o m heq ho hm => simp [Value.depth] at hd
  | succ n ih =>
    intro w hd qp r h property rest hreach hprop
    cases hreach with
    | self =>
      rw [findFTSProperties_array] at h
      simp only [Value.asString, if_true] at h
      cases harr : property.asArray with
      | none => simp [harr] at hprop
      | some items =>
        simp only [harr] at h
        cases hp : propertyFromNode property with
        | error e => simp [hp] at h
        | ok p =>
          simp only [hp] at h
          refine ⟨p, rfl, ?_⟩
          have hr := extends_of_findFTSPropertiesIn _ r rest h
          exact hr.ftsProperties.subset (mem_AddFTSPropertyIndex qp p)
    | operand first operands o m hne ho hm =>
      rw [findFTSProperties_array] at h
      simp only [hne, if_false] at h
      simp only [Value.depth, Nat.add_le_add_iff_right] at hd
      have hops : ∀ v ∈ operands, ScanFinds v := fun v hv =>
        ih v (Nat.le_trans (depth_le_depthList (List.mem_cons_of_mem _ hv)) hd)
      exact scanFinds_list operands hops qp r h o ho property rest hm hprop
    | matchOperand first prop rest' o m heq ho hm =>
      rw [findFTSProperties_array] at h
      simp only [heq, if_true] at h
      simp only [Value.depth, Nat.add_le_add_iff_right] at hd
      have hops : ∀ v ∈ rest', ScanFinds v := fun v hv =>
        ih v (Nat.le_trans (depth_le_depthList
          (List.mem_cons_of_mem _ (List.mem_cons_of_mem _ hv))) hd)
      split at h
      · split at h
        · simp at h
        · rename_i p hp
          have hq := extends_AddFTSPropertyIndex qp p
          obtain ⟨p', hp', hin⟩ := scanFinds_list rest' hops _ r h o ho property rest hm hprop
          exact ⟨p', hp', by rw [← hq.propertyPath]; exact hin⟩
      · exact scanFinds_list rest' hops qp r h o ho property rest hm hprop

/-- C8 as stated fails: the node `["MATCH", [".", "b"], "x"]` is reachable through
operation operands from `["MATCH", ["foo", ["MATCH", [".", "b"], "x"]], "y"]`, the
scanner returns on this expression, and its list then holds the empty path of the outer
MATCH only, not the path `b`. -/
theorem scanner_skips_property_operand :
    Reachable
      (.array [.string "MATCH",
        .array [.string "foo",
          .array [.string "MATCH", .array [.string ".", .string "b"], .string "x"]],
        .string "y"])
      (.array [.string "MATCH", .array [.string ".", .string "b"], .string "x"])
    ∧ propertyFromNode (.array [.string ".", .string "b"]) = .ok "b"
    ∧ (findFTSProperties (QueryParser.new "kv_default" "body")
        (.array [.string "MATCH",
          .array [.string "foo",
            .array [.string "MATCH", .array [.string ".", .string "b"], .string "x"]],
          .string "y"])).toOption.map (fun r => r.ftsProperties) = some [""]
    ∧ appendPaths (QueryParser.new "kv_default" "body").propertyPath "b" ∉ [""] := by
  refine ⟨?_, by decide!, by decide!, by decide!⟩
  refine Reachable.operand _ _ (.array [.string "foo",
    .array [.string "MATCH", .array [.string ".", .string "b"], .string "x"]]) _
    (by simp) ?_
  exact Reachable.operand _ _ _ _ (by simp) (Reachable.self _)

/-- C8 (amended). For every WHERE expression `w` and every node
`["MATCH", prop, pattern, ...]` with an array `prop` that is reachable from `w` through
operation operands other than the property operand of a MATCH node, the path of `prop`,
joined behind the configured prefix, is in the FTS-properties list when
`findFTSProperties(w)` returns; the scanner has then written nothing to the stream, and
`writeSelect` runs it before it writes any SQL. -/
theorem scanner_finds_match (qp r : QueryParser) (w property : Value) (rest : List Value)
    (h : findFTSProperties qp w = .ok r)
    (hreach : ScanReachable w (.array (.string "MATCH" :: property :: rest)))
    (hprop : property.asArray.isSome = true) :
    (∃ p, propertyFromNode property = .ok p
      ∧ appendPaths qp.propertyPath p ∈ r.ftsProperties)
    ∧ r.sql = qp.sql
    ∧ (∀ (walk : Walk) (operands : Option (List (String × Value))),
        writeSelect walk (some w) operands qp
          = writeClauses walk (some w) operands r) := by
  refine ⟨scanFinds_aux w.depth w (Nat.le_refl _) qp r h property rest hreach hprop,
    findFTSProperties_sql qp r w h, ?_⟩
  intro walk operands
  simp only [writeSelect, scanWhere, h]

/-- C8 (amended) at `["AND", ["MATCH", [".", "a"], "x"], ["MATCH", [".", "b"], "y"]]`:
the scanner returns the list `a`, `b`, which holds the path of the second MATCH. -/
theorem scanner_finds_match_witness :
    findFTSProperties (QueryParser.new "kv_default" "body")
        (.array [.string "AND",
          .array [.string "MATCH", .array [.string ".", .string "a"], .string "x"],
          .array [.string "MATCH", .array [.string ".", .string "b"], .string "y"]])
      = .ok { QueryParser.new "kv_default" "body" with ftsProperties := ["a", "b"] }
    ∧ ∃ p, propertyFromNode (.array [.string ".", .string "b"]) = .ok p
      ∧ appendPaths (QueryParser.new "kv_default" "body").propertyPath p ∈ ["a", "b"] :=
  ⟨by decide!,
   (scanner_finds_match (QueryParser.new "kv_default" "body")
      { QueryParser.new "kv_default" "body" with ftsProperties := ["a", "b"] }
      (.array [.string "AND",
        .array [.string "MATCH", .array [.string ".", .string "a"], .string "x"],
        .array [.string "MATCH", .array [.string ".", .string "b"], .string "y"]])
      (.array [.string ".", .string "b"]) [.string "y"]
      (by decide!)
      (ScanReachable.operand _ _
        (.array [.string "MATCH", .array [.string ".", .string "b"], .string "y"]) _
        (by decide) (by simp) (ScanReachable.self _))
      (by rfl)).1⟩
/-! ## The nodes the walker visits -/

namespace QueryParser.Grows

theorem rfl' (q : QueryParser) : q.Grows q :=
  ⟨QueryParser.Extends.refl q, "", by simp⟩

theorem trans' {a b c : QueryParser} (h1 : a.Grows b) (h2 : b.Grows c) : a.Grows c := by
  obtain ⟨t1, ht1⟩ := h1.sql
  obtain ⟨t2, ht2⟩ := h2.sql
  exact ⟨h1.ext.trans h2.ext, t1 ++ t2, by rw [ht2, ht1, String.append_assoc]⟩

theorem emit (q : QueryParser) (t : String) : q.Grows (q.emit t) :=
  ⟨by simp, t, rfl⟩

theorem pushContext (q : QueryParser) (d : Operation) : q.Grows (q.pushContext d) :=
  ⟨by simp, "", by simp [QueryParser.pushContext]⟩

theorem popContext (q : QueryParser) : q.Grows q.popContext :=
  ⟨by simp, "", by simp [QueryParser.popContext]⟩

theorem setContextBack (q : QueryParser) (d : Operation) :
    q.Grows (q.setContextBack d) :=
  ⟨by simp, "", by simp [QueryParser.setContextBack]⟩

end QueryParser.Grows

/-- A step that satisfies the frame property and extends its parser makes it grow. -/
theorem grows_of_frame (f : QueryParser → Except Error QueryParser)
    (hframe : ∀ (s : String) (q : QueryParser),
      f (q.prepend s) = (f q).map (QueryParser.prepend s))
    (q r : QueryParser) (hext : q.Extends r) (h : f q = .ok r) : q.Grows r := by
  refine ⟨hext, ?_⟩
  have := hframe q.sql ({ q with sql := "" } : QueryParser)
  rw [← withSql_prepend, h] at this
  cases h0 : f ({ q with sql := "" } : QueryParser) with
  | error e => simp [h0, Except.map] at this
  | ok r0 =>
    simp only [h0, Except.map, Except.ok.injEq] at this
    exact ⟨r0.sql, by rw [this]; rfl⟩

theorem walkAgree_self (n : Nat) : WalkAgree n (parseNode n) (parseNode n) := by
  have := parseNode_agree n n
  rwa [Nat.min_self] at this

theorem grows_parseNode (n : Nat) (q r : QueryParser) (v : Value) (hd : v.depth < n)
    (h : parseNode n q v = .ok r) : q.Grows r ∧ r.context = q.context := by
  have hout := outcome_parseNode n q v hd
  rw [h] at hout
  refine ⟨grows_of_frame (fun q => parseNode n q v)
    (fun s q => parseNode_prepend n s q v hd) q r hout.1 h, ?_⟩
  simpa [contextKept] using hout.2

theorem grows_infixOpLoop (n : Nat) (op : String) (operands : List Value)
    (hd : Value.depthList operands < n) (k : Nat) (q r : QueryParser)
    (h : infixOpLoop (parseNode n) op operands k q = .ok r) :
    q.Grows r ∧ r.context = q.context := by
  have hout := outcome_infixOpLoop (outcome_parseNode n) op operands hd k q
  rw [h] at hout
  refine ⟨grows_of_frame (fun q => infixOpLoop (parseNode n) op operands k q)
    (fun s q => infixOpLoop_agree (walkAgree_self n) op operands hd k s q) q r hout.1 h, ?_⟩
  simpa [contextKept] using hout.2

theorem grows_writeArgList (n : Nat) (operands : List Value)
    (hd : Value.depthList operands < n) (q r : QueryParser)
    (h : writeArgList (parseNode n) operands q = .ok r) :
    q.Grows r ∧ r.context = q.context := by
  have hout := outcome_writeArgList (outcome_parseNode n) operands hd q
  rw [h] at hout
  refine ⟨grows_of_frame (fun q => writeArgList (parseNode n) operands q)
    (fun s q => writeArgList_agree (walkAgree_self n) operands hd s q) q r hout.1 h, ?_⟩
  simpa [contextKept] using hout.2

/-- The flag `writeNestedPropertyOpIfAny` returns, and the parser it returns with the
flag false. -/
theorem writeNestedPropertyOpIfAny_flag (q q1 : QueryParser) (fnName : String)
    (operands : List Value) (b : Bool)
    (h : writeNestedPropertyOpIfAny q fnName operands = .ok (b, q1)) :
    b = firstIsProperty operands ∧ (b = false → q1 = q) := by
  unfold writeNestedPropertyOpIfAny at h
  unfold firstIsProperty
  split at h
  · simp only [Except.ok.injEq, Prod.mk.injEq] at h
    exact ⟨h.1.symm, fun _ => h.2.symm⟩
  · split at h
    · rename_i hnone
      simp only [Except.ok.injEq, Prod.mk.injEq] at h
      simp only [hnone]
      exact ⟨h.1.symm, fun _ => h.2.symm⟩
    · rename_i hsome
      simp only [Except.ok.injEq, Prod.mk.injEq] at h
      simp only [hsome]
      exact ⟨h.1.symm, fun _ => h.2.symm⟩
    · rename_i head nested hsome
      simp only [hsome]
      split at h
      · rename_i hne
        simp only [Except.ok.injEq, Prod.mk.injEq] at h
        refine ⟨?_, fun _ => h.2.symm⟩
        rw [← h.1]
        simp only [ne_eq] at hne
        simp [hne]
      · rename_i heq
        simp only [ne_eq, not_not] at heq
        split at h
        · simp at h
        · simp only [Except.ok.injEq, Prod.mk.injEq] at h
          refine ⟨?_, fun hb => ?_⟩
          · rw [← h.1]; simp [heq]
          · rw [← h.1] at hb; simp at hb

theorem infixOpLoop_cons (walk : Walk) (op : String) (v : Value) (vs : List Value)
    (k : Nat) (q : QueryParser) :
    infixOpLoop walk op (v :: vs) k q
      = (walk (if k > 0 then ((if op ≠ "," then q.emit " " else q).emit op).emit " "
          else q) v).bind (fun q1 => infixOpLoop walk op vs (k + 1) q1) := by
  rw [infixOpLoop]
  cases walk (if k > 0 then ((if op ≠ "," then q.emit " " else q).emit op).emit " "
          else q) v <;> rfl

/-- The loop of `infixOp` walks each operand. -/
theorem infixOpLoop_walks (n : Nat) (op : String) (operands : List Value)
    (hd : Value.depthList operands < n) (k : Nat) (q r : QueryParser)
    (h : infixOpLoop (parseNode n) op operands k q = .ok r) (o : Value) (ho : o ∈ operands) :
    ∃ qo ro, parseNode n qo o = .ok ro ∧ q.Grows qo ∧ ro.Grows r := by
  induction operands generalizing k q with
  | nil => cases ho
  | cons v vs ih =>
    simp only [Value.depthList, Nat.max_lt] at hd
    rw [infixOpLoop_cons] at h
    have hq : q.Grows (if k > 0 then
        ((if op ≠ "," then q.emit " " else q).emit op).emit " " else q) := by
      split
      · split
        · exact ((QueryParser.Grows.emit q " ").trans' (QueryParser.Grows.emit _ op)).trans'
            (QueryParser.Grows.emit _ " ")
        · exact (QueryParser.Grows.emit q op).trans' (QueryParser.Grows.emit _ " ")
      · exact QueryParser.Grows.rfl' q
    cases h1 : parseNode n (if k > 0 then
        ((if op ≠ "," then q.emit " " else q).emit op).emit " " else q) v with
    | error e => rw [h1] at h; simp [Except.bind] at h
    | ok q1 =>
      rw [h1] at h
      simp only [Except.bind] at h
      have hg1 := (grows_parseNode n _ q1 v hd.1 h1).1
      rcases List.mem_cons.mp ho with heq | hmem
      · subst heq
        exact ⟨_, q1, h1, hq, (grows_infixOpLoop n op vs hd.2 (k + 1) q1 r h).1⟩
      · obtain ⟨qo, ro, hw, hg, hr⟩ := ih hd.2 (k + 1) q1 h hmem
        exact ⟨qo, ro, hw, (hq.trans' hg1).trans' hg, hr⟩

/-- What `invokeHandler` returns when the handler succeeds. -/
theorem invokeHandler_ok (handler : Handler) (op : Operation) (actualOperator : String)
    (operands : List Value) (q r : QueryParser)
    (h : invokeHandler handler op actualOperator operands q = .ok r) :
    ∃ q' r', handler actualOperator operands q' = .ok r' ∧ q.Grows q' ∧ r'.Grows r
      ∧ q'.context = q.context ++ [op] := by
  unfold invokeHandler at h
  simp only at h
  by_cases hp : op.precedence ≤ q.contextBack.precedence
  · simp only [hp, decide_True, if_true] at h
    cases h1 : handler actualOperator operands ((q.pushContext op).emit "(") with
    | error e => simp [h1] at h
    | ok r' =>
      simp only [h1, Except.ok.injEq] at h
      subst h
      exact ⟨_, r', h1, (QueryParser.Grows.pushContext q op).trans' (QueryParser.Grows.emit _ _),
        (QueryParser.Grows.emit r' ")").trans' (QueryParser.Grows.popContext _), rfl⟩
  · simp only [hp, decide_False, if_false, Bool.false_eq_true] at h
    cases h1 : handler actualOperator operands (q.pushContext op) with
    | error e => simp [h1] at h
    | ok r' =>
      simp only [h1, Except.ok.injEq] at h
      subst h
      exact ⟨_, r', h1, QueryParser.Grows.pushContext q op, QueryParser.Grows.popContext _,
        rfl⟩

theorem writeArgList_walks (n : Nat) (operands : List Value)
    (hd : Value.depthList operands < n) (q r : QueryParser)
    (h : writeArgList (parseNode n) operands q = .ok r) (o : Value) (ho : o ∈ operands) :
    ∃ qo ro, parseNode n qo o = .ok ro ∧ q.Grows qo ∧ ro.Grows r := by
  obtain ⟨q', r', hh, hq, hr, _⟩ := invokeHandler_ok _ _ _ _ _ _ h
  obtain ⟨qo, ro, hw, hg1, hg2⟩ := infixOpLoop_walks n "," operands hd 0 q' r' hh o ho
  exact ⟨qo, ro, hw, hq.trans' hg1, hg2.trans' hr⟩

theorem depth_walkedOperands (h : OpHandler) (op : String) (operands : List Value)
    (o : Value) (ho : o ∈ walkedOperands h op operands) :
    o.depth ≤ Value.depthList operands := by
  have hmem : ∀ v ∈ operands, v.depth ≤ Value.depthList operands :=
    fun v hv => depth_le_depthList hv
  have hat := depth_operandAt_le operands
  have htail : ∀ v ∈ operands.tail, v.depth ≤ Value.depthList operands :=
    fun v hv => Nat.le_trans (depth_le_depthList hv) (depthList_tail_le operands)
  cases h <;> simp only [walkedOperands, List.mem_cons, List.mem_singleton,
    List.not_mem_nil, or_false] at ho
  all_goals first
    | exact hmem o ho
    | (subst ho; exact hat _)
    | (rcases ho with ho | ho
       · subst ho; exact hat _
       · exact htail o ho)
    | (rcases ho with ho | ho | ho <;> subst ho <;> exact hat _)
    | (split at ho
       · simp at ho
       · first
         | (simp only [List.mem_singleton] at ho; subst ho; exact hat _)
         | exact hmem o ho)

/-- A handler that succeeds has walked each of its walked operands: the walk of the
operand started in a parser grown from the one the handler was given and ended in one
that grows into the result of the handler. -/
theorem handlerOf_walks (n : Nat) (h : OpHandler) (op : String) (operands : List Value)
    (hd : Value.depthList operands < n) (q r : QueryParser)
    (hres : handlerOf (parseNode n) h op operands q = .ok r)
    (o : Value) (ho : o ∈ walkedOperands h op operands) :
    ∃ qo ro, parseNode n qo o = .ok ro ∧ q.Grows qo ∧ ro.Grows r := by
  have hat : ∀ i, (operandAt operands i).depth < n :=
    fun i => Nat.lt_of_le_of_lt (depth_operandAt_le operands i) hd
  cases h with
  | propertyOp => simp [walkedOperands] at ho
  | parameterOp => simp [walkedOperands] at ho
  | selectOp => simp [walkedOperands] at ho
  | none => simp [walkedOperands] at ho
  | infixOp => exact infixOpLoop_walks n op operands hd 0 q r hres o ho
  | prefixOp =>
    simp only [walkedOperands, List.mem_singleton] at ho
    subst ho
    simp only [handlerOf, prefixOp] at hres
    refine ⟨_, r, hres, ?_, QueryParser.Grows.rfl' r⟩
    split
    · exact (QueryParser.Grows.emit q op).trans' (QueryParser.Grows.emit _ " ")
    · exact QueryParser.Grows.emit q op
  | postfixOp =>
    simp only [walkedOperands, List.mem_singleton] at ho
    subst ho
    simp only [handlerOf, postfixOp] at hres
    cases h1 : parseNode n q (operandAt operands 0) with
    | error e => rw [h1] at hres; simp at hres
    | ok q1 =>
      rw [h1] at hres
      simp only [Except.ok.injEq] at hres
      subst hres
      exact ⟨q, q1, h1, QueryParser.Grows.rfl' q,
        (QueryParser.Grows.emit q1 " ").trans' (QueryParser.Grows.emit _ op)⟩
  | matchOp =>
    simp only [walkedOperands, List.mem_singleton] at ho
    subst ho
    simp only [handlerOf, matchOp] at hres
    cases hp : propertyFromNode (operandAt operands 0) with
    | error e => rw [hp] at hres; simp at hres
    | ok property =>
      rw [hp] at hres
      simp only at hres
      split at hres
      · simp [fail] at hres
      · cases h1 : parseNode n ((((AddFTSPropertyIndex q property).2.emit "(FTS").emit
            (ToString.toString (AddFTSPropertyIndex q property).1)).emit ".text MATCH ")
            (operandAt operands 1) with
        | error e => rw [h1] at hres; simp at hres
        | ok q1 =>
          rw [h1] at hres
          simp only [Except.ok.injEq] at hres
          subst hres
          refine ⟨_, q1, h1, ?_, ?_⟩
          · refine QueryParser.Grows.trans' ⟨extends_AddFTSPropertyIndex q property, "", ?_⟩
              (((QueryParser.Grows.emit _ _).trans' (QueryParser.Grows.emit _ _)).trans'
                (QueryParser.Grows.emit _ _))
            simp [sql_AddFTSPropertyIndex]
          · exact ((((QueryParser.Grows.emit q1 _).trans' (QueryParser.Grows.emit _ _)).trans'
              (QueryParser.Grows.emit _ _)).trans' (QueryParser.Grows.emit _ _)).trans'
              (QueryParser.Grows.emit _ _)
  | betweenOp =>
    simp only [handlerOf, betweenOp] at hres
    cases h0 : parseNode n q (operandAt operands 0) with
    | error e => rw [h0] at hres; simp at hres
    | ok q0 =>
      rw [h0] at hres
      simp only at hres
      cases h1 : parseNode n (((q0.emit " ").emit op).emit " ") (operandAt operands 1) with
      | error e => rw [h1] at hres; simp at hres
      | ok q1 =>
        rw [h1] at hres
        simp only at hres
        have g0 := (grows_parseNode n _ _ _ (hat 0) h0).1
        have g1 := (grows_parseNode n _ _ _ (hat 1) h1).1
        have g2 := (grows_parseNode n _ _ _ (hat 2) hres).1
        have e0 : q0.Grows (((q0.emit " ").emit op).emit " ") :=
          ((QueryParser.Grows.emit q0 " ").trans' (QueryParser.Grows.emit _ op)).trans'
            (QueryParser.Grows.emit _ " ")
        have e1 : q1.Grows (q1.emit " AND ") := QueryParser.Grows.emit q1 _
        simp only [walkedOperands, List.mem_cons, List.mem_singleton, List.not_mem_nil,
          or_false] at ho
        rcases ho with ho | ho | ho <;> subst ho
        · exact ⟨q, q0, h0, QueryParser.Grows.rfl' q,
            ((e0.trans' g1).trans' e1).trans' g2⟩
        · exact ⟨_, q1, h1, g0.trans' e0, e1.trans' g2⟩
        · exact ⟨_, r, hres, ((g0.trans' e0).trans' g1).trans' e1, QueryParser.Grows.rfl' r⟩
  | inOp =>
    simp only [handlerOf, inOp] at hres
    cases h0 : parseNode n q (operandAt operands 0) with
    | error e => rw [h0] at hres; simp at hres
    | ok q0 =>
      rw [h0] at hres
      simp only at hres
      have ht := Nat.lt_of_le_of_lt (depthList_tail_le operands) hd
      have g0 := (grows_parseNode n _ _ _ (hat 0) h0).1
      have e0 : q0.Grows (((q0.emit " ").emit op).emit " ") :=
        ((QueryParser.Grows.emit q0 " ").trans' (QueryParser.Grows.emit _ op)).trans'
          (QueryParser.Grows.emit _ " ")
      simp only [walkedOperands, List.mem_cons] at ho
      rcases ho with ho | ho
      · subst ho
        exact ⟨q, q0, h0, QueryParser.Grows.rfl' q,
          e0.trans' (grows_writeArgList n _ ht _ _ hres).1⟩
      · obtain ⟨qo, ro, hw, hg1, hg2⟩ := writeArgList_walks n _ ht _ _ hres o ho
        exact ⟨qo, ro, hw, (g0.trans' e0).trans' hg1, hg2⟩
  | existsOp =>
    simp only [handlerOf, existsOp] at hres
    cases h0 : writeNestedPropertyOpIfAny q "fl_exists" operands with
    | error e => rw [h0] at hres; simp at hres
    | ok res =>
      obtain ⟨b, q1⟩ := res
      obtain ⟨hb, hq1⟩ := writeNestedPropertyOpIfAny_flag q q1 _ operands b h0
      rw [h0] at hres
      cases b
      · have := hq1 rfl
        subst this
        simp only [walkedOperands, ← hb, Bool.false_eq_true, if_false,
          List.mem_singleton] at ho
        subst ho
        simp only at hres
        refine ⟨_, r, hres, ?_, QueryParser.Grows.rfl' r⟩
        split
        · exact (QueryParser.Grows.emit q1 op).trans' (QueryParser.Grows.emit _ " ")
        · exact QueryParser.Grows.emit q1 op
      · simp [walkedOperands, ← hb] at ho
  | fallbackOp =>
    simp only [handlerOf, fallbackOp] at hres
    split at hres
    · simp [fail] at hres
    · cases h0 : fallbackSpecialCase (String.mk op.data.dropLast.dropLast) operands
          (q.setContextBack { q.contextBack with op := some op }) with
      | error e => rw [h0] at hres; simp at hres
      | ok res =>
        obtain ⟨b, q1⟩ := res
        rw [h0] at hres
        have hq1 : b = false → q1 = q.setContextBack { q.contextBack with op := some op } := by
          intro hb
          subst hb
          unfold fallbackSpecialCase at h0
          split at h0
          · exact (writeNestedPropertyOpIfAny_flag _ _ _ _ _ h0).2 rfl
          · split at h0
            · exact (writeNestedPropertyOpIfAny_flag _ _ _ _ _ h0).2 rfl
            · simp only [Except.ok.injEq, Prod.mk.injEq, true_and] at h0
              exact h0.symm
        have hspecial : b = true →
            (String.mk op.data.dropLast.dropLast = "count"
              ∨ String.mk op.data.dropLast.dropLast = "rank")
            ∧ firstIsProperty operands = true := by
          intro hb
          subst hb
          unfold fallbackSpecialCase at h0
          split at h0
          · rename_i hc
            exact ⟨Or.inl hc, (writeNestedPropertyOpIfAny_flag _ _ _ _ _ h0).1.symm⟩
          · split at h0
            · rename_i hc
              exact ⟨Or.inr hc, (writeNestedPropertyOpIfAny_flag _ _ _ _ _ h0).1.symm⟩
            · simp at h0
        cases b
        · have := hq1 rfl
          subst this
          simp only at hres
          have ho' : o ∈ operands := by
            simp only [walkedOperands] at ho
            split at ho
            · simp at ho
            · exact ho
          obtain ⟨qo, ro, hw, hg1, hg2⟩ := writeArgList_walks n _ hd _ _ hres o ho'
          exact ⟨qo, ro, hw,
            ((QueryParser.Grows.setContextBack q _).trans' (QueryParser.Grows.emit _ _)).trans'
              hg1, hg2⟩
        · have := hspecial rfl
          simp [walkedOperands, this] at ho

/-- Theorem W. When the walker succeeds on `e`, every node `m` walked below `e` was
walked, successfully, from a parser grown from the one the walk of `e` started in to a
parser that grows into the one the walk of `e` returned. -/
theorem walked_was_walked (n : Nat) : ∀ (q r : QueryParser) (e m : Value), e.depth < n →
    parseNode n q e = .ok r → Walked e m →
    ∃ k qm rm, m.depth < k ∧ parseNode k qm m = .ok rm ∧ q.Grows qm ∧ rm.Grows r := by
  induction n with
  | zero => intro q r e m hd; simp at hd
  | succ n ih =>
    intro q r e m hd h hw
    cases hw with
    | self => exact ⟨n + 1, q, r, hd, h, QueryParser.Grows.rfl' q, QueryParser.Grows.rfl' r⟩
    | operand op operands o _ ho hwalked =>
      simp only [Value.depth, Value.depthList, Nat.add_lt_add_iff_right] at hd
      have hdl : Value.depthList operands < n := by
        have : Value.depthList operands ≤ max (Value.string op).depth
            (Value.depthList operands) := Nat.le_max_right _ _
        omega
      simp only [parseNode, parseNodeBody, parseOpNode, Value.asString] at h
      split at h
      · simp [fail] at h
      · rename_i hfound
        simp only [walkedOperandsOf, hfound, if_false] at ho
        simp only [handleOperation] at h
        obtain ⟨q', r', hh, hq, hr, _⟩ := invokeHandler_ok _ _ _ _ _ _ h
        obtain ⟨qo, ro, hwo, hg1, hg2⟩ := handlerOf_walks n _ op operands hdl q' r' hh o ho
        have hod : o.depth < n :=
          Nat.lt_of_le_of_lt (depth_walkedOperands _ op operands o ho) hdl
        obtain ⟨k, qm, rm, hmd, hm, hgm1, hgm2⟩ := ih qo ro o m hod hwo hwalked
        exact ⟨k, qm, rm, hmd, hm, (hq.trans' hg1).trans' hgm1, (hgm2.trans' hg2).trans' hr⟩
/-! ## The text of the 'What' and FROM clauses -/

theorem withSql_self (q : QueryParser) : ({ q with sql := q.sql } : QueryParser) = q := rfl

theorem writeBaseColumns_text (cols : List String) (q : QueryParser) (n : Nat) :
    writeBaseColumns cols q n
      = ({ q with sql := q.sql ++ columnsText cols n }, n + cols.length) := by
  induction cols generalizing q n with
  | nil => simp [writeBaseColumns, columnsText]
  | cons c cs ih =>
    simp only [writeBaseColumns, ih, columnsText, QueryParser.emit, List.length_cons,
      String.append_assoc]
    congr 1
    omega

theorem writeOffsetsColumns_text (l : List String) (q : QueryParser) (n : Nat) :
    writeOffsetsColumns l q n
      = ({ q with sql := q.sql ++ columnsText (l.map (offsetsColumn q.tableName)) n },
          n + l.length) := by
  induction l generalizing q n with
  | nil => simp [writeOffsetsColumns, columnsText]
  | cons c cs ih =>
    simp only [writeOffsetsColumns, ih, columnsText, QueryParser.emit, List.length_cons,
      String.append_assoc, List.map_cons, offsetsColumn]
    congr 1
    omega

theorem columnsText_append (a b : List String) (n : Nat) :
    columnsText (a ++ b) n = columnsText a n ++ columnsText b (n + a.length) := by
  induction a generalizing n with
  | nil => simp [columnsText]
  | cons c cs ih =>
    have e : n + 1 + cs.length = n + (cs.length + 1) := by omega
    simp only [List.cons_append, columnsText, List.append_eq, ih, List.length_cons,
      String.append_assoc, e]

theorem writeFTSJoins_text (l : List String) (q : QueryParser) (k : Nat) :
    writeFTSJoins l q k = { q with sql := q.sql ++ ftsJoinsText q.tableName l k } := by
  induction l generalizing q k with
  | nil => simp [writeFTSJoins, ftsJoinsText]
  | cons c cs ih =>
    simp only [writeFTSJoins, ih, ftsJoinsText, ftsJoin, QueryParser.emit,
      String.append_assoc]

/-- The 'What' and FROM clauses, when they are written, append the text of the two
clauses for the table, base result columns and FTS list of the parser. -/
theorem writeWhatAndFrom_text (operands : Option (List (String × Value)))
    (q r : QueryParser) (h : writeWhatAndFrom operands q = .ok r) :
    r = { q with sql := q.sql ++ whatClause q.tableName q.baseResultColumns q.ftsProperties
            ++ " FROM " ++ fromClause q.tableName q.ftsProperties } := by
  unfold writeWhatAndFrom at h
  simp only at h
  split at h
  · simp [fail] at h
  · split at h
    · simp [fail] at h
    · simp only [Except.ok.injEq] at h
      subst h
      simp only [writeBaseColumns_text, writeOffsetsColumns_text, writeFTSJoins_text,
        QueryParser.emit, whatClause, fromClause, columnsText_append, Nat.zero_add]
      by_cases hz : q.baseResultColumns.length + q.ftsProperties.length = 0
      · simp [hz, String.append_assoc]
      · simp [hz, String.append_assoc]

theorem occursIn_append_left (t a b : String) (h : occursIn t b) : occursIn t (a ++ b) := by
  unfold occursIn at *
  rw [String.data_append]
  exact List.IsInfix.trans h (List.infix_append' a.data [] b.data |> fun h' => by
    simpa using (List.suffix_append a.data b.data).isInfix)

theorem occursIn_append_right (t a b : String) (h : occursIn t a) : occursIn t (a ++ b) := by
  unfold occursIn at *
  rw [String.data_append]
  exact List.IsInfix.trans h (List.prefix_append a.data b.data).isInfix

theorem occursIn_self (t : String) : occursIn t t := List.infix_refl _

theorem occursIn_of_grows (t : String) {q r : QueryParser} (hg : q.Grows r)
    (h : occursIn t q.sql) : occursIn t r.sql := by
  obtain ⟨s, hs⟩ := hg.sql
  rw [hs]
  exact occursIn_append_right t _ _ h

/-- The join of a member of the FTS list stands in the joins of the list, under the
number of its first position. -/
theorem mem_ftsJoinsText (t p : String) (l : List String) (k : Nat) (hp : p ∈ l) :
    occursIn (ftsJoin t p (k + l.indexOf p + 1)) (ftsJoinsText t l k) := by
  induction l generalizing k with
  | nil => cases hp
  | cons c cs ih =>
    simp only [ftsJoinsText]
    by_cases hc : c = p
    · subst hc
      simp only [List.indexOf_cons_self, Nat.add_zero]
      exact occursIn_append_right _ _ _ (occursIn_self _)
    · have hp' : p ∈ cs := by
        rcases List.mem_cons.mp hp with h | h
        · exact absurd h.symm hc
        · exact h
      have := ih (k + 1) hp'
      rw [List.indexOf_cons_ne _ hc]
      have e : k + (List.indexOf p cs + 1) + 1 = k + 1 + List.indexOf p cs + 1 := by omega
      rw [e]
      exact occursIn_append_left _ _ _ this

/-! ## The anatomy of a compile -/

theorem grows_withSql (q : QueryParser) (t : String) :
    q.Grows { q with sql := q.sql ++ t } :=
  ⟨extends_withSql q _, t, rfl⟩

theorem grows_writeLimitOffset (q : QueryParser) : q.Grows (writeLimitOffset q) := by
  unfold writeLimitOffset
  simp only
  split <;> split
  · exact ((QueryParser.Grows.emit q _).trans' (QueryParser.Grows.emit _ _)).trans'
      ((QueryParser.Grows.emit _ _).trans' (QueryParser.Grows.emit _ _))
  · exact (QueryParser.Grows.emit q _).trans' (QueryParser.Grows.emit _ _)
  · exact (QueryParser.Grows.emit q _).trans' (QueryParser.Grows.emit _ _)
  · exact QueryParser.Grows.rfl' q

/-- The ORDER BY clause, when it is written: the parser grows, and each item of the
`ORDER BY` array was walked. -/
theorem writeOrderBy_walks (n : Nat) (operands : Option (List (String × Value)))
    (hod : ∀ es, operands = some es → Value.depthEntries es < n)
    (q r : QueryParser) (h : writeOrderBy (parseNode n) operands q = .ok r) :
    q.Grows r ∧ ∀ order, operands.bind (fun d => Dict.get d "ORDER BY") = some order →
      ∀ o ∈ order.arrayItems,
        ∃ qo ro, parseNode n qo o = .ok ro ∧ q.Grows qo ∧ ro.Grows r := by
  unfold writeOrderBy at h
  cases hord : operands.bind (fun d => Dict.get d "ORDER BY") with
  | none =>
    rw [hord] at h
    simp only [Except.ok.injEq] at h
    subst h
    exact ⟨QueryParser.Grows.rfl' q, fun order ho => by cases ho⟩
  | some order =>
    rw [hord] at h
    simp only at h
    cases harr : order.asArray with
    | none => rw [harr] at h; simp [fail] at h
    | some orderBys =>
      rw [harr] at h
      simp only at h
      have hdepth : Value.depthList orderBys < n := by
        cases operands with
        | none => simp at hord
        | some es =>
          have h1 : order.depth ≤ Value.depthEntries es := depth_le_depthEntries hord
          have h2 := depth_asArray harr
          have h3 := hod es rfl
          omega
      cases hw : writeArgList (parseNode n) orderBys
          ((q.emit " ORDER BY ").pushContext kOrderByOperation) with
      | error e => rw [hw] at h; simp at h
      | ok r1 =>
        rw [hw] at h
        simp only [Except.ok.injEq] at h
        subst h
        have g0 : q.Grows ((q.emit " ORDER BY ").pushContext kOrderByOperation) :=
          (QueryParser.Grows.emit q _).trans' (QueryParser.Grows.pushContext _ _)
        have g1 := (grows_writeArgList n orderBys hdepth _ _ hw).1
        refine ⟨(g0.trans' g1).trans' (QueryParser.Grows.popContext r1), ?_⟩
        intro order' ho' o ho
        cases ho'
        simp only [Value.arrayItems, harr] at ho
        obtain ⟨qo, ro, hwo, hg1, hg2⟩ := writeArgList_walks n orderBys hdepth _ _ hw o ho
        exact ⟨qo, ro, hwo, g0.trans' hg1, hg2.trans' (QueryParser.Grows.popContext r1)⟩

/-- The anatomy of a successful `writeSelect`: the scan of the WHERE expression, the
'What' and FROM clauses written from the scanned list, the walk of the WHERE expression
and the walks of the ORDER BY items. -/
theorem writeSelect_anatomy (n : Nat) (whereExpr : Option Value)
    (operands : Option (List (String × Value)))
    (hwd : ∀ w, whereExpr = some w → w.depth < n)
    (hod : ∀ es, operands = some es → Value.depthEntries es < n)
    (q r : QueryParser) (h : writeSelect (parseNode n) whereExpr operands q = .ok r) :
    ∃ qs, scanWhere whereExpr q = .ok qs
      ∧ qs.withSelectHead.Grows r
      ∧ (∀ w, whereExpr = some w → ∃ rw,
          parseNode n (qs.withSelectHead.emit " WHERE ") w = .ok rw ∧ rw.Grows r)
      ∧ (∀ order, operands.bind (fun d => Dict.get d "ORDER BY") = some order →
          ∀ o ∈ order.arrayItems, ∃ qo ro, parseNode n qo o = .ok ro
            ∧ qs.withSelectHead.Grows qo ∧ ro.Grows r) := by
  unfold writeSelect writeClauses at h
  cases hs : scanWhere whereExpr q with
  | error e => rw [hs] at h; simp at h
  | ok qs =>
    rw [hs] at h
    simp only at h
    cases hf : writeWhatAndFrom operands qs with
    | error e => rw [hf] at h; simp at h
    | ok qf =>
      rw [hf] at h
      simp only at h
      have hqf : qf = qs.withSelectHead := writeWhatAndFrom_text operands qs qf hf
      cases hw : writeWhere (parseNode n) whereExpr qf with
      | error e => rw [hw] at h; simp at h
      | ok qw =>
        rw [hw] at h
        simp only at h
        cases ho : writeOrderBy (parseNode n) operands qw with
        | error e => rw [ho] at h; simp at h
        | ok qo =>
          rw [ho] at h
          simp only [Except.ok.injEq] at h
          subst h
          obtain ⟨go, hwalks⟩ := writeOrderBy_walks n operands hod qw qo ho
          have gl := grows_writeLimitOffset qo
          have gw : qf.Grows qw ∧ ∀ w, whereExpr = some w →
              parseNode n (qf.emit " WHERE ") w = .ok qw := by
            cases whereExpr with
            | none =>
              simp only [writeWhere, Except.ok.injEq] at hw
              subst hw
              exact ⟨QueryParser.Grows.rfl' _, fun w hw => by cases hw⟩
            | some w =>
              simp only [writeWhere] at hw
              refine ⟨(QueryParser.Grows.emit qf _).trans'
                (grows_parseNode n _ _ w (hwd w rfl) hw).1, ?_⟩
              intro w' hw'
              cases hw'
              exact hw
          refine ⟨qs, rfl, ?_, ?_, ?_⟩
          · rw [← hqf]
            exact (gw.1.trans' go).trans' gl
          · intro w hwe
            refine ⟨qw, ?_, go.trans' gl⟩
            have := gw.2 w hwe
            rwa [hqf] at this
          · intro order hord o hmem
            obtain ⟨q', r', hw', hg1, hg2⟩ := hwalks order hord o hmem
            refine ⟨q', r', hw', ?_, hg2.trans' gl⟩
            rw [← hqf]
            exact gw.1.trans' hg1

theorem lookup_select (n : Nat) :
    lookupOperation "SELECT" n kOperationList false
      = if n = 1 then (⟨some "SELECT", 1, 1, 1, .selectOp⟩, true)
        else (⟨none, 0, 0, 10, .fallbackOp⟩, true) := by
  simp only [kOperationList, lookupOperation]
  by_cases h : n = 1
  · subst h; simp
  · simp [h]
    omega

/-- The anatomy of a successful `parse`: in each of its three forms the input is
compiled by one `writeSelect`, over the WHERE expression and the operands dict of the
outer SELECT, on the parser the compile started with (its context stack apart). -/
theorem runParse_anatomy (qp r : QueryParser) (e : Value) (h : runParse qp e = .ok r) :
    ∃ (n : Nat) (c c' : List Operation) (r1 : QueryParser),
      writeSelect (parseNode n) (whereOf e) (selectDictOf e)
          ({ qp with context := c } : QueryParser) = .ok r1
      ∧ r = { r1 with context := c' }
      ∧ (∀ w, whereOf e = some w → w.depth < n)
      ∧ (∀ es, selectDictOf e = some es → Value.depthEntries es < n) := by
  have himplicit : ∀ (e : Value),
      writeSelect (parseNode (e.depth + 1)) (some e) none qp.reset = .ok r →
      whereOf e = some e → selectDictOf e = none →
      ∃ (n : Nat) (c c' : List Operation) (r1 : QueryParser),
        writeSelect (parseNode n) (whereOf e) (selectDictOf e)
            ({ qp with context := c } : QueryParser) = .ok r1
        ∧ r = { r1 with context := c' }
        ∧ (∀ w, whereOf e = some w → w.depth < n)
        ∧ (∀ es, selectDictOf e = some es → Value.depthEntries es < n) := by
    intro e h hw hd
    refine ⟨e.depth + 1, [kOuterOperation], r.context, r, ?_, rfl, ?_, ?_⟩
    · rw [hw, hd]; exact h
    · intro w hw'
      rw [hw] at hw'
      cases hw'
      omega
    · intro es hes
      rw [hd] at hes
      cases hes
  unfold runParse parse at h
  cases e with
  | dict d =>
    simp only [Value.asDict, writeSelectDict] at h
    refine ⟨(Value.dict d).depth + 1, [kOuterOperation], r.context, r, h, rfl, ?_, ?_⟩
    · intro w hw
      have := depth_le_depthEntries (show Dict.get d "WHERE" = some w from hw)
      simp only [Value.depth]
      omega
    · intro es hes
      simp only [selectDictOf, Option.some.injEq] at hes
      subst hes
      simp only [Value.depth]
      omega
  | array items =>
    cases items with
    | nil =>
      simp only [Value.asDict, Value.asArray] at h
      exact himplicit _ h rfl rfl
    | cons first operands =>
      simp only [Value.asDict, Value.asArray] at h
      by_cases hsel : first.asString = some "SELECT"
      · simp only [hsel, if_true] at h
        have hfirst : first = .string "SELECT" := by
          cases first <;> simp [Value.asString] at hsel
          subst hsel; rfl
        subst hfirst
        have h' : parseNodeBody (parseNode (Value.array (.string "SELECT" :: operands)).depth)
            qp.reset (.array (.string "SELECT" :: operands)) = .ok r := h
        have hk : Value.depthList operands
            < (Value.array (.string "SELECT" :: operands)).depth := by
          simp only [Value.depth, Value.depthList]
          have : Value.depthList operands ≤ max 0 (Value.depthList operands) :=
            Nat.le_max_right _ _
          omega
        generalize (Value.array (.string "SELECT" :: operands)).depth = k at h' hk
        clear h
        simp only [parseNodeBody, parseOpNode, Value.asString, lookup_select] at h'
        by_cases hn : min operands.length 9 = 1
        · simp only [hn, if_true, Option.isNone_some, Bool.false_eq_true, and_false,
            if_false, handleOperation, invokeHandler, handlerOf, contextBack_reset] at h'
          have hp : decide ((1 : Int) ≤ kOuterOperation.precedence) = false := by decide
          simp only [hp, Bool.false_eq_true, if_false, selectOp] at h'
          cases hdict : (operandAt operands 0).asDict with
          | none => rw [hdict] at h'; simp [fail] at h'
          | some dict =>
            rw [hdict] at h'
            have hlen : (qp.reset.pushContext
                ⟨some "SELECT", 1, 1, 1, .selectOp⟩).context.length ≤ 2 := by
              simp [QueryParser.reset, QueryParser.pushContext]
            simp only [hlen, if_true, writeSelectDict] at h'
            cases hw : writeSelect (parseNode k)
                (Dict.get dict "WHERE") (some dict)
                (qp.reset.pushContext ⟨some "SELECT", 1, 1, 1, .selectOp⟩) with
            | error e => rw [hw] at h'; simp at h'
            | ok r1 =>
              rw [hw] at h'
              simp only [Except.ok.injEq] at h'
              have hdd : Value.depthEntries dict < k := by
                have h1 := depth_asDict hdict
                have h2 := depth_operandAt_le operands 0
                omega
              refine ⟨k, [kOuterOperation, ⟨some "SELECT", 1, 1, 1, .selectOp⟩],
                r.context, r1, ?_, ?_, ?_, ?_⟩
              · simp only [whereOf, selectDictOf, Value.asString, if_true, hdict,
                  Option.bind_some]
                exact hw
              · subst h'; rfl
              · intro w hw'
                simp only [whereOf, Value.asString, if_true, hdict, Option.bind_some] at hw'
                have := depth_le_depthEntries hw'
                omega
              · intro es hes
                simp only [selectDictOf, Value.asString, if_true, hdict,
                  Option.some.injEq] at hes
                subst hes
                exact hdd
        · simp [hn, fail] at h'
      · simp only [hsel, if_false] at h
        exact himplicit _ h (by simp [whereOf, hsel]) (by simp [selectDictOf, hsel])
  | null => exact himplicit _ h rfl rfl
  | bool b => exact himplicit _ h rfl rfl
  | int i => exact himplicit _ h rfl rfl
  | float t s => exact himplicit _ h rfl rfl
  | string s => exact himplicit _ h rfl rfl
  | data d => exact himplicit _ h rfl rfl
/-! ## The list the scanner builds -/

theorem matchPaths_match_nil (pre : String) (first : Value)
    (hm : first.asString = some "MATCH") : matchPaths pre (.array [first]) = [] := by
  rw [matchPaths.eq_1]; simp [hm]

theorem matchPaths_match_cons (pre : String) (first propertyNode : Value)
    (rest : List Value) (hm : first.asString = some "MATCH") :
    matchPaths pre (.array (first :: propertyNode :: rest))
      = (if propertyNode.asArray.isSome
          then [appendPaths pre ((propertyFromNode propertyNode).toOption.getD "")]
          else []) ++ matchPathsIn pre rest := by
  rw [matchPaths.eq_2]
  simp only [hm, if_true]
  cases propertyNode.asArray <;> rfl

theorem matchPaths_other (pre : String) (first : Value) (operands : List Value)
    (hm : first.asString ≠ some "MATCH") :
    matchPaths pre (.array (first :: operands)) = matchPathsIn pre operands := by
  cases operands with
  | nil => rw [matchPaths.eq_1]; simp [hm]
  | cons v vs => rw [matchPaths.eq_2]; simp [hm]

theorem matchPaths_not_array (pre : String) (v : Value)
    (h : ∀ first operands, v ≠ .array (first :: operands)) : matchPaths pre v = [] :=
  matchPaths.eq_3 pre v h

theorem fts_AddFTSPropertyIndex (qp : QueryParser) (property : String) :
    (AddFTSPropertyIndex qp property).2.ftsProperties
      = addIfAbsent qp.ftsProperties (appendPaths qp.propertyPath property) := by
  unfold AddFTSPropertyIndex FTSPropertyIndex addIfAbsent
  simp only
  by_cases h : appendPaths qp.propertyPath property ∈ qp.ftsProperties
  · have hlt := List.indexOf_lt_length.mpr h
    have hne : List.indexOf (appendPaths qp.propertyPath property) qp.ftsProperties
        ≠ qp.ftsProperties.length := Nat.ne_of_lt hlt
    simp [hne, h]
  · have heq := List.indexOf_eq_length.mpr h
    simp [heq, h]

theorem propertyPath_AddFTSPropertyIndex (qp : QueryParser) (property : String) :
    (AddFTSPropertyIndex qp property).2.propertyPath = qp.propertyPath :=
  (extends_AddFTSPropertyIndex qp property).propertyPath

/-- The FTS list when the scanner returns: the paths of the MATCH nodes in pre-order,
each added at the end of the list unless it is already there. -/
theorem findFTSProperties_list_aux (n : Nat) :
    (∀ (v : Value) (qp r : QueryParser), v.depth ≤ n →
      findFTSProperties qp v = .ok r →
      r.ftsProperties
        = (matchPaths qp.propertyPath v).foldl addIfAbsent qp.ftsProperties) ∧
    (∀ (vs : List Value) (qp r : QueryParser), Value.depthList vs ≤ n →
      findFTSPropertiesIn qp vs = .ok r →
      r.ftsProperties
        = (matchPathsIn qp.propertyPath vs).foldl addIfAbsent qp.ftsProperties) := by
  have hlist : ∀ (m : Nat), (∀ (v : Value) (qp r : QueryParser), v.depth ≤ m →
      findFTSProperties qp v = .ok r →
      r.ftsProperties
        = (matchPaths qp.propertyPath v).foldl addIfAbsent qp.ftsProperties) →
      (∀ (vs : List Value) (qp r : QueryParser), Value.depthList vs ≤ m →
      findFTSPropertiesIn qp vs = .ok r →
      r.ftsProperties
        = (matchPathsIn qp.propertyPath vs).foldl addIfAbsent qp.ftsProperties) := by
    intro m hv vs
    induction vs with
    | nil =>
      intro qp r _ h
      rw [findFTSPropertiesIn] at h
      cases h
      simp [matchPathsIn]
    | cons v vs ih =>
      intro qp r hd h
      simp only [Value.depthList, Nat.max_le] at hd
      rw [findFTSPropertiesIn_cons] at h
      cases h1 : findFTSProperties qp v with
      | error e => simp [h1] at h
      | ok q1 =>
        simp only [h1] at h
        have hq1 := extends_of_findFTSProperties qp q1 v h1
        rw [ih q1 r hd.2 h, hv v qp q1 hd.1 h1, matchPathsIn, List.foldl_append,
          hq1.propertyPath]
  have hscalar : ∀ (v : Value) (qp r : QueryParser),
      (∀ first operands, v ≠ .array (first :: operands)) →
      findFTSProperties qp v = .ok r →
      r.ftsProperties
        = (matchPaths qp.propertyPath v).foldl addIfAbsent qp.ftsProperties := by
    intro v qp r hne h
    rw [findFTSProperties_not_array _ _ hne] at h
    cases h
    rw [matchPaths_not_array _ _ hne]
    rfl
  induction n with
  | zero =>
    refine ⟨?_, hlist 0 ?_⟩ <;>
    · intro v qp r hd h
      cases v with
      | array items => simp [Value.depth] at hd
      | _ => exact hscalar _ _ _ (by simp) h
  | succ n ih =>
    have hv : ∀ (v : Value) (qp r : QueryParser), v.depth ≤ n + 1 →
        findFTSProperties qp v = .ok r →
        r.ftsProperties
          = (matchPaths qp.propertyPath v).foldl addIfAbsent qp.ftsProperties := by
      intro v qp r hd h
      cases v with
      | array items =>
        simp only [Value.depth, Nat.add_le_add_iff_right] at hd
        cases items with
        | nil => exact hscalar _ _ _ (by simp) h
        | cons first operands =>
          simp only [Value.depthList, Nat.max_le] at hd
          rw [findFTSProperties_array] at h
          by_cases hm : first.asString = some "MATCH"
          · simp only [hm, if_true] at h
            cases operands with
            | nil =>
              cases h
              rw [matchPaths_match_nil _ _ hm]
              rfl
            | cons propertyNode rest =>
              simp only [Value.depthList, Nat.max_le] at hd
              rw [matchPaths_match_cons _ _ _ _ hm]
              simp only at h
              cases harr : propertyNode.asArray with
              | none =>
                simp only [harr] at h
                rw [ih.2 rest qp r hd.2.2 h]
                simp
              | some items =>
                simp only [harr] at h
                cases hp : propertyFromNode propertyNode with
                | error e => simp [hp] at h
                | ok property =>
                  simp only [hp] at h
                  rw [ih.2 rest _ r hd.2.2 h, fts_AddFTSPropertyIndex,
                    propertyPath_AddFTSPropertyIndex]
                  simp [Except.toOption]
          · simp only [hm, if_false] at h
            rw [matchPaths_other _ _ _ hm]
            exact ih.2 operands qp r hd.2 h
      | _ => exact hscalar _ _ _ (by simp) h
    exact ⟨hv, hlist (n + 1) hv⟩

theorem findFTSProperties_list (qp r : QueryParser) (v : Value)
    (h : findFTSProperties qp v = .ok r) :
    r.ftsProperties = (matchPaths qp.propertyPath v).foldl addIfAbsent qp.ftsProperties :=
  (findFTSProperties_list_aux v.depth).1 v qp r (Nat.le_refl _) h

/-! ## Walked nodes are scanned -/

theorem lookup_match (n : Nat) :
    lookupOperation "MATCH" n kOperationList false
      = if n = 2 then (⟨some "MATCH", 2, 2, 3, .matchOp⟩, true)
        else (⟨none, 0, 0, 10, .fallbackOp⟩, true) := by
  simp only [kOperationList, lookupOperation]
  by_cases h : n = 2
  · subst h; simp
  · simp [h]
    omega

theorem mem_walkedOperands (h : OpHandler) (op : String) (operands : List Value)
    (o : Value) (ho : o ∈ walkedOperands h op operands) : o ∈ operands ∨ o = .null := by
  have hat : ∀ i, operandAt operands i ∈ operands ∨ operandAt operands i = .null := by
    intro i
    unfold operandAt
    by_cases hi : i < operands.length
    · rw [List.getD_eq_getElem _ _ hi]
      exact Or.inl (List.getElem_mem _)
    · rw [List.getD_eq_default _ _ (Nat.le_of_not_lt hi)]
      exact Or.inr rfl
  cases h <;> simp only [walkedOperands, List.mem_cons, List.mem_singleton,
    List.not_mem_nil, or_false] at ho
  all_goals first
    | exact Or.inl ho
    | (subst ho; exact hat _)
    | (rcases ho with ho | ho
       · subst ho; exact hat _
       · exact Or.inl (List.mem_of_mem_tail ho))
    | (rcases ho with ho | ho | ho <;> subst ho <;> exact hat _)
    | (split at ho
       · simp at ho
       · first
         | (simp only [List.mem_singleton] at ho; subst ho; exact hat _)
         | exact Or.inl ho)

theorem walked_null (m : Value) (h : Walked .null m) : m = .null := by
  cases h
  rfl

/-- A node other than null that the walker visits below `w` is one the scanner
reaches. -/
theorem scanReachable_of_walked (w m : Value) (h : Walked w m) (hm : m ≠ .null) :
    ScanReachable w m := by
  induction h with
  | self e => exact ScanReachable.self e
  | operand op operands o m ho hwalked ih =>
    have ih := ih hm
    by_cases hop : op = "MATCH"
    · subst hop
      simp only [walkedOperandsOf, lookup_match] at ho
      by_cases hn : min operands.length 9 = 2
      · simp only [hn, if_true, Option.isNone_some, Bool.false_eq_true, and_false,
          if_false, walkedOperands, List.mem_singleton] at ho
        have hlen : operands.length = 2 := by omega
        match operands, hlen with
        | [property, pattern], _ =>
          simp only [operandAt, List.getD_cons_succ, List.getD_cons_zero] at ho
          subst ho
          exact ScanReachable.matchOperand _ property [o] o m rfl
            (List.mem_singleton_self _) ih
      · simp [hn] at ho
    · simp only [walkedOperandsOf] at ho
      split at ho
      · cases ho
      · rcases mem_walkedOperands _ _ _ _ ho with hmem | hnull
        · exact ScanReachable.operand _ operands o m
            (by simp [Value.asString, hop]) hmem ih
        · subst hnull
          exact absurd (walked_null m hwalked) hm
/-! ## The walks of a compile -/

theorem grows_withContext (q : QueryParser) (c : List Operation) :
    q.Grows ({ q with context := c } : QueryParser) :=
  ⟨⟨rfl, rfl, rfl, rfl, rfl, rfl, List.prefix_refl _, List.prefix_refl _, id⟩, "", by simp⟩

theorem grows_findFTSProperties (q qs : QueryParser) (w : Value)
    (h : findFTSProperties q w = .ok qs) : q.Grows qs :=
  ⟨extends_of_findFTSProperties q qs w h, "", by simp [findFTSProperties_sql q qs w h]⟩

theorem grows_withSelectHead (q : QueryParser) : q.Grows q.withSelectHead :=
  ⟨extends_withSql q _, _, by
    simp only [QueryParser.withSelectHead, String.append_assoc]; rfl⟩

/-- Every node walked below the WHERE expression of a successful compile was walked by
`parseNode`, between the `WHERE` keyword written after the 'What' and FROM clauses of
the scanned list and the end of the compile. -/
theorem where_walks (qp r : QueryParser) (e w m : Value) (h : runParse qp e = .ok r)
    (hw : whereOf e = some w) (hm : Walked w m) :
    ∃ (c : List Operation) (qs : QueryParser) (k : Nat) (qm rm : QueryParser),
      findFTSProperties ({ qp with context := c } : QueryParser) w = .ok qs
      ∧ m.depth < k ∧ parseNode k qm m = .ok rm
      ∧ (qs.withSelectHead.emit " WHERE ").Grows qm ∧ rm.Grows r := by
  obtain ⟨n, c, c', r1, hsel, hr, hwd, hod⟩ := runParse_anatomy qp r e h
  obtain ⟨qs, hscan, _, hwhere, _⟩ := writeSelect_anatomy n _ _ hwd hod _ r1 hsel
  obtain ⟨rw, hwalk, hgrow⟩ := hwhere w hw
  obtain ⟨k, qm, rm, hk, hnode, hg1, hg2⟩ :=
    walked_was_walked n _ rw w m (hwd w hw) hwalk hm
  refine ⟨c, qs, k, qm, rm, ?_, hk, hnode, hg1, ?_⟩
  · rw [hw] at hscan
    exact hscan
  · rw [hr]
    exact (hg2.trans' hgrow).trans' (grows_withContext r1 c')

theorem depth_arrayItems (v o : Value) (ho : o ∈ v.arrayItems) : o.depth < v.depth := by
  unfold Value.arrayItems at ho
  cases harr : v.asArray with
  | none => simp [harr] at ho
  | some items =>
    simp only [harr] at ho
    have := depth_asArray harr
    have := depth_le_depthList ho
    omega

/-- Every node walked below an item of the `ORDER BY` array of a successful compile was
walked by `parseNode` in the course of the compile. -/
theorem orderBy_walks (qp r : QueryParser) (e o m : Value) (h : runParse qp e = .ok r)
    (ho : o ∈ orderBysOf e) (hm : Walked o m) :
    ∃ (k : Nat) (qm rm : QueryParser),
      m.depth < k ∧ parseNode k qm m = .ok rm ∧ qp.Grows qm ∧ rm.Grows r := by
  obtain ⟨n, c, c', r1, hsel, hr, hwd, hod⟩ := runParse_anatomy qp r e h
  obtain ⟨qs, hscan, _, _, horder⟩ := writeSelect_anatomy n _ _ hwd hod _ r1 hsel
  unfold orderBysOf at ho
  cases hord : (selectDictOf e).bind (fun d => Dict.get d "ORDER BY") with
  | none => simp [hord] at ho
  | some order =>
    simp only [hord] at ho
    obtain ⟨qo, ro, hwalk, hg1, hg2⟩ := horder order hord o ho
    have hdepth : o.depth < n := by
      cases hd : selectDictOf e with
      | none => simp [hd] at hord
      | some es =>
        rw [hd] at hord
        have h1 : order.depth ≤ Value.depthEntries es := depth_le_depthEntries hord
        have h2 := hod es hd
        have h3 := depth_arrayItems order o ho
        omega
    obtain ⟨k, qm, rm, hk, hnode, hg3, hg4⟩ :=
      walked_was_walked n qo ro o m hdepth hwalk hm
    have hqs : qp.Grows qs := by
      refine (grows_withContext qp c).trans' ?_
      cases hwe : whereOf e with
      | none =>
        rw [hwe] at hscan
        simp only [scanWhere, Except.ok.injEq] at hscan
        subst hscan
        exact QueryParser.Grows.rfl' _
      | some w =>
        rw [hwe] at hscan
        exact grows_findFTSProperties _ _ w hscan
    refine ⟨k, qm, rm, hk, hnode, ?_, ?_⟩
    · exact ((hqs.trans' (grows_withSelectHead qs)).trans' hg1).trans' hg3
    · rw [hr]
      exact (hg4.trans' hg2).trans' (grows_withContext r1 c')

/-! ## Parameter nodes -/

/-- A parameter node that was walked wrote `$_` and the name, and recorded the name. -/
theorem parameter_node_walked (k : Nat) (qm rm : QueryParser) (name : Value)
    (h : parseNode k qm (.array [.string "$", name]) = .ok rm) :
    (∃ a b, rm.sql = qm.sql ++ a ++ ("$_" ++ name.toString) ++ b)
      ∧ name.toString ∈ rm.parameters := by
  cases k with
  | zero => simp [parseNode] at h
  | succ k =>
    rw [parseNode_op k qm "$" [name] _ parameter_lookup rfl] at h
    simp only [invokeHandler, handlerOf, parameterOp_eq] at h
    by_cases ht : name.type = .kNumber ∨ name.type = .kString
    · simp only [ht, if_true, Except.ok.injEq] at h
      subst h
      have hmem : ∀ (l : List String) (s : String),
          s ∈ (if s ∈ l then l else l ++ [s]) := by
        intro l s
        split
        · assumption
        · simp
      by_cases hp : (9 : Int) ≤ qm.contextBack.precedence
      · simp only [hp, decide_True, if_true]
        refine ⟨⟨"(", ")", ?_⟩, ?_⟩
        · simp [QueryParser.emit, QueryParser.insertParameter, QueryParser.pushContext,
            QueryParser.popContext, String.append_assoc]
        · simp only [QueryParser.emit, QueryParser.insertParameter, QueryParser.pushContext,
            QueryParser.popContext]
          exact hmem _ _
      · simp only [hp, decide_False, Bool.false_eq_true, if_false]
        refine ⟨⟨"", "", ?_⟩, ?_⟩
        · simp [QueryParser.emit, QueryParser.insertParameter, QueryParser.pushContext,
            QueryParser.popContext, String.append_assoc]
        · simp only [QueryParser.emit, QueryParser.insertParameter, QueryParser.pushContext,
            QueryParser.popContext]
          exact hmem _ _
    · simp [ht, fail] at h
/-! ## C9: parameter nodes -/

/-- C9 fails as stated. The parameter node `["$", "n"]` is the second operand of
`["count()", [".", "a"], ["$", "n"]]`; `count()` over a property writes the property
function and walks no operand, so the input compiles to
`SELECT * FROM kv_default WHERE fl_count(body, 'a')`: the text `$_n` is not in the SQL
and the parameter set is empty. -/
theorem parameter_node_discarded :
    Reachable
      (.array [.string "count()", .array [.string ".", .string "a"],
        .array [.string "$", .string "n"]])
      (.array [.string "$", .string "n"])
    ∧ (runParse (QueryParser.new "kv_default" "body")
        (.array [.string "count()", .array [.string ".", .string "a"],
          .array [.string "$", .string "n"]])).toOption.map
          (fun r => (r.sql, r.parameters))
      = some ("SELECT * FROM kv_default WHERE fl_count(body, 'a')", [])
    ∧ ¬ occursIn "$_n" "SELECT * FROM kv_default WHERE fl_count(body, 'a')" := by
  refine ⟨?_, by decide!, by unfold occursIn; decide⟩
  exact Reachable.operand _ _ (.array [.string "$", .string "n"]) _ (by simp)
    (Reachable.self _)

/-- A parameter node below a nested SELECT (one walked while the context stack has more
than two entries) is compiled by a separate parser: its text is in the SQL of the outer
compile, its name is not in the parameter set of the outer parser. -/
theorem nested_select_parameters :
    (runParse (QueryParser.new "kv_default" "body")
        (.array [.string "=", .int 1,
          .array [.string "SELECT",
            .dict [("WHERE", .array [.string "$", .string "n"])]]])).toOption.map
          (fun r => (r.sql, r.parameters))
      = some ("SELECT * FROM kv_default WHERE 1 = (SELECT * FROM kv_default WHERE $_n)",
          []) := by
  decide!

/-- C9 (amended). For every input that compiles, every parameter node `["$", name]`
that the walker visits on the compiling parser, that is, a node reached from the WHERE
expression or from an item of the ORDER BY array of the outer SELECT through operands
that the handlers walk (not an operand that a handler leaves out, and not a node below
a nested SELECT), has its text in the SQL and its name in the parameter set: the SQL
the compile appends contains `$_` followed by the text of the name, and that text is a
member of the parameter set of the parser after the compile. -/
theorem parameter_nodes_compiled (qp r : QueryParser) (e x name : Value)
    (h : runParse qp e = .ok r)
    (hx : whereOf e = some x ∨ x ∈ orderBysOf e)
    (hw : Walked x (.array [.string "$", name])) :
    (∃ a b, r.sql = qp.sql ++ a ++ ("$_" ++ name.toString) ++ b)
    ∧ occursIn ("$_" ++ name.toString) r.sql
    ∧ name.toString ∈ r.parameters := by
  have key : ∃ (k : Nat) (qm rm : QueryParser),
      parseNode k qm (.array [.string "$", name]) = .ok rm ∧ qp.Grows qm ∧ rm.Grows r := by
    rcases hx with hx | hx
    · obtain ⟨c, qs, k, qm, rm, hscan, _, hnode, hg1, hg2⟩ := where_walks qp r e x _ h hx hw
      exact ⟨k, qm, rm, hnode,
        ((((grows_withContext qp c).trans' (grows_findFTSProperties _ _ x hscan)).trans'
          (grows_withSelectHead qs)).trans' (QueryParser.Grows.emit _ _)).trans' hg1, hg2⟩
    · obtain ⟨k, qm, rm, _, hnode, hg1, hg2⟩ := orderBy_walks qp r e x _ h hx hw
      exact ⟨k, qm, rm, hnode, hg1, hg2⟩
  obtain ⟨k, qm, rm, hnode, hg1, hg2⟩ := key
  obtain ⟨⟨a, b, hsql⟩, hmem⟩ := parameter_node_walked k qm rm name hnode
  obtain ⟨t1, ht1⟩ := hg1.sql
  obtain ⟨t2, ht2⟩ := hg2.sql
  have htext : r.sql = qp.sql ++ (t1 ++ a) ++ ("$_" ++ name.toString) ++ (b ++ t2) := by
    rw [ht2, hsql, ht1]
    simp only [String.append_assoc]
  refine ⟨⟨t1 ++ a, b ++ t2, htext⟩, ?_, hg2.ext.parameters.subset hmem⟩
  rw [htext]
  exact occursIn_append_right _ _ _ (occursIn_append_left _ _ _ (occursIn_self _))

/-- C9 (amended) at `["=", [".", "n"], ["$", "n"]]`: the input compiles, the parameter
node is the second operand of `=`, which `infixOp` walks; `$_n` is in the SQL and `n`
in the parameter set. -/
theorem parameter_nodes_compiled_witness :
    runParse (QueryParser.new "kv_default" "body")
        (.array [.string "=", .array [.string ".", .string "n"],
          .array [.string "$", .string "n"]])
      = .ok { QueryParser.new "kv_default" "body" with
          sql := "SELECT * FROM kv_default WHERE fl_value(body, 'n') = $_n"
          context := [kOuterOperation]
          parameters := ["n"] }
    ∧ occursIn "$_n" "SELECT * FROM kv_default WHERE fl_value(body, 'n') = $_n"
    ∧ "n" ∈ ["n"] :=
  ⟨by decide!,
   (parameter_nodes_compiled (QueryParser.new "kv_default" "body")
      { QueryParser.new "kv_default" "body" with
          sql := "SELECT * FROM kv_default WHERE fl_value(body, 'n') = $_n"
          context := [kOuterOperation]
          parameters := ["n"] }
      (.array [.string "=", .array [.string ".", .string "n"],
        .array [.string "$", .string "n"]])
      (.array [.string "=", .array [.string ".", .string "n"],
        .array [.string "$", .string "n"]])
      (.string "n") (by decide!) (Or.inl rfl)
      (Walked.operand "=" _ (.array [.string "$", .string "n"]) _
        (by
          have e : walkedOperandsOf "=" [.array [.string ".", .string "n"],
              .array [.string "$", .string "n"]]
              = [.array [.string ".", .string "n"], .array [.string "$", .string "n"]] := by
            rfl
          rw [e]
          simp)
        (Walked.self _))).2⟩
/-! ## C5: the alias of a MATCH node -/

theorem AddFTSPropertyIndex_fst_congr (q q' : QueryParser) (p : String)
    (hf : q'.ftsProperties = q.ftsProperties) (hp : q'.propertyPath = q.propertyPath) :
    (AddFTSPropertyIndex q' p).1 = (AddFTSPropertyIndex q p).1 := by
  unfold AddFTSPropertyIndex FTSPropertyIndex
  simp only [hf, hp]
  split <;> simp [hf]

theorem FTSPropertyIndex_of_prefix_mem (q : QueryParser) (l : List String) (path : String)
    (hl : l <+: q.ftsProperties) (hp : path ∈ l) :
    FTSPropertyIndex q path = l.indexOf path + 1 := by
  obtain ⟨t, ht⟩ := hl
  unfold FTSPropertyIndex
  simp only [← ht, List.indexOf_append_of_mem hp]
  have hlt := List.indexOf_lt_length.mpr hp
  have hne : List.indexOf path l ≠ (l ++ t).length := by
    rw [List.length_append]; omega
  rw [if_neg hne]

theorem AddFTSPropertyIndex_fst_of_mem (q : QueryParser) (p : String)
    (h : appendPaths q.propertyPath p ∈ q.ftsProperties) :
    (AddFTSPropertyIndex q p).1 = FTSPropertyIndex q (appendPaths q.propertyPath p) := by
  have hne : FTSPropertyIndex q (appendPaths q.propertyPath p) ≠ 0 := by
    rw [FTSPropertyIndex_of_prefix_mem q _ _ (List.prefix_refl _) h]
    omega
  unfold AddFTSPropertyIndex
  simp [hne]

theorem isArray_of_propertyFromNode (property : Value) (p : String)
    (h : propertyFromNode property = .ok p) (hp : p ≠ "") :
    property.asArray.isSome = true := by
  cases property <;> first
    | rfl
    | (simp only [propertyFromNode, Value.arrayItems, Value.asArray, Except.ok.injEq] at h
       exact absurd h.symm hp)

/-- The handler `matchOp` on a property and a pattern: the text it appends is the match
text for the index of the property and the text of the pattern. -/
theorem matchOp_text (j : Nat) (q r : QueryParser) (property pattern : Value)
    (hpd : pattern.depth < j)
    (h : matchOp (parseNode j) "MATCH" [property, pattern] q = .ok r) :
    ∃ (p pat : String) (qpat rpat : QueryParser),
      propertyFromNode property = .ok p ∧ p ≠ ""
      ∧ parseNode j qpat pattern = .ok rpat ∧ rpat.sql = qpat.sql ++ pat
      ∧ r.sql = q.sql ++ matchText (AddFTSPropertyIndex q p).1 pat q.tableName := by
  simp only [matchOp, operandAt, List.getD_cons_zero, List.getD_cons_succ] at h
  cases hp : propertyFromNode property with
  | error e => rw [hp] at h; simp at h
  | ok p =>
    rw [hp] at h
    simp only at h
    by_cases hempty : p.isEmpty = true
    · simp [hempty, fail] at h
    · simp only [hempty, Bool.false_eq_true, if_false] at h
      have hpne : p ≠ "" := by
        intro hc
        subst hc
        exact hempty rfl
      cases hw : parseNode j ((((AddFTSPropertyIndex q p).2.emit "(FTS").emit
          (ToString.toString (AddFTSPropertyIndex q p).1)).emit ".text MATCH ") pattern with
      | error e => rw [hw] at h; simp at h
      | ok rpat =>
        rw [hw] at h
        simp only [Except.ok.injEq] at h
        obtain ⟨t, ht⟩ := (grows_parseNode j _ _ pattern hpd hw).1.sql
        have htn : rpat.tableName = q.tableName :=
          ((grows_parseNode j _ _ pattern hpd hw).1.ext.tableName).trans
            (extends_AddFTSPropertyIndex _ p).tableName
        refine ⟨p, t, _, rpat, rfl, hpne, hw, ht, ?_⟩
        subst h
        simp only [QueryParser.emit, ht, htn, matchText, sql_AddFTSPropertyIndex,
          String.append_assoc]

/-- A MATCH node that was walked: the text it appended is the match text for the index
of its property and the text of its pattern, in parentheses when the precedence of the
enclosing operation is not below that of MATCH. -/
theorem match_node_walked (k : Nat) (qm rm : QueryParser) (property pattern : Value)
    (hk : (Value.array [.string "MATCH", property, pattern]).depth < k)
    (h : parseNode k qm (.array [.string "MATCH", property, pattern]) = .ok rm) :
    ∃ (p pat : String) (j : Nat) (qpat rpat : QueryParser),
      propertyFromNode property = .ok p ∧ p ≠ ""
      ∧ pattern.depth < j ∧ parseNode j qpat pattern = .ok rpat
      ∧ rpat.sql = qpat.sql ++ pat
      ∧ (rm.sql = qm.sql ++ matchText (AddFTSPropertyIndex qm p).1 pat qm.tableName
        ∨ rm.sql = qm.sql
            ++ ("(" ++ matchText (AddFTSPropertyIndex qm p).1 pat qm.tableName ++ ")")) := by
  cases k with
  | zero => simp [parseNode] at h
  | succ k =>
    have hpd : pattern.depth < k := by
      simp only [Value.depth, Value.depthList] at hk
      have h1 : pattern.depth ≤ max pattern.depth 0 := Nat.le_max_left _ _
      have h2 : max pattern.depth 0 ≤ max property.depth (max pattern.depth 0) :=
        Nat.le_max_right _ _
      have h3 : max property.depth (max pattern.depth 0)
          ≤ max 0 (max property.depth (max pattern.depth 0)) := Nat.le_max_right _ _
      omega
    rw [parseNode_op k qm "MATCH" [property, pattern] ⟨some "MATCH", 2, 2, 3, .matchOp⟩
      (by rfl) rfl] at h
    simp only [invokeHandler, handlerOf] at h
    by_cases hparen : (3 : Int) ≤ qm.contextBack.precedence
    · simp only [hparen, decide_True, if_true] at h
      cases hres : matchOp (parseNode k) "MATCH" [property, pattern]
          ((qm.pushContext ⟨some "MATCH", 2, 2, 3, .matchOp⟩).emit "(") with
      | error e => rw [hres] at h; simp at h
      | ok r1 =>
        rw [hres] at h
        simp only [Except.ok.injEq] at h
        obtain ⟨p, pat, qpat, rpat, hp, hpne, hw, ht, hsql⟩ :=
          matchOp_text k _ r1 property pattern hpd hres
        rw [AddFTSPropertyIndex_fst_congr qm ((qm.pushContext
          ⟨some "MATCH", 2, 2, 3, .matchOp⟩).emit "(") p rfl rfl] at hsql
        refine ⟨p, pat, k, qpat, rpat, hp, hpne, hpd, hw, ht, Or.inr ?_⟩
        subst h
        simp only [QueryParser.emit, QueryParser.popContext, hsql, QueryParser.pushContext,
          String.append_assoc]
    · simp only [hparen, decide_False, Bool.false_eq_true, if_false] at h
      cases hres : matchOp (parseNode k) "MATCH" [property, pattern]
          (qm.pushContext ⟨some "MATCH", 2, 2, 3, .matchOp⟩) with
      | error e => rw [hres] at h; simp at h
      | ok r1 =>
        rw [hres] at h
        simp only [Except.ok.injEq] at h
        obtain ⟨p, pat, qpat, rpat, hp, hpne, hw, ht, hsql⟩ :=
          matchOp_text k _ r1 property pattern hpd hres
        rw [AddFTSPropertyIndex_fst_congr qm (qm.pushContext
          ⟨some "MATCH", 2, 2, 3, .matchOp⟩) p rfl rfl] at hsql
        refine ⟨p, pat, k, qpat, rpat, hp, hpne, hpd, hw, ht, Or.inl ?_⟩
        subst h
        simp only [QueryParser.popContext, hsql, QueryParser.pushContext]

/-- A MATCH node walked below the WHERE expression of a successful compile: its path is
in the scanned list, which the FTS list of the result starts with; the SQL is the text
of the 'What' and FROM clauses of the scanned list, the `WHERE` keyword and a text that
holds the match text of the node for the position of its path in the scanned list. -/
theorem match_node_compiled (qp r : QueryParser) (e w property pattern : Value)
    (h : runParse qp e = .ok r) (hw : whereOf e = some w)
    (hm : Walked w (.array [.string "MATCH", property, pattern])) :
    ∃ (p pat before after node : String),
      propertyFromNode property = .ok p
      ∧ appendPaths qp.propertyPath p ∈ scannedList qp w
      ∧ scannedList qp w <+: r.ftsProperties
      ∧ (∃ (j : Nat) (qpat rpat : QueryParser), pattern.depth < j
          ∧ parseNode j qpat pattern = .ok rpat ∧ rpat.sql = qpat.sql ++ pat)
      ∧ (node = matchText ((scannedList qp w).indexOf (appendPaths qp.propertyPath p) + 1)
            pat qp.tableName
        ∨ node = "(" ++ matchText
            ((scannedList qp w).indexOf (appendPaths qp.propertyPath p) + 1)
            pat qp.tableName ++ ")")
      ∧ r.sql = qp.sql
          ++ whatClause qp.tableName qp.baseResultColumns (scannedList qp w)
          ++ " FROM " ++ fromClause qp.tableName (scannedList qp w)
          ++ " WHERE " ++ before ++ node ++ after := by
  obtain ⟨c, qs, k, qm, rm, hscan, hk, hnode, hg1, hg2⟩ := where_walks qp r e w _ h hw hm
  obtain ⟨p, pat, j, qpat, rpat, hp, hpne, hpd, hwp, ht, htext⟩ :=
    match_node_walked k qm rm property pattern hk hnode
  have hlist : qs.ftsProperties = scannedList qp w := by
    have := findFTSProperties_list _ qs w hscan
    exact this
  have hqs := extends_of_findFTSProperties _ qs w hscan
  have hqssql : qs.sql = qp.sql := by
    have := findFTSProperties_sql _ qs w hscan
    exact this
  have hpp : qm.propertyPath = qp.propertyPath := hg1.ext.propertyPath.trans hqs.propertyPath
  have htn : qm.tableName = qp.tableName := hg1.ext.tableName.trans hqs.tableName
  have hpre : scannedList qp w <+: qm.ftsProperties := by
    rw [← hlist]
    exact hg1.ext.ftsProperties
  have hmem : appendPaths qp.propertyPath p ∈ scannedList qp w := by
    obtain ⟨p', hp', hin⟩ := scanFinds_aux w.depth w (Nat.le_refl _) _ qs hscan property
      [pattern] (scanReachable_of_walked w _ hm (by simp))
      (isArray_of_propertyFromNode property p hp hpne)
    rw [hp] at hp'
    cases hp'
    rw [← hlist]
    exact hin
  have hidx : (AddFTSPropertyIndex qm p).1
      = (scannedList qp w).indexOf (appendPaths qp.propertyPath p) + 1 := by
    rw [AddFTSPropertyIndex_fst_of_mem qm p (by rw [hpp]; exact hpre.subset hmem), hpp]
    exact FTSPropertyIndex_of_prefix_mem qm _ _ hpre hmem
  have hgm := (grows_parseNode k qm rm _ hk hnode).1
  obtain ⟨t1, ht1⟩ := hg1.sql
  obtain ⟨t2, ht2⟩ := hg2.sql
  have hhead : (qs.withSelectHead.emit " WHERE ").sql = qp.sql
      ++ whatClause qp.tableName qp.baseResultColumns (scannedList qp w)
      ++ " FROM " ++ fromClause qp.tableName (scannedList qp w) ++ " WHERE " := by
    simp only [QueryParser.emit, QueryParser.withSelectHead, hlist, hqssql, hqs.tableName,
      hqs.baseResultColumns]
  have hfts := (hpre.trans hgm.ext.ftsProperties).trans hg2.ext.ftsProperties
  rcases htext with htext | htext
  · refine ⟨p, pat, t1, t2, _, hp, hmem, hfts, ⟨j, qpat, rpat, hpd, hwp, ht⟩,
      Or.inl rfl, ?_⟩
    rw [ht2, htext, ht1, hhead, hidx, htn]
  · refine ⟨p, pat, t1, t2, _, hp, hmem, hfts, ⟨j, qpat, rpat, hpd, hwp, ht⟩,
      Or.inr rfl, ?_⟩
    rw [ht2, htext, ht1, hhead, hidx, htn]

theorem lookup_property (n : Nat) (h1 : 1 ≤ n) (h9 : n ≤ 9) :
    lookupOperation "." n kOperationList false
      = (⟨some ".", 1, 9, 9, .propertyOp⟩, true) := by
  simp [kOperationList, lookupOperation, h1, h9]

theorem propertyFromOperands_ne_nil (operands : List Value) (p : String)
    (h : propertyFromOperands operands = .ok p) (hp : p ≠ "") : operands ≠ [] := by
  intro hnil
  subst hnil
  simp only [propertyFromOperands, propertyFromOperandsLoop, Except.ok.injEq] at h
  exact hp h.symm

theorem writePropertyGetter_pushContext (qp : QueryParser) (fn p : String)
    (d : Operation) :
    writePropertyGetter (qp.pushContext d) fn p
      = (writePropertyGetter qp fn p).map (fun q => q.pushContext d) := by
  have hidx : FTSPropertyIndex (qp.pushContext d) p = FTSPropertyIndex qp p := rfl
  simp only [writePropertyGetter, hidx]
  by_cases h1 : p = "_id"
  · by_cases h2 : fn = "fl_value" <;>
      simp [h1, h2, Except.map, fail, QueryParser.emit, QueryParser.pushContext]
  · by_cases h3 : p = "_sequence"
    · by_cases h2 : fn = "fl_value" <;>
        simp [h3, h2, Except.map, fail, QueryParser.emit, QueryParser.pushContext]
    · by_cases h4 : fn = "rank"
      · by_cases h5 : FTSPropertyIndex qp p = 0 <;>
          simp [h1, h3, h4, h5, Except.map, fail, QueryParser.emit,
            QueryParser.pushContext]
      · simp [h1, h3, h4, Except.map, QueryParser.emit, QueryParser.pushContext]

/-- A property node walked under a context of precedence below 9 gets no parentheses:
the walk is the handler `propertyOp` on the parser it was given. -/
theorem property_node (qp : QueryParser) (operands : List Value) (hne : operands ≠ [])
    (hctx : qp.contextBack.precedence < 9) :
    runParseNode qp (.array (.string "." :: operands)) = propertyOp "." operands qp := by
  have hlen : 1 ≤ min operands.length 9 := by
    cases operands with
    | nil => exact absurd rfl hne
    | cons v vs => simp only [List.length_cons]; omega
  have hnot : ¬ ((9 : Int) ≤ qp.contextBack.precedence) := by omega
  unfold runParseNode
  rw [parseNode_op _ qp "." operands _ (lookup_property _ hlen (Nat.min_le_right _ _)) rfl]
  simp only [invokeHandler, handlerOf, hnot, decide_False, Bool.false_eq_true, if_false,
    propertyOp, writePropertyOp]
  cases propertyFromOperands operands with
  | error e => rfl
  | ok p =>
    simp only [writePropertyGetter_pushContext]
    cases writePropertyGetter qp "fl_value" p with
    | error e => rfl
    | ok r => simp [Except.map, QueryParser.popContext, QueryParser.pushContext]

/-- C11. A bare property node whose path is exactly `_id` emits the column name `key`,
and one whose path is exactly `_sequence` emits the column name `sequence`: the handler
`propertyOp` appends that name and nothing else, in every state, and so does the walk of
the node under a context of precedence below 9 (where the walker adds no parentheses).
The nodes `[".", "_id"]` and `[".", "_sequence"]` have these paths, and
`["=", [".", "_id"], "abc"]` compiles to `SELECT * FROM kv_default WHERE key = 'abc'`. -/
theorem reserved_property_paths (qp : QueryParser) (operands : List Value)
    (hctx : qp.contextBack.precedence < 9) :
    (propertyFromOperands operands = .ok "_id" →
      propertyOp "." operands qp = .ok (qp.emit "key")
      ∧ runParseNode qp (.array (.string "." :: operands)) = .ok (qp.emit "key"))
    ∧ (propertyFromOperands operands = .ok "_sequence" →
      propertyOp "." operands qp = .ok (qp.emit "sequence")
      ∧ runParseNode qp (.array (.string "." :: operands)) = .ok (qp.emit "sequence"))
    ∧ propertyFromOperands [.string "_id"] = .ok "_id"
    ∧ propertyFromOperands [.string "_sequence"] = .ok "_sequence"
    ∧ sqlOf (runParse (QueryParser.new "kv_default" "body")
        (.array [.string "=", .array [.string ".", .string "_id"], .string "abc"]))
      = some "SELECT * FROM kv_default WHERE key = 'abc'" := by
  refine ⟨?_, ?_, by decide!, by decide!, by decide!⟩
  · intro h
    have hop : propertyOp "." operands qp = .ok (qp.emit "key") := by
      simp [propertyOp, writePropertyOp, h, writePropertyGetter]
    exact ⟨hop, (property_node qp operands
      (propertyFromOperands_ne_nil operands _ h (by decide)) hctx).trans hop⟩
  · intro h
    have hop : propertyOp "." operands qp = .ok (qp.emit "sequence") := by
      simp [propertyOp, writePropertyOp, h, writePropertyGetter]
    exact ⟨hop, (property_node qp operands
      (propertyFromOperands_ne_nil operands _ h (by decide)) hctx).trans hop⟩

/-- C11 at the parser after `reset` and the nodes `[".", "_id"]`, `[".", "_sequence"]`:
the context has precedence -1, and the walks append `key` and `sequence`. -/
theorem reserved_property_paths_witness :
    (QueryParser.new "kv_default" "body").reset.contextBack.precedence < 9
    ∧ runParseNode (QueryParser.new "kv_default" "body").reset
        (.array [.string ".", .string "_id"])
      = .ok ((QueryParser.new "kv_default" "body").reset.emit "key")
    ∧ runParseNode (QueryParser.new "kv_default" "body").reset
        (.array [.string ".", .string "_sequence"])
      = .ok ((QueryParser.new "kv_default" "body").reset.emit "sequence") :=
  ⟨by decide,
   ((reserved_property_paths (QueryParser.new "kv_default" "body").reset
      [.string "_id"] (by decide)).1 (by decide!)).2,
   ((reserved_property_paths (QueryParser.new "kv_default" "body").reset
      [.string "_sequence"] (by decide)).2.1 (by decide!)).2⟩
/-! ## C12: property paths -/

theorem writeSQLString_quote (out s : String) : writeSQLString out s = out ++ sqlQuote s := by
  unfold writeSQLString sqlQuote
  by_cases h : (s.data.any fun c => c == apostrophe) = true
  · simp only [h, Bool.not_true, Bool.false_eq_true, if_false, writeDoubled_eq,
      String.append_assoc]
  · simp only [Bool.not_eq_true] at h
    simp only [h, Bool.not_false, if_true, doubleApostrophes_of_simple _ h,
      String.append_assoc]

theorem propertyFromOperandsLoop_segments (segments : List Value)
    (hseg : ∀ seg ∈ segments, isPathSegment seg = true) (n : Nat) (path : String) :
    propertyFromOperandsLoop segments (n + 1) path
      = .ok (segments.foldl (fun path seg => path ++ segmentText seg) path) := by
  induction segments generalizing n path with
  | nil => rfl
  | cons seg rest ih =>
    have hrest : ∀ s ∈ rest, isPathSegment s = true :=
      fun s hs => hseg s (List.mem_cons_of_mem _ hs)
    have hthis := hseg seg (List.mem_cons_self _ _)
    cases seg with
    | string name =>
      have e : segmentText (.string name) = "." ++ name := rfl
      simp only [propertyFromOperandsLoop, Value.asArray, Value.asString, List.foldl_cons,
        e, Nat.succ_pos, if_true, gt_iff_lt, Nat.zero_lt_succ]
      rw [ih hrest]
      simp only [String.append_assoc]
    | array items =>
      match items, hthis with
      | [.int i], _ =>
        have e : segmentText (.array [.int i]) = "[" ++ ToString.toString i ++ "]" := rfl
        simp only [propertyFromOperandsLoop, Value.asArray, List.foldl_cons, e,
          Nat.succ_ne_zero, if_false, List.length_singleton, ne_eq, not_true_eq_false,
          operandAt, List.getD_cons_zero, Value.asInt]
        rw [ih hrest]
        simp only [String.append_assoc]
    | null => simp [isPathSegment] at hthis
    | bool b => simp [isPathSegment] at hthis
    | int i => simp [isPathSegment] at hthis
    | float t s => simp [isPathSegment] at hthis
    | data d => simp [isPathSegment] at hthis
    | dict d => simp [isPathSegment] at hthis

/-- The path of a property node whose first segment is a string and whose later
segments are names and integer indexes. -/
theorem propertyFromOperands_segments (s0 : String) (segments : List Value)
    (hseg : ∀ seg ∈ segments, isPathSegment seg = true) :
    propertyFromOperands (.string s0 :: segments) = .ok (pathText s0 segments) := by
  simp only [propertyFromOperands, propertyFromOperandsLoop, Value.asArray, Value.asString,
    gt_iff_lt, Nat.lt_irrefl, if_false]
  rw [propertyFromOperandsLoop_segments segments hseg 0]
  simp [pathText]

/-- C12. For every property node `[".", s0, seg1, ..., segn]` in which `s0` is a string
and each later segment is a string or a one-element array holding an integer, and whose
path is not reserved: the path is `s0` followed, per segment in order, by `.name` for a
string segment and `[i]` for an index segment, and the handler `propertyOp` appends
exactly `fl_value(<bodyColumnName>, '<path>')`, the path being joined behind the
configured prefix by `appendPaths` and written as a SQL-quoted string; the walk of the
node under a context of precedence below 9 (where the walker adds no parentheses)
appends the same. So `[".", "user", "tags", [0]]` with body column `body` emits
`fl_value(body, 'user.tags[0]')`. -/
theorem property_path_emission (qp : QueryParser) (s0 : String) (segments : List Value)
    (hseg : ∀ seg ∈ segments, isPathSegment seg = true)
    (hid : pathText s0 segments ≠ "_id") (hseq : pathText s0 segments ≠ "_sequence") :
    propertyFromOperands (.string s0 :: segments) = .ok (pathText s0 segments)
    ∧ propertyOp "." (.string s0 :: segments) qp
        = .ok (qp.emit ("fl_value(" ++ qp.bodyColumnName ++ ", "
            ++ sqlQuote (appendPaths qp.propertyPath (pathText s0 segments)) ++ ")"))
    ∧ (qp.contextBack.precedence < 9 →
        runParseNode qp (.array (.string "." :: .string s0 :: segments))
          = .ok (qp.emit ("fl_value(" ++ qp.bodyColumnName ++ ", "
              ++ sqlQuote (appendPaths qp.propertyPath (pathText s0 segments)) ++ ")")))
    ∧ sqlOf (runParseJustExpression (QueryParser.new "kv_default" "body")
        (.array [.string ".", .string "user", .string "tags", .array [.int 0]]))
      = some "fl_value(body, 'user.tags[0]')" := by
  have hpath := propertyFromOperands_segments s0 segments hseg
  have hop : propertyOp "." (.string s0 :: segments) qp
      = .ok (qp.emit ("fl_value(" ++ qp.bodyColumnName ++ ", "
          ++ sqlQuote (appendPaths qp.propertyPath (pathText s0 segments)) ++ ")")) := by
    simp only [propertyOp, writePropertyOp, hpath, writePropertyGetter, hid, hseq, if_false]
    have hrank : ¬ ("fl_value" = "rank") := by decide
    simp only [hrank, if_false, writeSQLString_quote, QueryParser.emit,
      String.append_assoc]
    have e : ∀ t : String, "fl_value" ++ ("(" ++ t) = "fl_value(" ++ t := by
      intro t
      rw [← String.append_assoc]
      rfl
    rw [e]
  refine ⟨hpath, hop, ?_, by decide!⟩
  intro hctx
  exact (property_node qp _ (List.cons_ne_nil _ _) hctx).trans hop

/-- C12 at `[".", "user", "tags", [0]]` on the parser after `reset`: the segments are a
name and an index, the path `user.tags[0]` is not reserved, and the walk appends
`fl_value(body, 'user.tags[0]')`. -/
theorem property_path_emission_witness :
    (∀ seg ∈ [Value.string "tags", .array [.int 0]], isPathSegment seg = true)
    ∧ pathText "user" [.string "tags", .array [.int 0]] = "user.tags[0]"
    ∧ runParseNode (QueryParser.new "kv_default" "body").reset
        (.array [.string ".", .string "user", .string "tags", .array [.int 0]])
      = .ok ((QueryParser.new "kv_default" "body").reset.emit
          "fl_value(body, 'user.tags[0]')") :=
  ⟨by simp [isPathSegment], by decide!,
   ((property_path_emission (QueryParser.new "kv_default" "body").reset "user"
      [.string "tags", .array [.int 0]] (by simp [isPathSegment]) (by decide!)
      (by decide!)).2.2.1 (by decide)).trans (by decide!)⟩
/-! ## C13: the arity check of `parseOpNode` -/

/-- The lookup loop over entries that all bear a symbol, closed by the fallback entry,
when no entry with the symbol `op` accepts `nargs` operands: the loop ends at the
fallback entry, and `nameMatched` tells whether some entry bears the symbol. -/
theorem lookup_reject (op : String) (nargs : Nat) (named : List Operation) (fb : Operation)
    (hfb : fb.op = none) (hsome : ∀ d ∈ named, d.op.isSome = true)
    (hall : ∀ d ∈ named, d.op = some op → d.accepts nargs = false) (nm : Bool) :
    lookupOperation op nargs (named ++ [fb]) nm
      = (fb, nm || named.any (fun d => d.op == some op)) := by
  induction named generalizing nm with
  | nil => simp [lookupOperation, hfb]
  | cons d rest ih =>
    have hrest := ih (fun x hx => hsome x (List.mem_cons_of_mem _ hx))
      (fun x hx => hall x (List.mem_cons_of_mem _ hx))
    have hd := hsome d (List.mem_cons_self _ _)
    cases hop : d.op with
    | none => simp [hop] at hd
    | some symbol =>
      simp only [List.cons_append, lookupOperation, hop, List.append_eq]
      by_cases hs : op = symbol
      · subst hs
        have hacc := hall d (List.mem_cons_self _ _) hop
        simp only [Operation.accepts, decide_eq_false_iff_not] at hacc
        simp only [if_true, hacc, if_false, hrest, List.any_cons, hop, beq_self_eq_true,
          Bool.true_or, Bool.or_true]
      · have hne : (some symbol == some op) = false := by
          simp only [beq_eq_false_iff_ne, ne_eq, Option.some.injEq]
          exact fun h => hs h.symm
        simp only [hs, if_false, hrest, List.any_cons, hop, hne, Bool.false_or]

/-- The lookup loop when some entry with the symbol `op` accepts `nargs` operands: the
loop stops at such an entry. -/
theorem lookup_accept (op : String) (nargs : Nat) (named : List Operation) (fb : Operation)
    (hsome : ∀ d ∈ named, d.op.isSome = true)
    (hex : ∃ d ∈ named, d.op = some op ∧ d.accepts nargs = true) (nm : Bool) :
    ∃ d ∈ named, d.op = some op ∧ d.accepts nargs = true
      ∧ lookupOperation op nargs (named ++ [fb]) nm = (d, true) := by
  induction named generalizing nm with
  | nil =>
    obtain ⟨d, hd, _⟩ := hex
    cases hd
  | cons d rest ih =>
    have hd := hsome d (List.mem_cons_self _ _)
    cases hop : d.op with
    | none => simp [hop] at hd
    | some symbol =>
      by_cases hhere : op = symbol ∧ d.accepts nargs = true
      · obtain ⟨hs, hacc⟩ := hhere
        subst hs
        refine ⟨d, List.mem_cons_self _ _, hop, hacc, ?_⟩
        simp only [Operation.accepts, decide_eq_true_eq] at hacc
        simp only [List.cons_append, lookupOperation, hop, if_true, hacc, and_self,
          List.append_eq]
      · have hex' : ∃ x ∈ rest, x.op = some op ∧ x.accepts nargs = true := by
          obtain ⟨x, hx, hxop, hxacc⟩ := hex
          rcases List.mem_cons.mp hx with heq | hmem
          · subst heq
            rw [hop] at hxop
            exact absurd ⟨(Option.some.inj hxop).symm, hxacc⟩ hhere
          · exact ⟨x, hmem, hxop, hxacc⟩
        have hsome' : ∀ x ∈ rest, x.op.isSome = true :=
          fun x hx => hsome x (List.mem_cons_of_mem _ hx)
        by_cases hs : op = symbol
        · have hacc : ¬ (nargs ≥ d.minArgs ∧ nargs ≤ d.maxArgs) := by
            intro hc
            exact hhere ⟨hs, by simp [Operation.accepts, hc]⟩
          obtain ⟨x, hx, hxop, hxacc, hlook⟩ := ih hsome' hex' true
          refine ⟨x, List.mem_cons_of_mem _ hx, hxop, hxacc, ?_⟩
          simp only [List.cons_append, lookupOperation, hop, hs, if_true, hacc, if_false,
            List.append_eq]
          rw [← hs]
          exact hlook
        · obtain ⟨x, hx, hxop, hxacc, hlook⟩ := ih hsome' hex' nm
          refine ⟨x, List.mem_cons_of_mem _ hx, hxop, hxacc, ?_⟩
          simp only [List.cons_append, lookupOperation, hop, hs, if_false, List.append_eq]
          exact hlook

theorem kOperationList_split :
    kOperationList = kOperationList.dropLast ++ [⟨none, 0, 0, 10, .fallbackOp⟩] := by
  decide

theorem kOperationList_named : ∀ d ∈ kOperationList.dropLast, d.op.isSome = true := by
  decide

theorem mem_named_of_mem {op : String} {d : Operation} (hd : d ∈ kOperationList)
    (hop : d.op = some op) : d ∈ kOperationList.dropLast := by
  rw [kOperationList_split] at hd
  rcases List.mem_append.mp hd with h | h
  · exact h
  · simp only [List.mem_singleton] at h
    subst h
    simp at hop

/-- C13. For every operator symbol `op` that names at least one entry of the operator
table and every list of operands: when the clamped operand count `min(n, 9)` lies
outside the arity range of every table entry with that symbol, `parseOpNode` fails with
InvalidQuery `Wrong number of arguments to <op>`, whatever the walk and the state, and
runs no handler (in particular not the function-call fallback); when the count lies
inside the range of some entry with that symbol, the arity check passes and
`parseOpNode` is `handleOperation` on such an entry. The nodes `["=", 1]`,
`["=", 1, 2, 3]`, `["BETWEEN", 1, 2]`, `["-"]` and `["NOT", 1, 2]` fail to compile with
that error. -/
theorem wrong_number_of_arguments (walk : Walk) (qp : QueryParser) (op : String)
    (operands : List Value) (hname : ∃ d ∈ kOperationList, d.op = some op) :
    ((∀ d ∈ kOperationList, d.op = some op → d.accepts (min operands.length 9) = false) →
      parseOpNode walk qp (.string op :: operands)
        = .error (.InvalidQuery ("Wrong number of arguments to " ++ op)))
    ∧ ((∃ d ∈ kOperationList, d.op = some op ∧ d.accepts (min operands.length 9) = true) →
      ∃ d ∈ kOperationList, d.op = some op ∧ d.accepts (min operands.length 9) = true
        ∧ parseOpNode walk qp (.string op :: operands)
          = handleOperation walk d op operands qp)
    ∧ runParse (QueryParser.new "kv_default" "body") (.array [.string "=", .int 1])
      = .error (.InvalidQuery "Wrong number of arguments to =")
    ∧ runParse (QueryParser.new "kv_default" "body")
        (.array [.string "=", .int 1, .int 2, .int 3])
      = .error (.InvalidQuery "Wrong number of arguments to =")
    ∧ runParse (QueryParser.new "kv_default" "body")
        (.array [.string "BETWEEN", .int 1, .int 2])
      = .error (.InvalidQuery "Wrong number of arguments to BETWEEN")
    ∧ runParse (QueryParser.new "kv_default" "body") (.array [.string "-"])
      = .error (.InvalidQuery "Wrong number of arguments to -")
    ∧ runParse (QueryParser.new "kv_default" "body")
        (.array [.string "NOT", .int 1, .int 2])
      = .error (.InvalidQuery "Wrong number of arguments to NOT") := by
  refine ⟨?_, ?_, by decide!, by decide!, by decide!, by decide!, by decide!⟩
  · intro hall
    obtain ⟨d0, hd0, hop0⟩ := hname
    have hany : (kOperationList.dropLast.any fun d => d.op == some op) = true := by
      rw [List.any_eq_true]
      exact ⟨d0, mem_named_of_mem hd0 hop0, by simp [hop0]⟩
    have hlook := lookup_reject op (min operands.length 9) kOperationList.dropLast
      ⟨none, 0, 0, 10, .fallbackOp⟩ rfl kOperationList_named
      (fun d hd hop => hall d (List.mem_of_mem_dropLast hd) hop) false
    rw [← kOperationList_split] at hlook
    simp only [parseOpNode, Value.asString, hlook, hany, Bool.or_true, Option.isNone_none,
      and_self, if_true, fail]
  · intro hex
    obtain ⟨d0, hd0, hop0, hacc0⟩ := hex
    obtain ⟨d, hd, hop, hacc, hlook⟩ := lookup_accept op (min operands.length 9)
      kOperationList.dropLast ⟨none, 0, 0, 10, .fallbackOp⟩ kOperationList_named
      ⟨d0, mem_named_of_mem hd0 hop0, hop0, hacc0⟩ false
    rw [← kOperationList_split] at hlook
    refine ⟨d, List.mem_of_mem_dropLast hd, hop, hacc, ?_⟩
    simp only [parseOpNode, Value.asString, hlook, hop, Option.isNone_some,
      Bool.false_eq_true, and_false, if_false]

/-- C13 at the symbol `=` with one operand: `=` names a table entry, its only entry
takes two operands, and `parseOpNode` fails with the arity error. -/
theorem wrong_number_of_arguments_witness :
    (∃ d ∈ kOperationList, d.op = some "=")
    ∧ (∀ d ∈ kOperationList, d.op = some "=" → d.accepts (min [Value.int 1].length 9) = false)
    ∧ parseOpNode (parseNode 1) (QueryParser.new "kv_default" "body").reset
        [.string "=", .int 1]
      = .error (.InvalidQuery ("Wrong number of arguments to " ++ "=")) :=
  ⟨⟨⟨some "=", 2, 2, 3, .infixOp⟩, by decide, rfl⟩, by decide,
   (wrong_number_of_arguments (parseNode 1) (QueryParser.new "kv_default" "body").reset
      "=" [.int 1] ⟨⟨some "=", 2, 2, 3, .infixOp⟩, by decide, rfl⟩).1 (by decide)⟩
/-! ## C14: unknown operators and function calls -/

/-- The test of `fallbackOp` on the bytes of a symbol holds exactly when the symbol is a
non-empty name followed by `()`. -/
theorem isCall_iff (op : String) :
    (op.length > 2 ∧ op.data.reverse.get? 1 = some '(' ∧ op.data.reverse.get? 0 = some ')')
      ↔ ∃ name : String, name ≠ "" ∧ op = name ++ "()" := by
  constructor
  · rintro ⟨hlen, h1, h0⟩
    have hlen' : op.data.reverse.length > 2 := by simpa using hlen
    match hrev : op.data.reverse, hlen' with
    | c0 :: c1 :: c2 :: rest, _ =>
      rw [hrev] at h1 h0
      simp only [List.get?_cons_succ, List.get?_cons_zero, Option.some.injEq] at h1 h0
      subst h1 h0
      refine ⟨String.mk (c2 :: rest).reverse, ?_, ?_⟩
      · intro hc
        have := congrArg String.data hc
        simp at this
      · apply String.ext
        have := congrArg List.reverse hrev
        simp only [List.reverse_reverse] at this
        rw [this]
        simp
  · rintro ⟨name, hne, rfl⟩
    have hdata : name.data ≠ [] := by
      intro hc
      apply hne
      apply String.ext
      simpa using hc
    obtain ⟨c, cs, hcs⟩ := List.exists_cons_of_ne_nil hdata
    refine ⟨?_, ?_, ?_⟩
    · have hl : (name ++ "()").length = name.data.length + 2 := by
        rw [String.length_append]
        rfl
      rw [hl, hcs, List.length_cons]
      omega
    · simp only [String.data_append, List.reverse_append]
      rfl
    · simp only [String.data_append, List.reverse_append]
      rfl

theorem dropLast_dropLast_call (name : String) :
    String.mk (name ++ "()").data.dropLast.dropLast = name := by
  apply String.ext
  simp only [String.data_append]
  have e : name.data ++ ['(', ')'] = (name.data ++ ['(']) ++ [')'] := by simp
  rw [e, List.dropLast_concat, List.dropLast_concat]

theorem invokeHandler_fails (handler : Handler) (d : Operation) (op : String)
    (operands : List Value) (qp : QueryParser) (e : Error)
    (h : ∀ q, handler op operands q = .error e) :
    invokeHandler handler d op operands qp = .error e := by
  simp only [invokeHandler, h]

theorem lookup_unknown (op : String) (nargs : Nat)
    (hnot : ∀ d ∈ kOperationList, d.op ≠ some op) :
    lookupOperation op nargs kOperationList false
      = (⟨none, 0, 0, 10, .fallbackOp⟩, false) := by
  have hlook := lookup_reject op nargs kOperationList.dropLast
    ⟨none, 0, 0, 10, .fallbackOp⟩ rfl kOperationList_named
    (fun d hd hop => absurd hop (hnot d (List.mem_of_mem_dropLast hd))) false
  rw [← kOperationList_split] at hlook
  rw [hlook]
  have hany : (kOperationList.dropLast.any fun d => d.op == some op) = false := by
    rw [List.any_eq_false]
    intro d hd
    have := hnot d (List.mem_of_mem_dropLast hd)
    simpa using this
  simp [hany]

/-- C14. For every operation node whose symbol `op` is not the symbol of any table
entry, whatever its operands, the walk and the state: when `op` is not a non-empty name
followed by `()`, `parseOpNode` fails with InvalidQuery `Unknown operator: <op>`; when
`op` is `<name>()` with a non-empty name, no arity is checked and `parseOpNode` is
`handleOperation` on the fallback entry with the handler `fallbackOp`, which, apart from
the special cases of `count` and `rank` over a property, writes the name and then the
operands as an argument list, whatever their number. `["foo()"]` emits `foo()`,
`["foo()", 1, 2]` emits `foo(1, 2)`, a call with ten operands compiles, and `["foo", 1]`
and `["()"]` fail with the unknown-operator error. -/
theorem unknown_operator (walk : Walk) (qp : QueryParser) (op : String)
    (operands : List Value) (hnot : ∀ d ∈ kOperationList, d.op ≠ some op) :
    ((¬ ∃ name : String, name ≠ "" ∧ op = name ++ "()") →
      parseOpNode walk qp (.string op :: operands)
        = .error (.InvalidQuery ("Unknown operator: " ++ op)))
    ∧ (∀ name : String, name ≠ "" → op = name ++ "()" →
      parseOpNode walk qp (.string op :: operands)
        = invokeHandler (fallbackOp walk) ⟨none, 0, 0, 10, .fallbackOp⟩ op operands qp
      ∧ (∀ q : QueryParser, fallbackOp walk op operands q
          = (fallbackSpecialCase name operands
              (q.setContextBack { q.contextBack with op := some op })).bind
            (fun res => if res.1 = true then .ok res.2
              else writeArgList walk operands (res.2.emit name)))
      ∧ (name ≠ "count" → name ≠ "rank" →
          ∀ q : QueryParser, fallbackOp walk op operands q
            = writeArgList walk operands
                ((q.setContextBack { q.contextBack with op := some op }).emit name)))
    ∧ sqlOf (runParseJustExpression (QueryParser.new "kv_default" "body")
        (.array [.string "foo()"])) = some "foo()"
    ∧ sqlOf (runParseJustExpression (QueryParser.new "kv_default" "body")
        (.array [.string "foo()", .int 1, .int 2])) = some "foo(1, 2)"
    ∧ sqlOf (runParseJustExpression (QueryParser.new "kv_default" "body")
        (.array [.string "f()", .int 0, .int 1, .int 2, .int 3, .int 4, .int 5, .int 6,
          .int 7, .int 8, .int 9])) = some "f(0, 1, 2, 3, 4, 5, 6, 7, 8, 9)"
    ∧ runParse (QueryParser.new "kv_default" "body") (.array [.string "foo", .int 1])
      = .error (.InvalidQuery "Unknown operator: foo")
    ∧ runParse (QueryParser.new "kv_default" "body") (.array [.string "()"])
      = .error (.InvalidQuery "Unknown operator: ()") := by
  have hlook := lookup_unknown op (min operands.length 9) hnot
  have hnode : parseOpNode walk qp (.string op :: operands)
      = invokeHandler (fallbackOp walk) ⟨none, 0, 0, 10, .fallbackOp⟩ op operands qp := by
    simp only [parseOpNode, Value.asString, hlook, Bool.false_eq_true, false_and, if_false,
      handleOperation, handlerOf]
  refine ⟨?_, ?_, by decide!, by decide!, by decide!, by decide!, by decide!⟩
  · intro hcall
    rw [hnode]
    apply invokeHandler_fails
    intro q
    have htest := (isCall_iff op).not.mpr hcall
    simp only [fallbackOp, htest, not_false_eq_true, if_true, fail]
  · intro name hne hop
    have htest := (isCall_iff op).mpr ⟨name, hne, hop⟩
    have hname : String.mk op.data.dropLast.dropLast = name := by
      rw [hop]
      exact dropLast_dropLast_call name
    have hfb : ∀ q : QueryParser, fallbackOp walk op operands q
        = (fallbackSpecialCase name operands
            (q.setContextBack { q.contextBack with op := some op })).bind
          (fun res => if res.1 = true then .ok res.2
            else writeArgList walk operands (res.2.emit name)) := by
      intro q
      simp only [fallbackOp, htest, not_true_eq_false, if_false, hname]
      cases fallbackSpecialCase name operands
          (q.setContextBack { q.contextBack with op := some op }) with
      | error e => rfl
      | ok res =>
        obtain ⟨b, q1⟩ := res
        cases b <;> rfl
    refine ⟨hnode, hfb, ?_⟩
    intro hc hr q
    rw [hfb]
    simp only [fallbackSpecialCase, hc, hr, if_false]
    rfl

/-- C14 at the symbols `foo` and `foo()`: neither names a table entry; `foo` fails with
the unknown-operator error, `foo()` is handed to `fallbackOp`. -/
theorem unknown_operator_witness :
    (∀ d ∈ kOperationList, d.op ≠ some "foo")
    ∧ (∀ d ∈ kOperationList, d.op ≠ some "foo()")
    ∧ parseOpNode (parseNode 1) (QueryParser.new "kv_default" "body").reset
        [.string "foo", .int 1]
      = .error (.InvalidQuery ("Unknown operator: " ++ "foo"))
    ∧ parseOpNode (parseNode 1) (QueryParser.new "kv_default" "body").reset
        [.string "foo()", .int 1]
      = invokeHandler (fallbackOp (parseNode 1)) ⟨none, 0, 0, 10, .fallbackOp⟩ "foo()"
          [.int 1] (QueryParser.new "kv_default" "body").reset :=
  ⟨by decide, by decide,
   (unknown_operator (parseNode 1) (QueryParser.new "kv_default" "body").reset "foo"
      [.int 1] (by decide)).1 (by
        rintro ⟨name, _, h⟩
        have hd := congrArg (fun s : String => s.data.getLast?) h
        simp only [String.data_append] at hd
        have hl : (name.data ++ "()".data).getLast? = some ')' := by
          have e : "()".data = ['('] ++ [')'] := rfl
          rw [e, ← List.append_assoc, List.getLast?_concat]
        rw [hl] at hd
        exact absurd hd (by decide)),
   ((unknown_operator (parseNode 1) (QueryParser.new "kv_default" "body").reset "foo()"
      [.int 1] (by decide)).2.1 "foo" (by decide) rfl).1⟩
/-! ## C15: reserved paths under EXISTS, count() and rank() -/

theorem writePropertyGetter_reserved (q : QueryParser) (fn reserved : String)
    (hres : reserved = "_id" ∨ reserved = "_sequence") (hfn : fn ≠ "fl_value") :
    writePropertyGetter q fn reserved
      = .error (.InvalidQuery ("can't use '" ++ reserved ++ "' in this context")) := by
  rcases hres with h | h <;> subst h <;> simp [writePropertyGetter, hfn, fail]

theorem writeNestedPropertyOpIfAny_reserved (q : QueryParser) (fn reserved : String)
    (segments rest : List Value)
    (hres : reserved = "_id" ∨ reserved = "_sequence") (hfn : fn ≠ "fl_value")
    (hpath : propertyFromOperands segments = .ok reserved) :
    writeNestedPropertyOpIfAny q fn (.array (.string "." :: segments) :: rest)
      = .error (.InvalidQuery ("can't use '" ++ reserved ++ "' in this context")) := by
  simp only [writeNestedPropertyOpIfAny, Value.asArray, Value.asString, ne_eq,
    not_true_eq_false, if_false, writePropertyOp, hpath,
    writePropertyGetter_reserved q fn reserved hres hfn]

/-- C15. The reserved paths `_id` and `_sequence` are accepted only in a bare property
read: for every property node whose path is `_id` or `_sequence`, the nodes
`["EXISTS", property]`, `["count()", property, ...]` and `["rank()", property, ...]`
fail with InvalidQuery `can't use '<path>' in this context`, whatever the walk and the
state, so no function call is emitted. -/
theorem reserved_only_bare (walk : Walk) (qp : QueryParser) (segments rest : List Value)
    (reserved : String) (hres : reserved = "_id" ∨ reserved = "_sequence")
    (hpath : propertyFromOperands segments = .ok reserved) :
    parseOpNode walk qp [.string "EXISTS", .array (.string "." :: segments)]
      = .error (.InvalidQuery ("can't use '" ++ reserved ++ "' in this context"))
    ∧ parseOpNode walk qp
        (.string "count()" :: .array (.string "." :: segments) :: rest)
      = .error (.InvalidQuery ("can't use '" ++ reserved ++ "' in this context"))
    ∧ parseOpNode walk qp
        (.string "rank()" :: .array (.string "." :: segments) :: rest)
      = .error (.InvalidQuery ("can't use '" ++ reserved ++ "' in this context"))
    ∧ runParse (QueryParser.new "kv_default" "body")
        (.array [.string "EXISTS", .array [.string ".", .string "_id"]])
      = .error (.InvalidQuery "can't use '_id' in this context")
    ∧ runParse (QueryParser.new "kv_default" "body")
        (.array [.string "count()", .array [.string ".", .string "_sequence"]])
      = .error (.InvalidQuery "can't use '_sequence' in this context")
    ∧ runParse (QueryParser.new "kv_default" "body")
        (.array [.string "rank()", .array [.string ".", .string "_id"]])
      = .error (.InvalidQuery "can't use '_id' in this context") := by
  refine ⟨?_, ?_, ?_, by decide!, by decide!, by decide!⟩
  · have hlook : lookupOperation "EXISTS"
        (min [Value.array (.string "." :: segments)].length 9) kOperationList false
        = (⟨some "EXISTS", 1, 1, 8, .existsOp⟩, true) := by rfl
    simp only [parseOpNode, Value.asString, hlook, Option.isNone_some, Bool.false_eq_true,
      and_false, if_false, handleOperation, handlerOf]
    apply invokeHandler_fails
    intro q
    simp only [existsOp, writeNestedPropertyOpIfAny_reserved q "fl_exists" reserved
      segments [] hres (by decide) hpath]
  · have hlook := lookup_unknown "count()"
      (min (Value.array (.string "." :: segments) :: rest).length 9) (by decide)
    simp only [parseOpNode, Value.asString, hlook, Bool.false_eq_true, false_and, if_false,
      handleOperation, handlerOf]
    apply invokeHandler_fails
    intro q
    have htest : "count()".length > 2 ∧ "count()".data.reverse.get? 1 = some '('
        ∧ "count()".data.reverse.get? 0 = some ')' := by decide
    have hname : String.mk "count()".data.dropLast.dropLast = "count" := by decide
    simp only [fallbackOp, htest, not_true_eq_false, if_false, hname, fallbackSpecialCase,
      if_true, writeNestedPropertyOpIfAny_reserved _ "fl_count" reserved
        segments rest hres (by decide) hpath]
    simp
  · have hlook := lookup_unknown "rank()"
      (min (Value.array (.string "." :: segments) :: rest).length 9) (by decide)
    simp only [parseOpNode, Value.asString, hlook, Bool.false_eq_true, false_and, if_false,
      handleOperation, handlerOf]
    apply invokeHandler_fails
    intro q
    have htest : "rank()".length > 2 ∧ "rank()".data.reverse.get? 1 = some '('
        ∧ "rank()".data.reverse.get? 0 = some ')' := by decide
    have hname : String.mk "rank()".data.dropLast.dropLast = "rank" := by decide
    have hne : ¬ ("rank" = "count") := by decide
    simp only [fallbackOp, htest, not_true_eq_false, if_false, hname, fallbackSpecialCase,
      hne, if_true, writeNestedPropertyOpIfAny_reserved _ "rank" reserved
        segments rest hres (by decide) hpath]
    simp

/-- C15 at the property node `[".", "_id"]`: its path is `_id`, and EXISTS over it
fails. -/
theorem reserved_only_bare_witness :
    propertyFromOperands [.string "_id"] = .ok "_id"
    ∧ parseOpNode (parseNode 1) (QueryParser.new "kv_default" "body").reset
        [.string "EXISTS", .array [.string ".", .string "_id"]]
      = .error (.InvalidQuery ("can't use '" ++ "_id" ++ "' in this context")) :=
  ⟨by decide!,
   (reserved_only_bare (parseNode 1) (QueryParser.new "kv_default" "body").reset
      [.string "_id"] [] "_id" (Or.inl rfl) (by decide!)).1⟩
/-! ## C16: rejected property nodes -/

theorem writeWhatAndFrom_what (d : List (String × Value)) (q : QueryParser)
    (h : (Dict.get d "WHAT").isSome = true) :
    writeWhatAndFrom (some d) q
      = .error (.InvalidQuery "WHAT parameter to SELECT isn't supported yet, sorry") := by
  have e : ((some d).bind fun d => Dict.get d "WHAT") = Dict.get d "WHAT" := rfl
  simp only [writeWhatAndFrom, e, h, if_true, fail]

theorem writeWhatAndFrom_from (d : List (String × Value)) (q : QueryParser)
    (hw : (Dict.get d "WHAT").isSome = false) (h : (Dict.get d " FROM").isSome = true) :
    writeWhatAndFrom (some d) q
      = .error (.InvalidQuery "FROM parameter to SELECT isn't supported yet, sorry") := by
  have e : ((some d).bind fun d => Dict.get d "WHAT") = Dict.get d "WHAT" := rfl
  have e' : ((some d).bind fun d => Dict.get d " FROM") = Dict.get d " FROM" := rfl
  simp only [writeWhatAndFrom, e, e', hw, h, if_true, if_false, fail, Bool.false_eq_true]

theorem writeWhatAndFrom_neither (d : List (String × Value)) (q : QueryParser)
    (hw : (Dict.get d "WHAT").isSome = false) (hf : (Dict.get d " FROM").isSome = false) :
    writeWhatAndFrom (some d) q = .ok q.withSelectHead := by
  cases hres : writeWhatAndFrom (some d) q with
  | ok r => rw [writeWhatAndFrom_text (some d) q r hres]; rfl
  | error err =>
    have e : ((some d).bind fun d => Dict.get d "WHAT") = Dict.get d "WHAT" := rfl
    have e' : ((some d).bind fun d => Dict.get d " FROM") = Dict.get d " FROM" := rfl
    simp only [writeWhatAndFrom, e, e', hw, hf, if_false, Bool.false_eq_true] at hres
    cases hres

/-- The scan of a WHERE expression fails with InvalidQuery only. -/
theorem scanWhere_error (whereExpr : Option Value) (q : QueryParser) (e : Error)
    (h : scanWhere whereExpr q = .error e) : ∃ msg, e = .InvalidQuery msg := by
  have hout := outcome_scanWhere whereExpr q
  rw [h] at hout
  cases e with
  | InvalidQuery msg => exact ⟨msg, rfl⟩
  | OutOfFuel => exact absurd rfl hout

/-- The compile of a SELECT dict: the scan of its WHERE entry, then the clauses. -/
theorem runParse_dict (qp : QueryParser) (d : List (String × Value)) :
    runParse qp (.dict d)
      = (scanWhere (Dict.get d "WHERE") qp.reset).bind
          (fun qs => writeClauses (parseNode ((Value.dict d).depth + 1))
            (Dict.get d "WHERE") (some d) qs) := by
  simp only [runParse, parse, Value.asDict, writeSelectDict, writeSelect]
  cases scanWhere (Dict.get d "WHERE") qp.reset <;> rfl

theorem writeClauses_of_head_error (walk : Walk) (whereExpr : Option Value)
    (operands : Option (List (String × Value))) (q : QueryParser) (e : Error)
    (h : writeWhatAndFrom operands q = .error e) :
    writeClauses walk whereExpr operands q = .error e := by
  simp only [writeClauses, h]

/-- C17. For every SELECT dict, whatever its other keys and whatever the parser:
`parse` fails with InvalidQuery when the dict has a key `WHAT`, and also when it has a
key ` FROM`. The scan of the WHERE entry runs first and can only fail with InvalidQuery;
when it passes, the error is `WHAT parameter to SELECT isn't supported yet, sorry`, or,
without a key `WHAT`, `FROM parameter to SELECT isn't supported yet, sorry`. A dict with
neither key is not rejected for this reason: the 'What' and FROM clauses are written. -/
theorem select_what_from_rejected (qp : QueryParser) (d : List (String × Value)) :
    ((Dict.get d "WHAT").isSome = true →
      (∃ msg, runParse qp (.dict d) = .error (.InvalidQuery msg))
      ∧ (∀ qs, scanWhere (Dict.get d "WHERE") qp.reset = .ok qs →
          runParse qp (.dict d) = .error
            (.InvalidQuery "WHAT parameter to SELECT isn't supported yet, sorry")))
    ∧ ((Dict.get d " FROM").isSome = true →
      (∃ msg, runParse qp (.dict d) = .error (.InvalidQuery msg))
      ∧ ((Dict.get d "WHAT").isSome = false →
          ∀ qs, scanWhere (Dict.get d "WHERE") qp.reset = .ok qs →
            runParse qp (.dict d) = .error
              (.InvalidQuery "FROM parameter to SELECT isn't supported yet, sorry")))
    ∧ ((Dict.get d "WHAT").isSome = false → (Dict.get d " FROM").isSome = false →
      ∀ q : QueryParser, writeWhatAndFrom (some d) q = .ok q.withSelectHead)
    ∧ runParse (QueryParser.new "kv_default" "body")
        (.dict [("WHAT", .array [.string ".", .string "a"]), ("WHERE", .int 1)])
      = .error (.InvalidQuery "WHAT parameter to SELECT isn't supported yet, sorry")
    ∧ runParse (QueryParser.new "kv_default" "body")
        (.dict [(" FROM", .null), ("WHERE", .int 1)])
      = .error (.InvalidQuery "FROM parameter to SELECT isn't supported yet, sorry")
    ∧ sqlOf (runParse (QueryParser.new "kv_default" "body") (.dict [("WHERE", .int 1)]))
      = some "SELECT * FROM kv_default WHERE 1" := by
  have hhead : ∀ (e : Error), (∀ q, writeWhatAndFrom (some d) q = .error e) →
      (∀ qs, scanWhere (Dict.get d "WHERE") qp.reset = .ok qs →
        runParse qp (.dict d) = .error e) := by
    intro e he qs hs
    rw [runParse_dict, hs]
    exact writeClauses_of_head_error _ _ _ qs e (he qs)
  have hex : ∀ (msg : String),
      (∀ q, writeWhatAndFrom (some d) q = .error (.InvalidQuery msg)) →
      ∃ msg', runParse qp (.dict d) = .error (.InvalidQuery msg') := by
    intro msg he
    cases hs : scanWhere (Dict.get d "WHERE") qp.reset with
    | error e =>
      obtain ⟨m, hm⟩ := scanWhere_error _ _ e hs
      refine ⟨m, ?_⟩
      rw [runParse_dict, hs, hm]
      rfl
    | ok qs => exact ⟨msg, hhead _ he qs hs⟩
  refine ⟨?_, ?_, ?_, by decide!, by decide!, by decide!⟩
  · intro hw
    exact ⟨hex _ (fun q => writeWhatAndFrom_what d q hw),
      hhead _ (fun q => writeWhatAndFrom_what d q hw)⟩
  · intro hf
    constructor
    · cases hw : (Dict.get d "WHAT").isSome with
      | true => exact hex _ (fun q => writeWhatAndFrom_what d q hw)
      | false => exact hex _ (fun q => writeWhatAndFrom_from d q hw hf)
    · intro hw
      exact hhead _ (fun q => writeWhatAndFrom_from d q hw hf)
  · intro hw hf q
    exact writeWhatAndFrom_neither d q hw hf

/-- C17 at the dict with the keys `WHAT` and `WHERE`: it has the key `WHAT`, the scan of
`1` passes, and `parse` fails with the `WHAT` error. -/
theorem select_what_from_rejected_witness :
    (Dict.get [("WHAT", Value.null), ("WHERE", .int 1)] "WHAT").isSome = true
    ∧ runParse (QueryParser.new "kv_default" "body")
        (.dict [("WHAT", .null), ("WHERE", .int 1)])
      = .error (.InvalidQuery "WHAT parameter to SELECT isn't supported yet, sorry") :=
  ⟨rfl,
   ((select_what_from_rejected (QueryParser.new "kv_default" "body")
      [("WHAT", .null), ("WHERE", .int 1)]).1 rfl).2
      (QueryParser.new "kv_default" "body").reset (by rfl)⟩
/-! ## C18: scalar nodes -/

/-- C18 (the code at the failing input). On a Null node the `kNull` case of `parseNode`
writes `null` and, having no `break`, runs on into the `kNumber` case, which writes the
text of the node, `null`, once more: the node emits `nullnull`, not `null`, and
`["=", [".", "a"], null]` compiles to
`SELECT * FROM kv_default WHERE fl_value(body, 'a') = nullnull`. The other scalars are
written as the claim says: a Bool emits `1` or `0`, a Number only its text. -/
theorem null_node_emits_twice (walk : Walk) (qp : QueryParser) :
    parseNodeBody walk qp .null = .ok (qp.emit "nullnull")
    ∧ runParseNode qp .null = .ok (qp.emit "nullnull")
    ∧ runParseNode qp .null ≠ .ok (qp.emit "null")
    ∧ sqlOf (runParse (QueryParser.new "kv_default" "body")
        (.array [.string "=", .array [.string ".", .string "a"], .null]))
      = some "SELECT * FROM kv_default WHERE fl_value(body, 'a') = nullnull"
    ∧ (∀ b : Bool, parseNodeBody walk qp (.bool b)
        = .ok (qp.emit (if b then "1" else "0")))
    ∧ (∀ i : Int, parseNodeBody walk qp (.int i) = .ok (qp.emit (ToString.toString i)))
    ∧ (∀ (t : Int) (text : String),
        parseNodeBody walk qp (.float t text) = .ok (qp.emit text)) := by
  have hnull : parseNodeBody walk qp .null = .ok (qp.emit "nullnull") := by
    simp only [parseNodeBody, Value.toString, QueryParser.emit, String.append_assoc]
    rfl
  refine ⟨hnull, hnull, ?_, by decide!, fun b => rfl, fun i => rfl, fun t text => rfl⟩
  have h : runParseNode qp .null = .ok (qp.emit "nullnull") := hnull
  rw [h]
  intro hc
  have hsql := congrArg (fun r => r.toOption.map (fun q => q.sql.length)) hc
  simp only [Except.toOption, Option.map_some', QueryParser.emit, String.length_append,
    Option.some.injEq] at hsql
  have h8 : "nullnull".length = 8 := rfl
  have h4 : "null".length = 4 := rfl
  omega
/-! ## C19: the ORDER BY clause -/

theorem joinTexts_cons (t : String) (ts : List String) :
    joinTexts (t :: ts) = t ++ (if ts = [] then "" else ", " ++ joinTexts ts) := by
  cases ts with
  | nil => simp [joinTexts]
  | cons u us => simp [joinTexts, String.append_assoc]

/-- The loop of `infixOp` for the comma: the items are walked in order, under the
context the loop was given, and the texts they append are separated by `, `. -/
theorem infixOpLoop_texts (n : Nat) (es : List Value) (hd : Value.depthList es < n)
    (idx : Nat) (q r : QueryParser) (hctx : q.contextBack = kArgListOperation)
    (h : infixOpLoop (parseNode n) "," es idx q = .ok r) :
    ∃ texts : List String, List.Forall₂ EmittedInArgList es texts
      ∧ r.sql = q.sql ++ (if idx > 0 ∧ es.isEmpty = false then ", " else "") ++ joinTexts texts
      ∧ r.context = q.context := by
  induction es generalizing idx q with
  | nil =>
    simp only [infixOpLoop, Except.ok.injEq] at h
    subst h
    exact ⟨[], List.Forall₂.nil, by simp [joinTexts], rfl⟩
  | cons e rest ih =>
    simp only [Value.depthList, Nat.max_lt] at hd
    rw [infixOpLoop_cons] at h
    have hcomma : ¬ ("," ≠ ",") := by simp
    simp only [hcomma, if_false] at h
    cases h1 : parseNode n (if idx > 0 then (q.emit ",").emit " " else q) e with
    | error err => rw [h1] at h; simp [Except.bind] at h
    | ok q1 =>
      rw [h1] at h
      simp only [Except.bind] at h
      obtain ⟨hg, hc⟩ := grows_parseNode n _ q1 e hd.1 h1
      obtain ⟨t, ht⟩ := hg.sql
      have hctx0 : (if idx > 0 then (q.emit ",").emit " " else q).context = q.context := by
        split <;> rfl
      have hctx1 : q1.contextBack = kArgListOperation := by
        rw [← hctx]
        exact contextBack_eq_of_context (hc.trans hctx0)
      obtain ⟨texts, hall, hsql, hcr⟩ := ih hd.2 (idx + 1) q1 hctx1 h
      refine ⟨t :: texts, List.Forall₂.cons ⟨n, _, q1, hd.1, ?_, h1, ht⟩ hall, ?_,
        hcr.trans (hc.trans hctx0)⟩
      · rw [← hctx]
        exact contextBack_eq_of_context hctx0
      · have hlen := hall.length_eq
        rw [hsql, ht, joinTexts_cons]
        cases rest with
        | nil =>
          have htexts : texts = [] := by
            cases texts with
            | nil => rfl
            | cons u us => simp at hlen
          subst htexts
          by_cases hi : idx > 0 <;>
            simp [hi, joinTexts, QueryParser.emit, String.append_assoc]
        | cons u us =>
          have htexts : texts ≠ [] := by
            intro hc'
            subst hc'
            simp at hlen
          by_cases hi : idx > 0 <;>
            simp [hi, htexts, QueryParser.emit, String.append_assoc]

theorem writeLimitOffset_text (q : QueryParser) :
    (writeLimitOffset q).sql = q.sql ++ limitOffsetText q := by
  unfold writeLimitOffset limitOffsetText
  by_cases hl : q.defaultLimit.isEmpty = true <;>
  by_cases ho : q.defaultOffset.isEmpty = true <;>
  simp [hl, ho, QueryParser.emit, String.append_assoc]

theorem limitOffsetText_congr (a b : QueryParser) (hl : a.defaultLimit = b.defaultLimit)
    (ho : a.defaultOffset = b.defaultOffset) : limitOffsetText a = limitOffsetText b := by
  simp only [limitOffsetText, hl, ho]

theorem table_precedence : ∀ d ∈ kOperationList, (1 : Int) ≤ d.precedence := by
  decide

/-- No parentheses are added around an item of an argument list that is an operation of
the table: its walk under the argument-list operation is the handler of its table entry,
run with the entry on top of the context stack. -/
theorem table_operator_in_argList (k : Nat) (q : QueryParser) (op : String)
    (operands : List Value) (d : Operation)
    (hlook : lookupOperation op (min operands.length 9) kOperationList false = (d, true))
    (hop : d.op.isSome = true) (hmem : d ∈ kOperationList)
    (hctx : q.contextBack = kArgListOperation) :
    parseNode (k + 1) q (.array (.string op :: operands))
      = (handlerOf (parseNode k) d.handler op operands (q.pushContext d)).map
          QueryParser.popContext := by
  rw [parseNode_op k q op operands d hlook hop]
  have hp := table_precedence d hmem
  have hparen : decide (d.precedence ≤ q.contextBack.precedence) = false := by
    rw [hctx]
    have : kArgListOperation.precedence = -2 := rfl
    rw [this]
    simp only [decide_eq_false_iff_not]
    omega
  simp only [invokeHandler, hparen, Bool.false_eq_true, if_false]
  cases handlerOf (parseNode k) d.handler op operands (q.pushContext d) <;> rfl

/-- A compile fails with InvalidQuery only: the budget of `runParse` is never used up. -/
theorem runParse_error (qp : QueryParser) (e : Value) (err : Error)
    (h : runParse qp e = .error err) : ∃ msg, err = .InvalidQuery msg := by
  have hout := outcome_parse (outcome_parseNode (e.depth + 1)) e (Nat.lt_succ_self _) qp
  unfold runParse at h
  rw [h] at hout
  cases err with
  | InvalidQuery msg => exact ⟨msg, rfl⟩
  | OutOfFuel => exact absurd rfl hout

/-- The index `FTSPropertyIndex` gives a path: 0 exactly when the path is not in the
list, and else one more than the first position of the path. -/
theorem FTSPropertyIndex_spec (q : QueryParser) (p : String) :
    (FTSPropertyIndex q p = 0 ↔ p ∉ q.ftsProperties)
    ∧ (p ∈ q.ftsProperties →
        FTSPropertyIndex q p = q.ftsProperties.indexOf p + 1
        ∧ q.ftsProperties.get? (FTSPropertyIndex q p - 1) = some p) := by
  by_cases hmem : p ∈ q.ftsProperties
  · have hlt := List.indexOf_lt_length.mpr hmem
    have hne : List.indexOf p q.ftsProperties ≠ q.ftsProperties.length := Nat.ne_of_lt hlt
    have hidx : FTSPropertyIndex q p = q.ftsProperties.indexOf p + 1 := by
      simp only [FTSPropertyIndex, hne, if_false]
    refine ⟨⟨fun h => by omega, fun h => absurd hmem h⟩, fun _ => ⟨hidx, ?_⟩⟩
    rw [hidx, Nat.add_sub_cancel, List.get?_eq_getElem?, List.getElem?_eq_getElem hlt]
    exact congrArg some (List.indexOf_get hlt)
  · have heq := List.indexOf_eq_length.mpr hmem
    have hidx : FTSPropertyIndex q p = 0 := by
      simp only [FTSPropertyIndex, heq, if_true]
    exact ⟨⟨fun _ => hmem, fun _ => hidx⟩, fun h => absurd h hmem⟩

theorem nodup_of_reachable (q : QueryParser) (h : FTSReachable q) :
    q.ftsProperties.Nodup := by
  induction h with
  | empty qp hempty => rw [hempty]; exact List.nodup_nil
  | add qp property _ ih => exact (extends_AddFTSPropertyIndex qp property).ftsNodup ih
  | scan qp r w _ hscan ih => exact (extends_of_findFTSProperties qp r w hscan).ftsNodup ih
  | matchOp qp r op operands _ hm ih =>
    have hout := outcome_matchOp (outcome_parseNode (Value.depthList operands + 1)) op
      operands (Nat.lt_succ_self _) qp
    rw [hm] at hout
    exact hout.1.ftsNodup ih
  | walk qp r e _ hw ih =>
    have hout := outcome_parseNode (e.depth + 1) qp e (Nat.lt_succ_self _)
    unfold runParseNode at hw
    rw [hw] at hout
    exact hout.1.ftsNodup ih
  | compile qp r e _ hc ih =>
    have hout := outcome_parse (outcome_parseNode (e.depth + 1)) e (Nat.lt_succ_self _) qp
    unfold runParse at hc
    rw [hc] at hout
    exact hout.1.ftsNodup ih

/-- C20. In every state reachable by compiling from an empty list (through any sequence
of `AddFTSPropertyIndex`, `findFTSProperties`, `matchOp`, walks and compiles) the
FTS-properties list has no duplicates, and for every path `p`: `FTSPropertyIndex(p)` is
0 exactly when `p` is not in the list, and otherwise it is the 1-based position of `p`,
the one position at which the list holds `p`. The index part holds of every list. -/
theorem fts_list_invariant (q : QueryParser) (h : FTSReachable q) :
    q.ftsProperties.Nodup
    ∧ ∀ p : String,
        (FTSPropertyIndex q p = 0 ↔ p ∉ q.ftsProperties)
        ∧ (p ∈ q.ftsProperties →
            1 ≤ FTSPropertyIndex q p
            ∧ ∀ i : Nat, q.ftsProperties.get? i = some p ↔ FTSPropertyIndex q p = i + 1) := by
  have hnodup := nodup_of_reachable q h
  refine ⟨hnodup, fun p => ⟨(FTSPropertyIndex_spec q p).1, fun hmem => ?_⟩⟩
  obtain ⟨hidx, hget⟩ := (FTSPropertyIndex_spec q p).2 hmem
  refine ⟨by omega, fun i => ⟨fun hi => ?_, fun hi => ?_⟩⟩
  · rw [List.get?_eq_getElem?] at hi
    obtain ⟨hlt, hval⟩ := List.getElem?_eq_some.mp hi
    have := List.indexOf_getElem hnodup i hlt
    rw [hval] at this
    rw [hidx, this]
  · rw [hi, Nat.add_sub_cancel] at hget
    exact hget

/-- C20 at the state after the scan of
`["AND", ["MATCH", [".", "a"], "x"], ["MATCH", [".", "b"], "y"], ["MATCH", [".", "a"],
"z"]]` from an empty list: the list is `a`, `b`, without duplicate, and the indexes of
`a`, `b` and `c` are 1, 2 and 0. -/
theorem fts_list_invariant_witness :
    findFTSProperties (QueryParser.new "kv_default" "body")
        (.array [.string "AND",
          .array [.string "MATCH", .array [.string ".", .string "a"], .string "x"],
          .array [.string "MATCH", .array [.string ".", .string "b"], .string "y"],
          .array [.string "MATCH", .array [.string ".", .string "a"], .string "z"]])
      = .ok { QueryParser.new "kv_default" "body" with ftsProperties := ["a", "b"] }
    ∧ ["a", "b"].Nodup
    ∧ FTSPropertyIndex
        { QueryParser.new "kv_default" "body" with ftsProperties := ["a", "b"] } "a" = 1
    ∧ FTSPropertyIndex
        { QueryParser.new "kv_default" "body" with ftsProperties := ["a", "b"] } "b" = 2
    ∧ (FTSPropertyIndex
        { QueryParser.new "kv_default" "body" with ftsProperties := ["a", "b"] } "c" = 0
      ↔ "c" ∉ ["a", "b"]) :=
  ⟨by decide!,
   (fts_list_invariant
      { QueryParser.new "kv_default" "body" with ftsProperties := ["a", "b"] }
      (FTSReachable.scan (QueryParser.new "kv_default" "body") _
        (.array [.string "AND",
          .array [.string "MATCH", .array [.string ".", .string "a"], .string "x"],
          .array [.string "MATCH", .array [.string ".", .string "b"], .string "y"],
          .array [.string "MATCH", .array [.string ".", .string "a"], .string "z"]])
        (FTSReachable.empty _ rfl) (by decide!))).1,
   by decide, by decide,
   ((fts_list_invariant
      { QueryParser.new "kv_default" "body" with ftsProperties := ["a", "b"] }
      (FTSReachable.scan (QueryParser.new "kv_default" "body") _
        (.array [.string "AND",
          .array [.string "MATCH", .array [.string ".", .string "a"], .string "x"],
          .array [.string "MATCH", .array [.string ".", .string "b"], .string "y"],
          .array [.string "MATCH", .array [.string ".", .string "a"], .string "z"]])
        (FTSReachable.empty _ rfl) (by decide!))).2 "c").1⟩
/-! ## C30: `appendPaths` -/

theorem isEmpty_iff_eq_empty (s : String) : s.isEmpty = true ↔ s = "" := by
  constructor
  · intro h
    apply String.ext
    have : s.endPos = 0 := by simpa [String.isEmpty] using h
    have hlen : s.utf8ByteSize = 0 := by
      have := congrArg String.Pos.byteIdx this
      simpa [String.endPos] using this
    cases hd : s.data with
    | nil => rfl
    | cons c cs =>
      have : s.utf8ByteSize = String.utf8ByteSize ⟨c :: cs⟩ := by rw [← hd]
      rw [this] at hlen
      simp only [String.utf8ByteSize, String.utf8ByteSize.go] at hlen
      have := Char.utf8Size_pos c
      omega
  · rintro rfl
    rfl

theorem head?_eq_iff_prefix (l : List Char) (c : Char) :
    l.head? = some c ↔ [c] <+: l := by
  cases l with
  | nil => simp
  | cons a as =>
    simp only [List.head?_cons, Option.some.injEq, List.cons_prefix_cons, List.nil_prefix,
      and_true]
    exact eq_comm

theorem appendPaths_stripped (parent child : String) :
    appendPaths parent child =
      (if parent.isEmpty then strippedChild child
       else if (strippedChild child).data.head? = some '[' then parent ++ strippedChild child
       else parent ++ "." ++ strippedChild child) := by
  have key : ∀ c : String, c = strippedChild child →
      (if parent.isEmpty then c
       else if c.data.head? = some '[' then parent ++ c
       else parent ++ "." ++ c) =
      (if parent.isEmpty then strippedChild child
       else if (strippedChild child).data.head? = some '[' then parent ++ strippedChild child
       else parent ++ "." ++ strippedChild child) := by
    intro c hc
    rw [hc]
  unfold appendPaths
  apply key
  unfold strippedChild
  split
  · rename_i rest hd
    simp [hd]
  · rename_i rest hne hd
    have h1 : ¬ ['$', '.'] <+: child.data := by
      rw [hd]
      rcases rest with _ | ⟨b, bs⟩
      · simp
      · simp only [List.cons_prefix_cons, true_and, List.nil_prefix, and_true]
        intro hb
        exact hne bs (by rw [← hb])
    rw [if_neg h1]
    simp [hd]
  · rename_i h1 h2
    have hn : ¬ ['$'] <+: child.data := by
      rcases hd : child.data with _ | ⟨a, as⟩
      · simp
      · simp only [List.cons_prefix_cons, List.nil_prefix, and_true]
        intro ha
        exact h2 as (by rw [hd, ← ha])
    have hn2 : ¬ ['$', '.'] <+: child.data := by
      intro h
      apply hn
      exact List.IsPrefix.trans (by simp) h
    rw [if_neg hn2, if_neg hn]

/-- C30: `appendPaths(parent, child)` removes a leading `$.`, or else a leading `$`, from
`child`, giving `c`, and returns `c` when `parent` is empty, `parent ++ c` when `c`
begins with `[`, and `parent ++ "." ++ c` otherwise; so `appendPaths("", "$.a.b")` is
`a.b`, `appendPaths("x", "[0]")` is `x[0]` and `appendPaths("x", "y")` is `x.y`. -/
theorem appendPaths_spec :
    (∀ parent child : String, appendPaths parent child = appendPathsSpec parent child) ∧
    appendPaths "" "$.a.b" = "a.b" ∧
    appendPaths "x" "[0]" = "x[0]" ∧
    appendPaths "x" "y" = "x.y" ∧
    appendPaths "x" "$[0]" = "x[0]" ∧
    appendPaths "x" "$y" = "x.y" := by
  refine ⟨?_, by decide, by decide, by decide, by decide, by decide⟩
  intro parent child
  rw [appendPaths_stripped]
  unfold appendPathsSpec
  by_cases hp : parent = ""
  · subst hp
    have e : ("" : String).isEmpty = true := rfl
    simp only [e, if_true]
  · have hp' : parent.isEmpty = false := by
      cases h : parent.isEmpty with
      | false => rfl
      | true => exact absurd ((isEmpty_iff_eq_empty parent).1 h) hp
    rw [if_neg hp]
    simp only [hp', Bool.false_eq_true, if_false, head?_eq_iff_prefix]
/-! ## C24: dispatch to the first accepting table entry -/

theorem lookup_first (op : String) (nargs : Nat) (named : List Operation) (fb : Operation)
    (hsome : ∀ d ∈ named, d.op.isSome = true) (d : Operation)
    (h : named.find? (fun d => decide (d.op = some op) && d.accepts nargs) = some d)
    (nm : Bool) :
    lookupOperation op nargs (named ++ [fb]) nm = (d, true) := by
  induction named generalizing nm with
  | nil => simp at h
  | cons x rest ih =>
    have hx := hsome x (List.mem_cons_self _ _)
    have hrest := ih (fun y hy => hsome y (List.mem_cons_of_mem _ hy))
    cases hop : x.op with
    | none => simp [hop] at hx
    | some symbol =>
      simp only [List.cons_append, lookupOperation, hop, List.append_eq]
      rw [List.find?_cons] at h
      by_cases hs : op = symbol
      · subst hs
        by_cases hacc : nargs ≥ x.minArgs ∧ nargs ≤ x.maxArgs
        · have hp : (decide (x.op = some op) && x.accepts nargs) = true := by
            simp [hop, Operation.accepts, hacc]
          simp only [hp, Option.some.injEq] at h
          subst h
          simp [hacc]
        · have hp : (decide (x.op = some op) && x.accepts nargs) = false := by
            have : x.accepts nargs = false := by
              simp only [Operation.accepts, decide_eq_false_iff_not]
              exact hacc
            simp [this]
          simp only [hp] at h
          simp only [if_true, hacc, if_false]
          exact hrest h true
      · have hp : (decide (x.op = some op) && x.accepts nargs) = false := by
          have : decide (x.op = some op) = false := by
            simp only [decide_eq_false_iff_not, hop, Option.some.injEq]
            exact fun h1 => hs h1.symm
          simp [this]
        simp only [hp] at h
        simp only [hs, if_false]
        exact hrest h nm

theorem lookup_firstAccepting (op : String) (nargs : Nat) (d : Operation)
    (h : firstAccepting op nargs = some d) :
    lookupOperation op nargs kOperationList false = (d, true) ∧ d.op = some op
      ∧ d.accepts nargs = true := by
  unfold firstAccepting at h
  have hp := List.find?_some h
  simp only [Bool.and_eq_true, decide_eq_true_eq] at hp
  refine ⟨?_, hp.1, hp.2⟩
  rw [kOperationList_split] at h ⊢
  rw [List.find?_append] at h
  cases hf : List.find? (fun d => decide (d.op = some op) && d.accepts nargs)
      kOperationList.dropLast with
  | none =>
    rw [hf] at h
    simp [List.find?_cons] at h
  | some d' =>
    rw [hf] at h
    have h' : d' = d := by simpa using h
    subst h'
    exact lookup_first op nargs _ _ kOperationList_named d' hf false

/-- What the walker does with a scalar or a property node under any context: it appends
the text the node emits when compiled on its own, in parentheses for a property node
under an operation of precedence 9 or more. -/
theorem leaf_walk_under (w w' : Walk) (v : Value) (hv : isScalarOrProperty v = true)
    (q : QueryParser) :
    parseNodeBody w q v
      = (parseNodeBody w' ({ q with sql := "" } : QueryParser).reset v).map
          (fun r => q.emit (leafUnder v q.contextBack.precedence r.sql)) := by
  by_cases hq : q.contextBack.precedence < 9
  · rw [leaf_walk w w' v hv q hq]
    have hl : ∀ t, leafUnder v q.contextBack.precedence t = t := by
      intro t
      unfold leafUnder
      rw [if_neg]
      intro h
      omega
    simp only [hl]
  · have h9 : (9 : Int) ≤ q.contextBack.precedence := by omega
    cases v with
    | null => simp [parseNodeBody, Except.map, QueryParser.emit, QueryParser.reset,
        String.append_assoc, leafUnder, Value.asArray]
    | bool b => simp [parseNodeBody, Except.map, QueryParser.emit, QueryParser.reset,
        leafUnder, Value.asArray]
    | int i => simp [parseNodeBody, Except.map, QueryParser.emit, QueryParser.reset,
        leafUnder, Value.asArray]
    | float t s => simp [parseNodeBody, Except.map, QueryParser.emit, QueryParser.reset,
        leafUnder, Value.asArray]
    | string s =>
      have := writeSQLString_append q.sql "" s
      simp only [String.append_empty] at this
      simp [parseNodeBody, Except.map, QueryParser.emit, QueryParser.reset, this,
        leafUnder, Value.asArray]
    | data b => simp [isScalarOrProperty] at hv
    | dict es => simp [isScalarOrProperty] at hv
    | array items =>
      cases items with
      | nil => simp [isScalarOrProperty] at hv
      | cons first rest =>
        simp only [isScalarOrProperty, beq_iff_eq] at hv
        cases rest with
        | nil =>
          simp [parseNodeBody, parseOpNode, hv, lookupOperation, kOperationList, fail,
            Except.map]
        | cons a rest =>
          have hlook : lookupOperation "." (min (a :: rest).length 9) kOperationList false
              = (⟨some ".", 1, 9, 9, .propertyOp⟩, true) := by
            simp only [lookupOperation, kOperationList, List.length_cons]
            have h1 : 1 ≤ min (rest.length + 1) 9 := by omega
            have h2 : min (rest.length + 1) 9 ≤ 9 := by omega
            simp [h1, h2]
          have hnot : ¬ ((9 : Int) ≤ (-1 : Int)) := by omega
          have hl : ∀ t, leafUnder (.array (first :: a :: rest)) q.contextBack.precedence t
              = "(" ++ t ++ ")" := by
            intro t
            unfold leafUnder
            rw [if_pos ⟨rfl, h9⟩]
          simp only [hl]
          simp only [parseNodeBody, parseOpNode, hv, hlook, handleOperation, invokeHandler,
            handlerOf, propertyOp, writePropertyOp, hnot, h9, decide_True, decide_False,
            Bool.false_eq_true, if_false, if_true, contextBack_reset, kOuterOperation,
            Option.isNone, and_false]
          cases propertyFromOperands (a :: rest) with
          | error e => rfl
          | ok property =>
            simp only [writePropertyGetter]
            by_cases h1 : property = "_id"
            · simp [h1, Except.map, QueryParser.emit, QueryParser.popContext,
                QueryParser.pushContext, QueryParser.reset, String.append_assoc]
            · by_cases h2 : property = "_sequence"
              · simp [h1, h2, Except.map, QueryParser.emit, QueryParser.popContext,
                  QueryParser.pushContext, QueryParser.reset, String.append_assoc]
              · simp [h1, h2, Except.map, QueryParser.emit, QueryParser.popContext,
                  QueryParser.pushContext, QueryParser.reset, String.append_assoc,
                  writeSQLString_append]

theorem leaf_parseNode_under (n : Nat) (v : Value) (hv : isScalarOrProperty v = true)
    (qp q : QueryParser) (hcfg : q.config = qp.config) :
    parseNode (n + 1) q v
      = (runParseJustExpression { qp with sql := "" } v).map
          (fun r => q.emit (leafUnder v q.contextBack.precedence r.sql)) := by
  unfold runParseJustExpression parseJustExpression
  rw [show ({ qp with sql := "" } : QueryParser).reset = q.config from hcfg.symm]
  exact leaf_walk_under _ _ v hv q

/-- The walker on `["-", x]` for a scalar or property operand, under an operation of
precedence below 9: the prefix entry of precedence 9 writes `-` and the operand, a
property operand in parentheses. -/
theorem minus_leaf (n : Nat) (qp q : QueryParser) (x : Value)
    (hx : isScalarOrProperty x = true) (hq : q.contextBack.precedence < 9)
    (hcfg : q.config = qp.config) :
    parseNode (n + 2) q (.array [.string "-", x])
      = (runParseJustExpression { qp with sql := "" } x).map
          (fun rx => q.emit ("-" ++ leafUnder x 9 rx.sql)) := by
  rw [parseNode_op (n + 1) q "-" [x] ⟨some "-", 1, 1, 9, .prefixOp⟩ rfl rfl]
  have hnot : ¬ ((9 : Int) ≤ q.contextBack.precedence) := by omega
  have hl : lastIsAlpha "-" = false := by decide
  simp only [invokeHandler, handlerOf, prefixOp, hnot, decide_False, Bool.false_eq_true,
    if_false, hl, operandAt, List.getD_cons_zero]
  rw [leaf_parseNode_under n x hx qp ((q.pushContext ⟨some "-", 1, 1, 9, .prefixOp⟩).emit "-")
    (by simp only [config_emit, config_pushContext]; exact hcfg)]
  cases runParseJustExpression { qp with sql := "" } x with
  | error e => rfl
  | ok rx =>
    simp only [Except.map, contextBack_emit, contextBack_pushContext, pushContext_emit,
      popContext_pushContext, emit_emit]

theorem runParseJustExpression_eq (qp : QueryParser) (v : Value) :
    runParseJustExpression qp v = parseNode (v.depth + 1) qp.reset v := rfl

theorem emission_minus_prefix (qp : QueryParser) (a : Value)
    (ha : isScalarOrProperty a = true) :
    emissionOf qp (.array [.string "-", a])
      = (emissionOf qp a).map fun A => "-" ++ leafUnder a 9 A := by
  have hd : (Value.array [.string "-", a]).depth + 1 = a.depth + 2 := by
    simp [Value.depth, Value.depthList]
  simp only [emissionOf]
  rw [runParseJustExpression_eq, hd,
    minus_leaf a.depth qp ({ qp with sql := "" } : QueryParser).reset a ha
      (by rw [contextBack_reset]; decide) rfl]
  cases runParseJustExpression { qp with sql := "" } a with
  | error e => rfl
  | ok ra => simp [Except.map, sqlOf, QueryParser.SQL, QueryParser.emit, QueryParser.reset]

theorem emission_minus_infix (qp : QueryParser) (a b : Value)
    (ha : isScalarOrProperty a = true) (hb : isScalarOrProperty b = true) :
    emissionOf qp (.array [.string "-", a, b])
      = (emissionOf qp a).bind fun A => (emissionOf qp b).bind fun B =>
          some (A ++ " - " ++ B) := by
  obtain ⟨m, hm⟩ : ∃ m, (Value.array [.string "-", a, b]).depth + 1 = m + 2 :=
    ⟨Value.depthList [.string "-", a, b], by simp [Value.depth]⟩
  simp only [emissionOf]
  rw [runParseJustExpression_eq, hm,
    infix_leaves m qp ({ qp with sql := "" } : QueryParser).reset "-" a b
      ⟨some "-", 2, 2, 6, .infixOp⟩ rfl rfl rfl (by decide) (by decide) ha hb rfl]
  cases runParseJustExpression { qp with sql := "" } a with
  | error e => rfl
  | ok ra =>
    cases runParseJustExpression { qp with sql := "" } b with
    | error e => rfl
    | ok rb =>
      have hnot : ¬ ((6 : Int) ≤ (-1 : Int)) := by omega
      simp only [contextBack_reset, kOuterOperation, hnot, if_false]
      simp [Except.bind, sqlOf, QueryParser.SQL, QueryParser.emit, QueryParser.reset,
        String.append_assoc]

theorem emission_times_minus (qp : QueryParser) (a b c : Value)
    (ha : isScalarOrProperty a = true) (hb : isScalarOrProperty b = true)
    (hc : isScalarOrProperty c = true) :
    emissionOf qp (.array [.string "*", .array [.string "-", a, b], c])
      = (emissionOf qp a).bind fun A => (emissionOf qp b).bind fun B =>
          (emissionOf qp c).bind fun C =>
            some ("(" ++ A ++ " - " ++ B ++ ")" ++ " * " ++ C) := by
  obtain ⟨m, hm⟩ :
      ∃ m, (Value.array [.string "*", .array [.string "-", a, b], c]).depth + 1
        = m + 3 := by
    refine ⟨max (max a.depth b.depth) (c.depth - 1), ?_⟩
    simp [Value.depth, Value.depthList]
    omega
  simp only [emissionOf]
  rw [runParseJustExpression_eq, hm,
    parseNode_op (m + 2) _ "*" [.array [.string "-", a, b], c]
      ⟨some "*", 2, 9, 7, .infixOp⟩ rfl rfl]
  have hnot : ¬ ((7 : Int) ≤ (-1 : Int)) := by omega
  simp only [invokeHandler, contextBack_reset, kOuterOperation, hnot, decide_False,
    Bool.false_eq_true, if_false, handlerOf, infixOp_two _ "*" (by decide)]
  rw [infix_leaves m qp
      (({ qp with sql := "" } : QueryParser).reset.pushContext
        ⟨some "*", 2, 9, 7, .infixOp⟩) "-" a b
      ⟨some "-", 2, 2, 6, .infixOp⟩ rfl rfl rfl (by decide) (by decide) ha hb rfl]
  cases runParseJustExpression { qp with sql := "" } a with
  | error e => rfl
  | ok ra =>
    cases runParseJustExpression { qp with sql := "" } b with
    | error e => rfl
    | ok rb =>
      have hle : ((6 : Int) ≤ 7) := by omega
      simp only [Except.bind, contextBack_pushContext, hle, if_true]
      rw [leaf_parseNode (m + 1) c hc qp]
      · cases runParseJustExpression { qp with sql := "" } c with
        | error e => rfl
        | ok rc =>
          simp [Except.map, sqlOf, QueryParser.SQL, QueryParser.emit, QueryParser.reset,
            QueryParser.pushContext, QueryParser.popContext, String.append_assoc]
      · simp only [contextBack_emit, contextBack_pushContext]
        decide
      · simp only [config_emit, config_pushContext]
        rfl

theorem emission_plus_minus (qp : QueryParser) (a b : Value)
    (ha : isScalarOrProperty a = true) (hb : isScalarOrProperty b = true) :
    emissionOf qp (.array [.string "+", .array [.string "-", a], b])
      = (emissionOf qp a).bind fun A => (emissionOf qp b).bind fun B =>
          some ("-" ++ leafUnder a 9 A ++ " + " ++ B) := by
  obtain ⟨m, hm⟩ :
      ∃ m, (Value.array [.string "+", .array [.string "-", a], b]).depth + 1 = m + 3 := by
    refine ⟨max a.depth (b.depth - 1), ?_⟩
    simp [Value.depth, Value.depthList]
    omega
  simp only [emissionOf]
  rw [runParseJustExpression_eq, hm,
    parseNode_op (m + 2) _ "+" [.array [.string "-", a], b]
      ⟨some "+", 2, 9, 6, .infixOp⟩ rfl rfl]
  have hnot : ¬ ((6 : Int) ≤ (-1 : Int)) := by omega
  simp only [invokeHandler, contextBack_reset, kOuterOperation, hnot, decide_False,
    Bool.false_eq_true, if_false, handlerOf, infixOp_two _ "+" (by decide)]
  rw [minus_leaf m qp
    (({ qp with sql := "" } : QueryParser).reset.pushContext ⟨some "+", 2, 9, 6, .infixOp⟩)
    a ha (by rw [contextBack_pushContext]; decide) rfl]
  cases runParseJustExpression { qp with sql := "" } a with
  | error e => rfl
  | ok ra =>
    simp only [Except.map]
    rw [leaf_parseNode (m + 1) b hb qp]
    · cases runParseJustExpression { qp with sql := "" } b with
      | error e => rfl
      | ok rb =>
        simp [Except.map, sqlOf, QueryParser.SQL, QueryParser.emit, QueryParser.reset,
          QueryParser.pushContext, QueryParser.popContext, String.append_assoc]
    · simp only [contextBack_emit, contextBack_pushContext]
      decide
    · simp only [config_emit, config_pushContext]
      rfl

/-- C24, as amended: `parseOpNode` dispatches to the first entry of the operator table,
in table order, whose symbol is the node's first element and whose arity range contains
min(operand count, 9). The symbol `-` is listed twice and is resolved by arity: with one
operand it is the prefix entry of precedence 9, with two the infix entry of precedence
6. For scalar or property operands `a`, `b`, `c` with own emissions `A`, `B`, `C`:
`["-", a]` emits `-A` for a scalar and `-(A)` for a property (whose entry has precedence
9 as well), `["-", a, b]` emits `A - B`, `["*", ["-", a, b], c]` emits `(A - B) * C`,
and `["+", ["-", a], b]` emits `-A + B` for a scalar `a` and `-(A) + B` for a property
`a`: the prefix node itself is never wrapped under `+`. -/
theorem first_entry_dispatch (walk : Walk) (qp : QueryParser) (op : String)
    (operands : List Value) (d : Operation) (a b c : Value)
    (h : firstAccepting op (min operands.length 9) = some d)
    (ha : isScalarOrProperty a = true) (hb : isScalarOrProperty b = true)
    (hc : isScalarOrProperty c = true) :
    parseOpNode walk qp (.string op :: operands) = handleOperation walk d op operands qp
    ∧ firstAccepting "-" 1 = some ⟨some "-", 1, 1, 9, .prefixOp⟩
    ∧ firstAccepting "-" 2 = some ⟨some "-", 2, 2, 6, .infixOp⟩
    ∧ emissionOf qp (.array [.string "-", a])
        = (emissionOf qp a).map (fun A => "-" ++ leafUnder a 9 A)
    ∧ emissionOf qp (.array [.string "-", a, b])
        = ((emissionOf qp a).bind fun A => (emissionOf qp b).bind fun B =>
            some (A ++ " - " ++ B))
    ∧ emissionOf qp (.array [.string "*", .array [.string "-", a, b], c])
        = ((emissionOf qp a).bind fun A => (emissionOf qp b).bind fun B =>
            (emissionOf qp c).bind fun C =>
              some ("(" ++ A ++ " - " ++ B ++ ")" ++ " * " ++ C))
    ∧ emissionOf qp (.array [.string "+", .array [.string "-", a], b])
        = ((emissionOf qp a).bind fun A => (emissionOf qp b).bind fun B =>
            some ("-" ++ leafUnder a 9 A ++ " + " ++ B))
    ∧ (∀ t : String, leafUnder a 9 t = if a.asArray.isSome then "(" ++ t ++ ")" else t) := by
  refine ⟨?_, rfl, rfl, emission_minus_prefix qp a ha, emission_minus_infix qp a b ha hb,
    emission_times_minus qp a b c ha hb hc, emission_plus_minus qp a b ha hb, ?_⟩
  · obtain ⟨hl, hop, _⟩ := lookup_firstAccepting op _ d h
    simp only [parseOpNode, Value.asString, hl, hop, Option.isNone_some, Bool.false_eq_true,
      and_false, if_false]
  · intro t
    simp [leafUnder]

/-- C24 at the node `["-", 1]` and the operands 1, 2, 3: `-1`, `1 - 2`, `(1 - 2) * 3`
and `-1 + 2`. -/
theorem first_entry_dispatch_witness :
    firstAccepting "-" (min [Value.int 1].length 9) = some ⟨some "-", 1, 1, 9, .prefixOp⟩
    ∧ parseOpNode (parseNode 1) (QueryParser.new "kv_default" "body").reset
        [.string "-", .int 1]
      = handleOperation (parseNode 1) ⟨some "-", 1, 1, 9, .prefixOp⟩ "-" [.int 1]
          (QueryParser.new "kv_default" "body").reset
    ∧ emissionOf (QueryParser.new "kv_default" "body") (.array [.string "-", .int 1])
      = some "-1"
    ∧ emissionOf (QueryParser.new "kv_default" "body")
        (.array [.string "-", .int 1, .int 2]) = some "1 - 2"
    ∧ emissionOf (QueryParser.new "kv_default" "body")
        (.array [.string "*", .array [.string "-", .int 1, .int 2], .int 3])
      = some "(1 - 2) * 3"
    ∧ emissionOf (QueryParser.new "kv_default" "body")
        (.array [.string "+", .array [.string "-", .int 1], .int 2]) = some "-1 + 2" :=
  have h := first_entry_dispatch (parseNode 1) (QueryParser.new "kv_default" "body").reset
    "-" [.int 1] ⟨some "-", 1, 1, 9, .prefixOp⟩ (.int 1) (.int 2) (.int 3) rfl rfl rfl rfl
  ⟨rfl, h.1, by decide!, by decide!, by decide!, by decide!⟩

/-- The prefix minus over a property: `[".", "a"]` on its own emits
`fl_value(body, 'a')`, and `["-", [".", "a"]]` emits `-(fl_value(body, 'a'))`, the
property being wrapped in parentheses; so `["+", ["-", [".", "a"]], [".", "b"]]` emits
`-(fl_value(body, 'a')) + fl_value(body, 'b')`. -/
theorem prefix_minus_property :
    emissionOf (QueryParser.new "kv_default" "body") (.array [.string ".", .string "a"])
      = some "fl_value(body, 'a')"
    ∧ emissionOf (QueryParser.new "kv_default" "body")
        (.array [.string "-", .array [.string ".", .string "a"]])
      = some "-(fl_value(body, 'a'))"
    ∧ emissionOf (QueryParser.new "kv_default" "body")
        (.array [.string "+", .array [.string "-", .array [.string ".", .string "a"]],
          .array [.string ".", .string "b"]])
      = some "-(fl_value(body, 'a')) + fl_value(body, 'b')" := by
  refine ⟨by decide!, by decide!, by decide!⟩
/-! ## C23: the text of the infix handler -/

theorem joinWith_cons (sep t : String) (ts : List String) :
    joinWith sep (t :: ts) = t ++ (if ts = [] then "" else sep ++ joinWith sep ts) := by
  cases ts with
  | nil => simp [joinWith]
  | cons u us => simp [joinWith, String.append_assoc]

theorem infixOpLoop_eq_spec (walk : Walk) (op : String) (hne : op ≠ ",")
    (xs : List Value) (k : Nat) (q : QueryParser) :
    infixOpLoop walk op xs (k + 1) q = infixSpecRest walk op xs q := by
  induction xs generalizing k q with
  | nil => rfl
  | cons x rest ih =>
    rw [infixOpLoop_cons, infixSpecRest]
    have hk : k + 1 > 0 := Nat.succ_pos k
    simp only [hk, if_true, hne, ne_eq, not_false_eq_true, emit_emit, String.append_assoc]
    cases walk (q.emit (" " ++ (op ++ " "))) x with
    | error e => rfl
    | ok q1 => exact ih (k + 1) q1

theorem infixOp_eq_spec (walk : Walk) (op : String) (hne : op ≠ ",")
    (xs : List Value) (q : QueryParser) :
    infixOp walk op xs q = infixSpec walk op xs q := by
  cases xs with
  | nil => rfl
  | cons x rest =>
    unfold infixOp
    rw [infixOpLoop_cons, infixSpec]
    simp only [Nat.lt_irrefl, gt_iff_lt, if_false]
    cases walk q x with
    | error e => rfl
    | ok q1 => exact infixOpLoop_eq_spec walk op hne rest 0 q1

/-- The loop of `infixOp` for an operator other than the comma: the operands are walked
in order, under the context the loop was given, and the texts they append are separated
by the operator between two spaces. -/
theorem infixOpLoop_texts_op (n : Nat) (op : String) (hne : op ≠ ",") (d : Operation)
    (es : List Value) (hd : Value.depthList es < n)
    (idx : Nat) (q r : QueryParser) (hctx : q.contextBack = d)
    (h : infixOpLoop (parseNode n) op es idx q = .ok r) :
    ∃ texts : List String, List.Forall₂ (EmittedUnder d) es texts
      ∧ r.sql = q.sql ++ (if idx > 0 ∧ es.isEmpty = false then " " ++ op ++ " " else "")
          ++ joinWith (" " ++ op ++ " ") texts
      ∧ r.context = q.context := by
  induction es generalizing idx q with
  | nil =>
    simp only [infixOpLoop, Except.ok.injEq] at h
    subst h
    exact ⟨[], List.Forall₂.nil, by simp [joinWith], rfl⟩
  | cons e rest ih =>
    simp only [Value.depthList, Nat.max_lt] at hd
    rw [infixOpLoop_cons] at h
    simp only [hne, ne_eq, not_false_eq_true, if_true] at h
    cases h1 : parseNode n (if idx > 0 then ((q.emit " ").emit op).emit " " else q) e with
    | error err => rw [h1] at h; simp [Except.bind] at h
    | ok q1 =>
      rw [h1] at h
      simp only [Except.bind] at h
      obtain ⟨hg, hc⟩ := grows_parseNode n _ q1 e hd.1 h1
      obtain ⟨t, ht⟩ := hg.sql
      have hctx0 : (if idx > 0 then ((q.emit " ").emit op).emit " " else q).context
          = q.context := by
        split <;> rfl
      have hctx1 : q1.contextBack = d := by
        rw [← hctx]
        exact contextBack_eq_of_context (hc.trans hctx0)
      obtain ⟨texts, hall, hsql, hcr⟩ := ih hd.2 (idx + 1) q1 hctx1 h
      refine ⟨t :: texts, List.Forall₂.cons ⟨n, _, q1, hd.1, ?_, h1, ht⟩ hall, ?_,
        hcr.trans (hc.trans hctx0)⟩
      · rw [← hctx]
        exact contextBack_eq_of_context hctx0
      · have hlen := hall.length_eq
        rw [hsql, ht, joinWith_cons]
        cases rest with
        | nil =>
          have htexts : texts = [] := by
            cases texts with
            | nil => rfl
            | cons u us => simp at hlen
          subst htexts
          by_cases hi : idx > 0 <;>
            simp [hi, joinWith, QueryParser.emit, String.append_assoc]
        | cons u us =>
          have htexts : texts ≠ [] := by
            intro hc'
            subst hc'
            simp at hlen
          by_cases hi : idx > 0 <;>
            simp [hi, htexts, QueryParser.emit, String.append_assoc]

theorem table_symbol_not_comma : ∀ d ∈ kOperationList, d.op ≠ some "," := by
  decide

theorem variadic_lookup (op : String) (hop : op ∈ variadicInfixOperators) (n : Nat)
    (hn : 2 ≤ n) :
    ∃ d, lookupOperation op (min n 9) kOperationList false = (d, true)
      ∧ d ∈ kOperationList ∧ d.op = some op ∧ d.handler = .infixOp := by
  have hv : variadicInfixOperators = ["||", "*", "+", "AND", "OR"] := by decide
  rw [hv] at hop
  have h2 : 2 ≤ min n 9 := by omega
  have h9 : min n 9 ≤ 9 := by omega
  generalize min n 9 = m at h2 h9
  simp only [List.mem_cons, List.mem_singleton, List.not_mem_nil, or_false] at hop
  rcases hop with h | h | h | h | h <;> subst h
  · refine ⟨⟨some "||", 2, 9, 8, .infixOp⟩, ?_, by decide, rfl, rfl⟩
    simp [lookupOperation, kOperationList, h2, h9]
  · refine ⟨⟨some "*", 2, 9, 7, .infixOp⟩, ?_, by decide, rfl, rfl⟩
    simp [lookupOperation, kOperationList, h2, h9]
  · refine ⟨⟨some "+", 2, 9, 6, .infixOp⟩, ?_, by decide, rfl, rfl⟩
    simp [lookupOperation, kOperationList, h2, h9]
  · refine ⟨⟨some "AND", 2, 9, 2, .infixOp⟩, ?_, by decide, rfl, rfl⟩
    simp [lookupOperation, kOperationList, h2, h9]
  · refine ⟨⟨some "OR", 2, 9, 2, .infixOp⟩, ?_, by decide, rfl, rfl⟩
    simp [lookupOperation, kOperationList, h2, h9]

/-- C23: for an infix table operator `op` (table entry `d`, handled by `infixOp`) and
operands `xs` that pass its arity check, the node is handed to the handler with `d` on
top of the context stack, and the handler walks the first operand and then, for each
further operand in order, writes ` op ` and walks it (so it returns exactly when every
walk does). The text of a returning handler is E(x1), ` op `, E(x2), ..., every E(xi)
being the text of a walk of xi with `d` on top of the context stack. The infix entries
with largest arity 9 are `||`, `*`, `+`, `AND` and `OR`; for them the lookup with the
count clamped to 9 accepts every number of operands from 2 on, and all operands are
emitted: `+` over the numbers 1 to 11 emits all eleven. -/
theorem infix_handler_text (n : Nat) (op : String) (d : Operation) (xs : List Value)
    (q : QueryParser) (hmem : d ∈ kOperationList) (hh : d.handler = .infixOp)
    (hsym : d.op = some op)
    (harity : lookupOperation op (min xs.length 9) kOperationList false = (d, true))
    (hd : Value.depthList xs < n) (hctx : q.contextBack = d) :
    (∀ q0 : QueryParser, parseNode (n + 1) q0 (.array (.string op :: xs))
        = invokeHandler (handlerOf (parseNode n) d.handler) d op xs q0)
    ∧ handlerOf (parseNode n) d.handler op xs q = infixSpec (parseNode n) op xs q
    ∧ (∀ r, handlerOf (parseNode n) d.handler op xs q = .ok r →
        ∃ texts : List String, List.Forall₂ (EmittedUnder d) xs texts
          ∧ r.sql = q.sql ++ joinWith (" " ++ op ++ " ") texts)
    ∧ variadicInfixOperators = ["||", "*", "+", "AND", "OR"]
    ∧ (∀ op2 ∈ variadicInfixOperators, ∀ m : Nat, 2 ≤ m →
        ∃ d2, lookupOperation op2 (min m 9) kOperationList false = (d2, true)
          ∧ d2 ∈ kOperationList ∧ d2.op = some op2 ∧ d2.handler = .infixOp)
    ∧ sqlOf (runParseJustExpression (QueryParser.new "kv_default" "body")
        (.array [.string "+", .int 1, .int 2, .int 3, .int 4, .int 5, .int 6, .int 7,
          .int 8, .int 9, .int 10, .int 11]))
        = some "1 + 2 + 3 + 4 + 5 + 6 + 7 + 8 + 9 + 10 + 11" := by
  have hne : op ≠ "," := by
    intro hc
    subst hc
    exact table_symbol_not_comma d hmem hsym
  refine ⟨?_, ?_, ?_, by decide, fun op2 hop2 m hm => variadic_lookup op2 hop2 m hm,
    by decide!⟩
  · intro q0
    exact parseNode_op n q0 op xs d harity (by simp [hsym])
  · rw [hh]
    exact infixOp_eq_spec (parseNode n) op hne xs q
  · intro r hr
    rw [hh] at hr
    obtain ⟨texts, hall, hsql, _⟩ := infixOpLoop_texts_op n op hne d xs hd 0 q r hctx hr
    refine ⟨texts, hall, ?_⟩
    rw [hsql]
    simp

/-- C23 at `["+", 1, 2]`: the handler of `+`, run with its entry on top of the context
stack, walks both operands. -/
theorem infix_handler_text_witness :
    (⟨some "+", 2, 9, 6, .infixOp⟩ : Operation) ∈ kOperationList
    ∧ handlerOf (parseNode 1) .infixOp "+" [.int 1, .int 2]
        ((QueryParser.new "kv_default" "body").reset.pushContext
          ⟨some "+", 2, 9, 6, .infixOp⟩)
      = infixSpec (parseNode 1) "+" [.int 1, .int 2]
        ((QueryParser.new "kv_default" "body").reset.pushContext
          ⟨some "+", 2, 9, 6, .infixOp⟩) :=
  ⟨by decide,
   (infix_handler_text 1 "+" ⟨some "+", 2, 9, 6, .infixOp⟩ [.int 1, .int 2]
    ((QueryParser.new "kv_default" "body").reset.pushContext ⟨some "+", 2, 9, 6, .infixOp⟩)
    (by decide) rfl rfl rfl (by decide) rfl).2.1⟩
/-! ## C25: argument lists -/

/-- Under a top of the context stack whose precedence is at least -2, `writeArgList`
opens a parenthesis, runs the comma loop under the argument-list operation and closes
the parenthesis. -/
theorem writeArgList_paren (walk : Walk) (es : List Value) (q : QueryParser)
    (htop : (-2 : Int) ≤ q.contextBack.precedence) :
    writeArgList walk es q
      = (infixOpLoop walk "," es 0 ((q.pushContext kArgListOperation).emit "(")).map
          (fun r => (r.emit ")").popContext) := by
  have hp : decide (kArgListOperation.precedence ≤ q.contextBack.precedence) = true := by
    have : kArgListOperation.precedence = -2 := rfl
    rw [this]
    exact decide_eq_true htop
  simp only [writeArgList, invokeHandler, hp, if_true, infixOp]
  cases infixOpLoop walk "," es 0 ((q.pushContext kArgListOperation).emit "(") <;> rfl

theorem call_or_table_precedence (q : QueryParser)
    (htop : q.contextBack ∈ kOperationList
      ∨ ∃ fn : String, q.contextBack = ⟨some fn, 0, 0, 10, .fallbackOp⟩) :
    (-2 : Int) ≤ q.contextBack.precedence := by
  rcases htop with h | ⟨fn, h⟩
  · have := table_precedence _ h
    omega
  · rw [h]
    show (-2 : Int) ≤ 10
    omega

/-- C25: when `writeArgList` is called while the top of the context stack is an entry of
the operator table or the clone that `fallbackOp` makes for a function call, it writes
`(`, then the elements under the argument-list operation separated by `, `, then `)`
(and returns exactly when the loop over the elements does): the text of a returning call
is `(` E(e1) `, ` E(e2) ... `)` with one pair of parentheses. An element that is an
operation of the table is written by its handler with no parentheses added around it.
So `["IN", 1, 2, 3]` emits `1 IN (2, 3)`, `["f()", 1, 2]` emits `f(1, 2)`, `["f()"]`
emits `f()`, and `["f()", ["+", 1, 2], ["AND", 3, 4]]` emits `f(1 + 2, 3 AND 4)`. -/
theorem argument_list_text (n : Nat) (es : List Value) (q : QueryParser)
    (htop : q.contextBack ∈ kOperationList
      ∨ ∃ fn : String, q.contextBack = ⟨some fn, 0, 0, 10, .fallbackOp⟩)
    (hd : Value.depthList es < n) :
    writeArgList (parseNode n) es q
      = (infixOpLoop (parseNode n) "," es 0 ((q.pushContext kArgListOperation).emit "(")).map
          (fun r => (r.emit ")").popContext)
    ∧ (∀ r, writeArgList (parseNode n) es q = .ok r →
        ∃ texts : List String, List.Forall₂ EmittedInArgList es texts
          ∧ r.sql = q.sql ++ "(" ++ joinTexts texts ++ ")" ∧ r.context = q.context)
    ∧ (∀ (k : Nat) (q1 : QueryParser) (op : String) (operands : List Value) (d : Operation),
        lookupOperation op (min operands.length 9) kOperationList false = (d, true) →
        d.op.isSome = true → d ∈ kOperationList → q1.contextBack = kArgListOperation →
        parseNode (k + 1) q1 (.array (.string op :: operands))
          = (handlerOf (parseNode k) d.handler op operands (q1.pushContext d)).map
              QueryParser.popContext)
    ∧ sqlOf (runParseJustExpression (QueryParser.new "kv_default" "body")
        (.array [.string "IN", .int 1, .int 2, .int 3])) = some "1 IN (2, 3)"
    ∧ sqlOf (runParseJustExpression (QueryParser.new "kv_default" "body")
        (.array [.string "f()", .int 1, .int 2])) = some "f(1, 2)"
    ∧ sqlOf (runParseJustExpression (QueryParser.new "kv_default" "body")
        (.array [.string "f()"])) = some "f()"
    ∧ sqlOf (runParseJustExpression (QueryParser.new "kv_default" "body")
        (.array [.string "f()", .array [.string "+", .int 1, .int 2],
          .array [.string "AND", .int 3, .int 4]])) = some "f(1 + 2, 3 AND 4)"
    ∧ sqlOf (runParseJustExpression (QueryParser.new "kv_default" "body")
        (.array [.string "IN", .array [.string ".", .string "x"],
          .array [.string ".", .string "a"], .array [.string ".", .string "b"]]))
        = some "fl_value(body, 'x') IN (fl_value(body, 'a'), fl_value(body, 'b'))" := by
  have hprec := call_or_table_precedence q htop
  have heq := writeArgList_paren (parseNode n) es q hprec
  refine ⟨heq, ?_, ?_, by decide!, by decide!, by decide!, by decide!, by decide!⟩
  · intro r hr
    rw [heq] at hr
    cases hl : infixOpLoop (parseNode n) "," es 0
        ((q.pushContext kArgListOperation).emit "(") with
    | error err => rw [hl] at hr; simp [Except.map] at hr
    | ok r3 =>
      rw [hl] at hr
      simp only [Except.map, Except.ok.injEq] at hr
      obtain ⟨texts, hall, hsql, hctx⟩ := infixOpLoop_texts n es hd 0 _ r3
        (by rw [contextBack_emit, contextBack_pushContext]) hl
      refine ⟨texts, hall, ?_, ?_⟩
      · subst hr
        simp only [QueryParser.popContext, hsql, QueryParser.pushContext, QueryParser.emit,
          Nat.lt_irrefl, false_and, if_false, String.append_assoc, gt_iff_lt]
        simp
      · subst hr
        simp only [QueryParser.popContext, QueryParser.emit, hctx, QueryParser.pushContext]
        simp
  · intro k q1 op operands d hl hop hmem hctx
    exact table_operator_in_argList k q1 op operands d hl hop hmem hctx

/-- C25 at the list `[1, 2]` under the entry of `IN`: the text is `(1, 2)`. -/
theorem argument_list_text_witness :
    (((QueryParser.new "kv_default" "body").reset.pushContext
        ⟨some "IN", 2, 9, 3, .inOp⟩).contextBack ∈ kOperationList)
    ∧ writeArgList (parseNode 1) [.int 1, .int 2]
        ((QueryParser.new "kv_default" "body").reset.pushContext ⟨some "IN", 2, 9, 3, .inOp⟩)
      = (infixOpLoop (parseNode 1) "," [.int 1, .int 2] 0
          ((((QueryParser.new "kv_default" "body").reset.pushContext
            ⟨some "IN", 2, 9, 3, .inOp⟩).pushContext kArgListOperation).emit "(")).map
          (fun r => (r.emit ")").popContext) :=
  ⟨by decide,
   (argument_list_text 1 [.int 1, .int 2]
    ((QueryParser.new "kv_default" "body").reset.pushContext ⟨some "IN", 2, 9, 3, .inOp⟩)
    (Or.inl (by decide)) (by decide)).1⟩
/-! ## C27: EXISTS and count() over a property -/

theorem nested_property_getter (q : QueryParser) (fn : String) (segments rest : List Value)
    (p : String) (hpath : propertyFromOperands segments = .ok p)
    (hid : p ≠ "_id") (hseq : p ≠ "_sequence") (hrank : fn ≠ "rank") :
    writeNestedPropertyOpIfAny q fn (.array (.string "." :: segments) :: rest)
      = .ok (true, q.emit (fn ++ "(" ++ q.bodyColumnName ++ ", "
          ++ sqlQuote (appendPaths q.propertyPath p) ++ ")")) := by
  simp only [writeNestedPropertyOpIfAny, Value.asArray, Value.asString, ne_eq,
    not_true_eq_false, if_false, writePropertyOp, hpath, writePropertyGetter, hid, hseq,
    hrank, writeSQLString_quote, QueryParser.emit, String.append_assoc]

theorem nested_property_none (q : QueryParser) (fn : String) (operands : List Value)
    (h : firstIsProperty operands = false) :
    writeNestedPropertyOpIfAny q fn operands = .ok (false, q) := by
  cases operands with
  | nil => rfl
  | cons first rest =>
    simp only [firstIsProperty] at h
    simp only [writeNestedPropertyOpIfAny]
    cases hf : first.asArray with
    | none => rfl
    | some items =>
      cases items with
      | nil => rfl
      | cons head tl =>
        rw [hf] at h
        simp only [beq_eq_false_iff_ne, ne_eq] at h
        simp only [ne_eq, h, not_false_eq_true, if_true]

theorem existsOp_property (walk : Walk) (q : QueryParser) (segments rest : List Value)
    (p : String) (hpath : propertyFromOperands segments = .ok p)
    (hid : p ≠ "_id") (hseq : p ≠ "_sequence") :
    existsOp walk "EXISTS" (.array (.string "." :: segments) :: rest) q
      = .ok (q.emit ("fl_exists(" ++ q.bodyColumnName ++ ", "
          ++ sqlQuote (appendPaths q.propertyPath p) ++ ")")) := by
  unfold existsOp
  rw [nested_property_getter q "fl_exists" segments rest p hpath hid hseq (by decide)]
  have e : ∀ t : String, "fl_exists" ++ ("(" ++ t) = "fl_exists(" ++ t := by
    intro t
    rw [← String.append_assoc]
    rfl
  simp only [String.append_assoc, e]

theorem countOp_property (walk : Walk) (q : QueryParser) (segments rest : List Value)
    (p : String) (hpath : propertyFromOperands segments = .ok p)
    (hid : p ≠ "_id") (hseq : p ≠ "_sequence") :
    fallbackOp walk "count()" (.array (.string "." :: segments) :: rest) q
      = .ok ((q.setContextBack { q.contextBack with op := some "count()" }).emit
          ("fl_count(" ++ q.bodyColumnName ++ ", "
            ++ sqlQuote (appendPaths q.propertyPath p) ++ ")")) := by
  have hcall : ("count()".length > 2 ∧ "count()".data.reverse.get? 1 = some '('
      ∧ "count()".data.reverse.get? 0 = some ')') := by decide
  have hname : String.mk ("count()".data.dropLast.dropLast) = "count" := by decide
  unfold fallbackOp
  simp only [hcall, not_true_eq_false, if_false, hname, fallbackSpecialCase, if_true]
  rw [nested_property_getter _ "fl_count" segments rest p hpath hid hseq (by decide)]
  have e : ∀ t : String, "fl_count" ++ ("(" ++ t) = "fl_count(" ++ t := by
    intro t
    rw [← String.append_assoc]
    rfl
  simp only [String.append_assoc, e]
  rfl

theorem sqlQuote_plain_path (p : String) (hdollar : ¬ ['$'] <+: p.data)
    (hplain : (p.data.any fun c => c == apostrophe) = false) :
    sqlQuote (appendPaths "" p) = "'" ++ p ++ "'" := by
  have hs : strippedChild p = p := by
    unfold strippedChild
    have h2 : ¬ ['$', '.'] <+: p.data := fun h => hdollar (List.IsPrefix.trans (by simp) h)
    rw [if_neg h2, if_neg hdollar]
  have ha : appendPaths "" p = p := by
    rw [appendPaths_stripped, hs]
    rfl
  rw [ha]
  unfold sqlQuote
  rw [doubleApostrophes_of_simple _ hplain]

/-- C27: for a property node `P = [".", segments...]` whose path `p` is valid and not
reserved, the walk of `["EXISTS", P]` (under a context whose top has a precedence below
that of EXISTS, where the walker adds no parentheses) appends exactly
`fl_exists(<bodyColumnName>, '<path>')`, and the walk of `["count()", P]` appends exactly
`fl_count(<bodyColumnName>, '<path>')`, the path being `p` joined behind the configured
prefix by `appendPaths` and written as a SQL-quoted string (which is `'p'` itself when
no prefix is configured and `p` neither begins with `$` nor holds an apostrophe): no
keyword, no `fl_value`, no argument list. When operand 0 is not a property node, the handler of EXISTS writes
`EXISTS ` and walks the operand, and the handler of `count()` writes `count` and the
argument list. So `["EXISTS", [".", "a"]]` emits `fl_exists(body, 'a')`,
`["count()", [".", "a"]]` emits `fl_count(body, 'a')`, `["EXISTS", 1]` emits `EXISTS 1`
and `["count()", 1]` emits `count(1)`. -/
theorem exists_count_property (n : Nat) (q : QueryParser) (segments : List Value)
    (p : String) (hpath : propertyFromOperands segments = .ok p)
    (hid : p ≠ "_id") (hseq : p ≠ "_sequence") :
    (q.contextBack.precedence < 8 →
      parseNode (n + 1) q (.array [.string "EXISTS", .array (.string "." :: segments)])
        = .ok (q.emit ("fl_exists(" ++ q.bodyColumnName ++ ", "
            ++ sqlQuote (appendPaths q.propertyPath p) ++ ")")))
    ∧ (q.contextBack.precedence < 10 →
      parseNode (n + 1) q (.array [.string "count()", .array (.string "." :: segments)])
        = .ok (q.emit ("fl_count(" ++ q.bodyColumnName ++ ", "
            ++ sqlQuote (appendPaths q.propertyPath p) ++ ")")))
    ∧ (∀ (walk : Walk) (operands : List Value) (q1 : QueryParser),
        firstIsProperty operands = false →
        existsOp walk "EXISTS" operands q1 = walk (q1.emit "EXISTS ") (operandAt operands 0))
    ∧ (∀ (walk : Walk) (operands : List Value) (q1 : QueryParser),
        firstIsProperty operands = false →
        fallbackOp walk "count()" operands q1
          = writeArgList walk operands
              ((q1.setContextBack { q1.contextBack with op := some "count()" }).emit "count"))
    ∧ (q.propertyPath = "" → ¬ ['$'] <+: p.data →
        (p.data.any fun c => c == apostrophe) = false →
        sqlQuote (appendPaths q.propertyPath p) = "'" ++ p ++ "'")
    ∧ sqlOf (runParseJustExpression (QueryParser.new "kv_default" "body")
        (.array [.string "EXISTS", .array [.string ".", .string "a"]]))
        = some "fl_exists(body, 'a')"
    ∧ sqlOf (runParseJustExpression (QueryParser.new "kv_default" "body")
        (.array [.string "count()", .array [.string ".", .string "a"]]))
        = some "fl_count(body, 'a')"
    ∧ sqlOf (runParseJustExpression (QueryParser.new "kv_default" "body")
        (.array [.string "EXISTS", .int 1])) = some "EXISTS 1"
    ∧ sqlOf (runParseJustExpression (QueryParser.new "kv_default" "body")
        (.array [.string "count()", .int 1])) = some "count(1)" := by
  refine ⟨?_, ?_, ?_, ?_, ?_, by decide!, by decide!, by decide!, by decide!⟩
  rotate_left 4
  · intro hpath0 hdollar hplain
    rw [hpath0]
    exact sqlQuote_plain_path p hdollar hplain
  · intro hctx
    rw [parseNode_op n q "EXISTS" [.array (.string "." :: segments)]
      ⟨some "EXISTS", 1, 1, 8, .existsOp⟩ rfl rfl]
    have hnot : ¬ ((8 : Int) ≤ q.contextBack.precedence) := by omega
    simp only [invokeHandler, hnot, decide_False, Bool.false_eq_true, if_false, handlerOf]
    rw [existsOp_property _ _ segments [] p hpath hid hseq]
    simp only [pushContext_emit, popContext_pushContext]
    rfl
  · intro hctx
    have hlook : lookupOperation "count()"
        (min [Value.array (.string "." :: segments)].length 9) kOperationList false
        = (⟨none, 0, 0, 10, .fallbackOp⟩, false) :=
      lookup_unknown "count()" _ (by decide)
    have hnot : ¬ ((10 : Int) ≤ q.contextBack.precedence) := by omega
    simp only [parseNode, parseNodeBody, parseOpNode, Value.asString, hlook,
      Bool.false_eq_true, false_and, if_false, handleOperation, invokeHandler, hnot,
      decide_False, handlerOf]
    rw [countOp_property _ _ segments [] p hpath hid hseq]
    simp [QueryParser.emit, QueryParser.popContext, QueryParser.pushContext,
      QueryParser.setContextBack]
  · intro walk operands q1 hfirst
    unfold existsOp
    rw [nested_property_none q1 "fl_exists" operands hfirst]
    have hl : lastIsAlpha "EXISTS" = true := by decide
    simp only [hl, if_true, emit_emit]
    rfl
  · intro walk operands q1 hfirst
    have hcall : ("count()".length > 2 ∧ "count()".data.reverse.get? 1 = some '('
        ∧ "count()".data.reverse.get? 0 = some ')') := by decide
    have hname : String.mk ("count()".data.dropLast.dropLast) = "count" := by decide
    unfold fallbackOp
    simp only [hcall, not_true_eq_false, if_false, hname, fallbackSpecialCase, if_true]
    rw [nested_property_none _ "fl_count" operands hfirst]
    simp

/-- C27 at the property node `[".", "a", "b"]` on the parser after `reset`. -/
theorem exists_count_property_witness :
    propertyFromOperands [Value.string "a", .string "b"] = .ok "a.b"
    ∧ parseNode 2 (QueryParser.new "kv_default" "body").reset
        (.array [.string "EXISTS", .array [.string ".", .string "a", .string "b"]])
      = .ok ((QueryParser.new "kv_default" "body").reset.emit "fl_exists(body, 'a.b')")
    ∧ parseNode 2 (QueryParser.new "kv_default" "body").reset
        (.array [.string "count()", .array [.string ".", .string "a", .string "b"]])
      = .ok ((QueryParser.new "kv_default" "body").reset.emit "fl_count(body, 'a.b')") :=
  have h := exists_count_property 1 (QueryParser.new "kv_default" "body").reset
    [.string "a", .string "b"] "a.b" (by decide) (by decide) (by decide)
  ⟨by decide, (h.1 (by decide)).trans (by decide!), (h.2.1 (by decide)).trans (by decide!)⟩
/-! ## C28: nested SELECT -/

/-- The entry point `parse` does not depend on the budget of the walker, once the budget
is above the depth of the input. -/
theorem parse_fuel (n : Nat) (qp : QueryParser) (e : Value) (hd : e.depth < n) :
    parse (parseNode n) qp e = runParse qp e := by
  have hw : WalkAgree (min n (e.depth + 1)) (parseNode n) (parseNode (e.depth + 1)) :=
    parseNode_agree n (e.depth + 1)
  have := parse_agree hw e (by omega) "" qp
  rwa [prepend_empty, map_prepend_empty] at this

/-- C28: the handler of SELECT on the operand `x`, run on a parser `q` (the context
stack of `q` is the one the handler sees, the entry of the node itself included: a node
walked in the state `q0` is handed to the handler with the stack of `q0` and one more
entry). If `x` is not a dict the handler fails with InvalidQuery. If `x` is the dict `D`
and the stack has more than 2 entries, the handler appends to the stream of `q` exactly
the SQL that `parse(D)` produces on a fresh parser made with the table name and body
column name of `q`, and it fails exactly when that parse fails, with its error. If the
stack has at most 2 entries, the handler is `writeSelect(D)` on `q` itself. -/
theorem nested_select_fresh (n : Nat) (q : QueryParser) (op : String) (x : Value)
    (rest : List Value) (hd : x.depth < n) :
    (x.asDict = none →
      selectOp (parseNode n) op (x :: rest) q
        = .error (.InvalidQuery "Argument to SELECT must be an object"))
    ∧ (∀ D : List (String × Value), x = .dict D → 2 < q.context.length →
        selectOp (parseNode n) op (x :: rest) q
          = (runParse (QueryParser.new q.tableName q.bodyColumnName) (.dict D)).map
              (fun nested => q.emit nested.SQL))
    ∧ (∀ D : List (String × Value), x = .dict D → q.context.length ≤ 2 →
        selectOp (parseNode n) op (x :: rest) q
          = writeSelect (parseNode n) (Dict.get D "WHERE") (some D) q)
    ∧ (∀ q0 : QueryParser, parseNode (n + 1) q0 (.array [.string "SELECT", x])
        = invokeHandler (selectOp (parseNode n)) ⟨some "SELECT", 1, 1, 1, .selectOp⟩
            "SELECT" [x] q0)
    ∧ (∀ (q0 : QueryParser) (d : Operation),
        (q0.pushContext d).context.length = q0.context.length + 1)
    ∧ sqlOf (runParse (QueryParser.new "kv_default" "body")
        (.array [.string "=", .array [.string ".", .string "a"],
          .array [.string "SELECT",
            .dict [("WHERE", .array [.string "=", .array [.string ".", .string "b"],
              .int 1])]]]))
        = some ("SELECT * FROM kv_default WHERE fl_value(body, 'a') = "
            ++ "(SELECT * FROM kv_default WHERE fl_value(body, 'b') = 1)")
    ∧ runParse (QueryParser.new "kv_default" "body")
        (.array [.string "=", .int 1, .array [.string "SELECT", .int 2]])
        = .error (.InvalidQuery "Argument to SELECT must be an object") := by
  refine ⟨?_, ?_, ?_, ?_, ?_, by decide!, by decide!⟩
  · intro hx
    simp only [selectOp, operandAt, List.getD_cons_zero, hx, fail]
  · intro D hx hlen
    subst hx
    have hnot : ¬ q.context.length ≤ 2 := by omega
    simp only [selectOp, operandAt, List.getD_cons_zero, Value.asDict, hnot, if_false]
    rw [parse_fuel n _ (.dict D) hd]
    cases runParse (QueryParser.new q.tableName q.bodyColumnName) (.dict D) <;> rfl
  · intro D hx hlen
    subst hx
    simp only [selectOp, operandAt, List.getD_cons_zero, Value.asDict, hlen, if_true,
      writeSelectDict]
  · intro q0
    have hl := lookup_select (min [x].length 9)
    simp only [List.length_singleton] at hl
    exact parseNode_op n q0 "SELECT" [x] ⟨some "SELECT", 1, 1, 1, .selectOp⟩
      (by simpa using hl) rfl
  · intro q0 d
    simp [QueryParser.pushContext]

/-- C28 at the dict `{"WHERE": 1}` under a stack of three entries: the handler appends
the SQL of the separate compile. -/
theorem nested_select_fresh_witness :
    (Value.dict [("WHERE", .int 1)]).depth < 2
    ∧ selectOp (parseNode 2) "SELECT" [.dict [("WHERE", .int 1)]]
        (((QueryParser.new "kv_default" "body").reset.pushContext
          ⟨some "NOT", 1, 1, 9, .prefixOp⟩).pushContext ⟨some "SELECT", 1, 1, 1, .selectOp⟩)
      = .ok ((((QueryParser.new "kv_default" "body").reset.pushContext
          ⟨some "NOT", 1, 1, 9, .prefixOp⟩).pushContext
            ⟨some "SELECT", 1, 1, 1, .selectOp⟩).emit
              "SELECT * FROM kv_default WHERE 1") :=
  ⟨by decide,
   ((nested_select_fresh 2
      (((QueryParser.new "kv_default" "body").reset.pushContext
        ⟨some "NOT", 1, 1, 9, .prefixOp⟩).pushContext ⟨some "SELECT", 1, 1, 1, .selectOp⟩)
      "SELECT" (.dict [("WHERE", .int 1)]) [] (by decide)).2.1 _ rfl (by decide)).trans
    (by decide!)⟩
/-! ## C21: `reset` and a second compile on the same instance -/

theorem runParse_prefix (q : QueryParser) (c : List Operation) (e : Value) :
    runParse q e
      = (runParse { q with sql := "", context := c } e).map (QueryParser.prepend q.sql) := by
  have hw : WalkAgree (e.depth + 1) (parseNode (e.depth + 1)) (parseNode (e.depth + 1)) := by
    have := parseNode_agree (e.depth + 1) (e.depth + 1)
    rwa [Nat.min_self] at this
  have h := parse_agree hw e (Nat.lt_succ_self _) q.sql ({ q with sql := "" } : QueryParser)
  rw [← withSql_prepend] at h
  unfold runParse
  rw [h]
  rfl

/-- C21, as amended: `reset()` resets the context stack only. After `reset()` the stack
is exactly [Outer], and the SQL stream, the FTS list and the parameter set are what they
were (all three are empty on a new instance). So `parse(e)` on an instance that has
already compiled writes behind the text the stream holds: its SQL is the earlier text
followed by the SQL that `parse(e)` writes on the same instance with an empty stream,
and the FTS list and the parameter set of the result begin with the earlier ones. When
the earlier FTS list and parameter set are empty, the text written behind the earlier
one is the SQL of `parse(e)` on a new instance with the same configuration, and the FTS
list and parameter set are those of that compile. -/
theorem parse_on_used_instance (q : QueryParser) (e : Value) :
    (q.reset.context = [kOuterOperation] ∧ q.reset.sql = q.sql
      ∧ q.reset.ftsProperties = q.ftsProperties ∧ q.reset.parameters = q.parameters)
    ∧ (∀ t b : String, (QueryParser.new t b).sql = ""
        ∧ (QueryParser.new t b).ftsProperties = [] ∧ (QueryParser.new t b).parameters = []
        ∧ (QueryParser.new t b).cleared = QueryParser.new t b)
    ∧ runParse q e
        = (runParse { q with sql := "", context := [] } e).map (QueryParser.prepend q.sql)
    ∧ (q.ftsProperties = [] → q.parameters = [] →
        runParse q e = (runParse q.cleared e).map (QueryParser.prepend q.sql))
    ∧ (∀ r, runParse q e = .ok r →
        (∃ t : String, r.sql = q.sql ++ t) ∧ q.ftsProperties <+: r.ftsProperties
          ∧ q.parameters <+: r.parameters ∧ r.context = [kOuterOperation]) := by
  refine ⟨⟨rfl, rfl, rfl, rfl⟩, fun t b => ⟨rfl, rfl, rfl, rfl⟩, runParse_prefix q [] e,
    ?_, ?_⟩
  · intro hf hp
    have h := runParse_prefix q [] e
    have hc : q.cleared = { q with sql := "", context := [] } := by
      unfold QueryParser.cleared
      rw [hf, hp]
    rw [hc]
    exact h
  · intro r hr
    have hout := outcome_parse (outcome_parseNode (e.depth + 1)) e (Nat.lt_succ_self _) q
    unfold runParse at hr
    rw [hr] at hout
    obtain ⟨hext, hctx⟩ := hout
    have hpre := runParse_prefix q [] e
    unfold runParse at hpre
    rw [hr] at hpre
    refine ⟨?_, hext.ftsProperties, hext.parameters, ?_⟩
    · cases h2 : parse (parseNode (e.depth + 1)) { q with sql := "", context := [] } e with
      | error err => rw [h2] at hpre; simp [Except.map] at hpre
      | ok r2 =>
        rw [h2] at hpre
        simp only [Except.map, Except.ok.injEq] at hpre
        exact ⟨r2.sql, by rw [hpre]; rfl⟩
    · simpa [contextKept] using hctx

/-- A second compile on the same instance: after `parse(1)`, `parse(2)` yields
`SELECT * FROM kv_default WHERE 1SELECT * FROM kv_default WHERE 2`, where a new instance
yields `SELECT * FROM kv_default WHERE 2`. After a compile that found the FTS property
`text` and the parameter `p`, `parse(2)` writes the FTS join and offsets column of the
earlier list again (shown behind the stream emptied by hand) and keeps `text` and `p`,
where a new instance has neither. -/
theorem second_parse_appends :
    sqlOf (runParse (QueryParser.new "kv_default" "body") (.int 2))
      = some "SELECT * FROM kv_default WHERE 2"
    ∧ sqlOf ((runParse (QueryParser.new "kv_default" "body") (.int 1)).bind
        fun r => runParse r (.int 2))
      = some "SELECT * FROM kv_default WHERE 1SELECT * FROM kv_default WHERE 2"
    ∧ ((runParse (QueryParser.new "kv_default" "body") (.int 2)).toOption.map
        fun r => (r.ftsProperties, r.parameters)) = some ([], [])
    ∧ (((runParse (QueryParser.new "kv_default" "body")
          (.array [.string "AND",
            .array [.string "MATCH", .array [.string ".", .string "text"], .string "x"],
            .array [.string "=", .array [.string ".", .string "a"],
              .array [.string "$", .string "p"]]])).bind
        fun r => runParse { r with sql := "" } (.int 2)).toOption.map
        fun r => (r.sql, r.ftsProperties, r.parameters))
      = some ("SELECT offsets(\"kv_default::text\") FROM kv_default, "
          ++ "\"kv_default::text\" AS FTS1 WHERE 2", ["text"], ["p"]) := by
  refine ⟨by decide!, by decide!, by decide!, by decide!⟩
/-! ## The context stack at the nodes the walker visits -/

theorem infixOpLoop_context (n : Nat) (op : String) (operands : List Value)
    (hd : Value.depthList operands < n) (k : Nat) (q r : QueryParser)
    (h : infixOpLoop (parseNode n) op operands k q = .ok r) (o : Value) (ho : o ∈ operands) :
    ∃ qo ro, parseNode n qo o = .ok ro ∧ qo.context = q.context := by
  induction operands generalizing k q with
  | nil => cases ho
  | cons v vs ih =>
    simp only [Value.depthList, Nat.max_lt] at hd
    rw [infixOpLoop_cons] at h
    have hq : (if k > 0 then
        ((if op ≠ "," then q.emit " " else q).emit op).emit " " else q).context
        = q.context := by
      split
      · split <;> rfl
      · rfl
    cases h1 : parseNode n (if k > 0 then
        ((if op ≠ "," then q.emit " " else q).emit op).emit " " else q) v with
    | error e => rw [h1] at h; simp [Except.bind] at h
    | ok q1 =>
      rw [h1] at h
      simp only [Except.bind] at h
      have hc1 := (grows_parseNode n _ q1 v hd.1 h1).2
      rcases List.mem_cons.mp ho with heq | hmem
      · subst heq
        exact ⟨_, q1, h1, hq⟩
      · obtain ⟨qo, ro, hw, hc⟩ := ih hd.2 (k + 1) q1 h hmem
        exact ⟨qo, ro, hw, hc.trans (hc1.trans hq)⟩

theorem writeArgList_context (n : Nat) (operands : List Value)
    (hd : Value.depthList operands < n) (q r : QueryParser)
    (h : writeArgList (parseNode n) operands q = .ok r) (o : Value) (ho : o ∈ operands) :
    ∃ qo ro, parseNode n qo o = .ok ro ∧ qo.context = q.context ++ [kArgListOperation] := by
  obtain ⟨q', r', hh, _, _, hc⟩ := invokeHandler_ok _ _ _ _ _ _ h
  obtain ⟨qo, ro, hw, hco⟩ := infixOpLoop_context n "," operands hd 0 q' r' hh o ho
  exact ⟨qo, ro, hw, hco.trans hc⟩

/-- A handler that succeeds walks each walked operand under the context stack it was
given, or under that stack and the argument-list operation; `fallbackOp` walks under the
stack whose top it has replaced by the clone, and the argument-list operation. -/
theorem handlerOf_context (n : Nat) (h : OpHandler) (op : String) (operands : List Value)
    (hd : Value.depthList operands < n) (q r : QueryParser)
    (hres : handlerOf (parseNode n) h op operands q = .ok r)
    (o : Value) (ho : o ∈ walkedOperands h op operands) :
    ∃ qo ro, parseNode n qo o = .ok ro
      ∧ ((h ≠ .fallbackOp ∧ qo.context = q.context)
        ∨ qo.context = q.context ++ [kArgListOperation]
        ∨ qo.context = q.context.dropLast
            ++ [{ q.contextBack with op := some op }, kArgListOperation]) := by
  have hat : ∀ i, (operandAt operands i).depth < n :=
    fun i => Nat.lt_of_le_of_lt (depth_operandAt_le operands i) hd
  cases h with
  | propertyOp => simp [walkedOperands] at ho
  | parameterOp => simp [walkedOperands] at ho
  | selectOp => simp [walkedOperands] at ho
  | none => simp [walkedOperands] at ho
  | infixOp =>
    obtain ⟨qo, ro, hw, hc⟩ := infixOpLoop_context n op operands hd 0 q r hres o ho
    exact ⟨qo, ro, hw, Or.inl ⟨by simp, hc⟩⟩
  | prefixOp =>
    simp only [walkedOperands, List.mem_singleton] at ho
    subst ho
    simp only [handlerOf, prefixOp] at hres
    refine ⟨_, r, hres, Or.inl ⟨by simp, ?_⟩⟩
    split <;> rfl
  | postfixOp =>
    simp only [walkedOperands, List.mem_singleton] at ho
    subst ho
    simp only [handlerOf, postfixOp] at hres
    cases h1 : parseNode n q (operandAt operands 0) with
    | error e => rw [h1] at hres; simp at hres
    | ok q1 => exact ⟨q, q1, h1, Or.inl ⟨by simp, rfl⟩⟩
  | matchOp =>
    simp only [walkedOperands, List.mem_singleton] at ho
    subst ho
    simp only [handlerOf, matchOp] at hres
    cases hp : propertyFromNode (operandAt operands 0) with
    | error e => rw [hp] at hres; simp at hres
    | ok property =>
      rw [hp] at hres
      simp only at hres
      split at hres
      · simp [fail] at hres
      · cases h1 : parseNode n ((((AddFTSPropertyIndex q property).2.emit "(FTS").emit
            (ToString.toString (AddFTSPropertyIndex q property).1)).emit ".text MATCH ")
            (operandAt operands 1) with
        | error e => rw [h1] at hres; simp at hres
        | ok q1 =>
          refine ⟨_, q1, h1, Or.inl ⟨by simp, ?_⟩⟩
          exact context_AddFTSPropertyIndex q property
  | betweenOp =>
    simp only [handlerOf, betweenOp] at hres
    cases h0 : parseNode n q (operandAt operands 0) with
    | error e => rw [h0] at hres; simp at hres
    | ok q0 =>
      rw [h0] at hres
      simp only at hres
      cases h1 : parseNode n (((q0.emit " ").emit op).emit " ") (operandAt operands 1) with
      | error e => rw [h1] at hres; simp at hres
      | ok q1 =>
        rw [h1] at hres
        simp only at hres
        have c0 := (grows_parseNode n _ _ _ (hat 0) h0).2
        have c1 := (grows_parseNode n _ _ _ (hat 1) h1).2
        simp only [walkedOperands, List.mem_cons, List.mem_singleton, List.not_mem_nil,
          or_false] at ho
        rcases ho with ho | ho | ho <;> subst ho
        · exact ⟨q, q0, h0, Or.inl ⟨by simp, rfl⟩⟩
        · exact ⟨_, q1, h1, Or.inl ⟨by simp, c0⟩⟩
        · exact ⟨_, r, hres, Or.inl ⟨by simp, c1.trans c0⟩⟩
  | inOp =>
    simp only [handlerOf, inOp] at hres
    cases h0 : parseNode n q (operandAt operands 0) with
    | error e => rw [h0] at hres; simp at hres
    | ok q0 =>
      rw [h0] at hres
      simp only at hres
      have ht := Nat.lt_of_le_of_lt (depthList_tail_le operands) hd
      have c0 := (grows_parseNode n _ _ _ (hat 0) h0).2
      simp only [walkedOperands, List.mem_cons] at ho
      rcases ho with ho | ho
      · subst ho
        exact ⟨q, q0, h0, Or.inl ⟨by simp, rfl⟩⟩
      · obtain ⟨qo, ro, hw, hc⟩ := writeArgList_context n _ ht _ _ hres o ho
        refine ⟨qo, ro, hw, Or.inr (Or.inl ?_)⟩
        rw [hc]
        show q0.context ++ _ = _
        rw [c0]
  | existsOp =>
    simp only [handlerOf, existsOp] at hres
    cases h0 : writeNestedPropertyOpIfAny q "fl_exists" operands with
    | error e => rw [h0] at hres; simp at hres
    | ok res =>
      obtain ⟨b, q1⟩ := res
      obtain ⟨hb, hq1⟩ := writeNestedPropertyOpIfAny_flag q q1 _ operands b h0
      rw [h0] at hres
      cases b
      · have := hq1 rfl
        subst this
        simp only [walkedOperands, ← hb, Bool.false_eq_true, if_false,
          List.mem_singleton] at ho
        subst ho
        simp only at hres
        refine ⟨_, r, hres, Or.inl ⟨by simp, ?_⟩⟩
        split <;> rfl
      · simp [walkedOperands, ← hb] at ho
  | fallbackOp =>
    simp only [handlerOf, fallbackOp] at hres
    split at hres
    · simp [fail] at hres
    · cases h0 : fallbackSpecialCase (String.mk op.data.dropLast.dropLast) operands
          (q.setContextBack { q.contextBack with op := some op }) with
      | error e => rw [h0] at hres; simp at hres
      | ok res =>
        obtain ⟨b, q1⟩ := res
        rw [h0] at hres
        have hq1 : b = false → q1 = q.setContextBack { q.contextBack with op := some op } := by
          intro hb
          subst hb
          unfold fallbackSpecialCase at h0
          split at h0
          · exact (writeNestedPropertyOpIfAny_flag _ _ _ _ _ h0).2 rfl
          · split at h0
            · exact (writeNestedPropertyOpIfAny_flag _ _ _ _ _ h0).2 rfl
            · simp only [Except.ok.injEq, Prod.mk.injEq, true_and] at h0
              exact h0.symm
        have hspecial : b = true →
            (String.mk op.data.dropLast.dropLast = "count"
              ∨ String.mk op.data.dropLast.dropLast = "rank")
            ∧ firstIsProperty operands = true := by
          intro hb
          subst hb
          unfold fallbackSpecialCase at h0
          split at h0
          · rename_i hc
            exact ⟨Or.inl hc, (writeNestedPropertyOpIfAny_flag _ _ _ _ _ h0).1.symm⟩
          · split at h0
            · rename_i hc
              exact ⟨Or.inr hc, (writeNestedPropertyOpIfAny_flag _ _ _ _ _ h0).1.symm⟩
            · simp at h0
        cases b
        · have := hq1 rfl
          subst this
          simp only at hres
          have ho' : o ∈ operands := by
            simp only [walkedOperands] at ho
            split at ho
            · simp at ho
            · exact ho
          obtain ⟨qo, ro, hw, hc⟩ := writeArgList_context n _ hd _ _ hres o ho'
          refine ⟨qo, ro, hw, Or.inr (Or.inr ?_)⟩
          rw [hc]
          simp [QueryParser.emit, QueryParser.setContextBack]
        · have := hspecial rfl
          simp [walkedOperands, this] at ho

theorem lookup_mem (op : String) (nargs : Nat) (l : List Operation) (nm : Bool) :
    (lookupOperation op nargs l nm).1 ∈ l
      ∨ (lookupOperation op nargs l nm).1 = ⟨none, 0, 0, 10, .fallbackOp⟩ := by
  induction l generalizing nm with
  | nil => exact Or.inr rfl
  | cons d rest ih =>
    simp only [lookupOperation]
    cases hop : d.op with
    | none => exact Or.inl (List.mem_cons_self _ _)
    | some symbol =>
      simp only
      split
      · split
        · exact Or.inl (List.mem_cons_self _ _)
        · rcases ih true with h | h
          · exact Or.inl (List.mem_cons_of_mem _ h)
          · exact Or.inr h
      · rcases ih nm with h | h
        · exact Or.inl (List.mem_cons_of_mem _ h)
        · exact Or.inr h

theorem lookup_mem_table (op : String) (nargs : Nat) :
    (lookupOperation op nargs kOperationList false).1 ∈ kOperationList := by
  rcases lookup_mem op nargs kOperationList false with h | h
  · exact h
  · rw [h]
    decide

theorem table_precedence_below : ∀ d ∈ kOperationList,
    d.handler ≠ .fallbackOp → d.precedence < 10 := by
  decide

theorem contextBack_append_singleton (q : QueryParser) (l : List Operation) (d : Operation)
    (h : q.context = l ++ [d]) : q.contextBack = d := by
  simp [QueryParser.contextBack, h, List.getLastD_eq_getLast?]

/-- When the walker succeeds on `e`, every node `m` walked below `e` was walked,
successfully, under a context stack that begins with the stack the walk of `e` started
with, and whose top has a precedence below 10, that of the fallback entry, if the top of
that stack has. -/
theorem walked_context (n : Nat) : ∀ (q r : QueryParser) (e m : Value), e.depth < n →
    parseNode n q e = .ok r → Walked e m →
    ∃ k qm rm, m.depth < k ∧ parseNode k qm m = .ok rm ∧ q.context <+: qm.context
      ∧ (q.contextBack.precedence < 10 → qm.contextBack.precedence < 10) := by
  induction n with
  | zero => intro q r e m hd; simp at hd
  | succ n ih =>
    intro q r e m hd h hw
    cases hw with
    | self => exact ⟨n + 1, q, r, hd, h, List.prefix_refl _, fun hq => hq⟩
    | operand op operands o _ ho hwalked =>
      simp only [Value.depth, Value.depthList, Nat.add_lt_add_iff_right] at hd
      have hdl : Value.depthList operands < n := by
        have : Value.depthList operands ≤ max (Value.string op).depth
            (Value.depthList operands) := Nat.le_max_right _ _
        omega
      simp only [parseNode, parseNodeBody, parseOpNode, Value.asString] at h
      split at h
      · simp [fail] at h
      · rename_i hfound
        simp only [walkedOperandsOf, hfound, if_false] at ho
        simp only [handleOperation] at h
        obtain ⟨q', r', hh, _, _, hc'⟩ := invokeHandler_ok _ _ _ _ _ _ h
        obtain ⟨qo, ro, hwo, hctx⟩ := handlerOf_context n _ op operands hdl q' r' hh o ho
        have hod : o.depth < n :=
          Nat.lt_of_le_of_lt (depth_walkedOperands _ op operands o ho) hdl
        have hqo : q.context <+: qo.context ∧ qo.contextBack.precedence < 10 := by
          rcases hctx with ⟨hne, hc⟩ | hc | hc
          · rw [hc'] at hc
            refine ⟨⟨_, hc.symm⟩, ?_⟩
            rw [contextBack_append_singleton qo _ _ hc]
            exact table_precedence_below _ (lookup_mem_table _ _) hne
          · rw [hc'] at hc
            refine ⟨⟨_, by rw [hc, List.append_assoc]⟩, ?_⟩
            rw [contextBack_append_singleton qo _ _ hc]
            decide
          · rw [hc', List.dropLast_concat] at hc
            refine ⟨⟨_, hc.symm⟩, ?_⟩
            have hc2 : qo.context = (q.context ++ [{ q'.contextBack with op := some op }])
                ++ [kArgListOperation] := by
              rw [hc]
              simp
            rw [contextBack_append_singleton qo _ _ hc2]
            decide
        obtain ⟨k, qm, rm, hmd, hm, hpre, himp⟩ := ih qo ro o m hod hwo hwalked
        exact ⟨k, qm, rm, hmd, hm, List.IsPrefix.trans hqo.1 hpre, fun _ => himp hqo.2⟩

/-- The context stacks under which a successful `writeSelect` walks the WHERE expression
(the stack it was given) and the ORDER BY items (that stack, the ORDER BY operation and
the argument-list operation). -/
theorem writeSelect_context (n : Nat) (whereExpr : Option Value)
    (operands : Option (List (String × Value)))
    (hwd : ∀ w, whereExpr = some w → w.depth < n)
    (hod : ∀ es, operands = some es → Value.depthEntries es < n)
    (q r : QueryParser) (h : writeSelect (parseNode n) whereExpr operands q = .ok r) :
    (∀ w, whereExpr = some w → ∃ q0 rw,
        parseNode n q0 w = .ok rw ∧ q0.context = q.context)
    ∧ (∀ order, operands.bind (fun d => Dict.get d "ORDER BY") = some order →
        ∀ o ∈ order.arrayItems, ∃ qo ro, parseNode n qo o = .ok ro
          ∧ qo.context = q.context ++ [kOrderByOperation, kArgListOperation]) := by
  unfold writeSelect writeClauses at h
  cases hs : scanWhere whereExpr q with
  | error e => rw [hs] at h; simp at h
  | ok qs =>
    rw [hs] at h
    simp only at h
    have hcs : qs.context = q.context := by
      have hout := outcome_scanWhere whereExpr q
      rw [hs] at hout
      simpa [contextKept] using hout.2
    cases hf : writeWhatAndFrom operands qs with
    | error e => rw [hf] at h; simp at h
    | ok qf =>
      rw [hf] at h
      simp only at h
      have hqf : qf = qs.withSelectHead := writeWhatAndFrom_text operands qs qf hf
      have hcf : qf.context = q.context := by
        rw [hqf]
        exact hcs
      cases hw : writeWhere (parseNode n) whereExpr qf with
      | error e => rw [hw] at h; simp at h
      | ok qw =>
        rw [hw] at h
        simp only at h
        have hcw : qw.context = q.context := by
          have hout := outcome_writeWhere (outcome_parseNode n) whereExpr hwd qf
          rw [hw] at hout
          have : qw.context = qf.context := by simpa [contextKept] using hout.2
          exact this.trans hcf
        cases ho : writeOrderBy (parseNode n) operands qw with
        | error e => rw [ho] at h; simp at h
        | ok qo =>
          refine ⟨?_, ?_⟩
          · intro w hwe
            subst hwe
            simp only [writeWhere] at hw
            exact ⟨_, qw, hw, hcf⟩
          · intro order hord o hmem
            unfold writeOrderBy at ho
            rw [hord] at ho
            simp only at ho
            cases harr : order.asArray with
            | none => rw [harr] at ho; simp [fail] at ho
            | some orderBys =>
              rw [harr] at ho
              simp only at ho
              have hdepth : Value.depthList orderBys < n := by
                cases operands with
                | none => simp at hord
                | some es =>
                  have h1 : order.depth ≤ Value.depthEntries es := depth_le_depthEntries hord
                  have h2 := depth_asArray harr
                  have h3 := hod es rfl
                  omega
              cases hwa : writeArgList (parseNode n) orderBys
                  ((qw.emit " ORDER BY ").pushContext kOrderByOperation) with
              | error e => rw [hwa] at ho; simp at ho
              | ok r1 =>
                simp only [Value.arrayItems, harr] at hmem
                obtain ⟨qo', ro, hwo, hc⟩ :=
                  writeArgList_context n orderBys hdepth _ _ hwa o hmem
                refine ⟨qo', ro, hwo, ?_⟩
                rw [hc]
                show (qw.context ++ [kOrderByOperation]) ++ [kArgListOperation] = _
                rw [hcw]
                simp

theorem runParse_anatomy_context (qp r : QueryParser) (e : Value) (h : runParse qp e = .ok r) :
    ∃ (n : Nat) (c c' : List Operation) (r1 : QueryParser),
      (c = [kOuterOperation]
        ∨ c = [kOuterOperation, ⟨some "SELECT", 1, 1, 1, .selectOp⟩])
      ∧ writeSelect (parseNode n) (whereOf e) (selectDictOf e)
          ({ qp with context := c } : QueryParser) = .ok r1
      ∧ r = { r1 with context := c' }
      ∧ (∀ w, whereOf e = some w → w.depth < n)
      ∧ (∀ es, selectDictOf e = some es → Value.depthEntries es < n) := by
  have himplicit : ∀ (e : Value),
      writeSelect (parseNode (e.depth + 1)) (some e) none qp.reset = .ok r →
      whereOf e = some e → selectDictOf e = none →
      ∃ (n : Nat) (c c' : List Operation) (r1 : QueryParser),
        (c = [kOuterOperation]
          ∨ c = [kOuterOperation, ⟨some "SELECT", 1, 1, 1, .selectOp⟩])
        ∧ writeSelect (parseNode n) (whereOf e) (selectDictOf e)
            ({ qp with context := c } : QueryParser) = .ok r1
        ∧ r = { r1 with context := c' }
        ∧ (∀ w, whereOf e = some w → w.depth < n)
        ∧ (∀ es, selectDictOf e = some es → Value.depthEntries es < n) := by
    intro e h hw hd
    refine ⟨e.depth + 1, [kOuterOperation], r.context, r, Or.inl rfl, ?_, rfl, ?_, ?_⟩
    · rw [hw, hd]; exact h
    · intro w hw'
      rw [hw] at hw'
      cases hw'
      omega
    · intro es hes
      rw [hd] at hes
      cases hes
  unfold runParse parse at h
  cases e with
  | dict d =>
    simp only [Value.asDict, writeSelectDict] at h
    refine ⟨(Value.dict d).depth + 1, [kOuterOperation], r.context, r, Or.inl rfl, h, rfl,
      ?_, ?_⟩
    · intro w hw
      have := depth_le_depthEntries (show Dict.get d "WHERE" = some w from hw)
      simp only [Value.depth]
      omega
    · intro es hes
      simp only [selectDictOf, Option.some.injEq] at hes
      subst hes
      simp only [Value.depth]
      omega
  | array items =>
    cases items with
    | nil =>
      simp only [Value.asDict, Value.asArray] at h
      exact himplicit _ h rfl rfl
    | cons first operands =>
      simp only [Value.asDict, Value.asArray] at h
      by_cases hsel : first.asString = some "SELECT"
      · simp only [hsel, if_true] at h
        have hfirst : first = .string "SELECT" := by
          cases first <;> simp [Value.asString] at hsel
          subst hsel; rfl
        subst hfirst
        have h' : parseNodeBody (parseNode (Value.array (.string "SELECT" :: operands)).depth)
            qp.reset (.array (.string "SELECT" :: operands)) = .ok r := h
        have hk : Value.depthList operands
            < (Value.array (.string "SELECT" :: operands)).depth := by
          simp only [Value.depth, Value.depthList]
          have : Value.depthList operands ≤ max 0 (Value.depthList operands) :=
            Nat.le_max_right _ _
          omega
        generalize (Value.array (.string "SELECT" :: operands)).depth = k at h' hk
        clear h
        simp only [parseNodeBody, parseOpNode, Value.asString, lookup_select] at h'
        by_cases hn : min operands.length 9 = 1
        · simp only [hn, if_true, Option.isNone_some, Bool.false_eq_true, and_false,
            if_false, handleOperation, invokeHandler, handlerOf, contextBack_reset] at h'
          have hp : decide ((1 : Int) ≤ kOuterOperation.precedence) = false := by decide
          simp only [hp, Bool.false_eq_true, if_false, selectOp] at h'
          cases hdict : (operandAt operands 0).asDict with
          | none => rw [hdict] at h'; simp [fail] at h'
          | some dict =>
            rw [hdict] at h'
            have hlen : (qp.reset.pushContext
                ⟨some "SELECT", 1, 1, 1, .selectOp⟩).context.length ≤ 2 := by
              simp [QueryParser.reset, QueryParser.pushContext]
            simp only [hlen, if_true, writeSelectDict] at h'
            cases hw : writeSelect (parseNode k)
                (Dict.get dict "WHERE") (some dict)
                (qp.reset.pushContext ⟨some "SELECT", 1, 1, 1, .selectOp⟩) with
            | error e => rw [hw] at h'; simp at h'
            | ok r1 =>
              rw [hw] at h'
              simp only [Except.ok.injEq] at h'
              have hdd : Value.depthEntries dict < k := by
                have h1 := depth_asDict hdict
                have h2 := depth_operandAt_le operands 0
                omega
              refine ⟨k, [kOuterOperation, ⟨some "SELECT", 1, 1, 1, .selectOp⟩],
                r.context, r1, Or.inr rfl, ?_, ?_, ?_, ?_⟩
              · simp only [whereOf, selectDictOf, Value.asString, if_true, hdict,
                  Option.bind_some]
                exact hw
              · subst h'; rfl
              · intro w hw'
                simp only [whereOf, Value.asString, if_true, hdict, Option.bind_some] at hw'
                have := depth_le_depthEntries hw'
                omega
              · intro es hes
                simp only [selectDictOf, Value.asString, if_true, hdict,
                  Option.some.injEq] at hes
                subst hes
                exact hdd
        · simp [hn, fail] at h'
      · simp only [hsel, if_false] at h
        exact himplicit _ h (by simp [whereOf, hsel]) (by simp [selectDictOf, hsel])
  | null => exact himplicit _ h rfl rfl
  | bool b => exact himplicit _ h rfl rfl
  | int i => exact himplicit _ h rfl rfl
  | float t s => exact himplicit _ h rfl rfl
  | string s => exact himplicit _ h rfl rfl
  | data d => exact himplicit _ h rfl rfl

/-- In a successful compile, every node walked below the WHERE expression or below an
ORDER BY item of the outer SELECT was walked, successfully, under a context stack that
has Outer at the bottom and whose top has a precedence below 10. -/
theorem compile_walk_context (qp r : QueryParser) (e root m : Value)
    (h : runParse qp e = .ok r)
    (hroot : whereOf e = some root ∨ root ∈ orderBysOf e) (hm : Walked root m) :
    ∃ k qm rm, m.depth < k ∧ parseNode k qm m = .ok rm
      ∧ [kOuterOperation] <+: qm.context ∧ qm.contextBack.precedence < 10 := by
  obtain ⟨n, c, c', r1, hc, hsel, hr, hwd, hod⟩ := runParse_anatomy_context qp r e h
  obtain ⟨hwhere, horder⟩ := writeSelect_context n _ _ hwd hod _ r1 hsel
  have hpre : [kOuterOperation] <+: c := by
    rcases hc with hc | hc
    · rw [hc]
    · rw [hc]
      exact ⟨[_], rfl⟩
  have key : ∀ q0 r0 : QueryParser, root.depth < n → parseNode n q0 root = .ok r0 →
      [kOuterOperation] <+: q0.context → q0.contextBack.precedence < 10 →
      ∃ k qm rm, m.depth < k ∧ parseNode k qm m = .ok rm
        ∧ [kOuterOperation] <+: qm.context ∧ qm.contextBack.precedence < 10 := by
    intro q0 r0 hd hwalk hp htop
    obtain ⟨k, qm, rm, hk, hnode, hpm, himp⟩ := walked_context n q0 r0 root m hd hwalk hm
    exact ⟨k, qm, rm, hk, hnode, List.IsPrefix.trans hp hpm, himp htop⟩
  rcases hroot with hw | ho
  · obtain ⟨q0, rw, hwalk, hc0⟩ := hwhere root hw
    have hc0' : q0.context = c := hc0
    refine key q0 rw (hwd root hw) hwalk (by rw [hc0']; exact hpre) ?_
    rcases hc with hc | hc
    · rw [contextBack_append_singleton q0 [] kOuterOperation (by rw [hc0', hc]; rfl)]
      decide
    · rw [contextBack_append_singleton q0 [kOuterOperation]
        ⟨some "SELECT", 1, 1, 1, .selectOp⟩ (by rw [hc0', hc]; rfl)]
      decide
  · unfold orderBysOf at ho
    cases hord : (selectDictOf e).bind (fun d => Dict.get d "ORDER BY") with
    | none => simp [hord] at ho
    | some order =>
      simp only [hord] at ho
      obtain ⟨qo, ro, hwalk, hco⟩ := horder order hord root ho
      have hco' : qo.context = (c ++ [kOrderByOperation]) ++ [kArgListOperation] := by
        rw [hco]
        show c ++ [kOrderByOperation, kArgListOperation] = _
        simp
      have hdepth : root.depth < n := by
        cases hd : selectDictOf e with
        | none => simp [hd] at hord
        | some es =>
          rw [hd] at hord
          have h1 : order.depth ≤ Value.depthEntries es := depth_le_depthEntries hord
          have h2 := hod es hd
          have h3 := depth_arrayItems order root ho
          omega
      refine key qo ro hdepth hwalk ?_ ?_
      · rw [hco', List.append_assoc]
        exact List.IsPrefix.trans hpre (List.prefix_append _ _)
      · rw [contextBack_append_singleton qo _ _ hco']
        decide
/-! ## C22: `getFullTextTerms` -/

theorem readDigits_run (ds rest : List Char) (acc : Nat)
    (hds : ds.all isdigit = true) (hrest : rest.head?.map isdigit ≠ some true) :
    readDigits (ds ++ rest) acc
      = (ds.foldl (fun acc c => 10 * acc + (c.toNat - 48)) acc, rest) := by
  induction ds generalizing acc with
  | nil =>
    cases rest with
    | nil => rfl
    | cons c cs =>
      have hc : isdigit c = false := by
        cases h : isdigit c with
        | false => rfl
        | true => simp [h] at hrest
      simp [readDigits, hc]
  | cons d ds ih =>
    simp only [List.all_cons, Bool.and_eq_true] at hds
    simp only [List.cons_append, readDigits, hds.1, if_true, List.foldl_cons]
    exact ih _ hds.2

theorem digit_facts (c : Char) (h : isdigit c = true) :
    isspace c = false ∧ c.toNat ≠ 45 ∧ c.toNat ≠ 43 ∧ c.toNat ≠ 0 := by
  simp only [isdigit, decide_eq_true_eq] at h
  refine ⟨?_, by omega, by omega, by omega⟩
  simp only [isspace, decide_eq_false_iff_not]
  omega

theorem strtol_of_skip (longMax : Nat) (str : List Char) (d : Char) (tail : List Char)
    (hskip : skipSpace str = d :: tail) (hd : isdigit d = true) :
    strtol longMax str
      = (min (longMax : Int) ((readDigits (d :: tail) 0).1 : Int),
          (readDigits (d :: tail) 0).2) := by
  obtain ⟨_, h45, h43, _⟩ := digit_facts d hd
  unfold strtol
  simp only [hskip, List.head?_cons, Option.map_some', Option.some.injEq,
    h45, h43, or_self, if_false, hd, if_true, decide_False, Bool.false_eq_true]

/-- `strtol` on a numeral, with or without one blank in front of it, followed by the
end of the text or by a character that is not a digit: the value of the numeral, and
the text behind it. -/
theorem strtol_numeral (longMax : Nat) (t rest : List Char) (blank : Bool)
    (ht : isNumeral t = true) (hv : numeralValue t ≤ longMax)
    (hrest : rest.head?.map isdigit ≠ some true) :
    strtol longMax ((if blank then [' '] else []) ++ (t ++ rest))
      = ((numeralValue t : Int), rest) := by
  cases t with
  | nil => simp [isNumeral] at ht
  | cons d ds =>
    simp only [isNumeral, List.isEmpty_cons, Bool.not_false, Bool.true_and] at ht
    have hd : isdigit d = true := by
      simp only [List.all_cons, Bool.and_eq_true] at ht
      exact ht.1
    obtain ⟨hsp, _, _, _⟩ := digit_facts d hd
    have hskip : skipSpace ((if blank then [' '] else []) ++ (d :: ds ++ rest))
        = d :: (ds ++ rest) := by
      cases blank
      · simp [skipSpace, hsp]
      · have hb : isspace ' ' = true := by decide
        simp [skipSpace, hsp, hb]
    rw [strtol_of_skip longMax _ d (ds ++ rest) hskip hd]
    have hrun := readDigits_run (d :: ds) rest 0 ht hrest
    simp only [List.cons_append] at hrun
    rw [hrun]
    simp only [numeralValue] at hv ⊢
    congr 1
    apply min_eq_right
    exact_mod_cast hv

theorem spaced_cons (t : List Char) (ts : List (List Char)) :
    spaced (t :: ts) = t ++ ((if ts.isEmpty then [] else [' ']) ++ spaced ts) := by
  cases ts with
  | nil => simp [spaced]
  | cons u us => simp [spaced]

theorem toUInt32_small (v : Nat) (hv : v < 2 ^ 31) : toUInt32 (v : Int) = v := by
  unfold toUInt32
  have h : ((v : Int) % (2 ^ 32 : Int)) = (v : Int) := by
    apply Int.emod_eq_of_lt
    · exact Int.ofNat_nonneg v
    · have : v < 2 ^ 32 := by omega
      exact_mod_cast this
  rw [h]
  exact Int.toNat_natCast v

theorem head_blank_or_empty (ts : List (List Char)) :
    (((if ts.isEmpty then [] else [' ']) ++ spaced ts).head?.map isdigit) ≠ some true := by
  cases ts with
  | nil => simp [spaced]
  | cons u us =>
    have hb : isdigit ' ' = false := by decide
    simp [hb]

theorem strtol_numeral_blank (longMax : Nat) (t rest : List Char)
    (ht : isNumeral t = true) (hv : numeralValue t ≤ longMax)
    (hrest : rest.head?.map isdigit ≠ some true) :
    strtol longMax (' ' :: (t ++ rest)) = ((numeralValue t : Int), rest) :=
  strtol_numeral longMax t rest true ht hv hrest

theorem strtol_numeral_plain (longMax : Nat) (t rest : List Char)
    (ht : isNumeral t = true) (hv : numeralValue t ≤ longMax)
    (hrest : rest.head?.map isdigit ≠ some true) :
    strtol longMax (t ++ rest) = ((numeralValue t : Int), rest) :=
  strtol_numeral longMax t rest false ht hv hrest

theorem head_blank (cs : List Char) : ((' ' :: cs).head?.map isdigit) ≠ some true := by
  have : isdigit ' ' = false := by decide
  simp [this]

/-- One pass of the `for` loop over a text that begins, after at most one blank, with
four numerals separated by single blanks: the four values are read, and what is left is
the text behind the fourth numeral. -/
theorem readNumbers_four (longMax : Nat) (h31 : 2 ^ 31 - 1 ≤ longMax)
    (a b c d : List Char) (rest : List (List Char)) (blank : Bool)
    (hnum : ∀ t ∈ [a, b, c, d], isNumeral t = true ∧ numeralValue t < 2 ^ 31) :
    readNumbers longMax 4 ((if blank then [' '] else []) ++ spaced (a :: b :: c :: d :: rest))
      = ([numeralValue a, numeralValue b, numeralValue c, numeralValue d],
          (if rest.isEmpty then [] else [' ']) ++ spaced rest) := by
  have ha := hnum a (by simp)
  have hb := hnum b (by simp)
  have hc := hnum c (by simp)
  have hd := hnum d (by simp)
  have hle : ∀ v : Nat, v < 2 ^ 31 → v ≤ longMax := fun v hv => by omega
  have hs : spaced (a :: b :: c :: d :: rest)
      = a ++ (' ' :: (b ++ (' ' :: (c ++ (' ' :: (d
          ++ ((if rest.isEmpty then [] else [' ']) ++ spaced rest))))))) := by
    simp only [spaced]
    rw [spaced_cons d rest]
  generalize hT : (if rest.isEmpty then [] else [' ']) ++ spaced rest = T at hs ⊢
  have hTd : (T.head?.map isdigit) ≠ some true := by
    rw [← hT]
    exact head_blank_or_empty rest
  have hD := strtol_numeral_blank longMax d T hd.1 (hle _ hd.2) hTd
  have hC := strtol_numeral_blank longMax c (' ' :: (d ++ T)) hc.1 (hle _ hc.2) (head_blank _)
  have hB := strtol_numeral_blank longMax b (' ' :: (c ++ (' ' :: (d ++ T)))) hb.1
    (hle _ hb.2) (head_blank _)
  have hA := strtol_numeral longMax a (' ' :: (b ++ (' ' :: (c ++ (' ' :: (d ++ T))))))
    blank ha.1 (hle _ ha.2) (head_blank _)
  rw [hs]
  simp only [readNumbers, hA, hB, hC, hD, toUInt32_small _ ha.2, toUInt32_small _ hb.2,
    toUInt32_small _ hc.2, toUInt32_small _ hd.2]

theorem numeral_text_head (a : List Char) (tail : List Char) (blank : Bool)
    (ha : isNumeral a = true) :
    ∃ c cs, (if blank then [' '] else []) ++ (a ++ tail) = c :: cs ∧ c.toNat ≠ 0 := by
  cases blank
  · cases a with
    | nil => simp [isNumeral] at ha
    | cons d ds =>
      simp only [isNumeral, List.isEmpty_cons, Bool.not_false, Bool.true_and, List.all_cons,
        Bool.and_eq_true] at ha
      exact ⟨d, ds ++ tail, by simp, (digit_facts d ha.1).2.2.2⟩
  · exact ⟨' ', a ++ tail, by simp, by decide⟩

/-- The loop of `getFullTextTerms` over 4k numerals below 2^31 separated by single
blanks, read after at most one blank: with a budget above k it returns, with one term
per group of four appended. -/
theorem getFullTextTermsLoop_spaced (longMax : Nat) (h31 : 2 ^ 31 - 1 ≤ longMax) :
    ∀ (k : Nat) (tokens : List (List Char)) (blank : Bool) (acc : List FullTextTerm)
      (fuel : Nat), tokens.length = 4 * k →
      (∀ t ∈ tokens, isNumeral t = true ∧ numeralValue t < 2 ^ 31) →
      (blank = true → tokens ≠ []) → k < fuel →
      getFullTextTermsLoop longMax fuel ((if blank then [' '] else []) ++ spaced tokens) acc
        = some (acc ++ termsOf tokens) := by
  intro k
  induction k with
  | zero =>
    intro tokens blank acc fuel hlen hnum hblank hfuel
    have ht : tokens = [] := List.length_eq_zero.mp (by omega)
    subst ht
    have hb : blank = false := by
      cases blank
      · rfl
      · exact absurd rfl (hblank rfl)
    subst hb
    obtain ⟨f, rfl⟩ : ∃ f, fuel = f + 1 := ⟨fuel - 1, by omega⟩
    simp [getFullTextTermsLoop, spaced, termsOf]
  | succ k ih =>
    intro tokens blank acc fuel hlen hnum hblank hfuel
    obtain ⟨f, rfl⟩ : ∃ f, fuel = f + 1 := ⟨fuel - 1, by omega⟩
    match tokens, hlen, hnum with
    | a :: b :: c :: d :: rest, hlen, hnum =>
      have hrest : rest.length = 4 * k := by
        simp only [List.length_cons] at hlen
        omega
      have hfour : ∀ t ∈ [a, b, c, d], isNumeral t = true ∧ numeralValue t < 2 ^ 31 := by
        intro t ht
        apply hnum
        simp only [List.mem_cons, List.mem_singleton, List.not_mem_nil, or_false] at ht
        rcases ht with h | h | h | h <;> subst h <;> simp
      have hread := readNumbers_four longMax h31 a b c d rest blank hfour
      obtain ⟨c0, cs0, hstr, hc0⟩ := numeral_text_head a
        ((if (b :: c :: d :: rest).isEmpty then [] else [' ']) ++ spaced (b :: c :: d :: rest))
        blank (hfour a (by simp)).1
      rw [← spaced_cons] at hstr
      rw [hstr] at hread ⊢
      simp only [getFullTextTermsLoop, hc0, if_false, hread, List.getD_cons_succ,
        List.getD_cons_zero]
      have hih := ih rest (!rest.isEmpty)
        (acc ++ [⟨numeralValue b, numeralValue c, numeralValue d⟩]) f hrest
        (fun t ht => hnum t (by simp [ht]))
        (by
          intro hb hnil
          subst hnil
          simp at hb)
        (by omega)
      have hsp : (if (!rest.isEmpty) = true then [' '] else ([] : List Char))
          = (if rest.isEmpty then [] else [' ']) := by
        cases rest <;> rfl
      rw [hsp] at hih
      rw [hih]
      simp [termsOf]
    | [], hlen, _ => simp at hlen
    | [_], hlen, _ => simp at hlen; omega
    | [_, _], hlen, _ => simp at hlen; omega
    | [_, _, _], hlen, _ => simp at hlen; omega

theorem termsOf_groups : ∀ (k : Nat) (tokens : List (List Char)), tokens.length = 4 * k →
    (termsOf tokens).length = k
    ∧ ∀ j, j < k → (termsOf tokens).get? j
        = some ⟨numeralValue (tokens.getD (4 * j + 1) []),
            numeralValue (tokens.getD (4 * j + 2) []),
            numeralValue (tokens.getD (4 * j + 3) [])⟩ := by
  intro k
  induction k with
  | zero =>
    intro tokens hlen
    have ht : tokens = [] := List.length_eq_zero.mp (by omega)
    subst ht
    exact ⟨rfl, fun j hj => absurd hj (Nat.not_lt_zero j)⟩
  | succ k ih =>
    intro tokens hlen
    match tokens, hlen with
    | a :: b :: c :: d :: rest, hlen =>
      have hrest : rest.length = 4 * k := by
        simp only [List.length_cons] at hlen
        omega
      obtain ⟨h1, h2⟩ := ih rest hrest
      refine ⟨by simp [termsOf, h1], ?_⟩
      intro j hj
      cases j with
      | zero => simp [termsOf]
      | succ j =>
        have := h2 j (by omega)
        have e1 : 4 * (j + 1) + 1 = (4 * j + 1) + 4 := by omega
        have e2 : 4 * (j + 1) + 2 = (4 * j + 2) + 4 := by omega
        have e3 : 4 * (j + 1) + 3 = (4 * j + 3) + 4 := by omega
        simp only [termsOf, List.get?_cons_succ, this, e1, e2, e3, List.getD_cons_succ]
    | [], hlen => simp at hlen
    | [_], hlen => simp at hlen; omega
    | [_, _], hlen => simp at hlen; omega
    | [_, _, _], hlen => simp at hlen; omega

/-- C22: for every text of column 4 made of 4k decimal numerals, each of a value below
2^31, separated by single blanks, with nothing before the first nor behind the last
(k = 0 is the empty text), on every platform whose `long` holds 2^31 - 1:
`getFullTextTerms` returns after k passes of its loop (every budget above k suffices),
the vector then holds exactly k terms, whatever it held before, and the term number j
holds the values of the second, third and fourth numeral of the group of four number j,
the first numeral of each group being dropped. The text `0 1 5 3 0 2 9 4` gives the
terms {1, 5, 3} and {2, 9, 4}. -/
theorem full_text_terms (longMax : Nat) (k : Nat) (tokens : List (List Char))
    (earlier : List FullTextTerm) (fuel : Nat) (h31 : 2 ^ 31 - 1 ≤ longMax)
    (hlen : tokens.length = 4 * k)
    (hnum : ∀ t ∈ tokens, isNumeral t = true ∧ numeralValue t < 2 ^ 31)
    (hfuel : k < fuel) :
    getFullTextTerms longMax fuel (String.mk (spaced tokens)) earlier = some (termsOf tokens)
    ∧ (termsOf tokens).length = k
    ∧ (∀ j, j < k → (termsOf tokens).get? j
        = some ⟨numeralValue (tokens.getD (4 * j + 1) []),
            numeralValue (tokens.getD (4 * j + 2) []),
            numeralValue (tokens.getD (4 * j + 3) [])⟩)
    ∧ getFullTextTerms (2 ^ 63 - 1) 3 "0 1 5 3 0 2 9 4" [⟨7, 7, 7⟩]
        = some [⟨1, 5, 3⟩, ⟨2, 9, 4⟩]
    ∧ getFullTextTerms (2 ^ 63 - 1) 1 "" [⟨7, 7, 7⟩] = some [] := by
  obtain ⟨h1, h2⟩ := termsOf_groups k tokens hlen
  refine ⟨?_, h1, h2, by decide, by decide⟩
  have hloop := getFullTextTermsLoop_spaced longMax h31 k tokens false [] fuel hlen hnum
    (by simp) hfuel
  simp only [Bool.false_eq_true, if_false, List.nil_append] at hloop
  simp only [getFullTextTerms, List.drop_length]
  exact hloop

/-- C22 at the text `10 2 30 4` on a platform with a 32-bit `long`: one term,
{2, 30, 4}. -/
theorem full_text_terms_witness :
    (2 ^ 31 - 1 ≤ 2 ^ 31 - 1)
    ∧ [['1', '0'], ['2'], ['3', '0'], ['4']].length = 4 * 1
    ∧ String.mk (spaced [['1', '0'], ['2'], ['3', '0'], ['4']]) = "10 2 30 4"
    ∧ getFullTextTerms (2 ^ 31 - 1) 2 "10 2 30 4" [] = some [⟨2, 30, 4⟩] :=
  ⟨Nat.le_refl _, rfl, by decide,
   (full_text_terms (2 ^ 31 - 1) 1 [['1', '0'], ['2'], ['3', '0'], ['4']] [] 2
      (Nat.le_refl _) rfl (by decide) (by decide)).1.trans (by decide)⟩
/-! ## C32: the SQL string literal can be read back -/

theorem undouble_cons_other (a : Char) (l : List Char) (ha : a ≠ apostrophe) :
    undoubleApostrophes (a :: l) = a :: undoubleApostrophes l := by
  cases l with
  | nil => rfl
  | cons b rest => simp [undoubleApostrophes, ha]

theorem undouble_double (cs : List Char) :
    undoubleApostrophes (doubleApostrophes cs) = cs := by
  induction cs with
  | nil => rfl
  | cons c cs ih =>
    by_cases hc : c = apostrophe
    · simp only [doubleApostrophes, hc, if_true, undoubleApostrophes, and_self, ih]
    · simp only [doubleApostrophes, hc, if_false]
      rw [undouble_cons_other c _ hc, ih]

theorem evenRuns_double (cs : List Char) (run : Nat) (hrun : run % 2 = 0) :
    evenApostropheRuns (doubleApostrophes cs) run = true := by
  induction cs generalizing run with
  | nil => simp [doubleApostrophes, evenApostropheRuns, hrun]
  | cons c cs ih =>
    by_cases hc : c = apostrophe
    · simp only [doubleApostrophes, hc, if_true, evenApostropheRuns]
      exact ih (run + 1 + 1) (by omega)
    · simp only [doubleApostrophes, hc, if_false, evenApostropheRuns, hrun, beq_self_eq_true,
        Bool.true_and]
      exact ih 0 rfl

theorem sqlQuote_data (s : String) :
    (sqlQuote s).data = apostrophe :: (doubleApostrophes s.data ++ [apostrophe]) := by
  unfold sqlQuote
  simp only [String.data_append]
  rfl

theorem unquote_sqlQuote (s : String) : unquoteSQLString (sqlQuote s) = s := by
  unfold unquoteSQLString
  rw [sqlQuote_data]
  simp only [List.tail_cons, List.dropLast_concat, undouble_double]

/-- C32: `writeSQLString` can be undone. For every string `s` and every stream `out`,
what it appends is the literal `sqlQuote s` (C4); removing the first and the last byte
of that literal and replacing each pair of adjacent apostrophes by one gives back `s`,
so `writeSQLString` is injective in `s`; the literal begins and ends with an apostrophe,
and between these two every maximal run of apostrophes has even length, so that no
value ends the literal early. `it's` is written `'it''s'` and read back as `it's`. -/
theorem writeSQLString_undone :
    (∀ (out s : String), writeSQLString out s = out ++ sqlQuote s)
    ∧ (∀ s : String, unquoteSQLString (writeSQLString "" s) = s)
    ∧ (∀ (out s1 s2 : String), writeSQLString out s1 = writeSQLString out s2 → s1 = s2)
    ∧ (∀ s : String, ∃ middle : List Char,
        (writeSQLString "" s).data = apostrophe :: (middle ++ [apostrophe])
        ∧ evenApostropheRuns middle 0 = true
        ∧ undoubleApostrophes middle = s.data)
    ∧ writeSQLString "" "it's" = "'it''s'"
    ∧ unquoteSQLString "'it''s'" = "it's"
    ∧ unquoteSQLString (writeSQLString "" "''a'") = "''a'" := by
  have hq := writeSQLString_quote
  have hempty : ∀ s : String, writeSQLString "" s = sqlQuote s := by
    intro s
    rw [hq]
    apply String.ext
    simp
  refine ⟨hq, ?_, ?_, ?_, by rfl, by decide, by decide⟩
  · intro s
    rw [hempty, unquote_sqlQuote]
  · intro out s1 s2 h
    rw [hq, hq] at h
    have hd := congrArg String.data h
    simp only [String.data_append] at hd
    have hq2 : sqlQuote s1 = sqlQuote s2 := String.ext (List.append_cancel_left hd)
    have := congrArg unquoteSQLString hq2
    rwa [unquote_sqlQuote, unquote_sqlQuote] at this
  · intro s
    refine ⟨doubleApostrophes s.data, ?_, evenRuns_double _ 0 rfl, undouble_double _⟩
    rw [hempty, sqlQuote_data]
/-! ## C33: a MATCH predicate in ORDER BY -/

/-- C33 on inputs with a MATCH predicate in ORDER BY. The FTS scan of `writeSelect` runs
over the WHERE expression only, and the FROM clause is written before ORDER BY is
walked. The SELECT dict `{"ORDER BY": [["MATCH", [".", "text"], "hello"]]}` compiles to
a statement whose FROM clause is the table alone, with no join, and whose ORDER BY
clause uses the alias `FTS1`; with `WHERE` a MATCH over `a` and `ORDER BY` a MATCH over
`b`, FROM declares `FTS1` only and ORDER BY uses `FTS2`. A MATCH in ORDER BY over a
property that a MATCH in WHERE registered uses the declared alias. -/
theorem order_by_match_undeclared :
    ((runParse (QueryParser.new "kv_default" "body")
        (.dict [("ORDER BY", .array [.array [.string "MATCH",
          .array [.string ".", .string "text"], .string "hello"]])])).toOption.map
        fun r => (r.sql, r.ftsProperties))
      = some ("SELECT * FROM kv_default ORDER BY "
          ++ "(FTS1.text MATCH 'hello' AND FTS1.rowid = kv_default.sequence)", ["text"])
    ∧ "SELECT * FROM kv_default ORDER BY "
          ++ "(FTS1.text MATCH 'hello' AND FTS1.rowid = kv_default.sequence)"
      = whatClause "kv_default" [] [] ++ " FROM " ++ fromClause "kv_default" []
          ++ " ORDER BY " ++ matchText 1 "'hello'" "kv_default"
    ∧ fromClause "kv_default" [] = "kv_default"
    ∧ ((runParse (QueryParser.new "kv_default" "body")
        (.dict [("WHERE", .array [.string "MATCH",
            .array [.string ".", .string "a"], .string "x"]),
          ("ORDER BY", .array [.array [.string "MATCH",
            .array [.string ".", .string "b"], .string "y"]])])).toOption.map
        fun r => (r.sql, r.ftsProperties))
      = some (whatClause "kv_default" [] ["a"] ++ " FROM " ++ fromClause "kv_default" ["a"]
          ++ " WHERE " ++ matchText 1 "'x'" "kv_default"
          ++ " ORDER BY " ++ matchText 2 "'y'" "kv_default", ["a", "b"])
    ∧ fromClause "kv_default" ["a"] = "kv_default, \"kv_default::a\" AS FTS1"
    ∧ ((runParse (QueryParser.new "kv_default" "body")
        (.dict [("WHERE", .array [.string "MATCH",
            .array [.string ".", .string "a"], .string "x"]),
          ("ORDER BY", .array [.array [.string "MATCH",
            .array [.string ".", .string "a"], .string "y"]])])).toOption.map
        fun r => (r.sql, r.ftsProperties))
      = some (whatClause "kv_default" [] ["a"] ++ " FROM " ++ fromClause "kv_default" ["a"]
          ++ " WHERE " ++ matchText 1 "'x'" "kv_default"
          ++ " ORDER BY " ++ matchText 1 "'y'" "kv_default", ["a"]) := by
  refine ⟨by decide!, by decide!, by decide!, by decide!, by decide!, by decide!⟩
/-! ## C34: rank() and the property-path prefix -/

theorem writePropertyGetter_rank (q : QueryParser) (p : String)
    (hid : p ≠ "_id") (hseq : p ≠ "_sequence") :
    writePropertyGetter q "rank" p
      = if FTSPropertyIndex q p = 0 then
          .error (.InvalidQuery "rank() can only be used with FTS properties")
        else .ok (q.emit ("rank(matchinfo(\"" ++ q.tableName ++ "::" ++ p ++ "\"))")) := by
  simp only [writePropertyGetter, hid, hseq, if_false, if_true, fail]

/-- C34 with and without a property-path prefix. `rank()` over a property of path `p`
looks `p` itself up in the FTS list and names the table `<tableName>::p`, whereas
`AddFTSPropertyIndex`, which MATCH and the scanner call, registers `p` joined behind the
configured prefix by `appendPaths`, and FROM joins the table of the registered path.
Without a prefix the two agree: a WHERE with `["MATCH", [".", "text"], "x"]` and
`["rank()", [".", "text"]]` compiles, and `rank` names `kv_default::text`, the table FROM
joins. With the prefix `doc` the MATCH alone compiles and FROM joins
`kv_default::doc.text`, but the same WHERE with `rank()` fails with InvalidQuery
`rank() can only be used with FTS properties`. `rank()` over a property that no MATCH
registered fails with that error. -/
theorem rank_ignores_prefix :
    (∀ (q : QueryParser) (p : String), p ≠ "_id" → p ≠ "_sequence" →
      writePropertyGetter q "rank" p
        = if FTSPropertyIndex q p = 0 then
            .error (.InvalidQuery "rank() can only be used with FTS properties")
          else .ok (q.emit ("rank(matchinfo(\"" ++ q.tableName ++ "::" ++ p ++ "\"))")))
    ∧ (∀ (q : QueryParser) (p : String),
        (AddFTSPropertyIndex q p).2.ftsProperties
          = addIfAbsent q.ftsProperties (appendPaths q.propertyPath p))
    ∧ sqlOf (runParse (QueryParser.new "kv_default" "body")
        (.array [.string "AND",
          .array [.string "MATCH", .array [.string ".", .string "text"], .string "x"],
          .array [.string ">", .array [.string "rank()",
            .array [.string ".", .string "text"]], .int 0]]))
      = some ("SELECT offsets(\"kv_default::text\") FROM kv_default, "
          ++ "\"kv_default::text\" AS FTS1 WHERE "
          ++ "(FTS1.text MATCH 'x' AND FTS1.rowid = kv_default.sequence) AND "
          ++ "rank(matchinfo(\"kv_default::text\")) > 0")
    ∧ sqlOf (runParse { QueryParser.new "kv_default" "body" with propertyPath := "doc" }
        (.array [.string "MATCH", .array [.string ".", .string "text"], .string "x"]))
      = some ("SELECT offsets(\"kv_default::doc.text\") FROM kv_default, "
          ++ "\"kv_default::doc.text\" AS FTS1 WHERE "
          ++ "(FTS1.text MATCH 'x' AND FTS1.rowid = kv_default.sequence)")
    ∧ runParse { QueryParser.new "kv_default" "body" with propertyPath := "doc" }
        (.array [.string "AND",
          .array [.string "MATCH", .array [.string ".", .string "text"], .string "x"],
          .array [.string ">", .array [.string "rank()",
            .array [.string ".", .string "text"]], .int 0]])
      = .error (.InvalidQuery "rank() can only be used with FTS properties")
    ∧ runParse (QueryParser.new "kv_default" "body")
        (.array [.string ">", .array [.string "rank()",
          .array [.string ".", .string "text"]], .int 0])
      = .error (.InvalidQuery "rank() can only be used with FTS properties") := by
  refine ⟨writePropertyGetter_rank, fts_AddFTSPropertyIndex, by decide!, by decide!,
    by decide!, by decide!⟩
/-! ## The walker adds nothing to a list that holds the walked MATCH properties -/

theorem ListKept.keptEmit {pre : String} {l : List String} {q : QueryParser}
    (h : ListKept pre l q) (t : String) : ListKept pre l (q.emit t) :=
  ⟨h.fts, h.path, h.depth⟩

theorem ListKept.keptPush {pre : String} {l : List String} {q : QueryParser}
    (h : ListKept pre l q) (d : Operation) : ListKept pre l (q.pushContext d) :=
  ⟨h.fts, h.path, by
    have := h.depth
    simp only [QueryParser.pushContext, List.length_append, List.length_singleton]
    omega⟩

theorem ListKept.keptSetBack {pre : String} {l : List String} {q : QueryParser}
    (h : ListKept pre l q) (d : Operation) : ListKept pre l (q.setContextBack d) :=
  ⟨h.fts, h.path, by
    have := h.depth
    simp only [QueryParser.setContextBack, List.length_append, List.length_singleton,
      List.length_dropLast]
    omega⟩

theorem ListKept.of_eq {pre : String} {l : List String} {q r : QueryParser}
    (h : ListKept pre l q) (hf : r.ftsProperties = q.ftsProperties)
    (hp : r.propertyPath = q.propertyPath) (hc : r.context = q.context) :
    ListKept pre l r :=
  ⟨hf.trans h.fts, hp.trans h.path, by rw [hc]; exact h.depth⟩

/-- A walk that keeps the list returns a parser in the kept state. -/
theorem WalkKeeps.kept {n : Nat} {pre : String} {l : List String} (hIH : WalkKeeps n pre l)
    (q r : QueryParser) (o : Value) (hd : o.depth < n) (hres : parseNode n q o = .ok r)
    (hq : ListKept pre l q) (hm : MatchesListed pre l o) : ListKept pre l r := by
  obtain ⟨hg, hc⟩ := grows_parseNode n q r o hd hres
  exact ⟨hIH q r o hd hres hq hm, hg.ext.propertyPath.trans hq.path, by rw [hc]; exact hq.depth⟩

theorem writePropertyGetter_fts (q r : QueryParser) (fn p : String)
    (h : writePropertyGetter q fn p = .ok r) : r.ftsProperties = q.ftsProperties := by
  unfold writePropertyGetter at h
  split at h
  · split at h
    · simp [fail] at h
    · simp only [Except.ok.injEq] at h
      subst h
      rfl
  · split at h
    · split at h
      · simp [fail] at h
      · simp only [Except.ok.injEq] at h
        subst h
        rfl
    · split at h
      · split at h
        · simp [fail] at h
        · simp only [Except.ok.injEq] at h
          subst h
          rfl
      · simp only [Except.ok.injEq] at h
        subst h
        rfl

theorem writePropertyOp_fts (q r : QueryParser) (fn : String) (operands : List Value)
    (h : writePropertyOp q fn operands = .ok r) : r.ftsProperties = q.ftsProperties := by
  unfold writePropertyOp at h
  cases hp : propertyFromOperands operands with
  | error e => rw [hp] at h; simp at h
  | ok p =>
    rw [hp] at h
    exact writePropertyGetter_fts q r fn p h

theorem writeNestedPropertyOpIfAny_fts (q r : QueryParser) (fn : String)
    (operands : List Value) (b : Bool)
    (h : writeNestedPropertyOpIfAny q fn operands = .ok (b, r)) :
    r.ftsProperties = q.ftsProperties := by
  have hflag := writeNestedPropertyOpIfAny_flag q r fn operands b h
  cases b
  · rw [hflag.2 rfl]
  · unfold writeNestedPropertyOpIfAny at h
    split at h
    · simp at h
    · split at h
      · simp at h
      · simp at h
      · split at h
        · simp at h
        · cases hw : writePropertyOp q fn _ with
          | error e => rw [hw] at h; simp at h
          | ok q1 =>
            rw [hw] at h
            simp only [Except.ok.injEq, Prod.mk.injEq, true_and] at h
            subst h
            exact writePropertyOp_fts q q1 fn _ hw

theorem AddFTSPropertyIndex_of_mem (q : QueryParser) (p : String)
    (h : appendPaths q.propertyPath p ∈ q.ftsProperties) :
    (AddFTSPropertyIndex q p).2 = q := by
  have hne : FTSPropertyIndex q (appendPaths q.propertyPath p) ≠ 0 := by
    intro h0
    exact ((FTSPropertyIndex_spec q _).1.1 h0) h
  unfold AddFTSPropertyIndex
  simp only [hne, if_false]

theorem infixOpLoop_kept (n : Nat) (pre : String) (l : List String)
    (hIH : WalkKeeps n pre l) (op : String) (operands : List Value)
    (hd : Value.depthList operands < n) (k : Nat) (q r : QueryParser)
    (hq : ListKept pre l q) (hops : ∀ o ∈ operands, MatchesListed pre l o)
    (h : infixOpLoop (parseNode n) op operands k q = .ok r) : ListKept pre l r := by
  induction operands generalizing k q with
  | nil =>
    simp only [infixOpLoop, Except.ok.injEq] at h
    subst h
    exact hq
  | cons v vs ih =>
    simp only [Value.depthList, Nat.max_lt] at hd
    rw [infixOpLoop_cons] at h
    have hq0 : ListKept pre l (if k > 0 then
        ((if op ≠ "," then q.emit " " else q).emit op).emit " " else q) := by
      split
      · split
        · exact ((hq.keptEmit " ").keptEmit op).keptEmit " "
        · exact (hq.keptEmit op).keptEmit " "
      · exact hq
    cases h1 : parseNode n (if k > 0 then
        ((if op ≠ "," then q.emit " " else q).emit op).emit " " else q) v with
    | error e => rw [h1] at h; simp [Except.bind] at h
    | ok q1 =>
      rw [h1] at h
      simp only [Except.bind] at h
      have hq1 := hIH.kept _ q1 v hd.1 h1 hq0 (hops v (List.mem_cons_self _ _))
      exact ih hd.2 (k + 1) q1 hq1 (fun o ho => hops o (List.mem_cons_of_mem _ ho)) h

theorem invokeHandler_inner (handler : Handler) (op : Operation) (actualOperator : String)
    (operands : List Value) (q r : QueryParser)
    (h : invokeHandler handler op actualOperator operands q = .ok r) :
    ∃ q1 r1, handler actualOperator operands q1 = .ok r1
      ∧ (q1 = q.pushContext op ∨ q1 = (q.pushContext op).emit "(")
      ∧ (r = r1.popContext ∨ r = (r1.emit ")").popContext) := by
  unfold invokeHandler at h
  simp only at h
  by_cases hp : op.precedence ≤ q.contextBack.precedence
  · simp only [hp, decide_True, if_true] at h
    cases h1 : handler actualOperator operands ((q.pushContext op).emit "(") with
    | error e => simp [h1] at h
    | ok r1 =>
      simp only [h1, Except.ok.injEq] at h
      exact ⟨_, r1, h1, Or.inr rfl, Or.inr h.symm⟩
  · simp only [hp, decide_False, if_false, Bool.false_eq_true] at h
    cases h1 : handler actualOperator operands (q.pushContext op) with
    | error e => simp [h1] at h
    | ok r1 =>
      simp only [h1, Except.ok.injEq] at h
      exact ⟨_, r1, h1, Or.inl rfl, Or.inl h.symm⟩

theorem invokeHandler_kept (pre : String) (l : List String) (handler : Handler)
    (op : Operation) (actualOperator : String) (operands : List Value) (q r : QueryParser)
    (h : invokeHandler handler op actualOperator operands q = .ok r)
    (hq : q.ftsProperties = l ∧ q.propertyPath = pre ∧ 1 ≤ q.context.length) :
    ∃ q1 r1, handler actualOperator operands q1 = .ok r1 ∧ ListKept pre l q1
      ∧ q1.context = q.context ++ [op] ∧ r.ftsProperties = r1.ftsProperties := by
  obtain ⟨q1, r1, hh, hq1, hr⟩ := invokeHandler_inner handler op actualOperator operands q r h
  refine ⟨q1, r1, hh, ?_, ?_, ?_⟩
  · have hlen : 2 ≤ (q.context ++ [op]).length := by
      simp only [List.length_append, List.length_singleton]
      omega
    rcases hq1 with h1 | h1 <;> subst h1 <;> exact ⟨hq.1, hq.2.1, hlen⟩
  · rcases hq1 with h1 | h1 <;> subst h1 <;> rfl
  · rcases hr with h1 | h1 <;> subst h1 <;> rfl

theorem writeArgList_kept (n : Nat) (pre : String) (l : List String)
    (hIH : WalkKeeps n pre l) (operands : List Value)
    (hd : Value.depthList operands < n) (q r : QueryParser)
    (hq : ListKept pre l q) (hops : ∀ o ∈ operands, MatchesListed pre l o)
    (h : writeArgList (parseNode n) operands q = .ok r) : ListKept pre l r := by
  obtain ⟨hg, hc⟩ := grows_writeArgList n operands hd q r h
  refine ⟨?_, hg.ext.propertyPath.trans hq.path, by rw [hc]; exact hq.depth⟩
  obtain ⟨q1, r1, hh, hq1, _, hr⟩ := invokeHandler_kept pre l _ _ _ _ q r h
    ⟨hq.fts, hq.path, by have := hq.depth; omega⟩
  rw [hr]
  exact (infixOpLoop_kept n pre l hIH "," operands hd 0 q1 r1 hq1 hops hh).fts

/-- A handler that succeeds on a parser in the kept state returns the list unchanged,
when the walker keeps the list on the operands: the property of a MATCH node has to be
in the list, and a SELECT node has to be a nested one. -/
theorem handlerOf_kept (n : Nat) (pre : String) (l : List String)
    (hIH : WalkKeeps n pre l) (h : OpHandler) (op : String) (operands : List Value)
    (hd : Value.depthList operands < n) (q r : QueryParser) (hq : ListKept pre l q)
    (hsel : h = .selectOp → 2 < q.context.length)
    (hops : ∀ o ∈ walkedOperands h op operands, MatchesListed pre l o)
    (hmatch : h = .matchOp → ∀ p : String,
      propertyFromNode (operandAt operands 0) = .ok p → p ≠ "" → appendPaths pre p ∈ l)
    (hres : handlerOf (parseNode n) h op operands q = .ok r) : r.ftsProperties = l := by
  have hat : ∀ i, (operandAt operands i).depth < n :=
    fun i => Nat.lt_of_le_of_lt (depth_operandAt_le operands i) hd
  cases h with
  | propertyOp =>
    simp only [handlerOf, propertyOp] at hres
    exact (writePropertyOp_fts q r _ _ hres).trans hq.fts
  | parameterOp =>
    simp only [handlerOf, parameterOp] at hres
    cases ht : (operandAt operands 0).type <;> rw [ht] at hres <;>
      simp only [fail] at hres <;>
      first
        | (simp only [Except.ok.injEq] at hres; subst hres; exact hq.fts)
        | (cases hres)
  | selectOp =>
    have hlen := hsel rfl
    simp only [handlerOf, selectOp] at hres
    cases hdict : (operandAt operands 0).asDict with
    | none => rw [hdict] at hres; simp [fail] at hres
    | some dict =>
      rw [hdict] at hres
      have hnot : ¬ q.context.length ≤ 2 := by omega
      simp only [hnot, if_false] at hres
      cases hp : parse (parseNode n) (QueryParser.new q.tableName q.bodyColumnName)
          (Value.dict dict) with
      | error e => rw [hp] at hres; simp at hres
      | ok nested =>
        rw [hp] at hres
        simp only [Except.ok.injEq] at hres
        subst hres
        exact hq.fts
  | none =>
    simp only [handlerOf, Except.ok.injEq] at hres
    subst hres
    exact hq.fts
  | infixOp =>
    exact (infixOpLoop_kept n pre l hIH op operands hd 0 q r hq hops hres).fts
  | prefixOp =>
    simp only [handlerOf, prefixOp] at hres
    refine hIH _ r _ (hat 0) hres ?_ (hops _ (by simp [walkedOperands]))
    split
    · exact (hq.keptEmit op).keptEmit " "
    · exact hq.keptEmit op
  | postfixOp =>
    simp only [handlerOf, postfixOp] at hres
    cases h1 : parseNode n q (operandAt operands 0) with
    | error e => rw [h1] at hres; simp at hres
    | ok q1 =>
      rw [h1] at hres
      simp only [Except.ok.injEq] at hres
      subst hres
      exact hIH q q1 _ (hat 0) h1 hq (hops _ (by simp [walkedOperands]))
  | matchOp =>
    simp only [handlerOf, matchOp] at hres
    cases hp : propertyFromNode (operandAt operands 0) with
    | error e => rw [hp] at hres; simp at hres
    | ok property =>
      rw [hp] at hres
      simp only at hres
      split at hres
      · simp [fail] at hres
      · rename_i hne
        have hne' : property ≠ "" := by
          intro hc
          subst hc
          exact hne rfl
        have hmem : appendPaths q.propertyPath property ∈ q.ftsProperties := by
          rw [hq.path, hq.fts]
          exact hmatch rfl property hp hne'
        have hadd := AddFTSPropertyIndex_of_mem q property hmem
        rw [hadd] at hres
        cases h1 : parseNode n (((q.emit "(FTS").emit
            (ToString.toString (AddFTSPropertyIndex q property).1)).emit ".text MATCH ")
            (operandAt operands 1) with
        | error e => rw [h1] at hres; simp at hres
        | ok q1 =>
          rw [h1] at hres
          simp only [Except.ok.injEq] at hres
          subst hres
          exact hIH _ q1 _ (hat 1) h1 (((hq.keptEmit _).keptEmit _).keptEmit _)
            (hops _ (by simp [walkedOperands]))
  | betweenOp =>
    simp only [handlerOf, betweenOp] at hres
    cases h0 : parseNode n q (operandAt operands 0) with
    | error e => rw [h0] at hres; simp at hres
    | ok q0 =>
      rw [h0] at hres
      simp only at hres
      cases h1 : parseNode n (((q0.emit " ").emit op).emit " ") (operandAt operands 1) with
      | error e => rw [h1] at hres; simp at hres
      | ok q1 =>
        rw [h1] at hres
        simp only at hres
        have k0 := hIH.kept q q0 _ (hat 0) h0 hq (hops _ (by simp [walkedOperands]))
        have k1 := hIH.kept _ q1 _ (hat 1) h1 (((k0.keptEmit _).keptEmit _).keptEmit _)
          (hops _ (by simp [walkedOperands]))
        exact hIH _ r _ (hat 2) hres (k1.keptEmit _) (hops _ (by simp [walkedOperands]))
  | inOp =>
    simp only [handlerOf, inOp] at hres
    cases h0 : parseNode n q (operandAt operands 0) with
    | error e => rw [h0] at hres; simp at hres
    | ok q0 =>
      rw [h0] at hres
      simp only at hres
      have ht := Nat.lt_of_le_of_lt (depthList_tail_le operands) hd
      have k0 := hIH.kept q q0 _ (hat 0) h0 hq (hops _ (by simp [walkedOperands]))
      exact (writeArgList_kept n pre l hIH _ ht _ r (((k0.keptEmit _).keptEmit _).keptEmit _)
        (fun o ho => hops o (by simp [walkedOperands, ho])) hres).fts
  | existsOp =>
    simp only [handlerOf, existsOp] at hres
    cases h0 : writeNestedPropertyOpIfAny q "fl_exists" operands with
    | error e => rw [h0] at hres; simp at hres
    | ok res =>
      obtain ⟨b, q1⟩ := res
      obtain ⟨hb, hq1⟩ := writeNestedPropertyOpIfAny_flag q q1 _ operands b h0
      have hf := writeNestedPropertyOpIfAny_fts q q1 _ operands b h0
      rw [h0] at hres
      cases b
      · have := hq1 rfl
        subst this
        simp only at hres
        refine hIH _ r _ (hat 0) hres ?_
          (hops _ (by simp [walkedOperands, ← hb]))
        split
        · exact (hq.keptEmit op).keptEmit " "
        · exact hq.keptEmit op
      · simp only [Except.ok.injEq] at hres
        subst hres
        exact hf.trans hq.fts
  | fallbackOp =>
    simp only [handlerOf, fallbackOp] at hres
    split at hres
    · simp [fail] at hres
    · cases h0 : fallbackSpecialCase (String.mk op.data.dropLast.dropLast) operands
          (q.setContextBack { q.contextBack with op := some op }) with
      | error e => rw [h0] at hres; simp at hres
      | ok res =>
        obtain ⟨b, q1⟩ := res
        rw [h0] at hres
        have hk := hq.keptSetBack { q.contextBack with op := some op }
        have hf : q1.ftsProperties = l := by
          unfold fallbackSpecialCase at h0
          split at h0
          · exact (writeNestedPropertyOpIfAny_fts _ _ _ _ _ h0).trans hk.fts
          · split at h0
            · exact (writeNestedPropertyOpIfAny_fts _ _ _ _ _ h0).trans hk.fts
            · simp only [Except.ok.injEq, Prod.mk.injEq] at h0
              rw [← h0.2]
              exact hk.fts
        have hq1 : b = false → q1 = q.setContextBack { q.contextBack with op := some op } := by
          intro hb
          subst hb
          unfold fallbackSpecialCase at h0
          split at h0
          · exact (writeNestedPropertyOpIfAny_flag _ _ _ _ _ h0).2 rfl
          · split at h0
            · exact (writeNestedPropertyOpIfAny_flag _ _ _ _ _ h0).2 rfl
            · simp only [Except.ok.injEq, Prod.mk.injEq, true_and] at h0
              exact h0.symm
        have hspecial : b = true →
            (String.mk op.data.dropLast.dropLast = "count"
              ∨ String.mk op.data.dropLast.dropLast = "rank")
            ∧ firstIsProperty operands = true := by
          intro hb
          subst hb
          unfold fallbackSpecialCase at h0
          split at h0
          · rename_i hc
            exact ⟨Or.inl hc, (writeNestedPropertyOpIfAny_flag _ _ _ _ _ h0).1.symm⟩
          · split at h0
            · rename_i hc
              exact ⟨Or.inr hc, (writeNestedPropertyOpIfAny_flag _ _ _ _ _ h0).1.symm⟩
            · simp at h0
        cases b
        · have := hq1 rfl
          subst this
          simp only at hres
          have hops' : ∀ o ∈ operands, MatchesListed pre l o := by
            intro o ho
            apply hops
            simp only [walkedOperands]
            split
            · rename_i hc
              -- the special case did not apply: the flag is false
              exfalso
              have hflag : firstIsProperty operands = true := hc.2
              unfold fallbackSpecialCase at h0
              rcases hc.1 with hcount | hrank
              · simp only [hcount, if_true] at h0
                have := (writeNestedPropertyOpIfAny_flag _ _ _ _ _ h0).1
                rw [hflag] at this
                simp at this
              · by_cases hcount : String.mk op.data.dropLast.dropLast = "count"
                · simp only [hcount, if_true] at h0
                  have := (writeNestedPropertyOpIfAny_flag _ _ _ _ _ h0).1
                  rw [hflag] at this
                  simp at this
                · simp only [hcount, if_false, hrank, if_true] at h0
                  have := (writeNestedPropertyOpIfAny_flag _ _ _ _ _ h0).1
                  rw [hflag] at this
                  simp at this
            · exact ho
          exact (writeArgList_kept n pre l hIH operands hd _ r (hk.keptEmit _) hops' hres).fts
        · simp only [Except.ok.injEq] at hres
          subst hres
          exact hf

theorem lookup_some (op : String) (nargs : Nat) (l : List Operation) (nm : Bool)
    (s : String) (h : (lookupOperation op nargs l nm).1.op = some s) :
    s = op ∧ (lookupOperation op nargs l nm).1.minArgs ≤ nargs
      ∧ nargs ≤ (lookupOperation op nargs l nm).1.maxArgs := by
  induction l generalizing nm with
  | nil => simp [lookupOperation] at h
  | cons d rest ih =>
    cases hop : d.op with
    | none =>
      have e : lookupOperation op nargs (d :: rest) nm = (d, nm) := by
        simp only [lookupOperation, hop]
      rw [e] at h
      simp only at h
      rw [hop] at h
      cases h
    | some symbol =>
      by_cases hs : op = symbol
      · by_cases hacc : nargs ≥ d.minArgs ∧ nargs ≤ d.maxArgs
        · have e : lookupOperation op nargs (d :: rest) nm = (d, true) := by
            simp only [lookupOperation, hop, hs, if_true, hacc, and_self]
          rw [e] at h ⊢
          simp only at h ⊢
          rw [hop] at h
          simp only [Option.some.injEq] at h
          exact ⟨by rw [← h, hs], hacc.1, hacc.2⟩
        · have e : lookupOperation op nargs (d :: rest) nm
              = lookupOperation op nargs rest true := by
            simp only [lookupOperation, hop, hs, if_true, hacc, if_false]
          rw [e] at h ⊢
          exact ih true h
      · have e : lookupOperation op nargs (d :: rest) nm
            = lookupOperation op nargs rest nm := by
          simp only [lookupOperation, hop, hs, if_false]
        rw [e] at h ⊢
        exact ih nm h

theorem table_select_match : ∀ d ∈ kOperationList,
    (d.handler = .selectOp → d.op = some "SELECT")
    ∧ (d.handler = .matchOp → d.op = some "MATCH" ∧ d.minArgs = 2 ∧ d.maxArgs = 2) := by
  decide

/-- The walker adds nothing to the FTS list `l` on a node whose walked MATCH nodes
have their paths in `l`, when it starts under a context stack of at least two entries,
or of one entry on a node that is no SELECT array. -/
theorem parseNode_kept (pre : String) (l : List String) (n : Nat) :
    ∀ (q r : QueryParser) (v : Value), v.depth < n → parseNode n q v = .ok r →
      q.ftsProperties = l → q.propertyPath = pre → 1 ≤ q.context.length →
      (2 ≤ q.context.length ∨ isSelectArray v = false) → MatchesListed pre l v →
      r.ftsProperties = l := by
  induction n with
  | zero => intro q r v hd; simp at hd
  | succ n ih =>
    intro q r v hd h hf hp hlen hsel hm
    have hIH : WalkKeeps n pre l := fun q r o hd hres hq hmo =>
      ih q r o hd hres hq.fts hq.path (by have := hq.depth; omega) (Or.inl hq.depth) hmo
    cases v with
    | null =>
      simp only [parseNode, parseNodeBody, Except.ok.injEq] at h
      subst h; exact hf
    | bool b =>
      simp only [parseNode, parseNodeBody, Except.ok.injEq] at h
      subst h; exact hf
    | int i =>
      simp only [parseNode, parseNodeBody, Except.ok.injEq] at h
      subst h; exact hf
    | float t s =>
      simp only [parseNode, parseNodeBody, Except.ok.injEq] at h
      subst h; exact hf
    | string s =>
      simp only [parseNode, parseNodeBody, Except.ok.injEq] at h
      subst h; exact hf
    | data d => simp [parseNode, parseNodeBody, fail] at h
    | dict es => simp [parseNode, parseNodeBody, fail] at h
    | array items =>
      cases items with
      | nil => simp [parseNode, parseNodeBody, parseOpNode, fail] at h
      | cons first operands =>
        cases hfirst : first.asString with
        | none => simp [parseNode, parseNodeBody, parseOpNode, hfirst, fail] at h
        | some op =>
          have hfirst' : first = .string op := by
            cases first <;> simp [Value.asString] at hfirst
            subst hfirst; rfl
          subst hfirst'
          simp only [Value.depth, Value.depthList, Nat.add_lt_add_iff_right] at hd
          have hdl : Value.depthList operands < n := by
            have : Value.depthList operands ≤ max (Value.string op).depth
                (Value.depthList operands) := Nat.le_max_right _ _
            omega
          simp only [parseNode, parseNodeBody, parseOpNode, Value.asString] at h
          split at h
          · simp [fail] at h
          · rename_i hfound
            simp only [handleOperation] at h
            obtain ⟨q1, r1, hh, hq1, hc1, hr⟩ := invokeHandler_kept pre l _ _ _ _ q r h
              ⟨hf, hp, hlen⟩
            rw [hr]
            have hmemd := lookup_mem_table op (min operands.length 9)
            have htab := table_select_match _ hmemd
            refine handlerOf_kept n pre l hIH _ op operands hdl q1 r1 hq1 ?_ ?_ ?_ hh
            · intro hs
              rw [hc1]
              simp only [List.length_append, List.length_singleton]
              rcases hsel with h2 | hns
              · omega
              · exfalso
                have hsym := (lookup_some op _ kOperationList false "SELECT" (htab.1 hs)).1
                subst hsym
                simp [isSelectArray, Value.asArray, Value.asString] at hns
            · intro o ho property pattern hw
              apply hm property pattern
              refine Walked.operand op operands o _ ?_ hw
              simp only [walkedOperandsOf, hfound, if_false]
              exact ho
            · intro hmt p hpp hne
              obtain ⟨hopm, hmin, hmax⟩ := htab.2 hmt
              obtain ⟨hsym, h1, h2⟩ := lookup_some op _ kOperationList false "MATCH" hopm
              subst hsym
              rw [hmin] at h1
              rw [hmax] at h2
              have hlen2 : operands.length = 2 := by omega
              match operands, hlen2 with
              | [property, pattern], _ =>
                exact hm property pattern (Walked.self _) p hpp hne
/-! ## C31: the walker adds nothing to the scanned list -/

theorem fts_writeLimitOffset (q : QueryParser) :
    (writeLimitOffset q).ftsProperties = q.ftsProperties := by
  unfold writeLimitOffset
  by_cases hl : q.defaultLimit.isEmpty = true <;>
  by_cases ho : q.defaultOffset.isEmpty = true <;>
  simp [hl, ho, QueryParser.emit]

theorem ftsJoinsText_enum (t : String) (l : List String) (k : Nat) :
    ftsJoinsText t l k
      = ((l.enumFrom (k + 1)).map fun ip => ftsJoin t ip.2 ip.1).foldr
          (fun a b => a ++ b) "" := by
  induction l generalizing k with
  | nil => rfl
  | cons p rest ih =>
    simp only [ftsJoinsText, List.enumFrom_cons, List.map_cons, List.foldr_cons, ih]

theorem whereOf_implicit (e : Value) (hdict : e.asDict = none)
    (hsel : isSelectArray e = false) : whereOf e = some e := by
  cases e with
  | dict d => simp [Value.asDict] at hdict
  | array items =>
    cases items with
    | nil => rfl
    | cons first rest =>
      simp only [isSelectArray, Value.asArray, beq_eq_false_iff_ne, ne_eq] at hsel
      simp only [whereOf, hsel, if_false]
  | null => rfl
  | bool b => rfl
  | int i => rfl
  | float t s => rfl
  | string s => rfl
  | data d => rfl

/-- The scan and the walk of an implicit WHERE: the scanner returns, the list of the
result is the list the scanner returned, and the SQL is the 'What' and FROM clauses
written for that list, the WHERE keyword, the text of the walk and the LIMIT and OFFSET
clauses. -/
theorem implicit_where_anatomy (qp r : QueryParser) (e : Value)
    (hdict : e.asDict = none) (hsel : isSelectArray e = false)
    (h : runParse qp e = .ok r) :
    ∃ (qs : QueryParser) (W : String), findFTSProperties qp.reset e = .ok qs
      ∧ r.ftsProperties = qs.ftsProperties
      ∧ r.sql = qp.sql
          ++ whatClause qp.tableName qp.baseResultColumns qs.ftsProperties
          ++ " FROM " ++ fromClause qp.tableName qs.ftsProperties
          ++ " WHERE " ++ W ++ limitOffsetText qp := by
  unfold runParse at h
  rw [parse_of_not_select _ _ _ hdict hsel] at h
  unfold writeSelect writeClauses at h
  simp only [scanWhere] at h
  cases hs : findFTSProperties qp.reset e with
  | error err => rw [hs] at h; simp at h
  | ok qs =>
    rw [hs] at h
    simp only at h
    cases hf : writeWhatAndFrom none qs with
    | error err => rw [hf] at h; simp at h
    | ok qf =>
      rw [hf] at h
      simp only [writeWhere] at h
      have hqf : qf = qs.withSelectHead := writeWhatAndFrom_text none qs qf hf
      subst hqf
      cases hw : parseNode (e.depth + 1) (qs.withSelectHead.emit " WHERE ") e with
      | error err => rw [hw] at h; simp at h
      | ok qw =>
        rw [hw] at h
        simp only [writeOrderBy, Option.bind, Except.ok.injEq] at h
        have hext := extends_of_findFTSProperties _ qs e hs
        have hctx : qs.context = [kOuterOperation] := by
          have hout := outcome_findFTSProperties qp.reset e
          rw [hs] at hout
          simpa [contextKept, QueryParser.reset] using hout.2
        have hlisted : MatchesListed qp.propertyPath qs.ftsProperties e := by
          intro property pattern hwalk p hp hne
          obtain ⟨p', hp', hin⟩ := scanFinds_aux e.depth e (Nat.le_refl _) _ qs hs property
            [pattern] (scanReachable_of_walked e _ hwalk (by simp))
            (isArray_of_propertyFromNode property p hp hne)
          rw [hp] at hp'
          cases hp'
          exact hin
        have hkept := parseNode_kept qp.propertyPath qs.ftsProperties (e.depth + 1)
          (qs.withSelectHead.emit " WHERE ") qw e (Nat.lt_succ_self _) hw rfl
          hext.propertyPath
          (by
            show 1 ≤ qs.context.length
            rw [hctx]
            simp)
          (Or.inr hsel) hlisted
        obtain ⟨hg, _⟩ := grows_parseNode _ _ qw e (Nat.lt_succ_self _) hw
        obtain ⟨W, hW⟩ := hg.sql
        refine ⟨qs, W, rfl, ?_, ?_⟩
        · rw [← h, fts_writeLimitOffset, hkept]
        · rw [← h, writeLimitOffset_text, hW]
          have hsql : qs.sql = qp.sql := findFTSProperties_sql qp.reset qs e hs
          have hlim : limitOffsetText qw = limitOffsetText qp :=
            limitOffsetText_congr qw qp
              (hg.ext.defaultLimit.trans hext.defaultLimit)
              (hg.ext.defaultOffset.trans hext.defaultOffset)
          have htn : qs.tableName = qp.tableName := hext.tableName
          have hbc : qs.baseResultColumns = qp.baseResultColumns := hext.baseResultColumns
          simp only [QueryParser.emit, QueryParser.withSelectHead, hsql, hlim, htn, hbc,
            String.append_assoc]

/-- C31. For every expression `e` given to `parse` as an implicit WHERE (neither a Dict
nor a SELECT array) that compiles, on a fresh compiler or on any other: the scanner
`findFTSProperties` returns on `e`, and the FTS-properties list read after the compile
equals the list as it stood when the scanner returned, so the walker adds nothing; the
SQL is the 'What' clause, ` FROM `, the FROM clause written for that list, ` WHERE `,
the text of the walk, and the LIMIT and OFFSET clauses; the FROM clause is the table
name followed by exactly one join `, "<tableName>::<p>" AS FTS<i>` per list entry `p`
at 1-based position `i`, in list order; and every MATCH node the walker visits has a
path whose full form (prefix and path) is in the list, under an index between 1 and the
length of the list, and the join that declares the alias of that index stands in the
FROM clause. -/
theorem implicit_where_list (qp r : QueryParser) (e : Value)
    (hdict : e.asDict = none) (hsel : isSelectArray e = false)
    (h : runParse qp e = .ok r) :
    ∃ (qs : QueryParser) (W : String),
      findFTSProperties qp.reset e = .ok qs
      ∧ r.ftsProperties = qs.ftsProperties
      ∧ r.sql = qp.sql
          ++ whatClause qp.tableName qp.baseResultColumns r.ftsProperties
          ++ " FROM " ++ fromClause qp.tableName r.ftsProperties
          ++ " WHERE " ++ W ++ limitOffsetText qp
      ∧ fromClause qp.tableName r.ftsProperties = qp.tableName
          ++ ((r.ftsProperties.enumFrom 1).map
                fun ip => ftsJoin qp.tableName ip.2 ip.1).foldr (fun a b => a ++ b) ""
      ∧ ∀ property pattern : Value,
          Walked e (.array [.string "MATCH", property, pattern]) →
          ∃ p : String, propertyFromNode property = .ok p
            ∧ appendPaths qp.propertyPath p ∈ r.ftsProperties
            ∧ 1 ≤ FTSPropertyIndex r (appendPaths qp.propertyPath p)
            ∧ FTSPropertyIndex r (appendPaths qp.propertyPath p) ≤ r.ftsProperties.length
            ∧ occursIn
                (ftsJoin qp.tableName (appendPaths qp.propertyPath p)
                  (FTSPropertyIndex r (appendPaths qp.propertyPath p)))
                (fromClause qp.tableName r.ftsProperties) := by
  obtain ⟨qs, W, hs, hfts, hsql⟩ := implicit_where_anatomy qp r e hdict hsel h
  have hlist : qs.ftsProperties = scannedList qp e := by
    have := findFTSProperties_list qp.reset qs e hs
    exact this
  refine ⟨qs, W, hs, hfts, ?_, ?_, ?_⟩
  · rw [hfts]
    exact hsql
  · unfold fromClause
    rw [ftsJoinsText_enum]
  · intro property pattern hwalk
    obtain ⟨p, pat, before, after, node, hp, hmem, _, _, _, _⟩ :=
      match_node_compiled qp r e e property pattern h (whereOf_implicit e hdict hsel) hwalk
    have hin : appendPaths qp.propertyPath p ∈ r.ftsProperties := by
      rw [hfts, hlist]
      exact hmem
    have hk := FTSPropertyIndex_of_prefix_mem r r.ftsProperties _ (List.prefix_refl _) hin
    have hlt := List.indexOf_lt_length.mpr hin
    refine ⟨p, hp, hin, by omega, by omega, ?_⟩
    rw [hk]
    have := mem_ftsJoinsText qp.tableName _ _ 0 hin
    rw [Nat.zero_add] at this
    exact occursIn_append_left _ _ _ this

/-- C31 at `["AND", ["MATCH", [".", "text"], "x"], ["MATCH", [".", "title"], "y"]]` on a
fresh compiler for table `kv_default`: the input is neither a Dict nor a SELECT array,
it compiles, and the conclusion holds of the result. -/
theorem implicit_where_list_witness :
    ∃ r : QueryParser,
      runParse (QueryParser.new "kv_default" "body")
        (.array [.string "AND",
          .array [.string "MATCH", .array [.string ".", .string "text"], .string "x"],
          .array [.string "MATCH", .array [.string ".", .string "title"], .string "y"]])
        = .ok r
      ∧ r.ftsProperties = ["text", "title"]
      ∧ r.sql = "SELECT offsets(\"kv_default::text\"), offsets(\"kv_default::title\") "
          ++ "FROM kv_default, \"kv_default::text\" AS FTS1, "
          ++ "\"kv_default::title\" AS FTS2 "
          ++ "WHERE (FTS1.text MATCH 'x' AND FTS1.rowid = kv_default.sequence) AND "
          ++ "(FTS2.text MATCH 'y' AND FTS2.rowid = kv_default.sequence)"
      ∧ ∃ (qs : QueryParser) (W : String),
        findFTSProperties (QueryParser.new "kv_default" "body").reset
          (.array [.string "AND",
            .array [.string "MATCH", .array [.string ".", .string "text"], .string "x"],
            .array [.string "MATCH", .array [.string ".", .string "title"], .string "y"]])
          = .ok qs
        ∧ r.ftsProperties = qs.ftsProperties
        ∧ r.sql = "" ++ whatClause "kv_default" [] r.ftsProperties
            ++ " FROM " ++ fromClause "kv_default" r.ftsProperties
            ++ " WHERE " ++ W ++ limitOffsetText (QueryParser.new "kv_default" "body")
        ∧ fromClause "kv_default" r.ftsProperties = "kv_default"
            ++ ((r.ftsProperties.enumFrom 1).map
                  fun ip => ftsJoin "kv_default" ip.2 ip.1).foldr (fun a b => a ++ b) ""
        ∧ ∀ property pattern : Value,
            Walked
              (.array [.string "AND",
                .array [.string "MATCH", .array [.string ".", .string "text"], .string "x"],
                .array [.string "MATCH", .array [.string ".", .string "title"],
                  .string "y"]])
              (.array [.string "MATCH", property, pattern]) →
            ∃ p : String, propertyFromNode property = .ok p
              ∧ appendPaths "" p ∈ r.ftsProperties
              ∧ 1 ≤ FTSPropertyIndex r (appendPaths "" p)
              ∧ FTSPropertyIndex r (appendPaths "" p) ≤ r.ftsProperties.length
              ∧ occursIn
                  (ftsJoin "kv_default" (appendPaths "" p)
                    (FTSPropertyIndex r (appendPaths "" p)))
                  (fromClause "kv_default" r.ftsProperties) :=
  ⟨{ QueryParser.new "kv_default" "body" with
      sql := "SELECT offsets(\"kv_default::text\"), offsets(\"kv_default::title\") "
        ++ "FROM kv_default, \"kv_default::text\" AS FTS1, "
        ++ "\"kv_default::title\" AS FTS2 "
        ++ "WHERE (FTS1.text MATCH 'x' AND FTS1.rowid = kv_default.sequence) AND "
        ++ "(FTS2.text MATCH 'y' AND FTS2.rowid = kv_default.sequence)"
      context := [kOuterOperation]
      ftsProperties := ["text", "title"] },
   by decide!, rfl, rfl,
   implicit_where_list (QueryParser.new "kv_default" "body") _
      (.array [.string "AND",
        .array [.string "MATCH", .array [.string ".", .string "text"], .string "x"],
        .array [.string "MATCH", .array [.string ".", .string "title"], .string "y"]])
      rfl (by decide) (by decide!)⟩
/-! ## The context stack at every call of the walker

The walker with a check at its entry, `parseNodeGuarded`, is the walker itself in every
state whose context stack has Outer at the bottom and a top of precedence below 10, and
every call the handlers make is made in such a state. -/

theorem contextOK_push {c : List Operation} (d : Operation)
    (hc : c.head? = some kOuterOperation) (hd : d.precedence < 10) : ContextOK (c ++ [d]) := by
  cases c with
  | nil => simp at hc
  | cons a rest =>
    refine ⟨by simpa using hc, ?_⟩
    have hlast : (a :: rest ++ [d]).getLast? = some d := List.getLast?_concat _
    rw [List.getLastD_eq_getLast?, hlast]
    exact hd

theorem head_push {c : List Operation} (d : Operation)
    (hc : c.head? = some kOuterOperation) : (c ++ [d]).head? = some kOuterOperation := by
  cases c with
  | nil => simp at hc
  | cons a rest => simpa using hc

theorem contextOK_outer : ContextOK [kOuterOperation] := by
  refine ⟨rfl, ?_⟩
  decide

theorem context_of_walk {d : Nat} {w : Walk} (hw : WalkOutcome d w) {q r : QueryParser}
    {v : Value} (hd : v.depth < d) (h : w q v = .ok r) : r.context = q.context := by
  have hout := hw q v hd
  rw [h] at hout
  simpa [contextKept] using hout.2

theorem prefixOp_guard {d : Nat} {w1 w2 : Walk} (hg : WalkGuarded d w1 w2)
    (op : String) (operands : List Value) (hd : Value.depthList operands < d)
    (q : QueryParser) (hc : ContextOK q.context) :
    prefixOp w1 op operands q = prefixOp w2 op operands q := by
  have h0 := Nat.lt_of_le_of_lt (depth_operandAt_le operands 0) hd
  unfold prefixOp
  simp only
  split
  · exact hg _ _ h0 hc
  · exact hg _ _ h0 hc

theorem postfixOp_guard {d : Nat} {w1 w2 : Walk} (hg : WalkGuarded d w1 w2)
    (op : String) (operands : List Value) (hd : Value.depthList operands < d)
    (q : QueryParser) (hc : ContextOK q.context) :
    postfixOp w1 op operands q = postfixOp w2 op operands q := by
  have h0 := Nat.lt_of_le_of_lt (depth_operandAt_le operands 0) hd
  unfold postfixOp
  rw [hg _ _ h0 hc]

theorem infixOpLoop_guard {d : Nat} {w1 w2 : Walk} (hw : WalkOutcome d w2)
    (hg : WalkGuarded d w1 w2) (op : String) (operands : List Value)
    (hd : Value.depthList operands < d) (n : Nat) (q : QueryParser)
    (hc : ContextOK q.context) :
    infixOpLoop w1 op operands n q = infixOpLoop w2 op operands n q := by
  induction operands generalizing n q with
  | nil => rfl
  | cons v vs ih =>
    simp only [Value.depthList, Nat.max_lt] at hd
    rw [infixOpLoop_cons, infixOpLoop_cons]
    have hq : (if n > 0 then
        ((if op ≠ "," then q.emit " " else q).emit op).emit " " else q).context
        = q.context := by
      split
      · split <;> rfl
      · rfl
    rw [hg _ _ hd.1 (by rw [hq]; exact hc)]
    cases h1 : w2 (if n > 0 then
        ((if op ≠ "," then q.emit " " else q).emit op).emit " " else q) v with
    | error e => rfl
    | ok q1 =>
      simp only [Except.bind]
      exact ih hd.2 (n + 1) q1 (by rw [context_of_walk hw hd.1 h1, hq]; exact hc)

theorem invokeHandler_guard (h1 h2 : Handler) (d : Operation) (op : String)
    (operands : List Value) (q : QueryParser)
    (hh : ∀ s : QueryParser, s.context = q.context ++ [d] →
      h1 op operands s = h2 op operands s) :
    invokeHandler h1 d op operands q = invokeHandler h2 d op operands q := by
  unfold invokeHandler
  simp only
  by_cases hp : d.precedence ≤ q.contextBack.precedence
  · simp only [hp, decide_True, if_true]
    rw [hh _ rfl]
  · simp only [hp, decide_False, Bool.false_eq_true, if_false]
    rw [hh _ rfl]

theorem writeArgList_guard {d : Nat} {w1 w2 : Walk} (hw : WalkOutcome d w2)
    (hg : WalkGuarded d w1 w2) (operands : List Value)
    (hd : Value.depthList operands < d) (q : QueryParser)
    (hc : q.context.head? = some kOuterOperation) :
    writeArgList w1 operands q = writeArgList w2 operands q := by
  unfold writeArgList
  apply invokeHandler_guard
  intro s hs
  exact infixOpLoop_guard hw hg "," operands hd 0 s
    (by rw [hs]; exact contextOK_push _ hc (by decide))

theorem existsOp_guard {d : Nat} {w1 w2 : Walk} (hg : WalkGuarded d w1 w2)
    (op : String) (operands : List Value) (hd : Value.depthList operands < d)
    (q : QueryParser) (hc : ContextOK q.context) :
    existsOp w1 op operands q = existsOp w2 op operands q := by
  have h0 := Nat.lt_of_le_of_lt (depth_operandAt_le operands 0) hd
  unfold existsOp
  have hout := outcome_writeNestedPropertyOpIfAny q "fl_exists" operands
  cases hres : writeNestedPropertyOpIfAny q "fl_exists" operands with
  | error e => rfl
  | ok r =>
    obtain ⟨b, q1⟩ := r
    rw [hres] at hout
    have hc1 : q1.context = q.context := hout.2
    cases b
    · simp only
      split
      · exact hg _ _ h0 (by show ContextOK q1.context; rw [hc1]; exact hc)
      · exact hg _ _ h0 (by show ContextOK q1.context; rw [hc1]; exact hc)
    · rfl

theorem betweenOp_guard {d : Nat} {w1 w2 : Walk} (hw : WalkOutcome d w2)
    (hg : WalkGuarded d w1 w2)
    (op : String) (operands : List Value) (hd : Value.depthList operands < d)
    (q : QueryParser) (hc : ContextOK q.context) :
    betweenOp w1 op operands q = betweenOp w2 op operands q := by
  have h0 := Nat.lt_of_le_of_lt (depth_operandAt_le operands 0) hd
  have h1 := Nat.lt_of_le_of_lt (depth_operandAt_le operands 1) hd
  have h2 := Nat.lt_of_le_of_lt (depth_operandAt_le operands 2) hd
  unfold betweenOp
  rw [hg _ _ h0 hc]
  cases hr0 : w2 q (operandAt operands 0) with
  | error e => rfl
  | ok q0 =>
    have c0 : q0.context = q.context := context_of_walk hw h0 hr0
    simp only
    rw [hg _ _ h1 (by show ContextOK q0.context; rw [c0]; exact hc)]
    cases hr1 : w2 (((q0.emit " ").emit op).emit " ") (operandAt operands 1) with
    | error e => rfl
    | ok q1 =>
      have c1 : q1.context = q0.context :=
        (context_of_walk hw h1 hr1 :
          q1.context = (((q0.emit " ").emit op).emit " ").context)
      simp only
      exact hg _ _ h2 (by show ContextOK q1.context; rw [c1, c0]; exact hc)

theorem inOp_guard {d : Nat} {w1 w2 : Walk} (hw : WalkOutcome d w2)
    (hg : WalkGuarded d w1 w2)
    (op : String) (operands : List Value) (hd : Value.depthList operands < d)
    (q : QueryParser) (hc : ContextOK q.context) :
    inOp w1 op operands q = inOp w2 op operands q := by
  have h0 := Nat.lt_of_le_of_lt (depth_operandAt_le operands 0) hd
  have ht := Nat.lt_of_le_of_lt (depthList_tail_le operands) hd
  unfold inOp
  rw [hg _ _ h0 hc]
  cases hr0 : w2 q (operandAt operands 0) with
  | error e => rfl
  | ok q0 =>
    have c0 : q0.context = q.context := context_of_walk hw h0 hr0
    simp only
    exact writeArgList_guard hw hg _ ht _
      (by show q0.context.head? = _; rw [c0]; exact hc.1)

theorem matchOp_guard {d : Nat} {w1 w2 : Walk} (hg : WalkGuarded d w1 w2)
    (op : String) (operands : List Value) (hd : Value.depthList operands < d)
    (q : QueryParser) (hc : ContextOK q.context) :
    matchOp w1 op operands q = matchOp w2 op operands q := by
  have h1 := Nat.lt_of_le_of_lt (depth_operandAt_le operands 1) hd
  unfold matchOp
  cases propertyFromNode (operandAt operands 0) with
  | error e => rfl
  | ok property =>
    simp only
    split
    · rfl
    · rw [hg _ _ h1 (by
        show ContextOK (AddFTSPropertyIndex q property).2.context
        rw [context_AddFTSPropertyIndex]
        exact hc)]

theorem writeWhere_guard {d : Nat} {w1 w2 : Walk} (hg : WalkGuarded d w1 w2)
    (whereExpr : Option Value) (hwhere : ∀ w, whereExpr = some w → w.depth < d)
    (q : QueryParser) (hc : ContextOK q.context) :
    writeWhere w1 whereExpr q = writeWhere w2 whereExpr q := by
  cases whereExpr with
  | none => rfl
  | some w =>
    simp only [writeWhere]
    exact hg _ _ (hwhere w rfl) hc

theorem writeOrderBy_guard {d : Nat} {w1 w2 : Walk} (hw : WalkOutcome d w2)
    (hg : WalkGuarded d w1 w2) (operands : Option (List (String × Value)))
    (hops : ∀ es, operands = some es → Value.depthEntries es < d)
    (q : QueryParser) (hc : q.context.head? = some kOuterOperation) :
    writeOrderBy w1 operands q = writeOrderBy w2 operands q := by
  unfold writeOrderBy
  cases hord : operands.bind (fun d => Dict.get d "ORDER BY") with
  | none => rfl
  | some order =>
    simp only
    cases harr : order.asArray with
    | none => rfl
    | some orderBys =>
      have hdepth : Value.depthList orderBys < d := by
        cases operands with
        | none => simp at hord
        | some es =>
          simp only [Option.bind] at hord
          have h1 := depth_le_depthEntries hord
          have h2 := depth_asArray harr
          have h3 := hops es rfl
          omega
      simp only
      rw [writeArgList_guard hw hg orderBys hdepth _ (by
        show (q.context ++ [kOrderByOperation]).head? = _
        exact head_push _ hc)]

theorem writeSelect_guard {d : Nat} {w1 w2 : Walk} (hw : WalkOutcome d w2)
    (hg : WalkGuarded d w1 w2)
    (whereExpr : Option Value) (operands : Option (List (String × Value)))
    (hwhere : ∀ w, whereExpr = some w → w.depth < d)
    (hops : ∀ es, operands = some es → Value.depthEntries es < d)
    (q : QueryParser) (hc : ContextOK q.context) :
    writeSelect w1 whereExpr operands q = writeSelect w2 whereExpr operands q := by
  unfold writeSelect writeClauses
  have hs := outcome_scanWhere whereExpr q
  cases hr0 : scanWhere whereExpr q with
  | error e => rfl
  | ok q0 =>
    rw [hr0] at hs
    have c0 : q0.context = q.context := by simpa [contextKept] using hs.2
    simp only
    have hf := outcome_writeWhatAndFrom operands q0
    cases hr1 : writeWhatAndFrom operands q0 with
    | error e => rfl
    | ok q1 =>
      rw [hr1] at hf
      have c1 : q1.context = q0.context := by simpa [contextKept] using hf.2
      simp only
      rw [writeWhere_guard hg whereExpr hwhere q1 (by rw [c1, c0]; exact hc)]
      have hwh := outcome_writeWhere hw whereExpr hwhere q1
      cases hr2 : writeWhere w2 whereExpr q1 with
      | error e => rfl
      | ok q2 =>
        rw [hr2] at hwh
        have c2 : q2.context = q1.context := by simpa [contextKept] using hwh.2
        simp only
        rw [writeOrderBy_guard hw hg operands hops q2 (by rw [c2, c1, c0]; exact hc.1)]

theorem writeSelectDict_guard {d : Nat} {w1 w2 : Walk} (hw : WalkOutcome d w2)
    (hg : WalkGuarded d w1 w2)
    (operands : List (String × Value)) (hops : Value.depthEntries operands < d)
    (q : QueryParser) (hc : ContextOK q.context) :
    writeSelectDict w1 operands q = writeSelectDict w2 operands q := by
  unfold writeSelectDict
  apply writeSelect_guard hw hg
  · intro w hwh
    exact Nat.lt_of_le_of_lt (depth_le_depthEntries hwh) hops
  · intro es hes
    cases hes; exact hops
  · exact hc

/-- A compile with a walk that agrees with the walker in the states of `ContextOK` is
the compile with the walker. -/
theorem parse_guard {d : Nat} {w1 w2 : Walk} (hw : WalkOutcome d w2)
    (hg : WalkGuarded d w1 w2) (expression : Value) (hd : expression.depth < d)
    (q : QueryParser) : parse w1 q expression = parse w2 q expression := by
  unfold parse
  have hc : ContextOK q.reset.context := contextOK_outer
  cases hdict : expression.asDict with
  | some es =>
    simp only
    apply writeSelectDict_guard hw hg _ _ _ hc
    have := depth_asDict hdict
    omega
  | none =>
    have himp : writeSelect w1 (some expression) none q.reset
        = writeSelect w2 (some expression) none q.reset := by
      apply writeSelect_guard hw hg _ _ _ _ _ hc
      · intro w hwh; cases hwh; exact hd
      · intro es hes; cases hes
    simp only
    split
    · split
      · exact hg _ _ hd hc
      · exact himp
    · exact himp

theorem selectOp_guard {d : Nat} {w1 w2 : Walk} (hw : WalkOutcome d w2)
    (hg : WalkGuarded d w1 w2)
    (op : String) (operands : List Value) (hd : Value.depthList operands < d)
    (q : QueryParser) (hc : ContextOK q.context) :
    selectOp w1 op operands q = selectOp w2 op operands q := by
  have h0 := Nat.lt_of_le_of_lt (depth_operandAt_le operands 0) hd
  unfold selectOp
  cases hdict : (operandAt operands 0).asDict with
  | none => rfl
  | some es =>
    have hes := depth_asDict hdict
    simp only
    split
    · apply writeSelectDict_guard hw hg _ _ _ hc
      omega
    · rw [parse_guard hw hg (Value.dict es) (by simp only [Value.depth]; omega)]

theorem fallbackOp_guard {d : Nat} {w1 w2 : Walk} (hw : WalkOutcome d w2)
    (hg : WalkGuarded d w1 w2)
    (op : String) (operands : List Value) (hd : Value.depthList operands < d)
    (q : QueryParser) (c : List Operation) (top : Operation)
    (hq : q.context = c ++ [top]) (hc : c.head? = some kOuterOperation) :
    fallbackOp w1 op operands q = fallbackOp w2 op operands q := by
  unfold fallbackOp
  split
  · rfl
  · simp only
    have hout := outcome_fallbackSpecialCase (String.mk op.data.dropLast.dropLast) operands
      (q.setContextBack { q.contextBack with op := some op })
    cases hres : fallbackSpecialCase (String.mk op.data.dropLast.dropLast) operands
        (q.setContextBack { q.contextBack with op := some op }) with
    | error e => rfl
    | ok r =>
      obtain ⟨b, q1⟩ := r
      rw [hres] at hout
      have hc1 : q1.context = c ++ [{ q.contextBack with op := some op }] := by
        have h2 : q1.context
            = (q.setContextBack { q.contextBack with op := some op }).context := hout.2
        rw [h2]
        simp [QueryParser.setContextBack, hq]
      cases b
      · simp only
        exact writeArgList_guard hw hg operands hd _
          (by show q1.context.head? = _; rw [hc1]; exact head_push _ hc)
      · rfl

theorem handlerOf_guard {d : Nat} {w1 w2 : Walk} (hw : WalkOutcome d w2)
    (hg : WalkGuarded d w1 w2)
    (h : OpHandler) (op : String) (operands : List Value)
    (hd : Value.depthList operands < d) (q : QueryParser)
    (c : List Operation) (top : Operation)
    (hq : q.context = c ++ [top]) (hc : c.head? = some kOuterOperation)
    (htop : h ≠ .fallbackOp → top.precedence < 10) :
    handlerOf w1 h op operands q = handlerOf w2 h op operands q := by
  have hok : h ≠ .fallbackOp → ContextOK q.context := by
    intro hne
    rw [hq]
    exact contextOK_push _ hc (htop hne)
  cases h with
  | propertyOp => rfl
  | parameterOp => rfl
  | infixOp => exact infixOpLoop_guard hw hg op operands hd 0 q (hok (by simp))
  | prefixOp => exact prefixOp_guard hg op operands hd q (hok (by simp))
  | postfixOp => exact postfixOp_guard hg op operands hd q (hok (by simp))
  | inOp => exact inOp_guard hw hg op operands hd q (hok (by simp))
  | matchOp => exact matchOp_guard hg op operands hd q (hok (by simp))
  | betweenOp => exact betweenOp_guard hw hg op operands hd q (hok (by simp))
  | existsOp => exact existsOp_guard hg op operands hd q (hok (by simp))
  | selectOp => exact selectOp_guard hw hg op operands hd q (hok (by simp))
  | fallbackOp => exact fallbackOp_guard hw hg op operands hd q c top hq hc
  | none => rfl

theorem handleOperation_guard {d : Nat} {w1 w2 : Walk} (hw : WalkOutcome d w2)
    (hg : WalkGuarded d w1 w2)
    (entry : Operation) (op : String) (operands : List Value)
    (hd : Value.depthList operands < d) (q : QueryParser)
    (hc : q.context.head? = some kOuterOperation)
    (htop : entry.handler ≠ .fallbackOp → entry.precedence < 10) :
    handleOperation w1 entry op operands q = handleOperation w2 entry op operands q := by
  unfold handleOperation
  apply invokeHandler_guard
  intro s hs
  exact handlerOf_guard hw hg entry.handler op operands hd s q.context entry hs hc htop

theorem parseOpNode_guard {d : Nat} {w1 w2 : Walk} (hw : WalkOutcome d w2)
    (hg : WalkGuarded d w1 w2)
    (node : List Value) (hd : Value.depthList node < d) (q : QueryParser)
    (hc : q.context.head? = some kOuterOperation) :
    parseOpNode w1 q node = parseOpNode w2 q node := by
  unfold parseOpNode
  cases node with
  | nil => rfl
  | cons first operands =>
    simp only [Value.depthList, Nat.max_lt] at hd
    simp only
    split
    · rfl
    · split
      · rfl
      · exact handleOperation_guard hw hg _ _ operands hd.2 q hc
          (table_precedence_below _ (lookup_mem_table _ _))

theorem parseNodeBody_guard (w1 w2 : Walk) (node : Value)
    (hw : WalkOutcome node.depth w2) (hg : WalkGuarded node.depth w1 w2)
    (q : QueryParser) (hc : q.context.head? = some kOuterOperation) :
    parseNodeBody w1 q node = parseNodeBody w2 q node := by
  cases node with
  | array items =>
    simp only [parseNodeBody]
    exact parseOpNode_guard hw hg items (by simp [Value.depth]) q hc
  | _ => rfl

/-- The walker with a check at its entry is the walker, at every budget, in every state
whose context stack satisfies `ContextOK`, when the check lets these states pass: no
call made below is made in a state that does not pass. -/
theorem parseNodeGuarded_eq (G : QueryParser → Bool) (alt : Walk)
    (hG : ∀ q : QueryParser, ContextOK q.context → G q = true) (n : Nat) :
    WalkGuarded n (parseNodeGuarded G alt n) (parseNode n) := by
  induction n with
  | zero => intro q v hv; simp at hv
  | succ n ih =>
    intro q v hv hc
    simp only [parseNodeGuarded, hG q hc, if_true, parseNode]
    apply parseNodeBody_guard
    · intro q' v' hv'
      exact outcome_parseNode n q' v' (by omega)
    · intro q' v' hv' hc'
      exact ih q' v' (by omega) hc'
    · exact hc.1

/-- A compile whose walker has a check at its entry is the compile itself, when the
check lets pass every state whose context stack has Outer at the bottom and a top of
precedence below 10. -/
theorem parse_guarded (G : QueryParser → Bool) (alt : Walk)
    (hG : ∀ q : QueryParser, ContextOK q.context → G q = true) (n : Nat) (q : QueryParser)
    (e : Value) (hd : e.depth < n) :
    parse (parseNodeGuarded G alt n) q e = parse (parseNode n) q e :=
  parse_guard (outcome_parseNode n) (parseNodeGuarded_eq G alt hG n) e hd q
/-! ## C26: a function call is never put in parentheses -/

theorem handleOperation_fallback (walk : Walk) (q : QueryParser) (op : String)
    (operands : List Value) (htop : q.contextBack.precedence < 10) :
    handleOperation walk ⟨none, 0, 0, 10, .fallbackOp⟩ op operands q
      = (fallbackOp walk op operands (q.pushContext ⟨none, 0, 0, 10, .fallbackOp⟩)).map
          QueryParser.popContext := by
  have hnot : ¬ ((10 : Int) ≤ q.contextBack.precedence) := by omega
  simp only [handleOperation, invokeHandler, hnot, decide_False, Bool.false_eq_true,
    if_false, handlerOf]
  cases fallbackOp walk op operands (q.pushContext ⟨none, 0, 0, 10, .fallbackOp⟩) <;> rfl

theorem handleOperation_fallback_flag (walk : Walk) (q : QueryParser) (op : String)
    (operands : List Value) :
    handleOperation walk ⟨none, 0, 0, 10, .fallbackOp⟩ op operands q
      = if fallbackParenthesize q = true then
          (fallbackOp walk op operands
            ((q.pushContext ⟨none, 0, 0, 10, .fallbackOp⟩).emit "(")).map
            (fun s => (s.emit ")").popContext)
        else
          (fallbackOp walk op operands (q.pushContext ⟨none, 0, 0, 10, .fallbackOp⟩)).map
            QueryParser.popContext := by
  by_cases hp : (10 : Int) ≤ q.contextBack.precedence
  · have hf : fallbackParenthesize q = true := decide_eq_true hp
    simp only [hf, if_true, handleOperation, invokeHandler, hp, decide_True, handlerOf]
    cases fallbackOp walk op operands
      ((q.pushContext ⟨none, 0, 0, 10, .fallbackOp⟩).emit "(") <;> rfl
  · have hf : fallbackParenthesize q = false := decide_eq_false hp
    simp only [hf, Bool.false_eq_true, if_false]
    exact handleOperation_fallback walk q op operands (by omega)

theorem fallbackParenthesize_iff (q : QueryParser) :
    fallbackParenthesize q = false ↔ q.contextBack.precedence < 10 := by
  unfold fallbackParenthesize
  simp only [decide_eq_false_iff_not, Int.not_le]

theorem guard_of_contextOK (q : QueryParser) (hc : ContextOK q.context) :
    (!fallbackParenthesize q) = true := by
  have h : fallbackParenthesize q = false := (fallbackParenthesize_iff q).mpr hc.2
  rw [h]
  rfl

/-- C26: the fallback entry, which closes the operator table, has precedence 10, and
every other entry of the table has a smaller precedence, as have the argument-list, the
ORDER BY and the Outer operation. `handleOperation` on the fallback entry computes the
flag `fallbackParenthesize` of the state it is called in, which is false exactly when
the top of the context stack has a precedence below 10, and writes parentheses around
what `fallbackOp` writes exactly when the flag is true. A node whose symbol is not in
the table is handed by the walker to `handleOperation` on the fallback entry in the
very state the walker was called in. In every compile, of every input on every parser,
succeeding or not, whatever operator, argument list or clause a node is nested in, every
call of the walker is made in a state in which the flag is false: the walker with a
check of the flag at its entry, which hands every state with a true flag to an arbitrary
other walk `alt`, gives the compile the result it has without the check, for every
`alt`; with an `alt` that fails with the error `OutOfFuel`, an error that no handler
catches, the compile with the check never fails with that error. (The clone of the fallback entry that `fallbackOp` puts on the stack, with its
precedence of 10, is covered by the argument-list operation before an operand is
walked; with the clone on top the flag would be true.) `NOT f(1)`, `-f(1)`, `f(g(1))`,
`f(1) = g()` and `ORDER BY f(1)` are written without parentheses around a call. -/
theorem call_never_parenthesized :
    (∀ d ∈ kOperationList.dropLast, d.precedence < 10)
    ∧ kOperationList.getLast? = some ⟨none, 0, 0, 10, .fallbackOp⟩
    ∧ (kArgListOperation.precedence < 10 ∧ kOrderByOperation.precedence < 10
        ∧ kOuterOperation.precedence < 10)
    ∧ (∀ (walk : Walk) (q : QueryParser) (op : String) (operands : List Value),
        handleOperation walk ⟨none, 0, 0, 10, .fallbackOp⟩ op operands q
          = if fallbackParenthesize q = true then
              (fallbackOp walk op operands
                ((q.pushContext ⟨none, 0, 0, 10, .fallbackOp⟩).emit "(")).map
                (fun s => (s.emit ")").popContext)
            else
              (fallbackOp walk op operands
                (q.pushContext ⟨none, 0, 0, 10, .fallbackOp⟩)).map QueryParser.popContext)
    ∧ (∀ q : QueryParser, fallbackParenthesize q = false ↔ q.contextBack.precedence < 10)
    ∧ (∀ (walk : Walk) (q : QueryParser) (op : String) (operands : List Value),
        (∀ d ∈ kOperationList, d.op ≠ some op) →
        parseNodeBody walk q (.array (.string op :: operands))
          = handleOperation walk ⟨none, 0, 0, 10, .fallbackOp⟩ op operands q)
    ∧ (∀ (alt : Walk) (n : Nat) (q : QueryParser) (v : Value),
        fallbackParenthesize q = true →
        parseNodeGuarded (fun s => !fallbackParenthesize s) alt n q v = alt q v)
    ∧ (∀ (alt : Walk) (n : Nat) (q : QueryParser) (v : Value),
        fallbackParenthesize q = false →
        parseNodeGuarded (fun s => !fallbackParenthesize s) alt (n + 1) q v
          = parseNodeBody (parseNodeGuarded (fun s => !fallbackParenthesize s) alt n) q v)
    ∧ (∀ (alt : Walk) (qp : QueryParser) (e : Value),
        parse (parseNodeGuarded (fun s => !fallbackParenthesize s) alt (e.depth + 1)) qp e
          = runParse qp e)
    ∧ (∀ (qp : QueryParser) (e : Value),
        parse (parseNodeGuarded (fun s => !fallbackParenthesize s)
            (fun _ _ => .error .OutOfFuel) (e.depth + 1)) qp e ≠ .error .OutOfFuel)
    ∧ (∀ (alt : Walk) (qp : QueryParser) (e : Value),
        parseJustExpression
            (parseNodeGuarded (fun s => !fallbackParenthesize s) alt (e.depth + 1)) qp e
          = runParseJustExpression qp e)
    ∧ fallbackParenthesize
        (((QueryParser.new "kv_default" "body").reset.pushContext
          ⟨none, 0, 0, 10, .fallbackOp⟩).setContextBack
          ⟨some "f()", 0, 0, 10, .fallbackOp⟩) = true
    ∧ sqlOf (runParse (QueryParser.new "kv_default" "body")
        (.array [.string "NOT", .array [.string "f()", .int 1]]))
        = some "SELECT * FROM kv_default WHERE NOT f(1)"
    ∧ sqlOf (runParse (QueryParser.new "kv_default" "body")
        (.array [.string "-", .array [.string "f()", .int 1]]))
        = some "SELECT * FROM kv_default WHERE -f(1)"
    ∧ sqlOf (runParse (QueryParser.new "kv_default" "body")
        (.array [.string "f()", .array [.string "g()", .int 1]]))
        = some "SELECT * FROM kv_default WHERE f(g(1))"
    ∧ sqlOf (runParse (QueryParser.new "kv_default" "body")
        (.array [.string "=", .array [.string "f()", .int 1], .array [.string "g()"]]))
        = some "SELECT * FROM kv_default WHERE f(1) = g()"
    ∧ sqlOf (runParse (QueryParser.new "kv_default" "body")
        (.dict [("ORDER BY", .array [.array [.string "f()", .int 1]])]))
        = some "SELECT * FROM kv_default ORDER BY f(1)" := by
  refine ⟨by decide, by decide, ⟨by decide, by decide, by decide⟩,
    handleOperation_fallback_flag, fallbackParenthesize_iff, ?_, ?_, ?_, ?_, ?_, ?_,
    by decide, by decide!, by decide!, by decide!, by decide!, by decide!⟩
  · intro walk q op operands hnot
    have hlook := lookup_unknown op (min operands.length 9) hnot
    simp only [parseNodeBody, parseOpNode, Value.asString, hlook, Bool.false_eq_true,
      false_and, if_false]
  · intro alt n q v hf
    cases n <;> simp [parseNodeGuarded, hf]
  · intro alt n q v hf
    simp [parseNodeGuarded, hf]
  · intro alt qp e
    exact parse_guarded _ alt guard_of_contextOK (e.depth + 1) qp e (Nat.lt_succ_self _)
  · intro qp e h
    rw [parse_guarded _ _ guard_of_contextOK (e.depth + 1) qp e (Nat.lt_succ_self _)] at h
    obtain ⟨msg, hm⟩ := runParse_error qp e _ h
    cases hm
  · intro alt qp e
    exact parseNodeGuarded_eq _ alt guard_of_contextOK (e.depth + 1) qp.reset e
      (Nat.lt_succ_self _) contextOK_outer
/-! ## C29: the context stack -/

theorem fallbackOp_context (n : Nat) (op : String) (operands : List Value)
    (hd : Value.depthList operands < n) (q r : QueryParser)
    (h : fallbackOp (parseNode n) op operands q = .ok r) :
    r.context = q.context.dropLast ++ [{ q.contextBack with op := some op }] := by
  unfold fallbackOp at h
  split at h
  · simp [fail] at h
  · simp only at h
    have hs := outcome_fallbackSpecialCase (String.mk op.data.dropLast.dropLast) operands
      (q.setContextBack { q.contextBack with op := some op })
    cases hres : fallbackSpecialCase (String.mk op.data.dropLast.dropLast) operands
        (q.setContextBack { q.contextBack with op := some op }) with
    | error e => rw [hres] at h; simp at h
    | ok res =>
      rw [hres] at h hs
      obtain ⟨b, q1⟩ := res
      have hc1 : q1.context = q.context.dropLast ++ [{ q.contextBack with op := some op }] :=
        hs.2
      cases b
      · simp only at h
        have hout := outcome_writeArgList (outcome_parseNode n) operands hd
          (q1.emit (String.mk op.data.dropLast.dropLast))
        rw [h] at hout
        have : r.context = q1.context := by simpa [contextKept] using hout.2
        exact this.trans hc1
      · simp only [Except.ok.injEq] at h
        subst h
        exact hc1

theorem bottomIsOuter_of_contextOK (q : QueryParser) (hc : ContextOK q.context) :
    bottomIsOuter q = true :=
  decide_eq_true hc.1

theorem bottomIsOuter_push (q : QueryParser) (d : Operation) (hq : bottomIsOuter q = true) :
    bottomIsOuter (q.pushContext d) = true
      ∧ 2 ≤ (q.pushContext d).context.length
      ∧ (q.pushContext d).popContext.context = q.context := by
  have hh : q.context.head? = some kOuterOperation := of_decide_eq_true hq
  refine ⟨decide_eq_true (head_push d hh), ?_, ?_⟩
  · cases hc : q.context with
    | nil => rw [hc] at hh; simp at hh
    | cons a rest => simp [QueryParser.pushContext, hc]
  · simp [QueryParser.pushContext, QueryParser.popContext]

theorem bottomIsOuter_setContextBack (q : QueryParser) (d : Operation)
    (hq : bottomIsOuter q = true) (hlen : 2 ≤ q.context.length) :
    bottomIsOuter (q.setContextBack d) = true
      ∧ (q.setContextBack d).context.length = q.context.length := by
  have hh : q.context.head? = some kOuterOperation := of_decide_eq_true hq
  cases hc : q.context with
  | nil => rw [hc] at hlen; simp at hlen
  | cons a rest =>
    cases rest with
    | nil => rw [hc] at hlen; simp at hlen
    | cons b rest2 =>
      rw [hc] at hh
      refine ⟨?_, ?_⟩
      · apply decide_eq_true
        simp only [QueryParser.setContextBack, hc, List.dropLast_cons₂, List.cons_append,
          List.head?_cons]
        simpa using hh
      · simp [QueryParser.setContextBack, hc]

theorem invokeHandler_entry (handler alt : Handler) (d : Operation) (op : String)
    (operands : List Value) (q : QueryParser) (hq : bottomIsOuter q = true) :
    invokeHandler
        (handlerGuarded (fun s => bottomIsOuter s && decide (s.context = q.context ++ [d]))
          alt handler) d op operands q
      = invokeHandler handler d op operands q := by
  apply invokeHandler_guard
  intro s hs
  have hb : bottomIsOuter s = true := by
    have := (bottomIsOuter_push q d hq).1
    unfold bottomIsOuter at this ⊢
    rw [hs]
    exact this
  simp only [handlerGuarded, hb, hs, decide_True, Bool.and_self, if_true]

/-- C29: the context stack is not empty at any point of a compile, and its bottom
element is always Outer. `reset()` leaves exactly [Outer]. In every compile, of every
input on every parser, succeeding or not, every call of the walker is made in a state
whose stack is not empty and has Outer at the bottom: the walker with a check of this at
its entry, which hands every state that fails the check to an arbitrary other walk
`alt`, gives the compile the result it has without the check, for every `alt`; with an
`alt` that fails with the error `OutOfFuel`, an error that no handler catches, the
compile with the check never fails with that error; a new parser, before `reset()`,
fails the check. Called in such a state, `handleOperation` runs
its handler on that stack with the entry pushed, hence on a stack of at least two
elements with Outer at the bottom, and popping it gives the stack of the call back;
replacing the top of such a stack, as `fallbackOp` does, keeps its length and its bottom.
The walker, every call of `handleOperation` and the ORDER BY step of `writeSelect`, when
they return, leave the stack as it was on entry: each push is matched by one pop, also
when the handler is `fallbackOp`, which returns with the top replaced by the clone and
the elements below it unchanged, the clone being popped by `handleOperation`. After
every successful `parse` the stack is exactly [Outer]. -/
theorem context_stack_invariant :
    (∀ q : QueryParser, q.reset.context = [kOuterOperation])
    ∧ (∀ (alt : Walk) (qp : QueryParser) (e : Value),
        parse (parseNodeGuarded bottomIsOuter alt (e.depth + 1)) qp e = runParse qp e)
    ∧ (∀ (qp : QueryParser) (e : Value),
        parse (parseNodeGuarded bottomIsOuter (fun _ _ => .error .OutOfFuel)
            (e.depth + 1)) qp e ≠ .error .OutOfFuel)
    ∧ (∀ (alt : Walk) (qp : QueryParser) (e : Value),
        parseJustExpression (parseNodeGuarded bottomIsOuter alt (e.depth + 1)) qp e
          = runParseJustExpression qp e)
    ∧ (∀ (alt : Walk) (n : Nat) (q : QueryParser) (v : Value), bottomIsOuter q = false →
        parseNodeGuarded bottomIsOuter alt n q v = alt q v)
    ∧ (∀ (alt : Walk) (n : Nat) (q : QueryParser) (v : Value), bottomIsOuter q = true →
        parseNodeGuarded bottomIsOuter alt (n + 1) q v
          = parseNodeBody (parseNodeGuarded bottomIsOuter alt n) q v)
    ∧ (∀ q : QueryParser, bottomIsOuter q = true ↔
        q.context ≠ [] ∧ q.context.head? = some kOuterOperation)
    ∧ bottomIsOuter (QueryParser.new "kv_default" "body") = false
    ∧ (∀ (walk : Walk) (q : QueryParser) (items : List Value),
        parseNodeBody walk q (.array items) = parseOpNode walk q items)
    ∧ (∀ (walk : Walk) (entry : Operation) (op : String) (operands : List Value)
        (q : QueryParser),
        handleOperation walk entry op operands q
          = invokeHandler (handlerOf walk entry.handler) entry op operands q)
    ∧ (∀ (handler alt : Handler) (d : Operation) (op : String) (operands : List Value)
        (q : QueryParser), bottomIsOuter q = true →
        invokeHandler
            (handlerGuarded
              (fun s => bottomIsOuter s && decide (s.context = q.context ++ [d]))
              alt handler) d op operands q
          = invokeHandler handler d op operands q)
    ∧ (∀ (q : QueryParser) (d : Operation), bottomIsOuter q = true →
        bottomIsOuter (q.pushContext d) = true
          ∧ 2 ≤ (q.pushContext d).context.length
          ∧ (q.pushContext d).popContext.context = q.context)
    ∧ (∀ (q : QueryParser) (d : Operation), bottomIsOuter q = true →
        2 ≤ q.context.length →
        bottomIsOuter (q.setContextBack d) = true
          ∧ (q.setContextBack d).context.length = q.context.length)
    ∧ (∀ (n : Nat) (q r : QueryParser) (v : Value), v.depth < n →
        parseNode n q v = .ok r → r.context = q.context)
    ∧ (∀ (n : Nat) (d : Operation) (op : String) (operands : List Value)
        (q q1 : QueryParser), Value.depthList operands < n →
        handleOperation (parseNode n) d op operands q = .ok q1 → q1.context = q.context)
    ∧ (∀ (n : Nat) (op : String) (operands : List Value) (q q1 : QueryParser),
        Value.depthList operands < n →
        fallbackOp (parseNode n) op operands q = .ok q1 →
        q1.context = q.context.dropLast ++ [{ q.contextBack with op := some op }])
    ∧ (∀ (n : Nat) (operands : Option (List (String × Value))) (q q1 : QueryParser),
        (∀ es, operands = some es → Value.depthEntries es < n) →
        writeOrderBy (parseNode n) operands q = .ok q1 → q1.context = q.context)
    ∧ (∀ (qp r : QueryParser) (e : Value), runParse qp e = .ok r →
        r.context = [kOuterOperation]) := by
  refine ⟨fun q => rfl, ?_, ?_, ?_, ?_, ?_, ?_, by decide, fun walk q items => rfl,
    fun walk entry op operands q => rfl, invokeHandler_entry, bottomIsOuter_push,
    bottomIsOuter_setContextBack, ?_, ?_, ?_, ?_, ?_⟩
  · intro alt qp e
    exact parse_guarded _ alt bottomIsOuter_of_contextOK (e.depth + 1) qp e
      (Nat.lt_succ_self _)
  · intro qp e h
    rw [parse_guarded _ _ bottomIsOuter_of_contextOK (e.depth + 1) qp e
      (Nat.lt_succ_self _)] at h
    obtain ⟨msg, hm⟩ := runParse_error qp e _ h
    cases hm
  · intro alt qp e
    exact parseNodeGuarded_eq _ alt bottomIsOuter_of_contextOK (e.depth + 1) qp.reset e
      (Nat.lt_succ_self _) contextOK_outer
  · intro alt n q v hf
    cases n <;> simp [parseNodeGuarded, hf]
  · intro alt n q v hf
    simp [parseNodeGuarded, hf]
  · intro q
    unfold bottomIsOuter
    simp only [decide_eq_true_eq]
    constructor
    · intro h
      refine ⟨?_, h⟩
      intro hnil
      rw [hnil] at h
      simp at h
    · intro h
      exact h.2
  · intro n q r v hd h
    exact (grows_parseNode n q r v hd h).2
  · intro n d op operands q q1 hd hres
    have hout := outcome_handleOperation (outcome_parseNode n) d op operands hd q
    rw [hres] at hout
    simpa [contextKept] using hout.2
  · intro n op operands q q1 hd hres
    exact fallbackOp_context n op operands hd q q1 hres
  · intro n operands q q1 hod hres
    have hout := outcome_writeOrderBy (outcome_parseNode n) operands hod q
    rw [hres] at hout
    simpa [contextKept] using hout.2
  · intro qp r e h
    have hout := outcome_parse (outcome_parseNode (e.depth + 1)) e (Nat.lt_succ_self _) qp
    unfold runParse at h
    rw [h] at hout
    simpa [contextKept] using hout.2

end litecore
